import Mathlib

/-!
# QC-MDPC bit-flipping decoder with time-to-live revocation (backflip)

A shallow embedding of `sparse_cyclic.c` and `decoder.c`.

* `index_t` values are modelled by `Int` (block lengths are at most 65536, so
  the signed index arithmetic of the program never overflows);
* `bit_t` values are modelled by `Nat`; every byte addition of the program is
  written with an explicit `% 256`;
* a `sparse_t` block is a `List Int`, a `dense_t` buffer a `List Nat`;
* every array access goes through `rd` / `wr`, which return `none` when the
  index is outside the buffer, so a function that returns `some _` has only
  touched indices inside its buffers.
-/

namespace Backflip

/-! ## Memory model -/

/-- Read of `a[i]`; `none` when `i` is outside the buffer. -/
def rd {α : Type} (a : List α) (i : Int) : Option α :=
  if 0 ≤ i then a[i.toNat]? else none

/-- Write of `a[i] = v`; `none` when `i` is outside the buffer. -/
def wr {α : Type} (a : List α) (i : Int) (v : α) : Option (List α) :=
  if 0 ≤ i ∧ i.toNat < a.length then some (a.set i.toNat v) else none

/-- The loop `for (i = 0; i < n; ++i) body(i)` over a state `σ`; the loop fails as
soon as one execution of its body fails. -/
def forUpTo {σ : Type} (n : Nat) (body : Nat → σ → Option σ) (s : σ) : Option σ :=
  match n with
  | 0 => some s
  | n + 1 => (forUpTo n body s).bind (body n)

/-- The call `memset(a, v, n)` on a byte buffer. -/
def memset (a : List Nat) (v : Nat) (n : Nat) : Option (List Nat) :=
  if n ≤ a.length then some (List.replicate n v ++ a.drop n) else none

/-- The call `memcpy(a + n, a, n)`: the first `n` bytes of `a` are copied to the
next `n` bytes. -/
def memcpy_upper (a : List Nat) (n : Nat) : Option (List Nat) :=
  if 2 * n ≤ a.length then some (a.take n ++ a.take n ++ a.drop (2 * n)) else none

/-! ## Build parameters (`param.h`) -/

/-- The compile-time constants of `param.h`; `INDEX` is fixed to 2. The decimal
literals of the two TTL coefficients are kept as fractions with a common denominator:
`TTL_COEFF0` is written `TTL_COEFF0_NUM / TTL_COEFF_DEN` and `TTL_COEFF1` is written
`TTL_COEFF1_NUM / TTL_COEFF_DEN` (the defaults 0.435 and 1.15 are 435/1000 and
1150/1000); the `double` constants of the program are these fractions rounded by
`round_double`. -/
structure Params where
  BLOCK_LENGTH : Nat
  BLOCK_WEIGHT : Nat
  ERROR_WEIGHT : Nat
  OUROBOROS : Bool
  TTL_COEFF0_NUM : Int
  TTL_COEFF1_NUM : Int
  TTL_COEFF_DEN : Nat
  TTL_SATURATE : Nat

/-- The constant `INDEX` (number of circulant blocks). -/
def INDEX : Nat := 2

/-- The constant `SYNDROME_STOP`: `ERROR_WEIGHT / 2` in Ouroboros mode, else 0. -/
def Params.SYNDROME_STOP (P : Params) : Nat :=
  if P.OUROBOROS then P.ERROR_WEIGHT / 2 else 0

/-- The size in bytes of every dense buffer of the decoder,
`AVX_PADDING(2 * BLOCK_LENGTH * 8 * sizeof(bit_t)) / 8` after macro expansion. -/
def Params.bufLen (P : Params) : Nat :=
  ((2 * P.BLOCK_LENGTH * 8 * 1 + (256 * 16) - 1) / (256 * 16)) * (256 * 16) / 8

/-! ## Sparse-cyclic multiplication (`sparse_cyclic.c`) -/

/-- One entry of the work queue of `multiply` / `multiply_mod2`: the pointers `y`
and `z` are kept as offsets into the caller's buffers. -/
structure mult_t where
  y : Int
  z : Int
  len : Int

/-- The first loop of `multiply` / `multiply_mod2`: builds `queue1` and `queue2`
(the two halves of `queue`). -/
def mult_queue (block_length : Int) (block_weight : Nat) (x : List Int) :
    Option (List mult_t × List mult_t) :=
  forUpTo block_weight (fun k q => do
    let xk ← x[k]?
    some (q.1 ++ [⟨0, xk, block_length - xk⟩],
          q.2 ++ [⟨block_length - xk, 0, xk⟩])) ([], [])

/-- The inner loop `for (i = 0; i < len; ++i) z[i] = z[i] op y[i]` on one queue
entry. -/
def run_segment (op : Nat → Nat → Nat) (y : List Nat) (z : List Nat) (q : mult_t) :
    Option (List Nat) :=
  forUpTo q.len.toNat (fun i z => do
    let a ← rd z (q.z + i)
    let b ← rd y (q.y + i)
    wr z (q.z + i) (op a b)) z

/-- The second loop of `multiply` / `multiply_mod2`: the `2 * block_weight`
queue entries are executed in order. -/
def run_queue (op : Nat → Nat → Nat) (y : List Nat) (queue : List mult_t)
    (z : List Nat) : Option (List Nat) :=
  queue.foldlM (run_segment op y) z

/-- The function `multiply_mod2`: `z[i] ^= y[i]` along every queue entry. -/
def multiply_mod2 (block_length : Int) (block_weight : Nat) (x : List Int)
    (y z : List Nat) : Option (List Nat) := do
  let q ← mult_queue block_length block_weight x
  run_queue (fun a b => a ^^^ b) y (q.1 ++ q.2) z

/-- The function `multiply`: `z[i] += y[i]` (bytes) along every queue entry. -/
def multiply (block_length : Int) (block_weight : Nat) (x : List Int)
    (y z : List Nat) : Option (List Nat) := do
  let q ← mult_queue block_length block_weight x
  run_queue (fun a b => (a + b) % 256) y (q.1 ++ q.2) z

/-! ## Decoder state (`types.h`) -/

/-- The `struct flip_list`: doubly linked list over the `INDEX * BLOCK_LENGTH` bit
positions, `-1` standing for "no node". -/
structure flip_list where
  first : Int
  tod : List Nat
  prev : List Int
  next : List Int
  length : Int

/-- The `struct decoder`. -/
structure decoder where
  Hcolumns : List (List Int)
  Hrows : List (List Int)
  bits : List (List Nat)
  syndrome : List Nat
  e : List (List Nat)
  counters : List (List Nat)
  fl : flip_list
  syndrome_weight : Int
  iter : Int

/-! ## The decoder (`decoder.c`) -/

/-- The function `reset_decoder`. -/
def reset_decoder (P : Params) (dec : decoder) : Option decoder := do
  let syndrome ← memset dec.syndrome 0 P.bufLen
  let bits ← forUpTo INDEX (fun i bits => do
    let b ← bits[i]?
    let b ← memset b 0 P.bufLen
    some (bits.set i b)) dec.bits
  some { dec with syndrome := syndrome, bits := bits,
                  fl := { dec.fl with first := -1, length := 0 } }

/-- The function `fl_remove`. -/
def fl_remove (fl : flip_list) (pos : Int) : Option flip_list := do
  let next ← rd fl.next pos
  let prev ← rd fl.prev pos
  let fl ← if next ≠ -1 then do
      let p ← wr fl.prev next prev
      some { fl with prev := p }
    else some fl
  let fl ← if prev ≠ -1 then do
      let n ← wr fl.next prev next
      some { fl with next := n }
    else some { fl with first := next }
  some { fl with length := fl.length - 1 }

/-- The function `fl_add`. -/
def fl_add (fl : flip_list) (pos : Int) : Option flip_list := do
  let n ← wr fl.next pos fl.first
  let p ← wr fl.prev pos (-1)
  let p ← if fl.first ≠ -1 then wr p fl.first pos else some p
  some { fl with next := n, prev := p, first := pos, length := fl.length + 1 }

/-- The body of the outer loop of `columns_to_rows` for one block: `column` is
`columns[i]`, `row` the destination `rows[i]`. -/
def columns_to_rows_block (P : Params) (column row : List Int) : Option (List Int) := do
  let c0 ← rd column 0
  let lr ← if c0 = 0 then do
      let r ← wr row 0 0
      some ((1 : Int), r)
    else do
      let c ← rd column ((P.BLOCK_WEIGHT : Int) - 1)
      let r ← wr row 0 (-c + (P.BLOCK_LENGTH : Int))
      some ((0 : Int), r)
  forUpTo (P.BLOCK_WEIGHT - 1) (fun n row => do
    let k : Int := (n : Int) + 1
    let c ← rd column ((P.BLOCK_WEIGHT : Int) + lr.1 - 1 - k)
    wr row k (-c + (P.BLOCK_LENGTH : Int))) lr.2

/-- The function `columns_to_rows`. -/
def columns_to_rows (P : Params) (columns rows : List (List Int)) :
    Option (List (List Int)) :=
  forUpTo INDEX (fun i rows => do
    let c ← columns[i]?
    let r ← rows[i]?
    let r ← columns_to_rows_block P c r
    some (rows.set i r)) rows

/-- The function `compute_counters` (non-AVX build, which does not use `columns`);
returns the updated `checks` buffer (its upper half is overwritten by the `memcpy`)
and the counters. -/
def compute_counters (P : Params) (_columns rows : List (List Int)) (checks : List Nat)
    (counters : List (List Nat)) : Option (List Nat × List (List Nat)) := do
  let checks ← memcpy_upper checks P.BLOCK_LENGTH
  let counters ← forUpTo INDEX (fun i counters => do
    let c ← counters[i]?
    let c ← memset c 0 P.BLOCK_LENGTH
    let r ← rows[i]?
    let c ← multiply (P.BLOCK_LENGTH : Int) P.BLOCK_WEIGHT r checks c
    some (counters.set i c)) counters
  some (checks, counters)

/-- First loop of `single_counter` (it leaves at the first wrap); `n` is the number
of iterations left. Returns `l`, `offset` and `counter` at exit. -/
def single_counter_loop1 (P : Params) (column : List Int) (syndrome : List Nat) :
    Nat → Nat → Int → Nat → Option (Nat × Int × Nat)
  | 0, l, offset, counter => some (l, offset, counter)
  | n + 1, l, offset, counter => do
    let c ← column[l]?
    let i := offset + c
    if i ≥ (P.BLOCK_LENGTH : Int) then
      some (l, offset - (P.BLOCK_LENGTH : Int), counter)
    else do
      let s ← rd syndrome i
      single_counter_loop1 P column syndrome n (l + 1) offset ((counter + s) % 256)

/-- Second loop of `single_counter`. -/
def single_counter_loop2 (column : List Int) (syndrome : List Nat) (offset : Int) :
    Nat → Nat → Nat → Option Nat
  | 0, _, counter => some counter
  | n + 1, l, counter => do
    let c ← column[l]?
    let s ← rd syndrome (offset + c)
    single_counter_loop2 column syndrome offset n (l + 1) ((counter + s) % 256)

/-- The function `single_counter`. -/
def single_counter (P : Params) (column : List Int) (position : Int)
    (syndrome : List Nat) : Option Nat := do
  let r ← single_counter_loop1 P column syndrome P.BLOCK_WEIGHT 0 position 0
  single_counter_loop2 column syndrome r.2.1 (P.BLOCK_WEIGHT - r.1) r.1 r.2.2

/-- First loop of `single_flip`. Returns `l`, `offset` and the syndrome at exit. -/
def single_flip_loop1 (P : Params) (column : List Int) (position : Int) :
    Nat → Nat → List Nat → Option (Nat × Int × List Nat)
  | 0, l, syndrome => some (l, position, syndrome)
  | n + 1, l, syndrome => do
    let c ← column[l]?
    let i := position + c
    if i ≥ (P.BLOCK_LENGTH : Int) then
      some (l, position - (P.BLOCK_LENGTH : Int), syndrome)
    else do
      let s ← rd syndrome i
      let syndrome ← wr syndrome i (s ^^^ 1)
      single_flip_loop1 P column position n (l + 1) syndrome

/-- Second loop of `single_flip`. -/
def single_flip_loop2 (column : List Int) (offset : Int) :
    Nat → Nat → List Nat → Option (List Nat)
  | 0, _, syndrome => some syndrome
  | n + 1, l, syndrome => do
    let c ← column[l]?
    let i := offset + c
    let s ← rd syndrome i
    let syndrome ← wr syndrome i (s ^^^ 1)
    single_flip_loop2 column offset n (l + 1) syndrome

/-- The function `single_flip`. -/
def single_flip (P : Params) (column : List Int) (position : Int)
    (syndrome : List Nat) : Option (List Nat) := do
  let r ← single_flip_loop1 P column position P.BLOCK_WEIGHT 0 syndrome
  single_flip_loop2 column r.2.1 (P.BLOCK_WEIGHT - r.1) r.1 r.2.2

/-- The function `compute_syndrome` (non-AVX build) on the fields it uses. -/
def compute_syndrome (P : Params) (Hcolumns : List (List Int)) (e : List (List Nat))
    (syndrome : List Nat) : Option (List Nat) :=
  forUpTo INDEX (fun i syndrome => do
    let h ← Hcolumns[i]?
    let ei ← e[i]?
    multiply_mod2 (P.BLOCK_LENGTH : Int) P.BLOCK_WEIGHT h ei syndrome) syndrome

/-- First error-installation loop of `init_decoder_error` (positions of block 0,
leaves at the first position `>= BLOCK_LENGTH`); returns `k` and `e[0]`. -/
def init_error_loop1 (P : Params) (e_block : List Int) :
    Nat → Nat → List Nat → Option (Nat × List Nat)
  | 0, k, e0 => some (k, e0)
  | n + 1, k, e0 => do
    let j ← e_block[k]?
    if j ≥ (P.BLOCK_LENGTH : Int) then some (k, e0)
    else do
      let e0 ← wr e0 j 1
      init_error_loop1 P e_block n (k + 1) e0

/-- Second error-installation loop of `init_decoder_error` (positions of block 1). -/
def init_error_loop2 (P : Params) (e_block : List Int) :
    Nat → Nat → List Nat → Option (List Nat)
  | 0, _, e1 => some e1
  | n + 1, k, e1 => do
    let x ← e_block[k]?
    let j := x - (P.BLOCK_LENGTH : Int)
    let e1 ← wr e1 j 1
    init_error_loop2 P e_block n (k + 1) e1

/-- The function `init_decoder_error`; `e2_block = none` is the null pointer. -/
def init_decoder_error (P : Params) (dec : decoder) (Hcolumns : List (List Int))
    (e_block : List Int) (e2_block : Option (List Int)) : Option decoder := do
  let Hrows ← columns_to_rows P Hcolumns dec.Hrows
  let e ← forUpTo INDEX (fun k e => do
    let ek ← e[k]?
    let ek ← forUpTo P.BLOCK_LENGTH (fun j ek => wr ek (j : Int) 0) ek
    some (e.set k ek)) dec.e
  let e0 ← e[0]?
  let r ← init_error_loop1 P e_block P.ERROR_WEIGHT 0 e0
  let e := e.set 0 r.2
  let e1 ← e[1]?
  let e1 ← init_error_loop2 P e_block (P.ERROR_WEIGHT - r.1) r.1 e1
  let e := e.set 1 e1
  let syndrome ← compute_syndrome P Hcolumns e dec.syndrome
  let syndrome ←
    if P.OUROBOROS then
      match e2_block with
      | some e2 =>
        forUpTo P.SYNDROME_STOP (fun k syndrome => do
          let p ← e2[k]?
          let s ← rd syndrome p
          wr syndrome p (s ^^^ 1)) syndrome
      | none => some syndrome
    else some syndrome
  let weight ← forUpTo P.BLOCK_LENGTH (fun j (w : Int) => do
    let s ← syndrome[j]?
    some (w + (s : Int))) 0
  some { dec with Hcolumns := Hcolumns, Hrows := Hrows, e := e, syndrome := syndrome,
                  syndrome_weight := weight }

/-! ## Double arithmetic of `compute_ttl` -/

/-- The number `floor(log2 n)` for `n > 0`, by repeated halving (`fuel` bounds the
number of halvings). -/
def ilog2_aux : Nat → Nat → Nat
  | 0, _ => 0
  | fuel + 1, n => if n < 2 then 0 else ilog2_aux fuel (n / 2) + 1

/-- The number `floor(log2 n)` for `n > 0`; 0 for `n = 0`. -/
def ilog2 (n : Nat) : Nat := ilog2_aux n n

/-- The integer nearest to the fraction `n / d`, ties to the even one. -/
def round_half_even (n d : Nat) : Nat :=
  if 2 * (n % d) < d then n / d
  else if d < 2 * (n % d) then n / d + 1
  else n / d + (n / d) % 2

/-- The power `2 ^ e` for `e >= 0`, and 1 for `e < 0`. -/
def pow2 (e : Int) : Nat := 2 ^ e.toNat

/-- The binary64 number nearest to the positive fraction `n / d`, ties to even
(the rounding of the IEEE 754 operations in the default mode), returned as a fraction
`(num, den)` whose denominator is a power of two. With `e` the exponent of the unit in
the last place, `n / d = y * 2 ^ e` with `2 ^ 52 <= y < 2 ^ 53` (53-bit significand),
or `e = -1074` for the subnormal numbers; the result is `round_half_even(y) * 2 ^ e`.
Overflow to infinity (values from `2 ^ 1024` on) is not modelled. -/
def round_double_pos (n d : Nat) : Nat × Nat :=
  let e0 : Int := (ilog2 n : Int) - (ilog2 d : Int) - 52
  let e1 : Int := if n * pow2 (-e0) < 2 ^ 52 * (d * pow2 e0) then e0 - 1 else e0
  let e : Int := if e1 < -1074 then -1074 else e1
  (round_half_even (n * pow2 (-e)) (d * pow2 e) * pow2 e, pow2 (-e))

/-- The binary64 number nearest to the fraction `n / d`, ties to even; the rounding is
symmetric in the sign. -/
def round_double (n : Int) (d : Nat) : Int × Nat :=
  if n = 0 then (0, 1)
  else if n < 0 then (-((round_double_pos n.natAbs d).1 : Int), (round_double_pos n.natAbs d).2)
  else (((round_double_pos n.natAbs d).1 : Int), (round_double_pos n.natAbs d).2)

/-- The function `compute_ttl`: the expression `(diff) * TTL_COEFF0 + TTL_COEFF1` is
evaluated in `double` as the program does: the two constants are the binary64 numbers
nearest to their decimal literals, `diff` is converted to `double`, the product is
rounded, then the sum is rounded (two operations, each rounded to nearest, ties to
even). The cast `(int)` truncates toward zero, and the value is clamped to
`[1, TTL_SATURATE]`. Every `double` is held as a fraction whose denominator is a power
of two. The cast is defined in C when the truncated value is in the range of `int`;
the function gives the clamped value in every case. -/
def compute_ttl (P : Params) (diff : Int) : Int :=
  let c0 := round_double P.TTL_COEFF0_NUM P.TTL_COEFF_DEN
  let c1 := round_double P.TTL_COEFF1_NUM P.TTL_COEFF_DEN
  let x := round_double diff 1
  let p := round_double (x.1 * c0.1) (x.2 * c0.2)
  let s := round_double (p.1 * c1.2 + c1.1 * p.2) (p.2 * c1.2)
  let ttl := s.1.tdiv (s.2 : Int)
  let ttl := if ttl < 1 then 1 else ttl
  if ttl > (P.TTL_SATURATE : Int) then (P.TTL_SATURATE : Int) else ttl

/-- The four statements shared by the flip scan and by the expiry sweep of
`qcmdpc_decode_ttl`: read the counter of column `j` of block `k` on the current
syndrome, flip the column into the syndrome, toggle `bits[k][j]`, and update
`syndrome_weight` by `BLOCK_WEIGHT - 2 * counter`. -/
def flip_column (P : Params) (dec : decoder) (k : Nat) (j : Int) : Option decoder := do
  let col ← dec.Hcolumns[k]?
  let counter ← single_counter P col j dec.syndrome
  let syndrome ← single_flip P col j dec.syndrome
  let bk ← dec.bits[k]?
  let b ← rd bk j
  let bk ← wr bk j (b ^^^ 1)
  some { dec with syndrome := syndrome, bits := dec.bits.set k bk,
                  syndrome_weight :=
                    dec.syndrome_weight + ((P.BLOCK_WEIGHT : Int) - 2 * (counter : Int)) }

/-- Body of the flip scan of `qcmdpc_decode_ttl` at position `(k, j)`; the state is
the decoder together with the flag `recompute_threshold`. -/
def scan_step (P : Params) (threshold : Nat) (k j : Nat) (st : decoder × Bool) :
    Option (decoder × Bool) := do
  let dec := st.1
  let ck ← dec.counters[k]?
  let c ← ck[j]?
  if c ≥ threshold then do
    let pos : Int := (k : Int) * (P.BLOCK_LENGTH : Int) + (j : Int)
    let bk ← dec.bits[k]?
    let b ← bk[j]?
    let fl ←
      if b ≠ 0 then fl_remove dec.fl pos
      else do
        let ttl : Int := compute_ttl P ((c : Int) - (threshold : Int)) % 256
        let fl ← fl_add dec.fl pos
        let tod ← wr fl.tod pos
          (((dec.iter + ttl).tmod ((P.TTL_SATURATE : Int) + 1)) % 256).toNat
        some { fl with tod := tod }
    let dec ← flip_column P { dec with fl := fl } k j
    some (dec, true)
  else some st

/-- The flip scan of `qcmdpc_decode_ttl`: blocks in the outer loop, positions in
the inner loop. -/
def flip_scan (P : Params) (threshold : Nat) (st : decoder × Bool) :
    Option (decoder × Bool) :=
  forUpTo INDEX (fun k st =>
    forUpTo P.BLOCK_LENGTH (fun j st => scan_step P threshold k j st) st) st

/-- Body of the loop `while (fl_pos != -1)` of the expiry sweep at the node
`fl_pos`; returns the next node and the state. -/
def sweep_step (P : Params) (current_iter : Nat) (fl_pos : Int) (st : decoder × Bool) :
    Option (Int × (decoder × Bool)) := do
  let dec := st.1
  let tod ← rd dec.fl.tod fl_pos
  let st ←
    if tod = current_iter then do
      let kj : Nat × Int :=
        if fl_pos ≥ (P.BLOCK_LENGTH : Int) then (1, fl_pos - (P.BLOCK_LENGTH : Int))
        else (0, fl_pos)
      let dec ← flip_column P dec kj.1 kj.2
      let fl ← fl_remove dec.fl fl_pos
      some ({ dec with fl := fl }, true)
    else some st
  let next ← rd st.1.fl.next fl_pos
  some (next, st)

/-- The loop `while (fl_pos != -1)` of the expiry sweep; `fuel` bounds the number
of nodes visited (the result is `none` when the traversal does not end within
`fuel` nodes). -/
def sweep_loop (P : Params) (current_iter : Nat) :
    Nat → Int → decoder × Bool → Option (decoder × Bool)
  | 0, fl_pos, st => if fl_pos ≠ -1 then none else some st
  | fuel + 1, fl_pos, st =>
    if fl_pos ≠ -1 then
      (sweep_step P current_iter fl_pos st).bind
        (fun r => sweep_loop P current_iter fuel r.1 r.2)
    else some st

/-- The expiry sweep of `qcmdpc_decode_ttl` (the `if` after the flip scan). -/
def expiry_sweep (P : Params) (fuel : Nat) (st : decoder × Bool) :
    Option (decoder × Bool) :=
  let dec := st.1
  if dec.syndrome_weight ≠ (P.SYNDROME_STOP : Int) ∧ dec.fl.length ≠ 0 then
    let current_iter : Nat := ((dec.iter.tmod ((P.TTL_SATURATE : Int) + 1)) % 256).toNat
    sweep_loop P current_iter fuel dec.fl.first st
  else some st

/-- One execution of the body of the main loop of `qcmdpc_decode_ttl`. The state is
the decoder with the locals `threshold` and `recompute_threshold`; `oracle` stands
for `compute_threshold`, whose result is an `unsigned`. -/
def decode_iteration (P : Params) (oracle : Nat → Nat → Nat) (fuel : Nat)
    (st : decoder × Nat × Bool) : Option (decoder × Nat × Bool) := do
  let dec := { st.1 with iter := st.1.iter + 1 }
  let cc ← compute_counters P dec.Hcolumns dec.Hrows dec.syndrome dec.counters
  let dec := { dec with syndrome := cc.1, counters := cc.2 }
  let threshold : Nat :=
    if st.2.2 then
      let t : Int := (P.ERROR_WEIGHT : Int) - dec.fl.length
      let t : Int := if t > 0 then t else 1
      oracle (dec.syndrome_weight % 4294967296).toNat t.toNat
    else st.2.1
  let r ← flip_scan P threshold (dec, false)
  let r ← expiry_sweep P fuel r
  some (r.1, threshold, r.2)

/-- The loop `while (dec->iter < max_iter && dec->syndrome_weight != SYNDROME_STOP)`;
`n` bounds the number of iterations. -/
def decode_loop (P : Params) (oracle : Nat → Nat → Nat) (fuel : Nat) (max_iter : Int) :
    Nat → decoder × Nat × Bool → Option (decoder × Nat × Bool)
  | 0, st =>
    if st.1.iter < max_iter ∧ st.1.syndrome_weight ≠ (P.SYNDROME_STOP : Int) then none
    else some st
  | n + 1, st =>
    if st.1.iter < max_iter ∧ st.1.syndrome_weight ≠ (P.SYNDROME_STOP : Int) then
      (decode_iteration P oracle fuel st).bind (decode_loop P oracle fuel max_iter n)
    else some st

/-- The function `qcmdpc_decode_ttl`: returns the final decoder state and the
returned value (1 or 0). The local `threshold` is not initialised by the program;
it is written before it is first read, and starts at 0 here. `fuel` bounds the
length of one traversal of the flip list. -/
def qcmdpc_decode_ttl (P : Params) (oracle : Nat → Nat → Nat) (fuel : Nat)
    (dec : decoder) (max_iter : Int) : Option (decoder × Int) := do
  let st ← decode_loop P oracle fuel max_iter max_iter.toNat
    ({ dec with iter := 0 }, 0, true)
  some (st.1, if st.1.syndrome_weight = (P.SYNDROME_STOP : Int) then 1 else 0)

/-! ## Specification vocabulary -/

/-- XOR of `f 0, …, f (n-1)`. -/
def xorUpTo (n : Nat) (f : Nat → Nat) : Nat :=
  match n with
  | 0 => 0
  | n + 1 => xorUpTo n f ^^^ f n

/-- Sum of `f 0, …, f (n-1)`. -/
def sumUpTo (n : Nat) (f : Nat → Nat) : Nat :=
  match n with
  | 0 => 0
  | n + 1 => sumUpTo n f + f n

/-- The entry `v[i mod N]` of a dense vector, for a possibly negative index. -/
def cyc (N : Nat) (v : List Nat) (i : Int) : Nat :=
  v.getD (i % (N : Int)).toNat 0

/-- The row support that `columns_to_rows` derives from one column support: 0 stays
first, the other entries are `N - c` taken in descending `c`. -/
def reflect (N : Nat) (column : List Int) : List Int :=
  if column[0]? = some 0 then 0 :: (column.tail.reverse.map (fun c => -c + (N : Int)))
  else column.reverse.map (fun c => -c + (N : Int))

/-- A valid sparse block: `W` strictly ascending positions in `[0, N)`. -/
def ValidColumn (N W : Nat) (column : List Int) : Prop :=
  column.length = W ∧ (∀ c ∈ column, 0 ≤ c ∧ c < (N : Int)) ∧ column.Pairwise (· < ·)

/-- Indicator (0 or 1) of `i = (j + c) mod N`. -/
def hit (N : Nat) (j c : Int) (i : Nat) : Nat :=
  if ((j + c) % (N : Int)).toNat = i then 1 else 0

/-- The product `(H · v)[i]` over GF(2): XOR over the blocks `k` and over `l < W` of
the entry of block `k` of `v` at the cyclic index `i - H[k][l]`; `v k x` is that
entry. -/
def Hmul (W : Nat) (H : List (List Int)) (v : Nat → Int → Nat) (i : Nat) : Nat :=
  xorUpTo INDEX (fun k => xorUpTo W (fun l => v k ((i : Int) - (H.getD k []).getD l 0)))

/-- Number of indices `i < N` with `s[i] = 1`. -/
def popcount (N : Nat) (s : List Nat) : Nat :=
  sumUpTo N (fun i => if s.getD i 0 = 1 then 1 else 0)

/-- The bit of the decoder's estimate at the global position `p = k * N + j`. -/
def bitAt (N : Nat) (bits : List (List Nat)) (p : Nat) : Nat :=
  (bits.getD (p / N) []).getD (p % N) 0

/-- The state left by `alloc_decoder`: every dense buffer has
`AVX_PADDING(2 * BLOCK_LENGTH * 8) / 8` bytes, `Hrows` has `INDEX` blocks of
`BLOCK_WEIGHT` entries, the three arrays of the flip list have
`INDEX * BLOCK_LENGTH` entries. The contents are arbitrary. -/
def Allocated (P : Params) (dec : decoder) : Prop :=
  dec.bits.length = INDEX ∧ (∀ b ∈ dec.bits, b.length = P.bufLen) ∧
  dec.e.length = INDEX ∧ (∀ b ∈ dec.e, b.length = P.bufLen) ∧
  dec.counters.length = INDEX ∧ (∀ b ∈ dec.counters, b.length = P.bufLen) ∧
  dec.syndrome.length = P.bufLen ∧
  dec.Hrows.length = INDEX ∧ (∀ r ∈ dec.Hrows, r.length = P.BLOCK_WEIGHT) ∧
  dec.fl.tod.length = INDEX * P.BLOCK_LENGTH ∧
  dec.fl.next.length = INDEX * P.BLOCK_LENGTH ∧
  dec.fl.prev.length = INDEX * P.BLOCK_LENGTH

/-- A parity-check matrix as the harness provides it: `INDEX` valid sparse blocks. -/
def ValidH (P : Params) (H : List (List Int)) : Prop :=
  H.length = INDEX ∧ ∀ c ∈ H, ValidColumn P.BLOCK_LENGTH P.BLOCK_WEIGHT c

/-- An error pattern as the harness provides it: `ERROR_WEIGHT` ascending positions
in `[0, INDEX * BLOCK_LENGTH)`. -/
def ValidError (P : Params) (e_block : List Int) : Prop :=
  e_block.length = P.ERROR_WEIGHT ∧
  (∀ x ∈ e_block, 0 ≤ x ∧ x < ((INDEX * P.BLOCK_LENGTH : Nat) : Int)) ∧
  e_block.Pairwise (· < ·)

/-! ## Flip-list vocabulary -/

/-- First node of the abstract list, `-1` when it is empty. -/
def hd (l : List Nat) : Int :=
  match l with
  | [] => -1
  | a :: _ => (a : Int)

/-- The node that follows `p` in the abstract list `l`, `-1` when there is none. -/
def succOf : List Nat → Nat → Int
  | [], _ => -1
  | a :: t, p => if p = a then hd t else succOf t p

/-- The node that precedes `p` in the abstract list `l`; `pv` is what precedes the
first node. -/
def predOf (pv : Int) : List Nat → Nat → Int
  | [], _ => -1
  | a :: t, p => if p = a then pv else predOf (a : Int) t p

/-- The flip list `fl`, over `M` slots, represents the sequence `l` of linked
positions (in forward order): `first` is its head, `length` its length, and `next`
/ `prev` hold for every linked position its successor / predecessor (`-1` at the
ends). -/
def IsList (M : Nat) (fl : flip_list) (l : List Nat) : Prop :=
  fl.next.length = M ∧ fl.prev.length = M ∧ fl.tod.length = M ∧
  l.Nodup ∧ (∀ p ∈ l, p < M) ∧ fl.first = hd l ∧ fl.length = (l.length : Int) ∧
  ∀ p ∈ l, fl.next.getD p 0 = succOf l p ∧ fl.prev.getD p 0 = predOf (-1) l p

/-! ## Decoder invariants -/

/-- Shape of a decoder state in which `qcmdpc_decode_ttl` may be called: `H` is
valid and `Hrows` was derived from it, the syndrome buffer has room for its padded
copy, the `bits` and `counters` blocks have at least `N` entries, and every bit of
the estimate is 0 or 1. -/
def Shape (P : Params) (dec : decoder) : Prop :=
  ValidH P dec.Hcolumns ∧
  dec.Hrows = dec.Hcolumns.map (reflect P.BLOCK_LENGTH) ∧
  2 * P.BLOCK_LENGTH ≤ dec.syndrome.length ∧
  dec.bits.length = INDEX ∧ (∀ b ∈ dec.bits, P.BLOCK_LENGTH ≤ b.length) ∧
  dec.counters.length = INDEX ∧ (∀ c ∈ dec.counters, P.BLOCK_LENGTH ≤ c.length) ∧
  ∀ p, p < INDEX * P.BLOCK_LENGTH → bitAt P.BLOCK_LENGTH dec.bits p ≤ 1

/-- The flip list is a well-formed doubly linked list whose nodes are exactly the
positions whose bit is set. -/
def Linked (P : Params) (dec : decoder) : Prop :=
  ∃ l, IsList (INDEX * P.BLOCK_LENGTH) dec.fl l ∧
    ∀ p, p < INDEX * P.BLOCK_LENGTH → (p ∈ l ↔ bitAt P.BLOCK_LENGTH dec.bits p = 1)

/-- A well-formed decoder state. -/
def WellFormed (P : Params) (dec : decoder) : Prop :=
  Shape P dec ∧ Linked P dec

/-- The syndrome invariant: `syndrome = H · (e XOR bits)` on `[0, N)`. -/
def SyndromeInv (P : Params) (dec : decoder) : Prop :=
  ∀ i, i < P.BLOCK_LENGTH → dec.syndrome.getD i 0 =
    Hmul P.BLOCK_WEIGHT dec.Hcolumns
      (fun k x => cyc P.BLOCK_LENGTH (dec.e.getD k []) x ^^^
        cyc P.BLOCK_LENGTH (dec.bits.getD k []) x) i

/-- The weight invariant: `syndrome_weight` is the number of ones of the syndrome. -/
def WeightInv (P : Params) (dec : decoder) : Prop :=
  dec.syndrome_weight = ((popcount P.BLOCK_LENGTH dec.syndrome : Nat) : Int)

/-- The invariants on the syndrome: its first `N` entries are 0/1, it is
`H · (e XOR bits)`, and `syndrome_weight` is its number of ones (`W <= 255` is the
build-time guard of `param.h`). -/
def Strong (P : Params) (dec : decoder) : Prop :=
  P.BLOCK_WEIGHT ≤ 255 ∧ (∀ i, i < P.BLOCK_LENGTH → dec.syndrome.getD i 0 ≤ 1) ∧
  SyndromeInv P dec ∧ WeightInv P dec

/-- The fields that `qcmdpc_decode_ttl` never writes inside one iteration: `H`, the
error vector, and the iteration counter. -/
def frameOf (dec : decoder) : List (List Int) × List (List Nat) × Int :=
  (dec.Hcolumns, dec.e, dec.iter)

/-! ## A small instance -/

/-- A small parameter set (`N = 3`, `W = 2`, `T = 2`, standard mode, default TTL
constants) on which the theorems below are instantiated. -/
def witnessParams : Params := ⟨3, 2, 2, false, 435, 1150, 1000, 5⟩

/-- An allocated decoder for `witnessParams` holding arbitrary bytes. -/
def witnessDecoder : decoder :=
  { Hcolumns := [], Hrows := [[7, 7], [7, 7]],
    bits := [List.replicate 512 3, List.replicate 512 3],
    syndrome := List.replicate 512 5,
    e := [List.replicate 512 9, List.replicate 512 9],
    counters := [List.replicate 512 4, List.replicate 512 4],
    fl := { first := 2, tod := List.replicate 6 8, prev := List.replicate 6 1,
            next := List.replicate 6 1, length := 11 },
    syndrome_weight := 17, iter := 23 }

/-- A well-formed decoder for `witnessParams`: `H = [[0, 1], [1, 2]]` with its row
supports, no bit flipped, an empty flip list, and a syndrome weight of 2. -/
def witnessReady : decoder :=
  { Hcolumns := [[0, 1], [1, 2]], Hrows := [[0, 2], [1, 2]],
    bits := [List.replicate 512 0, List.replicate 512 0],
    syndrome := 0 :: 1 :: 1 :: List.replicate 509 0,
    e := [List.replicate 512 0, List.replicate 512 0],
    counters := [List.replicate 512 4, List.replicate 512 4],
    fl := { first := -1, tod := List.replicate 6 8, prev := List.replicate 6 1,
            next := List.replicate 6 1, length := 0 },
    syndrome_weight := 2, iter := 23 }

/-- The value contributed at index `j` by one queue entry. -/
def segStep (op : Nat → Nat → Nat) (y : List Nat) (j : Nat) (acc : Nat) (q : mult_t) : Nat :=
  if q.z ≤ (j : Int) ∧ (j : Int) < q.z + q.len then
    op acc (y.getD ((j : Int) - q.z + q.y).toNat 0)
  else acc

/-! ## The threshold (`threshold.c`) -/

/-- The operations on `double` values that `threshold.c` uses, over an arbitrary
carrier `F`: `ofNat n` is the `double` of value `n` (a literal, or the conversion of
an integer operand), then the four arithmetic operations, the unary minus, the
functions `log`, `exp` and `lgamma` of `math.h`, and the comparisons `>=`, `>` and
`==`. Nothing is assumed about them. -/
structure FloatOps (F : Type) where
  ofNat : Nat → F
  add : F → F → F
  sub : F → F → F
  mul : F → F → F
  div : F → F → F
  neg : F → F
  log : F → F
  exp : F → F
  lgamma : F → F
  ge : F → F → Bool
  gt : F → F → Bool
  eq : F → F → Bool

/-- The value of an integer expression computed in the type `unsigned` (32 bits). -/
def u32 (x : Int) : Nat := (x % 4294967296).toNat

/-- The function `lnbino`. -/
def lnbino {F : Type} (fp : FloatOps F) (n t : Nat) : F :=
  if t = 0 ∨ n = t then fp.ofNat 0
  else
    fp.sub
      (fp.sub (fp.lgamma (fp.ofNat (u32 ((n : Int) + 1))))
        (fp.lgamma (fp.ofNat (u32 ((t : Int) + 1)))))
      (fp.lgamma (fp.ofNat (u32 ((n : Int) - (t : Int) + 1))))

/-- The function `xlny`. -/
def xlny {F : Type} (fp : FloatOps F) (x y : F) : F :=
  if fp.eq x (fp.ofNat 0) then fp.ofNat 0 else fp.mul x (fp.log y)

/-- The function `lnbinomialpmf`. -/
def lnbinomialpmf {F : Type} (fp : FloatOps F) (n k : Nat) (p q : F) : F :=
  fp.add (fp.add (lnbino fp n k) (xlny fp (fp.ofNat k) p))
    (xlny fp (fp.ofNat (u32 ((n : Int) - (k : Int)))) q)

/-- The function `Euh_log`. -/
def Euh_log {F : Type} (P : Params) (fp : FloatOps F) (t i : Nat) : F :=
  fp.sub
    (fp.add (lnbino fp (u32 ((INDEX : Int) * (P.BLOCK_WEIGHT : Int))) i)
      (lnbino fp (u32 ((INDEX : Int) * ((P.BLOCK_LENGTH : Int) - (P.BLOCK_WEIGHT : Int))))
        (u32 ((t : Int) - (i : Int)))))
    (lnbino fp (u32 ((INDEX : Int) * (P.BLOCK_LENGTH : Int))) t)

/-- The loop of `iks`, `for (x = 0, i = 1; (i < 10) && (i < t); i += 2)`, on the pair
`(x, denom)`; `n` bounds the number of iterations (five are enough: `i` is then 11). -/
def iks_loop {F : Type} (P : Params) (fp : FloatOps F) (t : Nat) :
    Nat → Nat → F × F → F × F
  | 0, _, acc => acc
  | n + 1, i, acc =>
    if i < 10 ∧ i < t then
      iks_loop P fp t n (u32 ((i : Int) + 2))
        (fp.add acc.1 (fp.mul (fp.ofNat (u32 ((i : Int) - 1))) (fp.exp (Euh_log P fp t i))),
         fp.add acc.2 (fp.exp (Euh_log P fp t i)))
    else acc

/-- The function `iks`. -/
def iks {F : Type} (P : Params) (fp : FloatOps F) (t : Nat) : F :=
  let r := iks_loop P fp t 5 1 (fp.ofNat 0, fp.ofNat 0)
  if fp.eq r.2 (fp.ofNat 0) then fp.ofNat 0 else fp.div r.1 r.2

/-- The function `counters_C0`. -/
def counters_C0 {F : Type} (P : Params) (fp : FloatOps F) (S t : Nat) (x : F) : F :=
  fp.div
    (fp.div
      (fp.sub (fp.ofNat (u32 (((INDEX : Int) * (P.BLOCK_WEIGHT : Int) - 1) * (S : Int)))) x)
      (fp.ofNat (u32 ((INDEX : Int) * (P.BLOCK_LENGTH : Int) - (t : Int)))))
    (fp.ofNat P.BLOCK_WEIGHT)

/-- The function `counters_C1`. -/
def counters_C1 {F : Type} (P : Params) (fp : FloatOps F) (S t : Nat) (x : F) : F :=
  fp.div (fp.div (fp.add (fp.ofNat S) x) (fp.ofNat t)) (fp.ofNat P.BLOCK_WEIGHT)

/-- The value of `diff` in the branch `q >= 1.` of `compute_threshold`. -/
def threshold_diff1 {F : Type} (P : Params) (fp : FloatOps F) (t : Nat) (p : F)
    (threshold : Nat) : F :=
  fp.add
    (fp.mul
      (fp.neg (fp.exp (lnbinomialpmf fp (u32 P.BLOCK_WEIGHT) threshold p
        (fp.sub (fp.ofNat 1) p))))
      (fp.ofNat (u32 ((INDEX : Int) * (P.BLOCK_LENGTH : Int) - (t : Int)))))
    (fp.ofNat 1)

/-- The value of `diff` in the last branch of `compute_threshold`. -/
def threshold_diff2 {F : Type} (P : Params) (fp : FloatOps F) (t : Nat) (p q : F)
    (threshold : Nat) : F :=
  fp.add
    (fp.mul
      (fp.neg (fp.exp (lnbinomialpmf fp (u32 P.BLOCK_WEIGHT) threshold p
        (fp.sub (fp.ofNat 1) p))))
      (fp.ofNat (u32 ((INDEX : Int) * (P.BLOCK_LENGTH : Int) - (t : Int)))))
    (fp.mul
      (fp.exp (lnbinomialpmf fp (u32 P.BLOCK_WEIGHT) threshold q (fp.sub (fp.ofNat 1) q)))
      (fp.ofNat t))

/-- The loop `do { threshold--; diff = ...; } while (diff >= 0. && threshold >
(BLOCK_WEIGHT + 1) / 2)` of `compute_threshold`; `diff` gives the value of `diff` for
the decremented `threshold`, `fuel` bounds the number of iterations (the result is
`none` when they do not suffice). -/
def threshold_loop {F : Type} (P : Params) (fp : FloatOps F) (diff : Nat → F) :
    Nat → Nat → Option Nat
  | 0, _ => none
  | fuel + 1, threshold =>
    let threshold := u32 ((threshold : Int) - 1)
    if fp.ge (diff threshold) (fp.ofNat 0) = true ∧ threshold > (P.BLOCK_WEIGHT + 1) / 2 then
      threshold_loop P fp diff fuel threshold
    else some threshold

/-- The statement `threshold = threshold < BLOCK_WEIGHT ? (threshold + 1) :
BLOCK_WEIGHT` of `compute_threshold`. -/
def threshold_final (P : Params) (threshold : Nat) : Nat :=
  if threshold < u32 P.BLOCK_WEIGHT then u32 ((threshold : Int) + 1) else u32 P.BLOCK_WEIGHT

/-- The function `compute_threshold`. -/
def compute_threshold {F : Type} (P : Params) (fp : FloatOps F) (fuel : Nat) (S t : Nat) :
    Option Nat :=
  let x := fp.mul (iks P fp t) (fp.ofNat S)
  let p := counters_C0 P fp S t x
  let q := counters_C1 P fp S t x
  if fp.ge p (fp.ofNat 1) = true ∨ fp.gt p q = true then some (u32 P.BLOCK_WEIGHT)
  else if fp.ge q (fp.ofNat 1) = true then
    (threshold_loop P fp (threshold_diff1 P fp t p) fuel
      (u32 ((P.BLOCK_WEIGHT : Int) + 1))).map (threshold_final P)
  else
    (threshold_loop P fp (threshold_diff2 P fp t p q) fuel
      (u32 ((P.BLOCK_WEIGHT : Int) + 1))).map (threshold_final P)

/-- The facts on IEEE 754 `double` arithmetic (round to nearest) and on `math.h`
(Annex F of the C standard) that decide `compute_threshold` at `S = 0`; `n` ranges
over the values of an `unsigned`. With `0 = ofNat 0`, `1 = ofNat 1`, `-inf = log 0`
and `-0 = neg 0`:
`0 - 0 = 0`, `0 + 0 = 0`, `1 - 0 = 1`, `0 / n = 0` for `n > 0`, `n * 0 = 0`,
`0 * n = 0`, `n * -inf = -inf` for `n > 0`, `-0 * n = -0` for `n > 0`, `-0 + 0 = 0`,
`-inf + 0 = -inf`, `log 1 = 0`, `exp (-inf) = 0`, and the comparisons `0 >= 1`
(false), `0 > 0` (false), `0 >= 0` (true), `0 == 0` (true), `n == 0` (false for
`n > 0`). -/
structure AnnexF {F : Type} (fp : FloatOps F) : Prop where
  sub_zero : fp.sub (fp.ofNat 0) (fp.ofNat 0) = fp.ofNat 0
  add_zero : fp.add (fp.ofNat 0) (fp.ofNat 0) = fp.ofNat 0
  one_sub_zero : fp.sub (fp.ofNat 1) (fp.ofNat 0) = fp.ofNat 1
  zero_div : ∀ n, 0 < n → n < 4294967296 → fp.div (fp.ofNat 0) (fp.ofNat n) = fp.ofNat 0
  mul_zero : ∀ n, n < 4294967296 → fp.mul (fp.ofNat n) (fp.ofNat 0) = fp.ofNat 0
  zero_mul : ∀ n, n < 4294967296 → fp.mul (fp.ofNat 0) (fp.ofNat n) = fp.ofNat 0
  mul_ninf : ∀ n, 0 < n → n < 4294967296 →
    fp.mul (fp.ofNat n) (fp.log (fp.ofNat 0)) = fp.log (fp.ofNat 0)
  nzero_mul : ∀ n, 0 < n → n < 4294967296 →
    fp.mul (fp.neg (fp.ofNat 0)) (fp.ofNat n) = fp.neg (fp.ofNat 0)
  nzero_add : fp.add (fp.neg (fp.ofNat 0)) (fp.ofNat 0) = fp.ofNat 0
  ninf_add : fp.add (fp.log (fp.ofNat 0)) (fp.ofNat 0) = fp.log (fp.ofNat 0)
  log_one : fp.log (fp.ofNat 1) = fp.ofNat 0
  exp_ninf : fp.exp (fp.log (fp.ofNat 0)) = fp.ofNat 0
  zero_ge_one : fp.ge (fp.ofNat 0) (fp.ofNat 1) = false
  zero_gt_zero : fp.gt (fp.ofNat 0) (fp.ofNat 0) = false
  zero_ge_zero : fp.ge (fp.ofNat 0) (fp.ofNat 0) = true
  zero_eq_zero : fp.eq (fp.ofNat 0) (fp.ofNat 0) = true
  pos_eq_zero : ∀ n, 0 < n → n < 4294967296 → fp.eq (fp.ofNat n) (fp.ofNat 0) = false

/-- The classes of `double` values: NaN, the two infinities, the two zeros, and the
finite non-zero values of either sign. -/
inductive FloatClass where
  | nan
  | ninf
  | neg
  | nzero
  | zero
  | pos
  | pinf
  deriving DecidableEq

/-- Position of a class on the extended real line (`none` for NaN). -/
def FloatClass.rank : FloatClass → Option Int
  | .nan => none
  | .ninf => some (-2)
  | .neg => some (-1)
  | .nzero => some 0
  | .zero => some 0
  | .pos => some 1
  | .pinf => some 2

/-- Unary minus on classes. -/
def FloatClass.negate : FloatClass → FloatClass
  | .nan => .nan
  | .ninf => .pinf
  | .neg => .pos
  | .nzero => .zero
  | .zero => .nzero
  | .pos => .neg
  | .pinf => .ninf

/-- Addition on classes (round to nearest); a sum of finite values of opposite signs
is taken to cancel. -/
def FloatClass.plus : FloatClass → FloatClass → FloatClass
  | .nan, _ => .nan
  | _, .nan => .nan
  | .pinf, .ninf => .nan
  | .ninf, .pinf => .nan
  | .pinf, _ => .pinf
  | _, .pinf => .pinf
  | .ninf, _ => .ninf
  | _, .ninf => .ninf
  | .nzero, y => y
  | x, .nzero => x
  | .zero, y => y
  | x, .zero => x
  | .pos, .pos => .pos
  | .neg, .neg => .neg
  | .pos, .neg => .zero
  | .neg, .pos => .zero

/-- Class of a product or quotient of magnitude class `m` (0 zero, 1 finite,
2 infinite) and sign `s` (`true` for negative). -/
def FloatClass.signed (m : Nat) (s : Bool) : FloatClass :=
  match m, s with
  | 0, false => .zero
  | 0, true => .nzero
  | 1, false => .pos
  | 1, true => .neg
  | _, false => .pinf
  | _, true => .ninf

/-- Magnitude class (0 zero, 1 finite, 2 infinite) and sign of a class. -/
def FloatClass.parts : FloatClass → Option (Nat × Bool)
  | .nan => none
  | .ninf => some (2, true)
  | .neg => some (1, true)
  | .nzero => some (0, true)
  | .zero => some (0, false)
  | .pos => some (1, false)
  | .pinf => some (2, false)

/-- Multiplication on classes. -/
def FloatClass.times (x y : FloatClass) : FloatClass :=
  match x.parts, y.parts with
  | some (a, s), some (b, r) =>
    if (a = 0 ∧ b = 2) ∨ (a = 2 ∧ b = 0) then .nan
    else FloatClass.signed (if a = 0 ∨ b = 0 then 0 else max a b) (xor s r)
  | _, _ => .nan

/-- Division on classes. -/
def FloatClass.over (x y : FloatClass) : FloatClass :=
  match x.parts, y.parts with
  | some (a, s), some (b, r) =>
    if (a = 0 ∧ b = 0) ∨ (a = 2 ∧ b = 2) then .nan
    else FloatClass.signed (if b = 0 ∨ a = 2 then 2 else if a = 0 ∨ b = 2 then 0 else 1)
      (xor s r)
  | _, _ => .nan

/-- A small model of `double` arithmetic, used to instantiate the theorems on
`compute_threshold`: a value is kept up to its class. An operation whose result class
is not determined by the classes of its operands returns one of the possible classes
(`log` of a positive finite value is taken to be 0 as for `log 1`, `exp` and `lgamma`
of a finite value a positive finite value, two finite values of the same sign compare
equal). -/
def classOps : FloatOps FloatClass where
  ofNat := fun n => if n = 0 then .zero else .pos
  add := FloatClass.plus
  sub := fun x y => FloatClass.plus x y.negate
  mul := FloatClass.times
  div := FloatClass.over
  neg := FloatClass.negate
  log := fun x =>
    match x with
    | .nzero => .ninf
    | .zero => .ninf
    | .pos => .zero
    | .pinf => .pinf
    | _ => .nan
  exp := fun x =>
    match x with
    | .nan => .nan
    | .ninf => .zero
    | .pinf => .pinf
    | _ => .pos
  lgamma := fun x =>
    match x with
    | .nan => .nan
    | .neg => .pos
    | .pos => .pos
    | _ => .pinf
  ge := fun x y =>
    match x.rank, y.rank with
    | some a, some b => decide (b ≤ a)
    | _, _ => false
  gt := fun x y =>
    match x.rank, y.rank with
    | some a, some b => decide (b < a)
    | _, _ => false
  eq := fun x y =>
    match x.rank, y.rank with
    | some a, some b => decide (a = b)
    | _, _ => false

/-- A parameter set with `W = 4` (`N = 8`, `T = 2`, standard mode, default TTL
constants) on which the theorems on `compute_threshold` are instantiated. -/
def thresholdParams : Params := ⟨8, 4, 2, false, 435, 1150, 1000, 5⟩

/-! ## The time-to-live as the specification words it -/

/-- The time-to-live of a new flip in the words of the specification:
`clamp(round(c0 * d + c1), 1, TTL_SAT)` on exact fractions, `round` being the rounding
to the nearest integer (a half is rounded up). -/
def ttl_rounded (P : Params) (d : Int) : Int :=
  let r := (2 * (d * P.TTL_COEFF0_NUM + P.TTL_COEFF1_NUM) + (P.TTL_COEFF_DEN : Int)) /
    (2 * (P.TTL_COEFF_DEN : Int))
  if r < 1 then 1 else if r > (P.TTL_SATURATE : Int) then (P.TTL_SATURATE : Int) else r

/-! ## Traversals of the flip list and sequences of operations -/

/-- The positions visited from the node `p` by following `links` (the array `next`
or `prev`) until `-1`; `none` when a link leads outside the array or the walk does
not end within `fuel` nodes. -/
def traverse (links : List Int) : Nat → Int → Option (List Nat)
  | 0, p => if p = -1 then some [] else none
  | fuel + 1, p =>
    if p = -1 then some []
    else (rd links p).bind (fun n => (traverse links fuel n).map (fun rest => p.toNat :: rest))

/-- A call of `fl_add` or of `fl_remove`. -/
inductive fl_op where
  | add (pos : Nat)
  | remove (pos : Nat)

/-- A sequence of calls of `fl_add` and `fl_remove`, in order. -/
def run_ops : flip_list → List fl_op → Option flip_list
  | fl, [] => some fl
  | fl, fl_op.add pos :: ops => (fl_add fl (pos : Int)).bind (fun fl => run_ops fl ops)
  | fl, fl_op.remove pos :: ops => (fl_remove fl (pos : Int)).bind (fun fl => run_ops fl ops)

/-- The linked positions after a sequence of operations, the most recently added
first: an addition puts the position in front, a removal erases it. -/
def linked_after : List Nat → List fl_op → List Nat
  | l, [] => l
  | l, fl_op.add pos :: ops => linked_after (pos :: l) ops
  | l, fl_op.remove pos :: ops => linked_after (l.erase pos) ops

/-- A sequence of operations in which every `fl_add` is on an unlinked position of
the universe `[0, M)` and every `fl_remove` on a linked position; `l` holds the
positions linked at the start. -/
def ValidOps (M : Nat) : List Nat → List fl_op → Prop
  | _, [] => True
  | l, fl_op.add pos :: ops => pos < M ∧ pos ∉ l ∧ ValidOps M (pos :: l) ops
  | l, fl_op.remove pos :: ops => pos ∈ l ∧ ValidOps M (l.erase pos) ops

/-- A flip list over six slots whose arrays and fields hold arbitrary values. -/
def witnessList : flip_list :=
  { first := 4, tod := [9, 9, 9, 9, 9, 9], prev := [7, 7, 7, 7, 7, 7],
    next := [8, 8, 8, 8, 8, 8], length := 3 }

/-- A sequence of operations with a removal in the middle (5), at the head (3) and
at the tail (2); it leaves the positions 4 and 0 linked. -/
def witnessOps : List fl_op :=
  [fl_op.add 2, fl_op.add 5, fl_op.add 0, fl_op.remove 5, fl_op.add 3, fl_op.remove 3,
    fl_op.remove 2, fl_op.add 4]

/-! ## Vocabulary of the time-to-live ring -/

/-- The ring slot of iteration `iter`: the byte `iter % (TTL_SATURATE + 1)`. It is the
value of `current_iter` in the expiry sweep, and the flip scan stores the slot of
`iter + ttl` in `tod`. -/
def ring_slot (P : Params) (iter : Int) : Nat :=
  ((iter.tmod ((P.TTL_SATURATE : Int) + 1)) % 256).toNat

/-- The positions of the flip list, in the order of the forward traversal from
`first` via `next` (`none` when the traversal does not end within the
`INDEX * BLOCK_LENGTH` slots). -/
def flip_list_nodes (P : Params) (dec : decoder) : Option (List Nat) :=
  traverse dec.fl.next (INDEX * P.BLOCK_LENGTH) dec.fl.first

/-- Every position `p = k * N + j` in the flip list has `bits[k][j] = 1`. -/
def ListedBitsSet (P : Params) (dec : decoder) : Prop :=
  ∃ l, flip_list_nodes P dec = some l ∧
    ∀ k j, k < INDEX → j < P.BLOCK_LENGTH → k * P.BLOCK_LENGTH + j ∈ l →
      (dec.bits.getD k []).getD j 0 = 1

/-- A well-formed decoder for `witnessParams` at iteration 103 in which position 1
(block 0, offset 1) is flipped and linked with the time of death `103 mod 6 = 1`,
the value stored for a flip made at iteration 100 with a time-to-live of 3. -/
def witnessFlipped : decoder :=
  { Hcolumns := [[0, 1], [1, 2]], Hrows := [[0, 2], [1, 2]],
    bits := [0 :: 1 :: List.replicate 510 0, List.replicate 512 0],
    syndrome := 1 :: 0 :: 1 :: List.replicate 509 0,
    e := [List.replicate 512 0, List.replicate 512 0],
    counters := [List.replicate 512 4, List.replicate 512 4],
    fl := { first := 1, tod := [8, 1, 8, 8, 8, 8], prev := [1, -1, 1, 1, 1, 1],
            next := [1, -1, 1, 1, 1, 1], length := 1 },
    syndrome_weight := 2, iter := 103 }

/-! ## Vocabulary of the single-position update -/

/-- The dense vector of length `N` with a single 1 at index `j`. -/
def unit_vector (N j : Nat) : List Nat :=
  (List.replicate N 0).set j 1

/-! ## The parameter sets of `param.h` -/

/-- The constants that `param.h` selects for a value of `PRESET` and of `OUROBOROS`,
with the default TTL constants; `none` for a value of `PRESET` that `param.h` does not
list (no constant is then defined). -/
def presetParams (preset : Nat) (ouroboros : Bool) : Option Params :=
  match preset, ouroboros with
  | 128, false => some ⟨10163, 71, 134, false, 435, 1150, 1000, 5⟩
  | 128, true => some ⟨11027, 67, 156, true, 435, 1150, 1000, 5⟩
  | 192, false => some ⟨19853, 103, 199, false, 435, 1150, 1000, 5⟩
  | 192, true => some ⟨21683, 99, 226, true, 435, 1150, 1000, 5⟩
  | 256, false => some ⟨32749, 137, 264, false, 435, 1150, 1000, 5⟩
  | 256, true => some ⟨36131, 133, 300, true, 435, 1150, 1000, 5⟩
  | _, _ => none

/-- The parameter set of `PRESET = 128` with `OUROBOROS = 1`. -/
def preset128Ouroboros : Params := ⟨11027, 67, 156, true, 435, 1150, 1000, 5⟩

/-- A well-formed decoder for `preset128Ouroboros`: both blocks of `H` have the support
`0, 1, ..., 66`, no bit is flipped, the flip list is empty, and `syndrome_weight` is 0. -/
def presetDecoder : decoder :=
  { Hcolumns := [(List.range 67).map Int.ofNat, (List.range 67).map Int.ofNat],
    Hrows := [(List.range 67).map Int.ofNat, (List.range 67).map Int.ofNat].map
      (reflect 11027),
    bits := [List.replicate 22528 0, List.replicate 22528 0],
    syndrome := List.replicate 22528 0,
    e := [List.replicate 22528 0, List.replicate 22528 0],
    counters := [List.replicate 22528 0, List.replicate 22528 0],
    fl := { first := -1, tod := List.replicate 22054 0, prev := List.replicate 22054 0,
            next := List.replicate 22054 0, length := 0 },
    syndrome_weight := 0, iter := 0 }

/-- The parameter set `witnessParams` with `ERROR_WEIGHT = 0` (no error position). -/
def zeroErrorParams : Params := ⟨3, 2, 0, false, 435, 1150, 1000, 5⟩

/-- The parameter set `witnessParams` with `ERROR_WEIGHT = 1` (a single error). -/
def singleErrorParams : Params := ⟨3, 2, 1, false, 435, 1150, 1000, 5⟩

/-! ## Instances for the relation between the syndrome and the error -/

/-- The estimate of the decoder equals the error vector on `[0, N)` of both blocks. -/
def BitsEqualError (P : Params) (dec : decoder) : Prop :=
  ∀ k j, k < INDEX → j < P.BLOCK_LENGTH →
    (dec.bits.getD k []).getD j 0 = (dec.e.getD k []).getD j 0

/-- The parameter set `witnessParams` with `ERROR_WEIGHT = 4`. -/
def codewordParams : Params := ⟨3, 2, 4, false, 435, 1150, 1000, 5⟩

/-- The program run on `codewordParams` with `H = [[0, 1], [1, 2]]` and the error
positions 1, 2 (block 0) and 3, 4 (offsets 0, 1 of block 1): `reset_decoder`,
`init_decoder_error`, then `qcmdpc_decode_ttl` with `max_iter = 100`. The error is the
non-zero vector `(h1, h0)`, whose syndrome `h0 * h1 + h1 * h0` vanishes. -/
def codewordRun : Option (decoder × Int) :=
  ((reset_decoder codewordParams witnessDecoder).bind (fun d =>
    init_decoder_error codewordParams d [[0, 1], [1, 2]] [1, 2, 3, 4] none)).bind (fun d =>
      qcmdpc_decode_ttl codewordParams (fun _ _ => 2) 6 d 100)

/-- The decoder `witnessFlipped` with the error vector equal to its estimate (a single
1 at offset 1 of block 0), hence a zero syndrome of weight 0. -/
def witnessDecoded : decoder :=
  { witnessFlipped with
    e := [0 :: 1 :: List.replicate 510 0, List.replicate 512 0],
    syndrome := List.replicate 512 0,
    syndrome_weight := 0 }

/-- The decoder left by `init_decoder_error` in `codewordRun`, up to the bytes that are
never read: the error is `(h1, h0) = ([0, 1, 1], [1, 1, 0])`, no bit is flipped, the
syndrome is zero. -/
def witnessCodeword : decoder :=
  { witnessReady with
    e := [0 :: 1 :: 1 :: List.replicate 509 0, 1 :: 1 :: 0 :: List.replicate 509 0],
    syndrome := List.replicate 512 0,
    syndrome_weight := 0 }

/-! ## Invariants of both build modes -/

/-- The syndrome invariant with a syndrome-side error: on `[0, N)`,
`syndrome = H · (e XOR bits) XOR noise`. -/
def SyndromeInvWith (P : Params) (noise : Nat → Nat) (dec : decoder) : Prop :=
  ∀ i, i < P.BLOCK_LENGTH → dec.syndrome.getD i 0 =
    Hmul P.BLOCK_WEIGHT dec.Hcolumns
      (fun k x => cyc P.BLOCK_LENGTH (dec.e.getD k []) x ^^^
        cyc P.BLOCK_LENGTH (dec.bits.getD k []) x) i ^^^ noise i

/-- The first `N` entries of the syndrome are 0/1 and `syndrome_weight` is their number
of ones (`W <= 255` is the build-time guard of `param.h`). -/
def WeightOk (P : Params) (dec : decoder) : Prop :=
  P.BLOCK_WEIGHT ≤ 255 ∧ (∀ i, i < P.BLOCK_LENGTH → dec.syndrome.getD i 0 ≤ 1) ∧
  WeightInv P dec

/-- The syndrome-side error that `init_decoder_error` XORs into the syndrome, as a
vector: entry `i` is the parity of the number of `k < SYNDROME_STOP` with
`e2_block[k] = i`. It is zero in standard mode and for a null `e2_block`. -/
def side_error (P : Params) (e2 : Option (List Int)) (i : Nat) : Nat :=
  if P.OUROBOROS then
    match e2 with
    | some l => xorUpTo P.SYNDROME_STOP (fun k => if l.getD k 0 = (i : Int) then 1 else 0)
    | none => 0
  else 0

/-- A property of the decoder that the statements of one iteration keep: it does not
read the flip list, it is kept by the flip statements at a position `(k, j)` of a
decoder of the right shape, and it is kept by the statements that open an iteration,
which write `iter`, `counters` and the bytes of `syndrome` from index `N` on. -/
structure FlipKept (P : Params) (J : decoder → Prop) : Prop where
  list : ∀ (dec : decoder) (fl : flip_list), J dec → J { dec with fl := fl }
  flip : ∀ (dec dec' : decoder) (k j : Nat), k < INDEX → j < P.BLOCK_LENGTH →
    Shape P dec → J dec → flip_column P dec k (j : Int) = some dec' → J dec'
  start : ∀ (dec : decoder) (s : List Nat) (c : List (List Nat)) (it : Int), J dec →
    (∀ i, i < P.BLOCK_LENGTH → s.getD i 0 = dec.syndrome.getD i 0) →
    J { dec with iter := it, syndrome := s, counters := c }

/-- The syndrome invariants of both build modes: 0/1 entries, `syndrome_weight` equal
to the number of ones, and `syndrome = H · (e XOR bits) XOR noise`. -/
def StrongWith (P : Params) (noise : Nat → Nat) (dec : decoder) : Prop :=
  WeightOk P dec ∧ SyndromeInvWith P noise dec

/-- The parameter set `witnessParams` in Ouroboros mode (`SYNDROME_STOP = 1`). -/
def ouroborosParams : Params := ⟨3, 2, 2, true, 435, 1150, 1000, 5⟩

/-! ## The expiry sweep with its sequence of examined nodes -/

/-- The loop `while (fl_pos != -1)` of the expiry sweep together with the nodes it
examines: the successive values of `fl_pos`, in order. The decoder state it returns is
the one of `sweep_loop`. -/
def sweep_visits (P : Params) (current_iter : Nat) :
    Nat → Int → decoder × Bool → Option (List Int × (decoder × Bool))
  | 0, fl_pos, st => if fl_pos ≠ -1 then none else some ([], st)
  | fuel + 1, fl_pos, st =>
    if fl_pos ≠ -1 then
      (sweep_step P current_iter fl_pos st).bind
        (fun r => (sweep_visits P current_iter fuel r.1 r.2).map
          (fun v => (fl_pos :: v.1, v.2)))
    else some ([], st)

/-- The entry is due in the sweep of the current iteration: the bit at offset `j` of
block `k` is flipped and its time of death is the ring slot of `iter`; 1 when it is,
else 0. -/
def expired (P : Params) (dec : decoder) (k j : Nat) : Nat :=
  if bitAt P.BLOCK_LENGTH dec.bits (k * P.BLOCK_LENGTH + j) = 1 ∧
      dec.fl.tod.getD (k * P.BLOCK_LENGTH + j) 0 = ring_slot P dec.iter then 1 else 0

/-! ## A single error: columns that overlap the column of the error -/

/-- The number of entries of column `jB` of the circulant block `colB` that lie in
column `jA` of the block `colA`: the `l < W` for which `(jB + colB[l]) mod N` is one
of the `(jA + colA[m]) mod N`. It is the counter of position `jB` of the block `colB`
on the syndrome of a single error at position `jA` of the block `colA`. -/
def overlap (N W : Nat) (colA : List Int) (jA : Nat) (colB : List Int) (jB : Nat) : Nat :=
  sumUpTo W (fun l =>
    if ∃ m, m < W ∧ (((jA : Int) + colA.getD m 0) % (N : Int)).toNat =
      (((jB : Int) + colB.getD l 0) % (N : Int)).toNat then 1 else 0)

/-- The program run on `singleErrorParams` (`N = 3`, `W = 2`) with
`H = [[0, 1], [1, 2]]`, the single error at offset 0 of block 0, a threshold oracle that
returns 2 and the given `max_iter`: `reset_decoder`, `init_decoder_error`, then
`qcmdpc_decode_ttl`. Column 2 of block 1 is `{0, 1}`, the column of the error. -/
def overlapRun (max_iter : Int) : Option (decoder × Int) :=
  ((reset_decoder singleErrorParams witnessDecoder).bind (fun d =>
    init_decoder_error singleErrorParams d [[0, 1], [1, 2]] [0] none)).bind (fun d =>
      qcmdpc_decode_ttl singleErrorParams (fun _ _ => 2) 6 d max_iter)

/-- A parameter set with `N = 5`, `W = 2` and a single error. -/
def separatedParams : Params := ⟨5, 2, 1, false, 435, 1150, 1000, 5⟩

/-- An allocated decoder for `separatedParams` holding arbitrary bytes. -/
def separatedDecoder : decoder :=
  { Hcolumns := [], Hrows := [[7, 7], [7, 7]],
    bits := [List.replicate 512 3, List.replicate 512 3],
    syndrome := List.replicate 512 5,
    e := [List.replicate 512 9, List.replicate 512 9],
    counters := [List.replicate 512 4, List.replicate 512 4],
    fl := { first := 2, tod := List.replicate 10 8, prev := List.replicate 10 1,
            next := List.replicate 10 1, length := 11 },
    syndrome_weight := 17, iter := 23 }

/-! ## Insertion times of the flip-list entries -/

/-- The body of the flip scan together with a ghost map `born`: when the step adds the
position `k * N + j` to the flip list (its counter reaches the threshold and its bit is
clear), `born` records the current iteration for that position. The decoder part is
`scan_step`. -/
def scan_step_born (P : Params) (threshold k j : Nat)
    (st : (decoder × Bool) × (Nat → Int)) : Option ((decoder × Bool) × (Nat → Int)) :=
  (scan_step P threshold k j st.1).map (fun r =>
    (r, if threshold ≤ (st.1.1.counters.getD k []).getD j 0 ∧
          (st.1.1.bits.getD k []).getD j 0 = 0 then
        fun p => if p = k * P.BLOCK_LENGTH + j then st.1.1.iter else st.2 p
      else st.2))

/-- The flip scan with the ghost map of insertion times. -/
def flip_scan_born (P : Params) (threshold : Nat) (st : (decoder × Bool) × (Nat → Int)) :
    Option ((decoder × Bool) × (Nat → Int)) :=
  forUpTo INDEX (fun k st =>
    forUpTo P.BLOCK_LENGTH (fun j st => scan_step_born P threshold k j st) st) st

/-- One execution of the body of the main loop with the ghost map of insertion times;
the result also holds the syndrome weight found after the flip scan, which is the one
tested by the `if` of the expiry sweep. -/
def decode_iteration_born (P : Params) (oracle : Nat → Nat → Nat) (fuel : Nat)
    (st : (decoder × Nat × Bool) × (Nat → Int)) :
    Option (Int × ((decoder × Nat × Bool) × (Nat → Int))) := do
  let dec := { st.1.1 with iter := st.1.1.iter + 1 }
  let cc ← compute_counters P dec.Hcolumns dec.Hrows dec.syndrome dec.counters
  let dec := { dec with syndrome := cc.1, counters := cc.2 }
  let threshold : Nat :=
    if st.1.2.2 then
      let t : Int := (P.ERROR_WEIGHT : Int) - dec.fl.length
      let t : Int := if t > 0 then t else 1
      oracle (dec.syndrome_weight % 4294967296).toNat t.toNat
    else st.1.2.1
  let r ← flip_scan_born P threshold ((dec, false), st.2)
  let r2 ← expiry_sweep P fuel r.1
  some (r.1.1.syndrome_weight, ((r2.1, threshold, r2.2), r.2))

/-- The main loop of `qcmdpc_decode_ttl` with the ghost map of insertion times: the list
of the iterations executed, each with the syndrome weight after its flip scan and the
state at its end. -/
def decode_trace (P : Params) (oracle : Nat → Nat → Nat) (fuel : Nat) (max_iter : Int) :
    Nat → (decoder × Nat × Bool) × (Nat → Int) →
      Option (List (Int × ((decoder × Nat × Bool) × (Nat → Int))))
  | 0, st =>
    if st.1.1.iter < max_iter ∧ st.1.1.syndrome_weight ≠ (P.SYNDROME_STOP : Int) then none
    else some []
  | n + 1, st =>
    if st.1.1.iter < max_iter ∧ st.1.1.syndrome_weight ≠ (P.SYNDROME_STOP : Int) then
      (decode_iteration_born P oracle fuel st).bind (fun r =>
        (decode_trace P oracle fuel max_iter n r.2).map (fun t => r :: t))
    else some []

/-- The state at the end of the last iteration of a trace (`st` when no iteration was
executed). -/
def trace_last : decoder × Nat × Bool →
    List (Int × ((decoder × Nat × Bool) × (Nat → Int))) → decoder × Nat × Bool
  | st, [] => st
  | _, r :: t => trace_last r.2.1 t

/-- The invariant on insertion times: every flipped position `p` was inserted at an
iteration `born p` not after the current one, with a time of death that is the ring
slot of an iteration `d` with `lo ≤ d ≤ born p + TTL_SATURATE`. -/
def BornInv (P : Params) (lo : Int) (dec : decoder) (born : Nat → Int) : Prop :=
  ∀ p, p < INDEX * P.BLOCK_LENGTH → bitAt P.BLOCK_LENGTH dec.bits p = 1 →
    ∃ d : Int, lo ≤ d ∧ d ≤ born p + (P.TTL_SATURATE : Int) ∧ born p ≤ dec.iter ∧
      dec.fl.tod.getD p 0 = ring_slot P d

/-- No stale entry: no node of the flip list has the ring slot of the current iteration
as its time of death, and every node was inserted during one of the last
`TTL_SATURATE` iterations. -/
def Fresh (P : Params) (dec : decoder) (born : Nat → Int) : Prop :=
  ∃ l, flip_list_nodes P dec = some l ∧ ∀ p ∈ l,
    dec.fl.tod.getD p 0 ≠ ring_slot P dec.iter ∧
    dec.fl.tod.getD p 0 ≠ (dec.iter % ((P.TTL_SATURATE : Int) + 1)).toNat ∧
    dec.iter - (P.TTL_SATURATE : Int) < born p ∧ born p ≤ dec.iter

/-! ## Random sparse blocks (`sparse_cyclic.c`) -/

/-- First loop of `insert_sorted`,
`for (i = 0; i < max_i && array[i] <= value; i++, value++)`; `n` is `max_i - i`, the
number of iterations left. Returns `i` and `value` at exit. -/
def insert_sorted_loop1 (array : List Int) : Nat → Int → Int → Option (Int × Int)
  | 0, i, value => some (i, value)
  | n + 1, i, value => do
    let a ← rd array i
    if a ≤ value then insert_sorted_loop1 array n (i + 1) (value + 1)
    else some (i, value)

/-- Second loop of `insert_sorted`,
`for (j = max_i; j > i; j--) array[j] = array[j - 1]`; `n` is `j - i`. -/
def insert_sorted_loop2 : Nat → Int → List Int → Option (List Int)
  | 0, _, array => some array
  | n + 1, j, array => do
    let a ← rd array (j - 1)
    let array ← wr array j a
    insert_sorted_loop2 n (j - 1) array

/-- The function `insert_sorted`. -/
def insert_sorted (value max_i : Int) (array : List Int) : Option (List Int) := do
  let r ← insert_sorted_loop1 array max_i.toNat 0 value
  let array ← insert_sorted_loop2 (max_i - r.1).toNat max_i array
  wr array r.1 r.2

/-- The function `sparse_rand`; `random_lim i limit` stands for the value returned by
the `i`-th call `prng->random_lim(limit, ...)`, whose argument is the decremented
`length`. -/
def sparse_rand (length : Int) (weight : Nat) (random_lim : Nat → Int → Int)
    (h : List Int) : Option (List Int) :=
  forUpTo weight (fun i h =>
    insert_sorted (random_lim i (length - 1 - (i : Int))) (i : Int) h) h

/-- The number of entries that the scan of `insert_sorted` passes on the list `l`
starting with `value`: it passes `l[t]` while `l[t] <= value + t`. -/
def rank_pos : List Int → Int → Nat
  | [], _ => 0
  | a :: t, v => if a ≤ v then rank_pos t (v + 1) + 1 else 0

/-- The list obtained from `l` by the scan and the insertion of `insert_sorted`. -/
def rank_insert : List Int → Int → List Int
  | [], v => [v]
  | a :: t, v => if a ≤ v then a :: rank_insert t (v + 1) else v :: a :: t

/-- The block that successive insertions build from the draws `r_0, r_1, ...`. -/
def rank_fold (r : List Int) : List Int :=
  r.foldl rank_insert []

/-- All sequences of draws `r_0, ..., r_{w-1}` with `0 <= r_i <= length - 1 - i`, each
once. -/
def draw_sequences (length : Nat) : Nat → List (List Int)
  | 0 => [[]]
  | w + 1 => (draw_sequences length w).flatMap (fun r =>
      (List.range (length - w)).map (fun d : Nat => r ++ [(d : Int)]))

/-! ## The calls of `fl_add` and `fl_remove` made by the decoder -/

/-- The body of the flip scan together with the log of the calls of `fl_add` and
`fl_remove`: when the counter reaches the threshold the step calls `fl_remove` on the
position if its bit is set and `fl_add` otherwise. The decoder part is `scan_step`. -/
def scan_step_ops (P : Params) (threshold k j : Nat)
    (st : (decoder × Bool) × List fl_op) : Option ((decoder × Bool) × List fl_op) :=
  (scan_step P threshold k j st.1).map (fun r =>
    (r, if threshold ≤ (st.1.1.counters.getD k []).getD j 0 then
        st.2 ++ [if (st.1.1.bits.getD k []).getD j 0 ≠ 0 then
            fl_op.remove (k * P.BLOCK_LENGTH + j)
          else fl_op.add (k * P.BLOCK_LENGTH + j)]
      else st.2))

/-- The flip scan with the log of the list calls. -/
def flip_scan_ops (P : Params) (threshold : Nat) (st : (decoder × Bool) × List fl_op) :
    Option ((decoder × Bool) × List fl_op) :=
  forUpTo INDEX (fun k st =>
    forUpTo P.BLOCK_LENGTH (fun j st => scan_step_ops P threshold k j st) st) st

/-- The body of the loop of the expiry sweep with the log of the list calls: the step
calls `fl_remove` on `fl_pos` when `tod[fl_pos]` is the current slot. The decoder part
is `sweep_step`. -/
def sweep_step_ops (P : Params) (current_iter : Nat) (fl_pos : Int)
    (st : (decoder × Bool) × List fl_op) : Option (Int × ((decoder × Bool) × List fl_op)) :=
  (sweep_step P current_iter fl_pos st.1).map (fun r =>
    (r.1, (r.2, if st.1.1.fl.tod.getD fl_pos.toNat 0 = current_iter then
        st.2 ++ [fl_op.remove fl_pos.toNat]
      else st.2)))

/-- The loop of the expiry sweep with the log of the list calls. -/
def sweep_loop_ops (P : Params) (current_iter : Nat) :
    Nat → Int → (decoder × Bool) × List fl_op → Option ((decoder × Bool) × List fl_op)
  | 0, fl_pos, st => if fl_pos ≠ -1 then none else some st
  | fuel + 1, fl_pos, st =>
    if fl_pos ≠ -1 then
      (sweep_step_ops P current_iter fl_pos st).bind
        (fun r => sweep_loop_ops P current_iter fuel r.1 r.2)
    else some st

/-- The expiry sweep with the log of the list calls. -/
def expiry_sweep_ops (P : Params) (fuel : Nat) (st : (decoder × Bool) × List fl_op) :
    Option ((decoder × Bool) × List fl_op) :=
  let dec := st.1.1
  if dec.syndrome_weight ≠ (P.SYNDROME_STOP : Int) ∧ dec.fl.length ≠ 0 then
    let current_iter : Nat := ((dec.iter.tmod ((P.TTL_SATURATE : Int) + 1)) % 256).toNat
    sweep_loop_ops P current_iter fuel dec.fl.first st
  else some st

/-- One execution of the body of the main loop with the log of the list calls. -/
def decode_iteration_ops (P : Params) (oracle : Nat → Nat → Nat) (fuel : Nat)
    (st : (decoder × Nat × Bool) × List fl_op) :
    Option ((decoder × Nat × Bool) × List fl_op) := do
  let dec := { st.1.1 with iter := st.1.1.iter + 1 }
  let cc ← compute_counters P dec.Hcolumns dec.Hrows dec.syndrome dec.counters
  let dec := { dec with syndrome := cc.1, counters := cc.2 }
  let threshold : Nat :=
    if st.1.2.2 then
      let t : Int := (P.ERROR_WEIGHT : Int) - dec.fl.length
      let t : Int := if t > 0 then t else 1
      oracle (dec.syndrome_weight % 4294967296).toNat t.toNat
    else st.1.2.1
  let r ← flip_scan_ops P threshold ((dec, false), st.2)
  let r ← expiry_sweep_ops P fuel r
  some ((r.1.1, threshold, r.1.2), r.2)

/-- The main loop with the log of the list calls. -/
def decode_loop_ops (P : Params) (oracle : Nat → Nat → Nat) (fuel : Nat) (max_iter : Int) :
    Nat → (decoder × Nat × Bool) × List fl_op →
      Option ((decoder × Nat × Bool) × List fl_op)
  | 0, st =>
    if st.1.1.iter < max_iter ∧ st.1.1.syndrome_weight ≠ (P.SYNDROME_STOP : Int) then none
    else some st
  | n + 1, st =>
    if st.1.1.iter < max_iter ∧ st.1.1.syndrome_weight ≠ (P.SYNDROME_STOP : Int) then
      (decode_iteration_ops P oracle fuel st).bind (decode_loop_ops P oracle fuel max_iter n)
    else some st

/-- The function `qcmdpc_decode_ttl` with the log of all the calls of `fl_add` and
`fl_remove` it makes, in order. -/
def qcmdpc_decode_ttl_ops (P : Params) (oracle : Nat → Nat → Nat) (fuel : Nat)
    (dec : decoder) (max_iter : Int) : Option ((decoder × Int) × List fl_op) := do
  let st ← decode_loop_ops P oracle fuel max_iter max_iter.toNat
    (({ dec with iter := 0 }, 0, true), [])
  some ((st.1.1, if st.1.1.syndrome_weight = (P.SYNDROME_STOP : Int) then 1 else 0), st.2)

/-- The invariant on the log of list calls: every call met its precondition, and the
positions linked by the calls are the positions whose bit is set. -/
def LogInv (P : Params) (l0 : List Nat) (dec : decoder) (log : List fl_op) : Prop :=
  ValidOps (INDEX * P.BLOCK_LENGTH) l0 log ∧ (linked_after l0 log).Nodup ∧
  ∀ p, p ∈ linked_after l0 log ↔
    (p < INDEX * P.BLOCK_LENGTH ∧ bitAt P.BLOCK_LENGTH dec.bits p = 1)

/-- The Hamming weight of the estimate `bits`. -/
def bits_weight (P : Params) (dec : decoder) : Nat :=
  sumUpTo (INDEX * P.BLOCK_LENGTH) (fun p => bitAt P.BLOCK_LENGTH dec.bits p)

/-- The flip list agrees with the estimate: the forward traversal ends, its nodes are
distinct positions of `[0, INDEX * N)`, the position `k * N + j` is a node exactly when
`bits[k][j] = 1`, and `length` is the number of nodes, which is the Hamming weight of
`bits` and lies in `[0, INDEX * N]`. -/
def ListOk (P : Params) (dec : decoder) : Prop :=
  ∃ l, flip_list_nodes P dec = some l ∧ l.Nodup ∧ (∀ p ∈ l, p < INDEX * P.BLOCK_LENGTH) ∧
    (∀ k j, k < INDEX → j < P.BLOCK_LENGTH →
      (k * P.BLOCK_LENGTH + j ∈ l ↔ (dec.bits.getD k []).getD j 0 = 1)) ∧
    dec.fl.length = (l.length : Int) ∧ dec.fl.length = (bits_weight P dec : Int) ∧
    0 ≤ dec.fl.length ∧ dec.fl.length ≤ ((INDEX * P.BLOCK_LENGTH : Nat) : Int)

/-! ## The AVX2 variant of `multiply` (`sparse_cyclic.c`, `types.h`) -/

/-- The macro `AVX_PADDING(len)` of `types.h`: `len` bits rounded up to a multiple of
`256 * 16`. -/
def AVX_PADDING (len : Nat) : Nat := ((len + (256 * 16) - 1) / (256 * 16)) * (256 * 16)

/-- The memory operand `*(__m256i *)&a[off]`: the 32 bytes `a[off], …, a[off + 31]`;
`none` when the range leaves the buffer. -/
def load256 (a : List Nat) (off : Int) : Option (List Nat) :=
  if 0 ≤ off ∧ off.toNat + 32 ≤ a.length then some ((a.drop off.toNat).take 32) else none

/-- The store `((__m256i *)a)[k] = v` of a 32-byte register (`vmovdqa`); `none` when
the range leaves the buffer. -/
def store256 (a : List Nat) (k : Int) (v : List Nat) : Option (List Nat) :=
  if 0 ≤ k ∧ k.toNat * 32 + 32 ≤ a.length ∧ v.length = 32 then
    some (a.take (k.toNat * 32) ++ v ++ a.drop (k.toNat * 32 + 32))
  else none

/-- The instruction `vpaddb`: the bytes of two registers are added lane by lane, each
sum modulo 256. -/
def vpaddb (a b : List Nat) : List Nat := List.zipWith (fun u v => (u + v) % 256) a b

/-- The 16 instructions `vpaddb` of one support entry of `multiply_avx2`: the register
`vec_x r` receives the 32 bytes of `y` at `off + r * 32`, for `r = 0, …, 15`. The 16
registers are the entries of `regs`. -/
def avx2_accumulate (y : List Nat) (off : Int) (regs : List (List Nat)) :
    Option (List (List Nat)) :=
  forUpTo 16 (fun r regs => do
    let v ← load256 y (off + (r : Int) * 32)
    let a ← regs[r]?
    some (regs.set r (vpaddb a v))) regs

/-- One execution of the body of the loop of `multiply_avx2` at the loop variable `i`:
the 16 registers are cleared (`vpxor`), every support entry `x[j]` adds the 512 bytes
of `y` from `off = x[j] + i * 32`, and the registers are stored to
`((__m256i *)z)[i], …, ((__m256i *)z)[i + 15]`. -/
def avx2_chunk (block_weight : Nat) (x : List Int) (y : List Nat) (i : Int)
    (z : List Nat) : Option (List Nat) := do
  let regs ← forUpTo block_weight (fun j regs => do
    let xj ← x[j]?
    avx2_accumulate y (xj + i * 32) regs) (List.replicate 16 (List.replicate 32 0))
  forUpTo 16 (fun r z => do
    let v ← regs[r]?
    store256 z (i + (r : Int)) v) z

/-- The function `multiply_avx2`: the loop
`for (i = 0; i < block_length / 32; i += 16)`, whose `c`-th execution has `i = 16 * c`. -/
def multiply_avx2 (block_length : Int) (block_weight : Nat) (x : List Int)
    (y z : List Nat) : Option (List Nat) :=
  forUpTo ((block_length.tdiv 32 + 15).tdiv 16).toNat
    (fun c z => avx2_chunk block_weight x y (16 * (c : Int)) z) z

/-- The function `compute_counters` of the AVX build: `multiply_avx2` is called with the
column supports on the duplicated syndrome, with the padded length
`AVX_PADDING(BLOCK_LENGTH * 8 * sizeof(bit_t)) / 8`. -/
def compute_counters_avx (P : Params) (columns _rows : List (List Int)) (checks : List Nat)
    (counters : List (List Nat)) : Option (List Nat × List (List Nat)) := do
  let checks ← memcpy_upper checks P.BLOCK_LENGTH
  let counters ← forUpTo INDEX (fun i counters => do
    let c ← counters[i]?
    let col ← columns[i]?
    let c ← multiply_avx2 ((AVX_PADDING (P.BLOCK_LENGTH * 8 * 1) / 8 : Nat) : Int)
      P.BLOCK_WEIGHT col checks c
    some (counters.set i c)) counters
  some (checks, counters)

/-- The padded form in the words of the specification: with the operand duplicated to
length `2N`, iterate `i` over `[0, N)` and for each support index `j < W` add
`y2[x[j] + i]` in a single pass. The sums are bytes, as the entries of a dense vector
are. -/
def single_pass (N W : Nat) (x : List Int) (y2 : List Nat) : List Nat :=
  (List.range N).map (fun i : Nat =>
    (List.range W).foldl
      (fun acc j => (acc + y2.getD (x.getD j 0 + (i : Int)).toNat 0) % 256) 0)

/-! ## Basic facts on the memory model -/

theorem rd_natCast {α : Type} (a : List α) (n : Nat) : rd a (n : Int) = a[n]? := by
  simp [rd]

theorem rd_add_natCast {α : Type} (a : List α) (m n : Nat) :
    rd a ((m : Int) + (n : Int)) = a[m + n]? := by
  rw [← Int.natCast_add, rd_natCast]

theorem wr_natCast {α : Type} (a : List α) (n : Nat) (v : α) (h : n < a.length) :
    wr a (n : Int) v = some (a.set n v) := by
  simp [wr, h]

theorem wr_add_natCast {α : Type} (a : List α) (m n : Nat) (v : α) (h : m + n < a.length) :
    wr a ((m : Int) + (n : Int)) v = some (a.set (m + n) v) := by
  rw [← Int.natCast_add, wr_natCast _ _ _ h]

theorem getD_set_eq_ite (a : List Nat) (i j v : Nat) (h : i < a.length) :
    (a.set i v).getD j 0 = if i = j then v else a.getD j 0 := by
  simp only [List.getD_eq_getElem?_getD, List.getElem?_set]
  split <;> simp [h]

/-- Effect of the inner loop of `multiply` / `multiply_mod2` on one segment whose
source and destination ranges lie inside the buffers. -/
theorem forUpTo_segment (op : Nat → Nat → Nat) (y : List Nat) (zoff yoff : Nat) :
    ∀ (n : Nat) (z : List Nat), zoff + n ≤ z.length → yoff + n ≤ y.length →
    ∃ z', forUpTo n (fun i z => do
        let a ← rd z ((zoff : Int) + i)
        let b ← rd y ((yoff : Int) + i)
        wr z ((zoff : Int) + i) (op a b)) z = some z' ∧ z'.length = z.length ∧
      ∀ j, z'.getD j 0 =
        if zoff ≤ j ∧ j < zoff + n then op (z.getD j 0) (y.getD (j - zoff + yoff) 0)
        else z.getD j 0 := by
  intro n
  induction n with
  | zero => intro z _ _; exact ⟨z, rfl, rfl, fun j => by rw [if_neg (by omega)]⟩
  | succ n ih =>
    intro z hz hy
    obtain ⟨z1, h1, hl1, hg1⟩ := ih z (by omega) (by omega)
    have hzn : zoff + n < z1.length := by omega
    have hyn : yoff + n < y.length := by omega
    refine ⟨z1.set (zoff + n) (op (z1.getD (zoff + n) 0) (y.getD (yoff + n) 0)), ?_, ?_, ?_⟩
    · simp only [forUpTo, h1, Option.some_bind]
      rw [rd_add_natCast, rd_add_natCast]
      simp only [List.getElem?_eq_getElem hzn, List.getElem?_eq_getElem hyn, Option.bind_eq_bind,
        Option.some_bind]
      rw [wr_add_natCast _ _ _ _ hzn]
      simp [List.getD_eq_getElem?_getD, List.getElem?_eq_getElem hzn,
        List.getElem?_eq_getElem hyn]
    · simp [hl1]
    · intro j
      rw [getD_set_eq_ite _ _ _ _ hzn]
      by_cases hj : zoff + n = j
      · subst hj
        rw [hg1]
        simp
        rw [Nat.add_comm yoff n]
      · rw [if_neg hj, hg1]
        by_cases h2 : zoff ≤ j ∧ j < zoff + n
        · rw [if_pos h2, if_pos ⟨h2.1, by omega⟩]
        · rw [if_neg h2, if_neg (by omega)]


theorem run_segment_spec (op : Nat → Nat → Nat) (y z : List Nat) (q : mult_t)
    (hz : 0 ≤ q.z) (hy : 0 ≤ q.y) (hl : 0 ≤ q.len)
    (hzl : q.z + q.len ≤ z.length) (hyl : q.y + q.len ≤ y.length) :
    ∃ z', run_segment op y z q = some z' ∧ z'.length = z.length ∧
      ∀ j, z'.getD j 0 = segStep op y j (z.getD j 0) q := by
  obtain ⟨zo, hzo⟩ := Int.eq_ofNat_of_zero_le hz
  obtain ⟨yo, hyo⟩ := Int.eq_ofNat_of_zero_le hy
  obtain ⟨n, hn⟩ := Int.eq_ofNat_of_zero_le hl
  obtain ⟨z', h1, h2, h3⟩ := forUpTo_segment op y zo yo n z (by omega) (by omega)
  refine ⟨z', ?_, h2, ?_⟩
  · simp only [run_segment, hzo, hyo, hn, Int.toNat_ofNat]
    exact h1
  · intro j
    rw [h3 j]
    simp only [segStep, hzo, hyo, hn]
    by_cases h : zo ≤ j ∧ j < zo + n
    · rw [if_pos h, if_pos (by omega)]
      congr 2
      omega
    · rw [if_neg h, if_neg (by omega)]

theorem run_queue_spec (op : Nat → Nat → Nat) (y : List Nat) :
    ∀ (qs : List mult_t) (z : List Nat),
    (∀ q ∈ qs, 0 ≤ q.z ∧ 0 ≤ q.y ∧ 0 ≤ q.len ∧ q.z + q.len ≤ z.length ∧
      q.y + q.len ≤ y.length) →
    ∃ z', run_queue op y qs z = some z' ∧ z'.length = z.length ∧
      ∀ j, z'.getD j 0 = qs.foldl (segStep op y j) (z.getD j 0) := by
  intro qs
  induction qs with
  | nil => intro z _; exact ⟨z, rfl, rfl, fun _ => rfl⟩
  | cons q qs ih =>
    intro z hv
    obtain ⟨h1, h2, h3, h4, h5⟩ := hv q (List.mem_cons_self _ _)
    obtain ⟨z1, e1, l1, g1⟩ := run_segment_spec op y z q h1 h2 h3 h4 h5
    obtain ⟨z2, e2, l2, g2⟩ := ih z1 (fun q' hq' => by
      rw [l1]; exact hv q' (List.mem_cons_of_mem _ hq'))
    refine ⟨z2, ?_, by rw [l2, l1], ?_⟩
    · simp only [run_queue, List.foldlM_cons, e1, Option.bind_eq_bind, Option.some_bind]
      exact e2
    · intro j
      rw [g2 j, g1 j, List.foldl_cons]

theorem mult_queue_spec (block_length : Int) (x : List Int) :
    ∀ (W : Nat), W ≤ x.length →
    mult_queue block_length W x =
      some ((x.take W).map (fun xk => ⟨0, xk, block_length - xk⟩),
            (x.take W).map (fun xk => ⟨block_length - xk, 0, xk⟩)) := by
  intro W
  induction W with
  | zero => intro _; simp [mult_queue, forUpTo]
  | succ n ih =>
    intro h
    have hn : n < x.length := by omega
    show (mult_queue block_length n x).bind _ = _
    rw [ih (by omega)]
    simp only [Option.some_bind, List.getElem?_eq_getElem hn, bind, Option.bind,
      List.take_succ, Option.toList, List.map_append, List.map_cons, List.map_nil]


theorem foldl_ite_filter {α β : Type} (f : α → β → α) (p : β → Bool) :
    ∀ (l : List β) (a : α),
    l.foldl (fun acc x => if p x then f acc x else acc) a = (l.filter p).foldl f a := by
  intro l
  induction l with
  | nil => intro a; rfl
  | cons x l ih =>
    intro a
    by_cases h : p x
    · simp [List.filter_cons, h, ih]
    · simp [List.filter_cons, h, ih]

/-- Executing first all the "upper" segments and then all the "lower" ones adds, at
every index, one term per support entry. -/
theorem foldl_split_ranges {β : Type} (f : Nat → β → Nat) (hf : RightCommutative f)
    (p : β → Bool) (l : List β) (a : Nat) :
    l.foldl (fun acc x => if p x then acc else f acc x)
      (l.foldl (fun acc x => if p x then f acc x else acc) a) = l.foldl f a := by
  have h1 := foldl_ite_filter f p l a
  have h2 := foldl_ite_filter f (fun x => !p x) l ((l.filter p).foldl f a)
  have h3 : (fun (acc : Nat) x => if p x then acc else f acc x) =
      (fun acc x => if (!p x) = true then f acc x else acc) := by
    funext acc x
    cases p x <;> simp
  rw [h1, h3, h2, ← List.foldl_append]
  exact List.Perm.foldl_eq (List.filter_append_perm p l) a

theorem cyc_of_le (N : Nat) (y : List Nat) (j : Nat) (c : Int) (h0 : 0 ≤ c) (hc : c ≤ j)
    (hj : j < N) : cyc N y ((j : Int) - c) = y.getD ((j : Int) - c).toNat 0 := by
  unfold cyc
  rw [Int.emod_eq_of_lt (by omega) (by omega)]

theorem cyc_of_gt (N : Nat) (y : List Nat) (j : Nat) (c : Int) (hc : (j : Int) < c)
    (hN : c < N) : cyc N y ((j : Int) - c) = y.getD ((j : Int) - c + N).toNat 0 := by
  unfold cyc
  have : ((j : Int) - c) % (N : Int) = (j : Int) - c + N := by
    rw [← Int.add_mul_emod_self (b := 1), Int.one_mul]
    exact Int.emod_eq_of_lt (by omega) (by omega)
  rw [this]

/-- Common specification of `multiply` and `multiply_mod2`: each destination entry
in `[0, N)` receives one term `y[(j - x[k]) mod N]` per support entry; the rest of
the destination buffer is untouched. -/
theorem mult_generic (op : Nat → Nat → Nat) (hop : RightCommutative op)
    (N W : Nat) (x : List Int) (y z : List Nat)
    (hW : W ≤ x.length) (hx : ∀ c ∈ x.take W, 0 ≤ c ∧ c < (N : Int))
    (hy : N ≤ y.length) (hz : N ≤ z.length) :
    ∃ z', ((mult_queue (N : Int) W x).bind
        (fun q => run_queue op y (q.1 ++ q.2) z)) = some z' ∧ z'.length = z.length ∧
      ∀ j, z'.getD j 0 = if j < N then
          (x.take W).foldl (fun acc xk => op acc (cyc N y ((j : Int) - xk))) (z.getD j 0)
        else z.getD j 0 := by
  rw [mult_queue_spec _ _ _ hW, Option.some_bind]
  obtain ⟨z', h1, h2, h3⟩ := run_queue_spec op y
    ((x.take W).map (fun xk => (⟨0, xk, (N : Int) - xk⟩ : mult_t)) ++
      (x.take W).map (fun xk => (⟨(N : Int) - xk, 0, xk⟩ : mult_t))) z (by
      intro q hq
      rw [List.mem_append, List.mem_map, List.mem_map] at hq
      rcases hq with ⟨c, hc, rfl⟩ | ⟨c, hc, rfl⟩
      · have := hx c hc
        simp only
        omega
      · have := hx c hc
        simp only
        omega)
  refine ⟨z', h1, h2, fun j => ?_⟩
  rw [h3 j, List.foldl_append, List.foldl_map, List.foldl_map]
  by_cases hj : j < N
  · rw [if_pos hj]
    have hA : ∀ (a : Nat), ∀ c ∈ x.take W,
        segStep op y j a (⟨0, c, (N : Int) - c⟩ : mult_t) =
          (fun acc xk => if decide (xk ≤ (j : Int)) then
            (fun acc xk => op acc (cyc N y ((j : Int) - xk))) acc xk else acc) a c := by
      intro a c hc
      have := hx c hc
      simp only [segStep, decide_eq_true_eq]
      by_cases hcj : c ≤ (j : Int)
      · rw [if_pos ⟨hcj, by omega⟩, if_pos hcj, cyc_of_le N y j c this.1 hcj hj]
        simp
      · rw [if_neg (fun h => hcj h.1), if_neg hcj]
    have hB : ∀ (a : Nat), ∀ c ∈ x.take W,
        segStep op y j a (⟨(N : Int) - c, 0, c⟩ : mult_t) =
          (fun acc xk => if decide (xk ≤ (j : Int)) then acc else
            (fun acc xk => op acc (cyc N y ((j : Int) - xk))) acc xk) a c := by
      intro a c hc
      have := hx c hc
      simp only [segStep, decide_eq_true_eq]
      by_cases hcj : c ≤ (j : Int)
      · rw [if_neg (by omega), if_pos hcj]
      · rw [if_pos (by omega), if_neg hcj, cyc_of_gt N y j c (by omega) this.2]
        congr 2
        omega
    rw [List.foldl_ext _ _ _ hA, List.foldl_ext _ _ _ hB]
    exact foldl_split_ranges (fun acc xk => op acc (cyc N y ((j : Int) - xk)))
      ⟨fun a b c => hop.right_comm a _ _⟩ (fun xk => decide (xk ≤ (j : Int))) _ _
  · rw [if_neg hj]
    have hA : ∀ (a : Nat), ∀ c ∈ x.take W,
        segStep op y j a (⟨0, c, (N : Int) - c⟩ : mult_t) = (fun acc _ => acc) a c := by
      intro a c hc
      have := hx c hc
      simp only [segStep]
      rw [if_neg (by omega)]
    have hB : ∀ (a : Nat), ∀ c ∈ x.take W,
        segStep op y j a (⟨(N : Int) - c, 0, c⟩ : mult_t) = (fun acc _ => acc) a c := by
      intro a c hc
      have := hx c hc
      simp only [segStep]
      rw [if_neg (by omega)]
    rw [List.foldl_ext _ _ _ hA, List.foldl_ext _ _ _ hB]
    simp


theorem foldl_xor_take (g : Int → Nat) (x : List Int) :
    ∀ (W : Nat) (a : Nat), W ≤ x.length →
    (x.take W).foldl (fun acc xk => acc ^^^ g xk) a =
      a ^^^ xorUpTo W (fun k => g (x.getD k 0)) := by
  intro W
  induction W with
  | zero => intro a _; simp [xorUpTo]
  | succ n ih =>
    intro a h
    have hn : n < x.length := by omega
    rw [List.take_succ, List.foldl_append, ih a (by omega)]
    simp [xorUpTo, List.getElem?_eq_getElem hn, Nat.xor_assoc]

theorem foldl_add_take (g : Int → Nat) (x : List Int) :
    ∀ (W : Nat) (a : Nat), a < 256 → W ≤ x.length →
    (x.take W).foldl (fun acc xk => (acc + g xk) % 256) a =
      (a + sumUpTo W (fun k => g (x.getD k 0))) % 256 := by
  intro W
  induction W with
  | zero => intro a ha _; simp [sumUpTo]; omega
  | succ n ih =>
    intro a ha h
    have hn : n < x.length := by omega
    rw [List.take_succ, List.foldl_append, ih a ha (by omega)]
    simp only [List.getElem?_eq_getElem hn, Option.toList, List.foldl_cons, List.foldl_nil,
      sumUpTo, List.getD_eq_getElem?_getD, Option.getD_some]
    omega

theorem getD_lt_of_forall_mem (z : List Nat) (b : Nat) (hb : 0 < b) (h : ∀ v ∈ z, v < b)
    (j : Nat) : z.getD j 0 < b := by
  rw [List.getD_eq_getElem?_getD]
  by_cases hj : j < z.length
  · rw [List.getElem?_eq_getElem hj]
    exact h _ (List.getElem_mem _)
  · rw [List.getElem?_eq_none (by omega)]
    exact hb

/-- Specification of `multiply_mod2` on buffers of at least `N` bytes. -/
theorem multiply_mod2_general (N W : Nat) (x : List Int) (y z : List Nat)
    (hW : W ≤ x.length) (hx : ∀ c ∈ x.take W, 0 ≤ c ∧ c < (N : Int))
    (hy : N ≤ y.length) (hz : N ≤ z.length) :
    ∃ z', multiply_mod2 (N : Int) W x y z = some z' ∧ z'.length = z.length ∧
      ∀ j, z'.getD j 0 = if j < N then
          z.getD j 0 ^^^ xorUpTo W (fun k => cyc N y ((j : Int) - x.getD k 0))
        else z.getD j 0 := by
  obtain ⟨z', h1, h2, h3⟩ := mult_generic (fun a b => a ^^^ b)
    ⟨fun a b c => by simp only [Nat.xor_assoc, Nat.xor_comm b c]⟩ N W x y z hW hx hy hz
  refine ⟨z', h1, h2, fun j => ?_⟩
  rw [h3 j]
  split
  · exact foldl_xor_take (fun xk => cyc N y ((j : Int) - xk)) x W _ hW
  · rfl

/-- Specification of `multiply` on buffers of at least `N` bytes. -/
theorem multiply_general (N W : Nat) (x : List Int) (y z : List Nat)
    (hW : W ≤ x.length) (hx : ∀ c ∈ x.take W, 0 ≤ c ∧ c < (N : Int))
    (hy : N ≤ y.length) (hz : N ≤ z.length) (hzb : ∀ j, j < N → z.getD j 0 < 256) :
    ∃ z', multiply (N : Int) W x y z = some z' ∧ z'.length = z.length ∧
      ∀ j, z'.getD j 0 = if j < N then
          (z.getD j 0 + sumUpTo W (fun k => cyc N y ((j : Int) - x.getD k 0))) % 256
        else z.getD j 0 := by
  obtain ⟨z', h1, h2, h3⟩ := mult_generic (fun a b => (a + b) % 256)
    ⟨fun a b c => by show ((a + b) % 256 + c) % 256 = ((a + c) % 256 + b) % 256; omega⟩
    N W x y z hW hx hy hz
  refine ⟨z', h1, h2, fun j => ?_⟩
  rw [h3 j]
  by_cases hj : j < N
  · rw [if_pos hj, if_pos hj]
    exact foldl_add_take (fun xk => cyc N y ((j : Int) - xk)) x W _ (hzb j hj) hW
  · rw [if_neg hj, if_neg hj]

/-! ## `columns_to_rows` -/

/-- Effect of the filling loop of `columns_to_rows`: entry `k = n + 1` of the row
receives `N - column[a - n]`. -/
theorem forUpTo_fill (N : Int) (column : List Int) (a : Nat) (b : Int) (hb : b = (a : Int)) :
    ∀ (n : Nat) (row : List Int), n ≤ a → a ≤ column.length → n < row.length →
    ∃ row', forUpTo n (fun (i : Nat) (row : List Int) => do
        let c ← rd column (b - ((i : Int) + 1))
        wr row ((i : Int) + 1) (-c + N)) row = some row' ∧ row'.length = row.length ∧
      ∀ j, row'[j]? = if 1 ≤ j ∧ j ≤ n then (column[a - j]?).map (fun c => -c + N)
        else row[j]? := by
  intro n
  induction n with
  | zero => intro row _ _ _; exact ⟨row, rfl, rfl, fun j => by rw [if_neg (by omega)]⟩
  | succ n ih =>
    intro row h1 h2 h3
    obtain ⟨r1, e1, l1, g1⟩ := ih row (by omega) h2 (by omega)
    have hidx : b - ((n : Int) + 1) = ((a - (n + 1) : Nat) : Int) := by omega
    have hk : (n : Int) + 1 = ((n + 1 : Nat) : Int) := by omega
    have hlt : a - (n + 1) < column.length := by omega
    refine ⟨r1.set (n + 1) (-column[a - (n + 1)] + N), ?_, by simp [l1], ?_⟩
    · simp only [forUpTo, e1, Option.some_bind]
      rw [hidx, hk, rd_natCast, List.getElem?_eq_getElem hlt]
      simp only [Option.bind_eq_bind, Option.some_bind]
      rw [wr_natCast _ _ _ (by omega)]
    · intro j
      rw [List.getElem?_set]
      by_cases hj : n + 1 = j
      · subst hj
        rw [if_pos rfl, if_pos (by omega), if_pos (by omega), List.getElem?_eq_getElem hlt]
        rfl
      · rw [if_neg hj, g1 j]
        by_cases h : 1 ≤ j ∧ j ≤ n
        · rw [if_pos h, if_pos (by omega)]
        · rw [if_neg h, if_neg (by omega)]

theorem columns_to_rows_block_eq (P : Params) (column row : List Int)
    (hW : 0 < P.BLOCK_WEIGHT) (hc : column.length = P.BLOCK_WEIGHT)
    (hr : row.length = P.BLOCK_WEIGHT) :
    columns_to_rows_block P column row = some (reflect P.BLOCK_LENGTH column) := by
  have h0 : 0 < column.length := by omega
  have hW1 : (P.BLOCK_WEIGHT : Int) - 1 = ((P.BLOCK_WEIGHT - 1 : Nat) : Int) := by omega
  have hlast : P.BLOCK_WEIGHT - 1 < column.length := by omega
  unfold columns_to_rows_block reflect
  have e0 : rd column 0 = some column[0] := by
    have := rd_natCast column 0
    simpa [List.getElem?_eq_getElem h0] using this
  rw [e0, List.getElem?_eq_getElem h0]
  simp only [Option.bind_eq_bind, Option.some_bind, Option.some.injEq]
  by_cases hz : column[0] = 0
  · rw [if_pos hz, if_pos hz]
    have ew : wr row 0 0 = some (row.set 0 0) := by
      have := wr_natCast row 0 0 (by omega)
      simpa using this
    rw [ew]
    simp only [Option.some_bind]
    obtain ⟨r', e1, l1, g1⟩ := forUpTo_fill (P.BLOCK_LENGTH : Int) column P.BLOCK_WEIGHT
      ((P.BLOCK_WEIGHT : Int) + 1 - 1) (by omega)
      (P.BLOCK_WEIGHT - 1) (row.set 0 0) (by omega) (by omega)
      (by rw [List.length_set]; omega)
    simp only [Option.bind_eq_bind] at e1
    rw [e1]
    congr 1
    apply List.ext_getElem?
    intro j
    rw [g1 j]
    cases j with
    | zero =>
      rw [if_neg (by omega), List.getElem?_set, if_pos rfl, if_pos (by omega),
        List.getElem?_cons_zero]
    | succ j =>
      rw [List.getElem?_cons_succ, List.getElem?_map]
      by_cases hj : j + 1 ≤ P.BLOCK_WEIGHT - 1
      · rw [if_pos ⟨by omega, hj⟩, List.getElem?_reverse (by simp; omega), ← List.drop_one,
          List.getElem?_drop]
        simp only [List.length_drop]
        congr 2
        omega
      · rw [if_neg (by omega), List.getElem?_eq_none (by simp; omega),
          List.getElem?_eq_none (by simp; omega)]
        rfl
  · rw [if_neg hz, if_neg hz]
    rw [hW1, rd_natCast, List.getElem?_eq_getElem hlast]
    simp only [Option.some_bind]
    have ew : wr row 0 (-column[P.BLOCK_WEIGHT - 1] + (P.BLOCK_LENGTH : Int)) =
        some (row.set 0 (-column[P.BLOCK_WEIGHT - 1] + (P.BLOCK_LENGTH : Int))) := by
      have := wr_natCast row 0 (-column[P.BLOCK_WEIGHT - 1] + (P.BLOCK_LENGTH : Int)) (by omega)
      simpa using this
    rw [ew]
    simp only [Option.some_bind]
    obtain ⟨r', e1, l1, g1⟩ := forUpTo_fill (P.BLOCK_LENGTH : Int) column (P.BLOCK_WEIGHT - 1)
      ((P.BLOCK_WEIGHT : Int) + 0 - 1) (by omega)
      (P.BLOCK_WEIGHT - 1) (row.set 0 (-column[P.BLOCK_WEIGHT - 1] + (P.BLOCK_LENGTH : Int)))
      (by omega) (by omega) (by rw [List.length_set]; omega)
    simp only [Option.bind_eq_bind] at e1
    rw [e1]
    congr 1
    apply List.ext_getElem?
    intro j
    rw [g1 j, List.getElem?_map]
    by_cases hj : j ≤ P.BLOCK_WEIGHT - 1
    · rw [List.getElem?_reverse (by omega)]
      by_cases hj0 : j = 0
      · subst hj0
        rw [if_neg (by omega), List.getElem?_set, if_pos rfl, if_pos (by omega), hc,
          List.getElem?_eq_getElem (by omega)]
        rfl
      · rw [if_pos ⟨by omega, hj⟩, hc]
    · rw [if_neg (by omega), List.getElem?_eq_none (by simp; omega),
        List.getElem?_eq_none (by simp; omega)]
      rfl

theorem reflect_cons_zero (N : Nat) (t : List Int) :
    reflect N (0 :: t) = 0 :: (t.reverse.map (fun c => -c + (N : Int))) := by
  simp [reflect]

theorem reflect_cons_ne (N : Nat) (c : Int) (t : List Int) (h : c ≠ 0) :
    reflect N (c :: t) = (c :: t).reverse.map (fun c => -c + (N : Int)) := by
  simp [reflect, h]

theorem reflect_length (N : Nat) (column : List Int) (h : column ≠ []) :
    (reflect N column).length = column.length := by
  cases column with
  | nil => exact absurd rfl h
  | cons c t =>
    by_cases hc : c = 0
    · subst hc; rw [reflect_cons_zero]; simp
    · rw [reflect_cons_ne N c t hc]; simp

theorem reflect_mem (N W : Nat) (column : List Int) (hv : ValidColumn N W column) (v : Int) :
    v ∈ reflect N column ↔ ∃ c ∈ column, v = ((N : Int) - c) % (N : Int) := by
  obtain ⟨_, hb, hs⟩ := hv
  have key : ∀ c ∈ column, c ≠ 0 → ((N : Int) - c) % (N : Int) = -c + (N : Int) := by
    intro c hc h0
    have := hb c hc
    rw [Int.emod_eq_of_lt (by omega) (by omega)]
    omega
  cases column with
  | nil => simp [reflect]
  | cons c t =>
    rw [List.pairwise_cons] at hs
    by_cases hc : c = 0
    · subst hc
      rw [reflect_cons_zero]
      simp only [List.mem_cons, List.mem_map, List.mem_reverse]
      constructor
      · rintro (h | ⟨a, ha, rfl⟩)
        · exact ⟨0, Or.inl rfl, by simp [h]⟩
        · exact ⟨a, Or.inr ha, by
            rw [key a (List.mem_cons_of_mem _ ha) (by have := hs.1 a ha; omega)]⟩
      · rintro ⟨a, (rfl | ha), rfl⟩
        · left; simp
        · right
          exact ⟨a, ha, by
            rw [key a (List.mem_cons_of_mem _ ha) (by have := hs.1 a ha; omega)]⟩
    · rw [reflect_cons_ne N c t hc]
      simp only [List.mem_map, List.mem_reverse]
      have hpos : ∀ a ∈ c :: t, a ≠ 0 := by
        intro a ha
        have h0 := (hb c (List.mem_cons_self _ _)).1
        rcases List.mem_cons.1 ha with rfl | ha
        · exact hc
        · have := hs.1 a ha; omega
      constructor
      · rintro ⟨a, ha, rfl⟩
        exact ⟨a, ha, (key a ha (hpos a ha)).symm⟩
      · rintro ⟨a, ha, rfl⟩
        exact ⟨a, ha, (key a ha (hpos a ha)).symm⟩

theorem reflect_bounds (N W : Nat) (column : List Int) (hv : ValidColumn N W column) :
    ∀ v ∈ reflect N column, 0 ≤ v ∧ v < (N : Int) := by
  intro v hvm
  obtain ⟨c, hc, rfl⟩ := (reflect_mem N W column hv v).1 hvm
  have := hv.2.1 c hc
  have hN : (0 : Int) < N := by omega
  exact ⟨Int.emod_nonneg _ (by omega), Int.emod_lt_of_pos _ hN⟩

theorem reflect_sorted (N W : Nat) (column : List Int) (hv : ValidColumn N W column) :
    (reflect N column).Pairwise (· < ·) := by
  obtain ⟨_, hb, hs⟩ := hv
  have hrev : ∀ l : List Int, l.Pairwise (· < ·) →
      (l.reverse.map (fun c => -c + (N : Int))).Pairwise (· < ·) := by
    intro l hl
    apply List.Pairwise.map (R := fun a b => b < a)
    · intro a b hab; omega
    · exact List.pairwise_reverse.2 hl
  cases column with
  | nil => simp [reflect]
  | cons c t =>
    by_cases hc : c = 0
    · subst hc
      rw [reflect_cons_zero, List.pairwise_cons]
      rw [List.pairwise_cons] at hs
      refine ⟨?_, hrev t hs.2⟩
      intro a ha
      simp only [List.mem_map, List.mem_reverse] at ha
      obtain ⟨b, hbm, rfl⟩ := ha
      have := hb b (List.mem_cons_of_mem _ hbm)
      omega
    · rw [reflect_cons_ne N c t hc]
      exact hrev _ hs

theorem list_eq_pair {α : Type} (l : List α) (h : l.length = 2) :
    ∃ a b, l = [a, b] := by
  match l, h with
  | [a, b], _ => exact ⟨a, b, rfl⟩

theorem columns_to_rows_pair (P : Params) (c0 c1 r0 r1 : List Int)
    (hW : 0 < P.BLOCK_WEIGHT) (hc0 : c0.length = P.BLOCK_WEIGHT)
    (hc1 : c1.length = P.BLOCK_WEIGHT) (hr0 : r0.length = P.BLOCK_WEIGHT)
    (hr1 : r1.length = P.BLOCK_WEIGHT) :
    columns_to_rows P [c0, c1] [r0, r1] =
      some [reflect P.BLOCK_LENGTH c0, reflect P.BLOCK_LENGTH c1] := by
  simp [columns_to_rows, INDEX, forUpTo, columns_to_rows_block_eq P c0 r0 hW hc0 hr0,
    columns_to_rows_block_eq P c1 r1 hW hc1 hr1]

theorem reflect_valid (N W : Nat) (column : List Int)
    (hv : ValidColumn N W column) : ValidColumn N W (reflect N column) := by
  refine ⟨?_, reflect_bounds N W column hv, reflect_sorted N W column hv⟩
  rw [← hv.1]
  cases column with
  | nil => simp [reflect]
  | cons c t => exact reflect_length N _ (by simp)

/-! ## `single_counter` and `single_flip` -/

theorem getD_eq_of_lt {α : Type} (l : List α) (d : α) (k : Nat) (h : k < l.length) :
    l[k]? = some (l.getD k d) := by
  rw [List.getD_eq_getElem?_getD, List.getElem?_eq_getElem h]
  rfl

theorem rd_of_bounds (s : List Nat) (p : Int) (h0 : 0 ≤ p) (h1 : p < s.length) :
    rd s p = some (s.getD p.toNat 0) := by
  unfold rd
  rw [if_pos h0]
  exact getD_eq_of_lt s 0 _ (by omega)

theorem wr_of_bounds (s : List Nat) (p : Int) (v : Nat) (h0 : 0 ≤ p) (h1 : p < s.length) :
    wr s p v = some (s.set p.toNat v) := by
  unfold wr
  rw [if_pos ⟨h0, by omega⟩]

/-- Monotone supports, in index form. -/
theorem sorted_getD_le (col : List Int) (hs : col.Pairwise (· ≤ ·)) (a b : Nat)
    (hab : a ≤ b) (hb : b < col.length) : col.getD a 0 ≤ col.getD b 0 := by
  rcases Nat.eq_or_lt_of_le hab with rfl | hlt
  · exact le_refl _
  · have := (List.pairwise_iff_getElem.1 hs) a b (by omega) hb hlt
    rw [List.getD_eq_getElem _ _ (by omega), List.getD_eq_getElem _ _ hb]
    exact this

theorem getD_bounds (N : Nat) (col : List Int) (hb : ∀ c ∈ col, 0 ≤ c ∧ c < (N : Int))
    (k : Nat) (hk : k < col.length) : 0 ≤ col.getD k 0 ∧ col.getD k 0 < (N : Int) := by
  rw [List.getD_eq_getElem _ _ hk]
  exact hb _ (List.getElem_mem _)

theorem cyc_nowrap (N : Nat) (s : List Nat) (p : Int) (h0 : 0 ≤ p) (h1 : p < N) :
    cyc N s p = s.getD p.toNat 0 := by
  unfold cyc
  rw [Int.emod_eq_of_lt h0 h1]

theorem cyc_wrap (N : Nat) (s : List Nat) (p : Int) (h0 : (N : Int) ≤ p) (h1 : p < 2 * N) :
    cyc N s p = s.getD (p - N).toNat 0 := by
  unfold cyc
  have : p % (N : Int) = p - N := by
    rw [Int.emod_eq_sub_self_emod]
    exact Int.emod_eq_of_lt (by omega) (by omega)
  rw [this]

theorem single_counter_loop2_spec (N : Nat) (col : List Int) (s : List Nat) (j : Int)
    (hb : ∀ c ∈ col, 0 ≤ c ∧ c < (N : Int)) (hj : j < N)
    (hs : N ≤ s.length) :
    ∀ (n l counter : Nat), l + n ≤ col.length →
      (∀ k, l ≤ k → k < l + n → (N : Int) ≤ j + col.getD k 0) →
      counter = sumUpTo l (fun k => cyc N s (j + col.getD k 0)) % 256 →
      single_counter_loop2 col s (j - N) n l counter =
        some (sumUpTo (l + n) (fun k => cyc N s (j + col.getD k 0)) % 256) := by
  intro n
  induction n with
  | zero => intro l counter _ _ hc; simp [single_counter_loop2, hc]
  | succ n ih =>
    intro l counter hl hw hc
    have hlt : l < col.length := by omega
    have hcb := getD_bounds N col hb l hlt
    have hwl := hw l (le_refl _) (by omega)
    unfold single_counter_loop2
    rw [getD_eq_of_lt col 0 l hlt]
    simp only [Option.bind_eq_bind, Option.some_bind]
    rw [rd_of_bounds s _ (by omega) (by omega)]
    simp only [Option.some_bind]
    rw [ih (l + 1) _ (by omega) (fun k h1 h2 => hw k (by omega) (by omega))]
    · rw [show l + 1 + n = l + (n + 1) by omega]
    · rw [hc]
      simp only [sumUpTo]
      rw [cyc_wrap N s _ hwl (by omega)]
      have : j - ↑N + col.getD l 0 = j + col.getD l 0 - ↑N := by omega
      rw [this]
      omega

theorem single_counter_loops_spec (P : Params) (col : List Int) (s : List Nat) (j : Int)
    (hlen : col.length = P.BLOCK_WEIGHT)
    (hb : ∀ c ∈ col, 0 ≤ c ∧ c < (P.BLOCK_LENGTH : Int)) (hsort : col.Pairwise (· ≤ ·))
    (hj0 : 0 ≤ j) (hj : j < P.BLOCK_LENGTH) (hs : P.BLOCK_LENGTH ≤ s.length) :
    ∀ (n l counter : Nat), l + n = P.BLOCK_WEIGHT →
      counter = sumUpTo l (fun k => cyc P.BLOCK_LENGTH s (j + col.getD k 0)) % 256 →
      (single_counter_loop1 P col s n l j counter).bind
        (fun r => single_counter_loop2 col s r.2.1 (P.BLOCK_WEIGHT - r.1) r.1 r.2.2) =
        some (sumUpTo P.BLOCK_WEIGHT
          (fun k => cyc P.BLOCK_LENGTH s (j + col.getD k 0)) % 256) := by
  intro n
  induction n with
  | zero =>
    intro l counter hl hc
    have : P.BLOCK_WEIGHT - l = 0 := by omega
    simp only [single_counter_loop1, Option.some_bind, this, single_counter_loop2]
    rw [hc, show l = P.BLOCK_WEIGHT by omega]
  | succ n ih =>
    intro l counter hl hc
    have hlt : l < col.length := by omega
    have hcb := getD_bounds _ col hb l hlt
    unfold single_counter_loop1
    rw [getD_eq_of_lt col 0 l hlt]
    simp only [Option.bind_eq_bind, Option.some_bind]
    by_cases hw : j + col.getD l 0 ≥ (P.BLOCK_LENGTH : Int)
    · rw [if_pos hw]
      simp only [Option.some_bind]
      rw [single_counter_loop2_spec P.BLOCK_LENGTH col s j hb hj hs (P.BLOCK_WEIGHT - l) l
        counter (by omega) ?_ hc]
      · rw [show l + (P.BLOCK_WEIGHT - l) = P.BLOCK_WEIGHT by omega]
      · intro k hk1 hk2
        have := sorted_getD_le col hsort l k hk1 (by omega)
        omega
    · rw [if_neg hw]
      rw [rd_of_bounds s _ (by omega) (by omega)]
      simp only [Option.some_bind]
      apply ih (l + 1) _ (by omega)
      rw [hc]
      simp only [sumUpTo]
      rw [cyc_nowrap _ s _ (by omega) (by omega)]
      omega

theorem sumUpTo_le (W : Nat) (f : Nat → Nat) (h : ∀ k, f k ≤ 1) : sumUpTo W f ≤ W := by
  induction W with
  | zero => simp [sumUpTo]
  | succ n ih => simp only [sumUpTo]; have := h n; omega

/-- Specification of `single_counter` on a buffer of at least `N` bytes. -/
theorem single_counter_general (P : Params) (col : List Int) (s : List Nat) (j : Int)
    (hlen : col.length = P.BLOCK_WEIGHT)
    (hb : ∀ c ∈ col, 0 ≤ c ∧ c < (P.BLOCK_LENGTH : Int)) (hsort : col.Pairwise (· ≤ ·))
    (hj0 : 0 ≤ j) (hj : j < P.BLOCK_LENGTH) (hs : P.BLOCK_LENGTH ≤ s.length) :
    single_counter P col j s =
      some (sumUpTo P.BLOCK_WEIGHT
        (fun k => cyc P.BLOCK_LENGTH s (j + col.getD k 0)) % 256) := by
  unfold single_counter
  exact single_counter_loops_spec P col s j hlen hb hsort hj0 hj hs P.BLOCK_WEIGHT 0 0
    (by omega) (by simp [sumUpTo])

theorem toggle_step (s0 : List Nat) (p : Int) (h0 : 0 ≤ p) (h1 : p < s0.length) :
    ((rd s0 p).bind fun v => wr s0 p (v ^^^ 1)) =
      some (s0.set p.toNat (s0.getD p.toNat 0 ^^^ 1)) := by
  rw [rd_of_bounds s0 p h0 h1, Option.some_bind, wr_of_bounds s0 p _ h0 h1]

theorem single_flip_loop2_spec (N : Nat) (col : List Int) (s : List Nat) (j : Int)
    (hb : ∀ c ∈ col, 0 ≤ c ∧ c < (N : Int)) (hj : j < N) (hs : N ≤ s.length) :
    ∀ (n l : Nat) (s0 : List Nat), l + n ≤ col.length →
      (∀ k, l ≤ k → k < l + n → (N : Int) ≤ j + col.getD k 0) →
      s0.length = s.length →
      (∀ i, s0.getD i 0 = s.getD i 0 ^^^ xorUpTo l (fun k => hit N j (col.getD k 0) i)) →
      ∃ s', single_flip_loop2 col (j - N) n l s0 = some s' ∧ s'.length = s.length ∧
        ∀ i, s'.getD i 0 =
          s.getD i 0 ^^^ xorUpTo (l + n) (fun k => hit N j (col.getD k 0) i) := by
  intro n
  induction n with
  | zero => intro l s0 _ _ hl hg; exact ⟨s0, rfl, hl, hg⟩
  | succ n ih =>
    intro l s0 hl hw hlen hg
    have hlt : l < col.length := by omega
    have hcb := getD_bounds N col hb l hlt
    have hwl := hw l (le_refl _) (by omega)
    unfold single_flip_loop2
    rw [getD_eq_of_lt col 0 l hlt]
    simp only [Option.bind_eq_bind, Option.some_bind]
    rw [rd_of_bounds s0 _ (by omega) (by omega)]
    simp only [Option.some_bind]
    rw [wr_of_bounds s0 _ _ (by omega) (by omega)]
    simp only [Option.some_bind]
    have hp : ((j + col.getD l 0) % (N : Int)).toNat = (j - ↑N + col.getD l 0).toNat := by
      have : (j + col.getD l 0) % (N : Int) = j + col.getD l 0 - N := by
        rw [Int.emod_eq_sub_self_emod]
        exact Int.emod_eq_of_lt (by omega) (by omega)
      rw [this]
      congr 1
      omega
    obtain ⟨s', e, l', g'⟩ := ih (l + 1)
      (s0.set (j - ↑N + col.getD l 0).toNat (s0.getD (j - ↑N + col.getD l 0).toNat 0 ^^^ 1))
      (by omega) (fun k h1 h2 => hw k (by omega) (by omega)) (by simp [hlen]) (by
        intro i
        rw [getD_set_eq_ite _ _ _ _ (by omega)]
        simp only [xorUpTo, hit, hp]
        by_cases hi : (j - ↑N + col.getD l 0).toNat = i
        · rw [if_pos hi, if_pos hi, ← hi, hg, Nat.xor_assoc]
          simp only [hit, hp]
        · rw [if_neg hi, if_neg hi, hg, Nat.xor_zero]
          simp only [hit, hp])
    refine ⟨s', e, l', ?_⟩
    rw [show l + (n + 1) = l + 1 + n by omega]
    exact g'


theorem single_flip_loops_spec (P : Params) (col : List Int) (s : List Nat) (j : Int)
    (hlen : col.length = P.BLOCK_WEIGHT)
    (hb : ∀ c ∈ col, 0 ≤ c ∧ c < (P.BLOCK_LENGTH : Int)) (hsort : col.Pairwise (· ≤ ·))
    (hj0 : 0 ≤ j) (hj : j < P.BLOCK_LENGTH) (hs : P.BLOCK_LENGTH ≤ s.length) :
    ∀ (n l : Nat) (s0 : List Nat), l + n = P.BLOCK_WEIGHT →
      s0.length = s.length →
      (∀ i, s0.getD i 0 =
        s.getD i 0 ^^^ xorUpTo l (fun k => hit P.BLOCK_LENGTH j (col.getD k 0) i)) →
      ∃ s', (single_flip_loop1 P col j n l s0).bind
          (fun r => single_flip_loop2 col r.2.1 (P.BLOCK_WEIGHT - r.1) r.1 r.2.2) = some s' ∧
        s'.length = s.length ∧
        ∀ i, s'.getD i 0 = s.getD i 0 ^^^
          xorUpTo P.BLOCK_WEIGHT (fun k => hit P.BLOCK_LENGTH j (col.getD k 0) i) := by
  intro n
  induction n with
  | zero =>
    intro l s0 hl hlen0 hg
    have : P.BLOCK_WEIGHT - l = 0 := by omega
    refine ⟨s0, ?_, hlen0, ?_⟩
    · simp only [single_flip_loop1, Option.some_bind, this, single_flip_loop2]
    · rw [show P.BLOCK_WEIGHT = l by omega]
      exact hg
  | succ n ih =>
    intro l s0 hl hlen0 hg
    have hlt : l < col.length := by omega
    have hcb := getD_bounds _ col hb l hlt
    unfold single_flip_loop1
    rw [getD_eq_of_lt col 0 l hlt]
    simp only [Option.bind_eq_bind, Option.some_bind]
    by_cases hw : j + col.getD l 0 ≥ (P.BLOCK_LENGTH : Int)
    · rw [if_pos hw]
      simp only [Option.some_bind]
      obtain ⟨s', e, l', g'⟩ := single_flip_loop2_spec P.BLOCK_LENGTH col s j hb hj hs
        (P.BLOCK_WEIGHT - l) l s0 (by omega) (by
          intro k hk1 hk2
          have := sorted_getD_le col hsort l k hk1 (by omega)
          omega) hlen0 hg
      refine ⟨s', e, l', ?_⟩
      rw [show l + (P.BLOCK_WEIGHT - l) = P.BLOCK_WEIGHT by omega] at g'
      exact g'
    · rw [if_neg hw]
      rw [rd_of_bounds s0 _ (by omega) (by omega)]
      simp only [Option.some_bind]
      rw [wr_of_bounds s0 _ _ (by omega) (by omega)]
      simp only [Option.some_bind]
      have hp : ((j + col.getD l 0) % (P.BLOCK_LENGTH : Int)).toNat = (j + col.getD l 0).toNat := by
        rw [Int.emod_eq_of_lt (by omega) (by omega)]
      apply ih (l + 1) _ (by omega) (by simp [hlen0])
      intro i
      rw [getD_set_eq_ite _ _ _ _ (by omega)]
      simp only [xorUpTo, hit, hp]
      by_cases hi : (j + col.getD l 0).toNat = i
      · rw [if_pos hi, if_pos hi, ← hi, hg, Nat.xor_assoc]
        simp only [hit, hp]
      · rw [if_neg hi, if_neg hi, hg, Nat.xor_zero]
        simp only [hit, hp]

/-- Specification of `single_flip` on a buffer of at least `N` bytes: entry `i` is
XORed with 1 once for every support entry `k` with `(j + col[k]) mod N = i`. -/
theorem single_flip_general (P : Params) (col : List Int) (s : List Nat) (j : Int)
    (hlen : col.length = P.BLOCK_WEIGHT)
    (hb : ∀ c ∈ col, 0 ≤ c ∧ c < (P.BLOCK_LENGTH : Int)) (hsort : col.Pairwise (· ≤ ·))
    (hj0 : 0 ≤ j) (hj : j < P.BLOCK_LENGTH) (hs : P.BLOCK_LENGTH ≤ s.length) :
    ∃ s', single_flip P col j s = some s' ∧ s'.length = s.length ∧
      ∀ i, s'.getD i 0 = s.getD i 0 ^^^
        xorUpTo P.BLOCK_WEIGHT (fun k => hit P.BLOCK_LENGTH j (col.getD k 0) i) := by
  unfold single_flip
  exact single_flip_loops_spec P col s j hlen hb hsort hj0 hj hs P.BLOCK_WEIGHT 0 s
    (by omega) rfl (fun i => by simp [xorUpTo])


theorem xorUpTo_indicator (p : Nat → Prop) [DecidablePred p] :
    ∀ n : Nat, (∀ a b, a < n → b < n → p a → p b → a = b) →
    xorUpTo n (fun k => if p k then 1 else 0) = if ∃ k, k < n ∧ p k then 1 else 0 := by
  intro n
  induction n with
  | zero => intro _; simp [xorUpTo]
  | succ n ih =>
    intro huniq
    simp only [xorUpTo]
    rw [ih (fun a b ha hb => huniq a b (by omega) (by omega))]
    by_cases hn : p n
    · have hno : ¬ ∃ k, k < n ∧ p k := by
        rintro ⟨k, hk, hpk⟩
        have := huniq k n (by omega) (by omega) hpk hn
        omega
      rw [if_neg hno, if_pos hn, if_pos ⟨n, by omega, hn⟩]
      rfl
    · rw [if_neg hn, Nat.xor_zero]
      by_cases hex : ∃ k, k < n ∧ p k
      · obtain ⟨k, hk, hpk⟩ := hex
        rw [if_pos ⟨k, hk, hpk⟩, if_pos ⟨k, by omega, hpk⟩]
      · rw [if_neg hex, if_neg]
        rintro ⟨k, hk, hpk⟩
        rcases Nat.lt_succ_iff_lt_or_eq.1 hk with h | h
        · exact hex ⟨k, h, hpk⟩
        · subst h; exact hn hpk

theorem emod_two_ranges (N : Nat) (x : Int) (h0 : 0 ≤ x) (h1 : x < 2 * N) :
    x % (N : Int) = if x < N then x else x - N := by
  split
  · exact Int.emod_eq_of_lt h0 (by omega)
  · rw [Int.emod_eq_sub_self_emod]
    exact Int.emod_eq_of_lt (by omega) (by omega)

theorem strict_getD_lt (col : List Int) (hs : col.Pairwise (· < ·)) (a b : Nat)
    (hab : a < b) (hb : b < col.length) : col.getD a 0 < col.getD b 0 := by
  have := (List.pairwise_iff_getElem.1 hs) a b (by omega) hb hab
  rw [List.getD_eq_getElem _ _ (by omega), List.getD_eq_getElem _ _ hb]
  exact this

/-- The `W` indices `(j + col[k]) mod N` of a valid column are pairwise distinct. -/
theorem shifted_support_injective (N W : Nat) (col : List Int) (hv : ValidColumn N W col)
    (j : Int) (hj0 : 0 ≤ j) (hj : j < N) (a b : Nat) (ha : a < W) (hb : b < W)
    (h : ((j + col.getD a 0) % (N : Int)).toNat = ((j + col.getD b 0) % (N : Int)).toNat) :
    a = b := by
  obtain ⟨hlen, hbd, hs⟩ := hv
  have hA := getD_bounds N col hbd a (by omega)
  have hB := getD_bounds N col hbd b (by omega)
  rw [emod_two_ranges N _ (by omega) (by omega), emod_two_ranges N _ (by omega) (by omega)] at h
  have hcc : col.getD a 0 = col.getD b 0 := by
    split at h <;> split at h <;> omega
  rcases Nat.lt_trichotomy a b with hlt | heq | hgt
  · have := strict_getD_lt col hs a b hlt (by omega); omega
  · exact heq
  · have := strict_getD_lt col hs b a hgt (by omega); omega

theorem pairwise_le_of_lt (col : List Int) (hs : col.Pairwise (· < ·)) :
    col.Pairwise (· ≤ ·) :=
  hs.imp (fun h => le_of_lt h)

/-- For a valid column, `single_flip` XORs 1 exactly into the entries whose index is
one of the `(j + col[k]) mod N`. -/
theorem single_flip_valid (P : Params) (col : List Int) (s : List Nat) (j : Int)
    (hv : ValidColumn P.BLOCK_LENGTH P.BLOCK_WEIGHT col)
    (hj0 : 0 ≤ j) (hj : j < P.BLOCK_LENGTH) (hs : P.BLOCK_LENGTH ≤ s.length) :
    ∃ s', single_flip P col j s = some s' ∧ s'.length = s.length ∧
      ∀ i, s'.getD i 0 =
        if ∃ k, k < P.BLOCK_WEIGHT ∧
            ((j + col.getD k 0) % (P.BLOCK_LENGTH : Int)).toNat = i
        then s.getD i 0 ^^^ 1 else s.getD i 0 := by
  obtain ⟨s', e, l, g⟩ := single_flip_general P col s j hv.1 hv.2.1
    (pairwise_le_of_lt col hv.2.2) hj0 hj hs
  refine ⟨s', e, l, fun i => ?_⟩
  rw [g i]
  have := xorUpTo_indicator
    (fun k => ((j + col.getD k 0) % (P.BLOCK_LENGTH : Int)).toNat = i) P.BLOCK_WEIGHT
    (fun a b ha hb pa pb =>
      shifted_support_injective _ _ col hv j hj0 hj a b ha hb (pa.trans pb.symm))
  unfold hit
  rw [this]
  split
  · rfl
  · exact Nat.xor_zero _

/-! ## `compute_counters` -/

theorem memcpy_upper_spec (a : List Nat) (n : Nat) (h : 2 * n ≤ a.length) :
    ∃ a', memcpy_upper a n = some a' ∧ a'.length = a.length ∧
      ∀ i, i < n → a'.getD i 0 = a.getD i 0 := by
  refine ⟨_, by rw [memcpy_upper, if_pos h], ?_, ?_⟩
  · simp only [List.length_append, List.length_take, List.length_drop]
    omega
  · intro i hi
    simp only [List.getD_eq_getElem?_getD]
    rw [List.append_assoc, List.getElem?_append_left (by simp; omega), List.getElem?_take,
      if_pos hi]

theorem cyc_congr (N : Nat) (hN : 0 < N) (a b : List Nat)
    (h : ∀ i, i < N → a.getD i 0 = b.getD i 0) (x : Int) : cyc N a x = cyc N b x := by
  unfold cyc
  apply h
  have h1 := Int.emod_nonneg x (show (N : Int) ≠ 0 by omega)
  have h2 := Int.emod_lt_of_pos x (show (0 : Int) < N by omega)
  omega

theorem memset_zero_spec (a : List Nat) (n : Nat) (h : n ≤ a.length) :
    ∃ a', memset a 0 n = some a' ∧ a'.length = a.length ∧
      ∀ i, i < n → a'.getD i 0 = 0 := by
  refine ⟨_, by rw [memset, if_pos h], ?_, ?_⟩
  · simp only [List.length_append, List.length_replicate, List.length_drop]
    omega
  · intro i hi
    simp only [List.getD_eq_getElem?_getD]
    rw [List.getElem?_append_left (by simp; omega), List.getElem?_replicate, if_pos hi]
    rfl

/-- One block of `compute_counters`: clear, then accumulate with `multiply`. -/
theorem counters_block_spec (P : Params) (r : List Int) (checks c : List Nat)
    (hr : r.length = P.BLOCK_WEIGHT) (hrb : ∀ v ∈ r, 0 ≤ v ∧ v < (P.BLOCK_LENGTH : Int))
    (hy : P.BLOCK_LENGTH ≤ checks.length) (hc : P.BLOCK_LENGTH ≤ c.length) :
    ∃ m c', memset c 0 P.BLOCK_LENGTH = some m ∧
      multiply (P.BLOCK_LENGTH : Int) P.BLOCK_WEIGHT r checks m = some c' ∧
      c'.length = c.length ∧
      ∀ j, j < P.BLOCK_LENGTH → c'.getD j 0 =
        sumUpTo P.BLOCK_WEIGHT
          (fun l => cyc P.BLOCK_LENGTH checks ((j : Int) - r.getD l 0)) % 256 := by
  obtain ⟨c0, e0, l0, g0⟩ := memset_zero_spec c P.BLOCK_LENGTH hc
  obtain ⟨c', e1, l1, g1⟩ := multiply_general P.BLOCK_LENGTH P.BLOCK_WEIGHT r checks c0
    (by omega) (fun v hv => hrb v (List.mem_of_mem_take hv)) hy (by omega)
    (fun j hj => by rw [g0 j hj]; decide)
  refine ⟨c0, c', e0, e1, by omega, fun j hj => ?_⟩
  rw [g1 j, if_pos hj, g0 j hj, Nat.zero_add]

theorem compute_counters_pair (P : Params) (columns : List (List Int)) (r0 r1 : List Int)
    (checks k0 k1 : List Nat)
    (hr0 : r0.length = P.BLOCK_WEIGHT) (hr1 : r1.length = P.BLOCK_WEIGHT)
    (hrb0 : ∀ v ∈ r0, 0 ≤ v ∧ v < (P.BLOCK_LENGTH : Int))
    (hrb1 : ∀ v ∈ r1, 0 ≤ v ∧ v < (P.BLOCK_LENGTH : Int))
    (hy : 2 * P.BLOCK_LENGTH ≤ checks.length)
    (hk0 : P.BLOCK_LENGTH ≤ k0.length) (hk1 : P.BLOCK_LENGTH ≤ k1.length) :
    ∃ checks' c0 c1,
      compute_counters P columns [r0, r1] checks [k0, k1] = some (checks', [c0, c1]) ∧
      checks'.length = checks.length ∧
      (∀ i, i < P.BLOCK_LENGTH → checks'.getD i 0 = checks.getD i 0) ∧
      c0.length = k0.length ∧ c1.length = k1.length ∧
      (∀ j, j < P.BLOCK_LENGTH → c0.getD j 0 =
        sumUpTo P.BLOCK_WEIGHT
          (fun l => cyc P.BLOCK_LENGTH checks ((j : Int) - r0.getD l 0)) % 256) ∧
      (∀ j, j < P.BLOCK_LENGTH → c1.getD j 0 =
        sumUpTo P.BLOCK_WEIGHT
          (fun l => cyc P.BLOCK_LENGTH checks ((j : Int) - r1.getD l 0)) % 256) := by
  obtain ⟨checks', ec, lc, gc⟩ := memcpy_upper_spec checks P.BLOCK_LENGTH hy
  obtain ⟨m0, c0, em0, e0, l0, g0⟩ :=
    counters_block_spec P r0 checks' k0 hr0 hrb0 (by omega) hk0
  obtain ⟨m1, c1, em1, e1, l1, g1⟩ :=
    counters_block_spec P r1 checks' k1 hr1 hrb1 (by omega) hk1
  refine ⟨checks', c0, c1, ?_, lc, gc, l0, l1, ?_, ?_⟩
  · simp only [compute_counters, ec, INDEX, forUpTo, Option.bind_eq_bind, Option.some_bind,
      List.getElem?_cons_zero, List.getElem?_cons_succ, List.set_cons_zero,
      List.set_cons_succ, em0, e0, em1, e1]
  · intro j hj
    rw [g0 j hj]
    congr 2
    funext l
    exact cyc_congr _ (by omega) _ _ gc _
  · intro j hj
    rw [g1 j hj]
    congr 2
    funext l
    exact cyc_congr _ (by omega) _ _ gc _

theorem sumUpTo_eq_sum (g : Int → Nat) (x : List Int) :
    ∀ W, W ≤ x.length → sumUpTo W (fun l => g (x.getD l 0)) = ((x.take W).map g).sum := by
  intro W
  induction W with
  | zero => intro _; simp [sumUpTo]
  | succ n ih =>
    intro h
    have hn : n < x.length := by omega
    simp only [sumUpTo]
    rw [ih (by omega), List.take_succ, List.map_append, List.sum_append,
      getD_eq_of_lt x 0 n hn]
    simp

theorem cyc_reflect (N : Nat) (s : List Nat) (j c : Int) :
    cyc N s (j - (-c + (N : Int))) = cyc N s (j + c) := by
  unfold cyc
  have : j - (-c + (N : Int)) = j + c - N := by omega
  rw [this, ← Int.emod_eq_sub_self_emod]

/-- Summing over the reflected (row) support with the `-` shift is summing over the
column support with the `+` shift. -/
theorem sum_reflect (N : Nat) (s : List Nat) (j : Int) (col : List Int) :
    sumUpTo col.length (fun l => cyc N s (j - (reflect N col).getD l 0)) =
      sumUpTo col.length (fun l => cyc N s (j + col.getD l 0)) := by
  have hlen : (reflect N col).length = col.length := by
    cases col with
    | nil => simp [reflect]
    | cons c t => exact reflect_length N _ (by simp)
  rw [sumUpTo_eq_sum (fun r => cyc N s (j - r)) (reflect N col) col.length (by omega),
    sumUpTo_eq_sum (fun c => cyc N s (j + c)) col col.length (by omega),
    List.take_of_length_le (by omega), List.take_of_length_le (by omega)]
  have hmap : ∀ l : List Int,
      ((l.reverse.map (fun c => -c + (N : Int))).map (fun r => cyc N s (j - r))).sum =
        (l.map (fun c => cyc N s (j + c))).sum := by
    intro l
    rw [List.map_map, List.map_reverse, List.sum_reverse]
    congr 1
    apply List.map_congr_left
    intro c _
    exact cyc_reflect N s j c
  cases col with
  | nil => simp [reflect]
  | cons c t =>
    by_cases hc : c = 0
    · subst hc
      rw [reflect_cons_zero, List.map_cons, List.sum_cons, hmap t, List.map_cons,
        List.sum_cons]
      simp
    · rw [reflect_cons_ne N c t hc, hmap]

/-! ## `reset_decoder` and `init_decoder_error` -/

theorem bufLen_ge (P : Params) : 2 * P.BLOCK_LENGTH ≤ P.bufLen := by
  unfold Params.bufLen
  omega

theorem memset_full (a : List Nat) (n : Nat) (h : a.length = n) :
    memset a 0 n = some (List.replicate n 0) := by
  rw [memset, if_pos (by omega), List.drop_of_length_le (by omega), List.append_nil]

theorem reset_decoder_spec (P : Params) (dec : decoder) (ha : Allocated P dec) :
    reset_decoder P dec = some { dec with
      syndrome := List.replicate P.bufLen 0,
      bits := [List.replicate P.bufLen 0, List.replicate P.bufLen 0],
      fl := { dec.fl with first := -1, length := 0 } } := by
  obtain ⟨hb, hbl, _, _, _, _, hs, _⟩ := ha
  obtain ⟨b0, b1, hbits⟩ := list_eq_pair dec.bits hb
  have h0 : b0.length = P.bufLen := hbl b0 (by rw [hbits]; simp)
  have h1 : b1.length = P.bufLen := hbl b1 (by rw [hbits]; simp)
  simp only [reset_decoder, memset_full _ _ hs, hbits, INDEX, forUpTo, Option.bind_eq_bind,
    Option.some_bind, List.getElem?_cons_zero, List.getElem?_cons_succ, List.set_cons_zero,
    List.set_cons_succ, memset_full _ _ h0, memset_full _ _ h1]

/-- The loop `for (j = 0; j < n; ++j) a[j] = 0`. -/
theorem forUpTo_zero (a : List Nat) :
    ∀ n, n ≤ a.length →
    ∃ a', forUpTo n (fun (j : Nat) (a : List Nat) => wr a (j : Int) 0) a = some a' ∧
      a'.length = a.length ∧ ∀ i, a'.getD i 0 = if i < n then 0 else a.getD i 0 := by
  intro n
  induction n with
  | zero => intro _; exact ⟨a, rfl, rfl, fun i => by rw [if_neg (by omega)]⟩
  | succ n ih =>
    intro h
    obtain ⟨a1, e1, l1, g1⟩ := ih (by omega)
    refine ⟨a1.set n 0, ?_, by simp [l1], ?_⟩
    · simp only [forUpTo, e1, Option.some_bind]
      exact wr_natCast a1 n 0 (by omega)
    · intro i
      rw [getD_set_eq_ite _ _ _ _ (by omega), g1 i]
      by_cases hi : n = i
      · rw [if_pos hi, if_pos (by omega)]
      · rw [if_neg hi]
        by_cases h2 : i < n
        · rw [if_pos h2, if_pos (by omega)]
        · rw [if_neg h2, if_neg (by omega)]

theorem init_error_loop1_spec (P : Params) (e_block : List Int)
    (hlen : e_block.length = P.ERROR_WEIGHT) (hb : ∀ x ∈ e_block, 0 ≤ x) :
    ∀ (n k : Nat) (e0 : List Nat), k + n = P.ERROR_WEIGHT → P.BLOCK_LENGTH ≤ e0.length →
    ∃ k' e0', init_error_loop1 P e_block n k e0 = some (k', e0') ∧ k ≤ k' ∧
      k' ≤ P.ERROR_WEIGHT ∧ e0'.length = e0.length ∧
      (∀ m, k ≤ m → m < k' → e_block.getD m 0 < (P.BLOCK_LENGTH : Int)) ∧
      (k' < P.ERROR_WEIGHT → (P.BLOCK_LENGTH : Int) ≤ e_block.getD k' 0) ∧
      ∀ i, e0'.getD i 0 =
        if ∃ m, m < k' ∧ k ≤ m ∧ (e_block.getD m 0).toNat = i then 1 else e0.getD i 0 := by
  intro n
  induction n with
  | zero =>
    intro k e0 hk _
    refine ⟨k, e0, rfl, le_refl _, by omega, rfl, fun m h1 h2 => by omega, fun h => by omega,
      fun i => ?_⟩
    rw [if_neg]
    rintro ⟨m, h1, h2, _⟩
    omega
  | succ n ih =>
    intro k e0 hk he
    have hlt : k < e_block.length := by omega
    have h0 : 0 ≤ e_block.getD k 0 := by
      rw [List.getD_eq_getElem _ _ hlt]; exact hb _ (List.getElem_mem _)
    unfold init_error_loop1
    rw [getD_eq_of_lt e_block 0 k hlt]
    simp only [Option.bind_eq_bind, Option.some_bind]
    by_cases hw : e_block.getD k 0 ≥ (P.BLOCK_LENGTH : Int)
    · rw [if_pos hw]
      refine ⟨k, e0, rfl, le_refl _, by omega, rfl, fun m h1 h2 => by omega, fun _ => hw,
        fun i => ?_⟩
      rw [if_neg]
      rintro ⟨m, h1, h2, _⟩
      omega
    · rw [if_neg hw, wr_of_bounds e0 _ _ h0 (by omega)]
      simp only [Option.some_bind]
      obtain ⟨k', e0', e, hk1, hk2, hl, hlow, hhigh, hg⟩ :=
        ih (k + 1) (e0.set (e_block.getD k 0).toNat 1) (by omega) (by simp; omega)
      refine ⟨k', e0', e, by omega, hk2, by simp [hl], ?_, hhigh, ?_⟩
      · intro m h1 h2
        rcases Nat.eq_or_lt_of_le h1 with rfl | h3
        · omega
        · exact hlow m (by omega) h2
      · intro i
        rw [hg i, getD_set_eq_ite _ _ _ _ (by omega)]
        by_cases hex : ∃ m, m < k' ∧ k + 1 ≤ m ∧ (e_block.getD m 0).toNat = i
        · obtain ⟨m, h1, h2, h3⟩ := hex
          rw [if_pos ⟨m, h1, h2, h3⟩, if_pos ⟨m, h1, by omega, h3⟩]
        · rw [if_neg hex]
          by_cases hi : (e_block.getD k 0).toNat = i
          · rw [if_pos hi, if_pos ⟨k, by omega, le_refl _, hi⟩]
          · rw [if_neg hi, if_neg]
            rintro ⟨m, h1, h2, h3⟩
            rcases Nat.eq_or_lt_of_le h2 with rfl | h4
            · exact hi h3
            · exact hex ⟨m, h1, by omega, h3⟩

theorem init_error_loop2_spec (P : Params) (e_block : List Int)
    (hlen : e_block.length = P.ERROR_WEIGHT) :
    ∀ (n k : Nat) (e1 : List Nat), k + n = P.ERROR_WEIGHT → P.BLOCK_LENGTH ≤ e1.length →
    (∀ m, k ≤ m → m < P.ERROR_WEIGHT → (P.BLOCK_LENGTH : Int) ≤ e_block.getD m 0 ∧
      e_block.getD m 0 < 2 * (P.BLOCK_LENGTH : Int)) →
    ∃ e1', init_error_loop2 P e_block n k e1 = some e1' ∧ e1'.length = e1.length ∧
      ∀ i, e1'.getD i 0 =
        if ∃ m, m < P.ERROR_WEIGHT ∧ k ≤ m ∧
            (e_block.getD m 0 - (P.BLOCK_LENGTH : Int)).toNat = i
        then 1 else e1.getD i 0 := by
  intro n
  induction n with
  | zero =>
    intro k e1 hk _ _
    refine ⟨e1, rfl, rfl, fun i => ?_⟩
    rw [if_neg]
    rintro ⟨m, h1, h2, _⟩
    omega
  | succ n ih =>
    intro k e1 hk he hr
    have hlt : k < e_block.length := by omega
    have hk0 := hr k (le_refl _) (by omega)
    unfold init_error_loop2
    rw [getD_eq_of_lt e_block 0 k hlt]
    simp only [Option.bind_eq_bind, Option.some_bind]
    rw [wr_of_bounds e1 _ _ (by omega) (by omega)]
    simp only [Option.some_bind]
    obtain ⟨e1', e, hl, hg⟩ := ih (k + 1)
      (e1.set (e_block.getD k 0 - (P.BLOCK_LENGTH : Int)).toNat 1) (by omega)
      (by simp; omega) (fun m h1 h2 => hr m (by omega) h2)
    refine ⟨e1', e, by simp [hl], fun i => ?_⟩
    rw [hg i, getD_set_eq_ite _ _ _ _ (by omega)]
    by_cases hex : ∃ m, m < P.ERROR_WEIGHT ∧ k + 1 ≤ m ∧
        (e_block.getD m 0 - (P.BLOCK_LENGTH : Int)).toNat = i
    · obtain ⟨m, h1, h2, h3⟩ := hex
      rw [if_pos ⟨m, h1, h2, h3⟩, if_pos ⟨m, h1, by omega, h3⟩]
    · rw [if_neg hex]
      by_cases hi : (e_block.getD k 0 - (P.BLOCK_LENGTH : Int)).toNat = i
      · rw [if_pos hi, if_pos ⟨k, by omega, le_refl _, hi⟩]
      · rw [if_neg hi, if_neg]
        rintro ⟨m, h1, h2, h3⟩
        rcases Nat.eq_or_lt_of_le h2 with rfl | h4
        · exact hi h3
        · exact hex ⟨m, h1, by omega, h3⟩


theorem Hmul_pair (W : Nat) (H : List (List Int)) (v : Nat → Int → Nat) (i : Nat) :
    Hmul W H v i =
      xorUpTo W (fun l => v 0 ((i : Int) - (H.getD 0 []).getD l 0)) ^^^
      xorUpTo W (fun l => v 1 ((i : Int) - (H.getD 1 []).getD l 0)) := by
  simp [Hmul, INDEX, xorUpTo]

theorem compute_syndrome_pair (P : Params) (h0 h1 : List Int) (e0 e1 s : List Nat)
    (hv0 : ValidColumn P.BLOCK_LENGTH P.BLOCK_WEIGHT h0)
    (hv1 : ValidColumn P.BLOCK_LENGTH P.BLOCK_WEIGHT h1)
    (he0 : P.BLOCK_LENGTH ≤ e0.length) (he1 : P.BLOCK_LENGTH ≤ e1.length)
    (hs : P.BLOCK_LENGTH ≤ s.length) :
    ∃ s', compute_syndrome P [h0, h1] [e0, e1] s = some s' ∧ s'.length = s.length ∧
      ∀ i, s'.getD i 0 = if i < P.BLOCK_LENGTH then
          s.getD i 0 ^^^ Hmul P.BLOCK_WEIGHT [h0, h1]
            (fun k x => cyc P.BLOCK_LENGTH ([e0, e1].getD k []) x) i
        else s.getD i 0 := by
  obtain ⟨s1, x1, l1, g1⟩ := multiply_mod2_general P.BLOCK_LENGTH P.BLOCK_WEIGHT h0 e0 s
    (by rw [hv0.1]) (fun c hc => hv0.2.1 c (List.mem_of_mem_take hc)) he0 hs
  obtain ⟨s2, x2, l2, g2⟩ := multiply_mod2_general P.BLOCK_LENGTH P.BLOCK_WEIGHT h1 e1 s1
    (by rw [hv1.1]) (fun c hc => hv1.2.1 c (List.mem_of_mem_take hc)) he1 (by omega)
  refine ⟨s2, ?_, by omega, fun i => ?_⟩
  · simp only [compute_syndrome, INDEX, forUpTo, Option.bind_eq_bind, Option.some_bind,
      List.getElem?_cons_zero, List.getElem?_cons_succ, x1, x2]
  · rw [g2 i, g1 i, Hmul_pair]
    by_cases hi : i < P.BLOCK_LENGTH
    · simp only [if_pos hi, Nat.xor_assoc]
      rfl
    · simp only [if_neg hi]

theorem weight_loop_spec (s : List Nat) :
    ∀ n, n ≤ s.length →
    forUpTo n (fun (j : Nat) (w : Int) => do
      let v ← s[j]?
      some (w + (v : Int))) 0 = some ((sumUpTo n (fun j => s.getD j 0) : Nat) : Int) := by
  intro n
  induction n with
  | zero => intro _; rfl
  | succ n ih =>
    intro h
    show (forUpTo n _ 0).bind _ = _
    rw [ih (by omega)]
    simp only [Option.some_bind, getD_eq_of_lt s 0 n (by omega), Option.bind_eq_bind, sumUpTo]
    simp

theorem popcount_eq_sum (N : Nat) (s : List Nat) (h01 : ∀ i, i < N → s.getD i 0 ≤ 1) :
    popcount N s = sumUpTo N (fun j => s.getD j 0) := by
  unfold popcount
  induction N with
  | zero => rfl
  | succ n ih =>
    simp only [sumUpTo]
    rw [ih (fun i hi => h01 i (by omega))]
    have := h01 n (by omega)
    congr 1
    split <;> omega


theorem init_decoder_error_spec (P : Params) (dec : decoder) (H : List (List Int))
    (e_block : List Int) (e2 : Option (List Int))
    (hO : P.OUROBOROS = false) (hW : 0 < P.BLOCK_WEIGHT)
    (hH : ValidH P H) (hE : ValidError P e_block)
    (hrl : dec.Hrows.length = INDEX) (hr : ∀ r ∈ dec.Hrows, r.length = P.BLOCK_WEIGHT)
    (hel : dec.e.length = INDEX) (he : ∀ b ∈ dec.e, P.BLOCK_LENGTH ≤ b.length)
    (hs : P.BLOCK_LENGTH ≤ dec.syndrome.length) :
    ∃ E0 E1 S, init_decoder_error P dec H e_block e2 =
        some { dec with Hcolumns := H, Hrows := H.map (reflect P.BLOCK_LENGTH),
                        e := [E0, E1], syndrome := S,
                        syndrome_weight :=
                          ((sumUpTo P.BLOCK_LENGTH (fun j => S.getD j 0) : Nat) : Int) } ∧
      E0.length = (dec.e.getD 0 []).length ∧ E1.length = (dec.e.getD 1 []).length ∧
      (∀ j, j < P.BLOCK_LENGTH → E0.getD j 0 =
        if ∃ m, m < P.ERROR_WEIGHT ∧ e_block.getD m 0 = (j : Int) then 1 else 0) ∧
      (∀ j, j < P.BLOCK_LENGTH → E1.getD j 0 =
        if ∃ m, m < P.ERROR_WEIGHT ∧ e_block.getD m 0 = (P.BLOCK_LENGTH : Int) + (j : Int)
        then 1 else 0) ∧
      S.length = dec.syndrome.length ∧
      ∀ i, S.getD i 0 = if i < P.BLOCK_LENGTH then
          dec.syndrome.getD i 0 ^^^ Hmul P.BLOCK_WEIGHT H
            (fun k x => cyc P.BLOCK_LENGTH ([E0, E1].getD k []) x) i
        else dec.syndrome.getD i 0 := by
  obtain ⟨hHl, hHv⟩ := hH
  obtain ⟨hEl, hEb, hEs⟩ := hE
  obtain ⟨h0, h1, rfl⟩ := list_eq_pair H hHl
  obtain ⟨r0, r1, hrows⟩ := list_eq_pair dec.Hrows hrl
  obtain ⟨a0, a1, hes⟩ := list_eq_pair dec.e hel
  have hv0 := hHv h0 (by simp)
  have hv1 := hHv h1 (by simp)
  have ha0 : P.BLOCK_LENGTH ≤ a0.length := he a0 (by rw [hes]; simp)
  have ha1 : P.BLOCK_LENGTH ≤ a1.length := he a1 (by rw [hes]; simp)
  have erows := columns_to_rows_pair P h0 h1 r0 r1 hW hv0.1 hv1.1
    (hr r0 (by rw [hrows]; simp)) (hr r1 (by rw [hrows]; simp))
  obtain ⟨z0, ez0, lz0, gz0⟩ := forUpTo_zero a0 P.BLOCK_LENGTH ha0
  obtain ⟨z1, ez1, lz1, gz1⟩ := forUpTo_zero a1 P.BLOCK_LENGTH ha1
  obtain ⟨k', E0, eE0, hk1, hk2, lE0, hlow, hhigh, gE0⟩ :=
    init_error_loop1_spec P e_block hEl (fun x hx => (hEb x hx).1) P.ERROR_WEIGHT 0 z0
      (by omega) (by omega)
  have hrange : ∀ m, k' ≤ m → m < P.ERROR_WEIGHT →
      (P.BLOCK_LENGTH : Int) ≤ e_block.getD m 0 ∧
        e_block.getD m 0 < 2 * (P.BLOCK_LENGTH : Int) := by
    intro m hm1 hm2
    have hb := hEb (e_block.getD m 0) (by
      rw [List.getD_eq_getElem _ _ (by omega)]; exact List.getElem_mem _)
    refine ⟨?_, by unfold INDEX at hb; omega⟩
    have := hhigh (by omega)
    have := sorted_getD_le e_block (pairwise_le_of_lt _ hEs) k' m hm1 (by omega)
    omega
  obtain ⟨E1, eE1, lE1, gE1⟩ := init_error_loop2_spec P e_block hEl (P.ERROR_WEIGHT - k') k' z1
    (by omega) (by omega) hrange
  obtain ⟨S, eS, lS, gS⟩ := compute_syndrome_pair P h0 h1 E0 E1 dec.syndrome hv0 hv1
    (by omega) (by omega) hs
  have eW := weight_loop_spec S P.BLOCK_LENGTH (by omega)
  refine ⟨E0, E1, S, ?_, by rw [hes]; simpa using (by omega : E0.length = a0.length),
    by rw [hes]; simpa using (by omega : E1.length = a1.length), ?_, ?_, by omega, gS⟩
  · simp only [Option.bind_eq_bind] at ez0 ez1 eW
    simp only [init_decoder_error, hrows, erows, hes, INDEX, forUpTo, Option.bind_eq_bind,
      Option.some_bind, List.getElem?_cons_zero, List.getElem?_cons_succ, List.set_cons_zero,
      List.set_cons_succ, hO, ez0, ez1, eE0, eE1, eS, eW, List.map_cons, List.map_nil]
    rfl
  · intro j hj
    rw [gE0 j, gz0 j, if_pos hj]
    by_cases hex : ∃ m, m < P.ERROR_WEIGHT ∧ e_block.getD m 0 = (j : Int)
    · have hl : ∃ m, m < k' ∧ 0 ≤ m ∧ (e_block.getD m 0).toNat = j := by
        obtain ⟨m, hm, hmj⟩ := hex
        refine ⟨m, ?_, Nat.zero_le _, by omega⟩
        by_contra hge
        have := (hrange m (by omega) hm).1
        omega
      rw [if_pos hex, if_pos hl]
    · have hl : ¬ ∃ m, m < k' ∧ 0 ≤ m ∧ (e_block.getD m 0).toNat = j := by
        rintro ⟨m, hm1, _, hm3⟩
        have hb := hEb (e_block.getD m 0) (by
          rw [List.getD_eq_getElem _ _ (by omega)]; exact List.getElem_mem _)
        exact hex ⟨m, by omega, by omega⟩
      rw [if_neg hex, if_neg hl]
  · intro j hj
    rw [gE1 j, gz1 j, if_pos hj]
    by_cases hex : ∃ m, m < P.ERROR_WEIGHT ∧
        e_block.getD m 0 = (P.BLOCK_LENGTH : Int) + (j : Int)
    · have hl : ∃ m, m < P.ERROR_WEIGHT ∧ k' ≤ m ∧
          (e_block.getD m 0 - (P.BLOCK_LENGTH : Int)).toNat = j := by
        obtain ⟨m, hm, hmj⟩ := hex
        refine ⟨m, hm, ?_, by omega⟩
        by_contra hge
        have := hlow m (Nat.zero_le _) (by omega)
        omega
      rw [if_pos hex, if_pos hl]
    · have hl : ¬ ∃ m, m < P.ERROR_WEIGHT ∧ k' ≤ m ∧
          (e_block.getD m 0 - (P.BLOCK_LENGTH : Int)).toNat = j := by
        rintro ⟨m, hm1, hm2, hm3⟩
        have := (hrange m hm2 hm1).1
        exact hex ⟨m, hm1, by omega⟩
      rw [if_neg hex, if_neg hl]

theorem getD_replicate_zero (n i : Nat) : (List.replicate n 0).getD i 0 = 0 := by
  rw [List.getD_eq_getElem?_getD, List.getElem?_replicate]
  split <;> rfl

theorem xor_le_one (a b : Nat) (ha : a ≤ 1) (hb : b ≤ 1) : a ^^^ b ≤ 1 := by
  have h1 : a = 0 ∨ a = 1 := by omega
  have h2 : b = 0 ∨ b = 1 := by omega
  rcases h1 with rfl | rfl <;> rcases h2 with rfl | rfl <;> decide

theorem xorUpTo_le_one (n : Nat) (f : Nat → Nat) (h : ∀ k, f k ≤ 1) : xorUpTo n f ≤ 1 := by
  induction n with
  | zero => simp [xorUpTo]
  | succ n ih => exact xor_le_one _ _ ih (h n)

theorem cyc_le_one (N : Nat) (hN : 0 < N) (v : List Nat)
    (h : ∀ j, j < N → v.getD j 0 ≤ 1) (x : Int) : cyc N v x ≤ 1 := by
  unfold cyc
  apply h
  have h1 := Int.emod_nonneg x (show (N : Int) ≠ 0 by omega)
  have h2 := Int.emod_lt_of_pos x (show (0 : Int) < N by omega)
  omega

theorem Hmul_le_one (W : Nat) (H : List (List Int)) (v : Nat → Int → Nat)
    (h : ∀ k x, v k x ≤ 1) (i : Nat) : Hmul W H v i ≤ 1 :=
  xorUpTo_le_one _ _ (fun k => xorUpTo_le_one _ _ (fun _ => h k _))

theorem allocated_reset (P : Params) (dec0 : decoder) (hA : Allocated P dec0) :
    Allocated P { dec0 with
      syndrome := List.replicate P.bufLen 0,
      bits := [List.replicate P.bufLen 0, List.replicate P.bufLen 0],
      fl := { dec0.fl with first := -1, length := 0 } } := by
  obtain ⟨h1, h2, h3, h4, h5, h6, h7, h8, h9, h10, h11, h12⟩ := hA
  refine ⟨rfl, ?_, h3, h4, h5, h6, by simp, h8, h9, h10, h11, h12⟩
  intro b hb
  simp only [List.mem_cons, List.mem_singleton, List.not_mem_nil, or_false] at hb
  rcases hb with rfl | rfl <;> simp


/-! ## The small instance is well formed -/

theorem witnessDecoder_allocated : Allocated witnessParams witnessDecoder := by
  have hb : witnessParams.bufLen = 512 := by decide
  have hl : ∀ v : Nat, ∀ b ∈ [List.replicate 512 v, List.replicate 512 v],
      b.length = witnessParams.bufLen := by
    intro v b hb'
    rw [hb]
    simp only [List.mem_cons, List.mem_singleton, List.not_mem_nil, or_false] at hb'
    rcases hb' with rfl | rfl <;> exact List.length_replicate _ _
  refine ⟨rfl, hl 3, rfl, hl 9, rfl, hl 4, ?_, rfl, by decide, ?_, ?_, ?_⟩
  · rw [hb]; exact List.length_replicate _ _
  · exact List.length_replicate _ _
  · exact List.length_replicate _ _
  · exact List.length_replicate _ _

theorem witnessH_valid : ValidH witnessParams [[0, 1], [1, 2]] := by
  unfold ValidH ValidColumn witnessParams INDEX
  decide

theorem witnessError_valid : ValidError witnessParams [1, 4] := by
  unfold ValidError witnessParams INDEX
  decide

/-! ## Claims on the multiplication primitives -/

/-- C4: `multiply_mod2(N, W, x, y, z)`, for a support `x` of `W` entries in `[0, N)`
and buffers `y`, `z` of length `N`, returns with
`z'[i] = z[i] XOR (XOR over k < W of y[(i - x[k]) mod N])` for every `i < N`.
The buffers have exactly `N` entries and every access of the model outside a
buffer yields `none`, so the successful return shows that only indices in
`[0, N)` of `y` and `z` are accessed. -/
theorem multiply_mod2_correct (N W : Nat) (x : List Int) (y z : List Nat)
    (hx : x.length = W) (hxr : ∀ c ∈ x, 0 ≤ c ∧ c < (N : Int))
    (hy : y.length = N) (hz : z.length = N) :
    ∃ z', multiply_mod2 (N : Int) W x y z = some z' ∧ z'.length = N ∧
      ∀ i, i < N →
        z'.getD i 0 = z.getD i 0 ^^^ xorUpTo W (fun k => cyc N y ((i : Int) - x.getD k 0)) := by
  obtain ⟨z', h1, h2, h3⟩ := multiply_mod2_general N W x y z (by omega)
    (fun c hc => hxr c (List.mem_of_mem_take hc)) (by omega) (by omega)
  refine ⟨z', h1, by omega, fun i hi => ?_⟩
  rw [h3 i, if_pos hi]

theorem multiply_mod2_correct_witness :
    ∃ z', multiply_mod2 ((3 : Nat) : Int) 1 [1] [1, 0, 0] [0, 1, 0] = some z' ∧ z'.length = 3 ∧
      ∀ i, i < 3 →
        z'.getD i 0 = [0, 1, 0].getD i 0 ^^^
          xorUpTo 1 (fun k => cyc 3 [1, 0, 0] ((i : Int) - [1].getD k 0)) :=
  multiply_mod2_correct 3 1 [1] [1, 0, 0] [0, 1, 0] (by decide) (by decide) (by decide)
    (by decide)

/-- C5 as stated fails: the claimed direction `y[(i + x[k]) mod N]` is not what
`multiply` adds (on `N = 3`, `x = [1]`, `y = [1,0,0]`, `z = 0` the program yields
`[0,1,0]`, the claim requires `z'[2] = y[0] = 1`), and the byte addition wraps
(on `N = 1`, `x = [0]`, `y = [1]`, `z = [255]` the program yields `[0]`, the claim
requires 256). -/
theorem multiply_claimed_form_fails :
    (¬ ∃ z', multiply ((3 : Nat) : Int) 1 [1] [1, 0, 0] [0, 0, 0] = some z' ∧
      ∀ i, i < 3 → z'.getD i 0 = [0, 0, 0].getD i 0 +
        sumUpTo 1 (fun k => cyc 3 [1, 0, 0] ((i : Int) + [1].getD k 0))) ∧
    (¬ ∃ z', multiply ((1 : Nat) : Int) 1 [0] [1] [255] = some z' ∧
      ∀ i, i < 1 → z'.getD i 0 = [255].getD i 0 +
        sumUpTo 1 (fun k => cyc 1 [1] ((i : Int) + [0].getD k 0))) := by
  constructor
  · rintro ⟨z', h, hall⟩
    have e : multiply ((3 : Nat) : Int) 1 [1] [1, 0, 0] [0, 0, 0] = some [0, 1, 0] := by decide
    rw [e] at h
    cases h
    exact absurd (hall 2 (by decide)) (by decide)
  · rintro ⟨z', h, hall⟩
    have e : multiply ((1 : Nat) : Int) 1 [0] [1] [255] = some [0] := by decide
    rw [e] at h
    cases h
    exact absurd (hall 0 (by decide)) (by decide)

/-- C5 (amended): `multiply(N, W, x, y, z)`, for a support `x` of `W` entries in
`[0, N)` and byte buffers `y`, `z` of length `N`, returns with
`z'[i] = (z[i] + sum over k < W of y[(i - x[k]) mod N]) mod 256` for every `i < N`:
the shift goes the same way as in `multiply_mod2`, and the sum is a byte sum. -/
theorem multiply_correct (N W : Nat) (x : List Int) (y z : List Nat)
    (hx : x.length = W) (hxr : ∀ c ∈ x, 0 ≤ c ∧ c < (N : Int))
    (hy : y.length = N) (hz : z.length = N) (hzb : ∀ v ∈ z, v < 256) :
    ∃ z', multiply (N : Int) W x y z = some z' ∧ z'.length = N ∧
      ∀ i, i < N →
        z'.getD i 0 =
          (z.getD i 0 + sumUpTo W (fun k => cyc N y ((i : Int) - x.getD k 0))) % 256 := by
  obtain ⟨z', h1, h2, h3⟩ := multiply_general N W x y z (by omega)
    (fun c hc => hxr c (List.mem_of_mem_take hc)) (by omega) (by omega)
    (fun j _ => getD_lt_of_forall_mem z 256 (by decide) hzb j)
  refine ⟨z', h1, by omega, fun i hi => ?_⟩
  rw [h3 i, if_pos hi]

theorem multiply_correct_witness :
    ∃ z', multiply ((3 : Nat) : Int) 1 [1] [1, 0, 0] [0, 255, 0] = some z' ∧ z'.length = 3 ∧
      ∀ i, i < 3 →
        z'.getD i 0 = ([0, 255, 0].getD i 0 +
          sumUpTo 1 (fun k => cyc 3 [1, 0, 0] ((i : Int) - [1].getD k 0))) % 256 :=
  multiply_correct 3 1 [1] [1, 0, 0] [0, 255, 0] (by decide) (by decide) (by decide)
    (by decide) (by decide)

/-! ## Claims on `columns_to_rows`, `single_counter`, `single_flip` -/

/-- C7: `columns_to_rows` returns (given two column blocks and two row buffers of
`W >= 1` entries each), and for every block `i` whose column support is strictly
ascending in `[0, N)` the row support `rows[i]` has `W` entries, is strictly
ascending with entries in `[0, N)`, its set of entries is
`{(N - c) mod N : c in columns[i]}`, and it is the list `reflect N columns[i]`:
0 stays first, the other entries are `N - c` in descending `c`. -/
theorem columns_to_rows_correct (P : Params) (columns rows : List (List Int))
    (hW : 0 < P.BLOCK_WEIGHT)
    (hcl : columns.length = INDEX) (hrl : rows.length = INDEX)
    (hc : ∀ c ∈ columns, c.length = P.BLOCK_WEIGHT)
    (hr : ∀ r ∈ rows, r.length = P.BLOCK_WEIGHT)
    (i : Nat) (hi : i < INDEX)
    (hv : ValidColumn P.BLOCK_LENGTH P.BLOCK_WEIGHT (columns.getD i [])) :
    ∃ rows', columns_to_rows P columns rows = some rows' ∧ rows'.length = INDEX ∧
        (rows'.getD i []).length = P.BLOCK_WEIGHT ∧
        (rows'.getD i []).Pairwise (· < ·) ∧
        (∀ v ∈ rows'.getD i [], 0 ≤ v ∧ v < (P.BLOCK_LENGTH : Int)) ∧
        (∀ v, v ∈ rows'.getD i [] ↔
          ∃ c ∈ columns.getD i [], v = ((P.BLOCK_LENGTH : Int) - c) % (P.BLOCK_LENGTH : Int)) ∧
        rows'.getD i [] = reflect P.BLOCK_LENGTH (columns.getD i []) := by
  obtain ⟨c0, c1, rfl⟩ := list_eq_pair columns hcl
  obtain ⟨r0, r1, rfl⟩ := list_eq_pair rows hrl
  refine ⟨_, columns_to_rows_pair P c0 c1 r0 r1 hW (hc c0 (by simp)) (hc c1 (by simp))
    (hr r0 (by simp)) (hr r1 (by simp)), rfl, ?_⟩
  have hi2 : i = 0 ∨ i = 1 := by unfold INDEX at hi; omega
  have main : ∀ c : List Int, ValidColumn P.BLOCK_LENGTH P.BLOCK_WEIGHT c →
      (reflect P.BLOCK_LENGTH c).length = P.BLOCK_WEIGHT ∧
      (reflect P.BLOCK_LENGTH c).Pairwise (· < ·) ∧
      (∀ v ∈ reflect P.BLOCK_LENGTH c, 0 ≤ v ∧ v < (P.BLOCK_LENGTH : Int)) ∧
      (∀ v, v ∈ reflect P.BLOCK_LENGTH c ↔
        ∃ c' ∈ c, v = ((P.BLOCK_LENGTH : Int) - c') % (P.BLOCK_LENGTH : Int)) ∧
      reflect P.BLOCK_LENGTH c = reflect P.BLOCK_LENGTH c := by
    intro c hvc
    obtain ⟨h1, h2, h3⟩ := reflect_valid _ _ c hvc
    exact ⟨h1, h3, h2, reflect_mem _ _ c hvc, rfl⟩
  rcases hi2 with rfl | rfl
  · exact main c0 hv
  · exact main c1 hv

theorem columns_to_rows_correct_witness :
    ∃ rows', columns_to_rows ⟨5, 3, 2, false, 435, 1150, 1000, 5⟩ [[0, 3, 4], [1, 2, 4]]
        [[9, 9, 9], [9, 9, 9]] = some rows' ∧ rows'.length = INDEX ∧
        (rows'.getD 0 []).length = 3 ∧
        (rows'.getD 0 []).Pairwise (· < ·) ∧
        (∀ v ∈ rows'.getD 0 [], 0 ≤ v ∧ v < ((5 : Nat) : Int)) ∧
        (∀ v, v ∈ rows'.getD 0 [] ↔
          ∃ c ∈ [[0, 3, 4], [1, 2, 4]].getD 0 [],
            v = (((5 : Nat) : Int) - c) % ((5 : Nat) : Int)) ∧
        rows'.getD 0 [] = reflect 5 ([[0, 3, 4], [1, 2, 4]].getD 0 []) :=
  columns_to_rows_correct ⟨5, 3, 2, false, 435, 1150, 1000, 5⟩ [[0, 3, 4], [1, 2, 4]]
    [[9, 9, 9], [9, 9, 9]] (by decide) (by decide) (by decide) (by decide) (by decide)
    0 (by decide) ⟨by decide, by decide, by decide⟩

/-- C8: `single_counter(col, j, syndrome)`, for an ascending `col` of `W <= 255`
entries in `[0, N)`, a position `j` in `[0, N)` and a 0/1 syndrome of length `N`,
returns the sum over `k < W` of `syndrome[(j + col[k]) mod N]`. The syndrome has
exactly `N` entries and every read of the model outside the buffer yields `none`,
so the successful return shows that every index read lies in `[0, N)`. -/
theorem single_counter_correct (P : Params) (col : List Int) (j : Int) (s : List Nat)
    (hW : P.BLOCK_WEIGHT ≤ 255) (hlen : col.length = P.BLOCK_WEIGHT)
    (hb : ∀ c ∈ col, 0 ≤ c ∧ c < (P.BLOCK_LENGTH : Int)) (hsort : col.Pairwise (· ≤ ·))
    (hj0 : 0 ≤ j) (hj : j < P.BLOCK_LENGTH) (hs : s.length = P.BLOCK_LENGTH)
    (h01 : ∀ v ∈ s, v ≤ 1) :
    single_counter P col j s =
      some (sumUpTo P.BLOCK_WEIGHT (fun k => cyc P.BLOCK_LENGTH s (j + col.getD k 0))) := by
  rw [single_counter_general P col s j hlen hb hsort hj0 hj (by omega)]
  have := sumUpTo_le P.BLOCK_WEIGHT (fun k => cyc P.BLOCK_LENGTH s (j + col.getD k 0))
    (fun k => Nat.lt_succ_iff.1 (getD_lt_of_forall_mem s 2 (by decide)
      (fun v hv => Nat.lt_succ_iff.2 (h01 v hv)) _))
  rw [Nat.mod_eq_of_lt (by omega)]

theorem single_counter_correct_witness :
    single_counter ⟨5, 3, 2, false, 435, 1150, 1000, 5⟩ [0, 3, 4] 2 [1, 1, 0, 0, 1] =
      some (sumUpTo 3 (fun k => cyc 5 [1, 1, 0, 0, 1] (2 + [0, 3, 4].getD k 0))) :=
  single_counter_correct ⟨5, 3, 2, false, 435, 1150, 1000, 5⟩ [0, 3, 4] 2 [1, 1, 0, 0, 1]
    (by decide) (by decide) (by decide) (by decide) (by decide) (by decide) (by decide)
    (by decide)

/-- C9: `single_flip(col, j, syndrome)`, for a strictly ascending `col` of `W`
entries in `[0, N)`, a position `j` in `[0, N)` and a syndrome of length `N`,
returns a syndrome of the same length in which exactly the entries at the indices
`(j + col[k]) mod N`, `k < W`, are XORed with 1 and every other entry is unchanged;
these `W` indices are pairwise distinct. The buffer has exactly `N` entries and
every write of the model outside it yields `none`, so no index outside `[0, N)` is
written. -/
theorem single_flip_correct (P : Params) (col : List Int) (j : Int) (s : List Nat)
    (hv : ValidColumn P.BLOCK_LENGTH P.BLOCK_WEIGHT col)
    (hj0 : 0 ≤ j) (hj : j < P.BLOCK_LENGTH) (hs : s.length = P.BLOCK_LENGTH) :
    ∃ s', single_flip P col j s = some s' ∧ s'.length = P.BLOCK_LENGTH ∧
      (∀ i, s'.getD i 0 =
        if ∃ k, k < P.BLOCK_WEIGHT ∧
            ((j + col.getD k 0) % (P.BLOCK_LENGTH : Int)).toNat = i
        then s.getD i 0 ^^^ 1 else s.getD i 0) ∧
      (∀ a b, a < P.BLOCK_WEIGHT → b < P.BLOCK_WEIGHT →
        ((j + col.getD a 0) % (P.BLOCK_LENGTH : Int)).toNat =
          ((j + col.getD b 0) % (P.BLOCK_LENGTH : Int)).toNat → a = b) := by
  obtain ⟨s', e, l, g⟩ := single_flip_valid P col s j hv hj0 hj (by omega)
  exact ⟨s', e, by omega, g,
    fun a b ha hb h => shifted_support_injective _ _ col hv j hj0 hj a b ha hb h⟩

theorem single_flip_correct_witness :
    ∃ s', single_flip ⟨5, 3, 2, false, 435, 1150, 1000, 5⟩ [0, 3, 4] 2 [1, 1, 0, 0, 1] =
        some s' ∧ s'.length = 5 ∧
      (∀ i, s'.getD i 0 =
        if ∃ k, k < 3 ∧ (((2 : Int) + [0, 3, 4].getD k 0) % ((5 : Nat) : Int)).toNat = i
        then [1, 1, 0, 0, 1].getD i 0 ^^^ 1 else [1, 1, 0, 0, 1].getD i 0) ∧
      (∀ a b, a < 3 → b < 3 →
        (((2 : Int) + [0, 3, 4].getD a 0) % ((5 : Nat) : Int)).toNat =
          (((2 : Int) + [0, 3, 4].getD b 0) % ((5 : Nat) : Int)).toNat → a = b) :=
  single_flip_correct ⟨5, 3, 2, false, 435, 1150, 1000, 5⟩ [0, 3, 4] 2 [1, 1, 0, 0, 1]
    ⟨by decide, by decide, by decide⟩ (by decide) (by decide) (by decide)

/-! ## Claim on `compute_counters` -/

/-- C6: for every `H` with two strictly ascending column supports in `[0, N)`
(`1 <= W <= 255`) and every syndrome buffer (at least `2 * N` bytes, as
`compute_counters` copies the syndrome to its upper half) whose first `N` entries
are 0/1, `columns_to_rows` then `compute_counters` (non-AVX path) return, and for
every block `k` and `j < N` the counter `counters[k][j]` is the value returned by
`single_counter(Hcolumns[k], j, syndrome)` and equals the sum over `l < W` of
`syndrome[(j + Hcolumns[k][l]) mod N]`. -/
theorem compute_counters_correct (P : Params) (columns rows0 : List (List Int))
    (checks : List Nat) (counters : List (List Nat))
    (hW : 0 < P.BLOCK_WEIGHT) (hW255 : P.BLOCK_WEIGHT ≤ 255)
    (hcl : columns.length = INDEX)
    (hcv : ∀ c ∈ columns, ValidColumn P.BLOCK_LENGTH P.BLOCK_WEIGHT c)
    (hrl : rows0.length = INDEX) (hr : ∀ r ∈ rows0, r.length = P.BLOCK_WEIGHT)
    (hy : 2 * P.BLOCK_LENGTH ≤ checks.length)
    (h01 : ∀ i, i < P.BLOCK_LENGTH → checks.getD i 0 ≤ 1)
    (hkl : counters.length = INDEX) (hk : ∀ c ∈ counters, P.BLOCK_LENGTH ≤ c.length) :
    ∃ rows checks' counters', columns_to_rows P columns rows0 = some rows ∧
      compute_counters P columns rows checks counters = some (checks', counters') ∧
      ∀ (k j : Nat), k < INDEX → j < P.BLOCK_LENGTH →
        single_counter P (columns.getD k []) (j : Int) checks =
          some ((counters'.getD k []).getD j 0) ∧
        (counters'.getD k []).getD j 0 =
          sumUpTo P.BLOCK_WEIGHT
            (fun l => cyc P.BLOCK_LENGTH checks ((j : Int) + (columns.getD k []).getD l 0)) := by
  obtain ⟨c0, c1, rfl⟩ := list_eq_pair columns hcl
  obtain ⟨r0, r1, rfl⟩ := list_eq_pair rows0 hrl
  obtain ⟨k0, k1, rfl⟩ := list_eq_pair counters hkl
  have hv0 := hcv c0 (by simp)
  have hv1 := hcv c1 (by simp)
  have hrv0 := reflect_valid _ _ c0 hv0
  have hrv1 := reflect_valid _ _ c1 hv1
  obtain ⟨checks', d0, d1, e, _, _, _, _, g0, g1⟩ := compute_counters_pair P [c0, c1]
    (reflect P.BLOCK_LENGTH c0) (reflect P.BLOCK_LENGTH c1) checks k0 k1 hrv0.1 hrv1.1
    hrv0.2.1 hrv1.2.1 hy (hk k0 (by simp)) (hk k1 (by simp))
  refine ⟨_, checks', [d0, d1], columns_to_rows_pair P c0 c1 r0 r1 hW hv0.1 hv1.1
    (hr r0 (by simp)) (hr r1 (by simp)), e, ?_⟩
  have main : ∀ (c : List Int) (d : List Nat),
      ValidColumn P.BLOCK_LENGTH P.BLOCK_WEIGHT c →
      (∀ j, j < P.BLOCK_LENGTH → d.getD j 0 =
        sumUpTo P.BLOCK_WEIGHT (fun l => cyc P.BLOCK_LENGTH checks
          ((j : Int) - (reflect P.BLOCK_LENGTH c).getD l 0)) % 256) →
      ∀ j, j < P.BLOCK_LENGTH →
        single_counter P c (j : Int) checks = some (d.getD j 0) ∧
        d.getD j 0 = sumUpTo P.BLOCK_WEIGHT
          (fun l => cyc P.BLOCK_LENGTH checks ((j : Int) + c.getD l 0)) := by
    intro c d hv hd j hj
    have hsum := sum_reflect P.BLOCK_LENGTH checks (j : Int) c
    rw [hv.1] at hsum
    have hle := sumUpTo_le P.BLOCK_WEIGHT
      (fun l => cyc P.BLOCK_LENGTH checks ((j : Int) + c.getD l 0)) (fun l => by
        unfold cyc
        apply h01
        have h1 := Int.emod_nonneg ((j : Int) + c.getD l 0)
          (show (P.BLOCK_LENGTH : Int) ≠ 0 by omega)
        have h2 := Int.emod_lt_of_pos ((j : Int) + c.getD l 0)
          (show (0 : Int) < P.BLOCK_LENGTH by omega)
        omega)
    have hval : d.getD j 0 = sumUpTo P.BLOCK_WEIGHT
        (fun l => cyc P.BLOCK_LENGTH checks ((j : Int) + c.getD l 0)) := by
      rw [hd j hj, hsum, Nat.mod_eq_of_lt (by omega)]
    refine ⟨?_, hval⟩
    rw [single_counter_general P c checks (j : Int) hv.1 hv.2.1
      (pairwise_le_of_lt c hv.2.2) (by omega) (by omega) (by omega), hval,
      Nat.mod_eq_of_lt (by omega)]
  intro k j hk hj
  have hk2 : k = 0 ∨ k = 1 := by unfold INDEX at hk; omega
  rcases hk2 with rfl | rfl
  · exact main c0 d0 hv0 g0 j hj
  · exact main c1 d1 hv1 g1 j hj

theorem compute_counters_correct_witness :
    ∃ rows checks' counters',
      columns_to_rows ⟨3, 2, 1, false, 435, 1150, 1000, 5⟩ [[0, 1], [1, 2]] [[9, 9], [9, 9]] =
        some rows ∧
      compute_counters ⟨3, 2, 1, false, 435, 1150, 1000, 5⟩ [[0, 1], [1, 2]] rows
        [1, 0, 1, 7, 7, 7]
        [[5, 5, 5], [5, 5, 5]] = some (checks', counters') ∧
      ∀ (k j : Nat), k < INDEX → j < 3 →
        single_counter ⟨3, 2, 1, false, 435, 1150, 1000, 5⟩ ([[0, 1], [1, 2]].getD k [])
          (j : Int) [1, 0, 1, 7, 7, 7] = some ((counters'.getD k []).getD j 0) ∧
        (counters'.getD k []).getD j 0 =
          sumUpTo 2 (fun l => cyc 3 [1, 0, 1, 7, 7, 7]
            ((j : Int) + ([[0, 1], [1, 2]].getD k []).getD l 0)) :=
  compute_counters_correct ⟨3, 2, 1, false, 435, 1150, 1000, 5⟩ [[0, 1], [1, 2]]
    [[9, 9], [9, 9]] [1, 0, 1, 7, 7, 7] [[5, 5, 5], [5, 5, 5]] (by decide) (by decide)
    (by decide) (by unfold ValidColumn; decide) (by decide) (by decide) (by decide)
    (by decide) (by decide) (by decide)


/-! ## Claim on the initial syndrome -/

/-- C10: after `reset_decoder` followed by `init_decoder_error` (non-Ouroboros
build, allocated decoder, valid `H`, `ERROR_WEIGHT` ascending error positions in
`[0, 2N)`), both calls return, `syndrome[i]` is the XOR over `k` in `{0,1}` and
`l < W` of `e[k][(i - Hcolumns[k][l]) mod N]` for every `i < N`, and
`syndrome_weight` is the number of ones among `syndrome[0..N)`. The second part
shows the dependence on the cleared syndrome: `init_decoder_error` run on an
allocated decoder that was not reset leaves the entry value of the syndrome XORed
into the result. -/
theorem initial_syndrome (P : Params) (dec0 : decoder) (H : List (List Int))
    (e_block : List Int) (e2 : Option (List Int))
    (hO : P.OUROBOROS = false) (hW : 0 < P.BLOCK_WEIGHT)
    (hA : Allocated P dec0) (hH : ValidH P H) (hE : ValidError P e_block) :
    (∃ dec1 dec, reset_decoder P dec0 = some dec1 ∧
      init_decoder_error P dec1 H e_block e2 = some dec ∧
      (∀ i, i < P.BLOCK_LENGTH → dec.syndrome.getD i 0 =
        Hmul P.BLOCK_WEIGHT H (fun k x => cyc P.BLOCK_LENGTH (dec.e.getD k []) x) i) ∧
      dec.syndrome_weight = ((popcount P.BLOCK_LENGTH dec.syndrome : Nat) : Int)) ∧
    (∃ dec, init_decoder_error P dec0 H e_block e2 = some dec ∧
      ∀ i, i < P.BLOCK_LENGTH → dec.syndrome.getD i 0 =
        dec0.syndrome.getD i 0 ^^^
          Hmul P.BLOCK_WEIGHT H (fun k x => cyc P.BLOCK_LENGTH (dec.e.getD k []) x) i) := by
  have hbuf := bufLen_ge P
  have shape : ∀ d : decoder, Allocated P d →
      d.Hrows.length = INDEX ∧ (∀ r ∈ d.Hrows, r.length = P.BLOCK_WEIGHT) ∧
      d.e.length = INDEX ∧ (∀ b ∈ d.e, P.BLOCK_LENGTH ≤ b.length) ∧
      P.BLOCK_LENGTH ≤ d.syndrome.length := by
    rintro d ⟨_, _, h3, h4, _, _, h7, h8, h9, _⟩
    exact ⟨h8, h9, h3, fun b hb => by rw [h4 b hb]; omega, by omega⟩
  constructor
  · have hA1 := allocated_reset P dec0 hA
    obtain ⟨s1, s2, s3, s4, s5⟩ := shape _ hA1
    obtain ⟨E0, E1, S, e, _, _, g0, g1, _, gS⟩ :=
      init_decoder_error_spec P _ H e_block e2 hO hW hH hE s1 s2 s3 s4 s5
    refine ⟨_, _, reset_decoder_spec P dec0 hA, e, ?_, ?_⟩
    · intro i hi
      show S.getD i 0 = _
      rw [gS i, if_pos hi]
      show (List.replicate P.bufLen 0).getD i 0 ^^^ _ = _
      rw [getD_replicate_zero, Nat.zero_xor]
    · show ((sumUpTo P.BLOCK_LENGTH (fun j => S.getD j 0) : Nat) : Int) = _
      rw [popcount_eq_sum]
      intro i hi
      rw [gS i, if_pos hi]
      show (List.replicate P.bufLen 0).getD i 0 ^^^ _ ≤ 1
      rw [getD_replicate_zero, Nat.zero_xor]
      apply Hmul_le_one
      intro k x
      have hk : ∀ v : List Nat, (∀ j, j < P.BLOCK_LENGTH → v.getD j 0 ≤ 1) →
          cyc P.BLOCK_LENGTH v x ≤ 1 := fun v hv => cyc_le_one _ (by omega) v hv x
      match k with
      | 0 => exact hk E0 (fun j hj => by rw [g0 j hj]; split <;> omega)
      | 1 => exact hk E1 (fun j hj => by rw [g1 j hj]; split <;> omega)
      | k + 2 => simp [cyc]
  · obtain ⟨s1, s2, s3, s4, s5⟩ := shape _ hA
    obtain ⟨E0, E1, S, e, _, _, _, _, _, gS⟩ :=
      init_decoder_error_spec P dec0 H e_block e2 hO hW hH hE s1 s2 s3 s4 s5
    refine ⟨_, e, ?_⟩
    intro i hi
    show S.getD i 0 = _
    rw [gS i, if_pos hi]

theorem initial_syndrome_witness :
    (∃ dec1 dec, reset_decoder witnessParams witnessDecoder = some dec1 ∧
      init_decoder_error witnessParams dec1 [[0, 1], [1, 2]] [1, 4] none = some dec ∧
      (∀ i, i < witnessParams.BLOCK_LENGTH → dec.syndrome.getD i 0 =
        Hmul witnessParams.BLOCK_WEIGHT [[0, 1], [1, 2]]
          (fun k x => cyc witnessParams.BLOCK_LENGTH (dec.e.getD k []) x) i) ∧
      dec.syndrome_weight =
        ((popcount witnessParams.BLOCK_LENGTH dec.syndrome : Nat) : Int)) ∧
    (∃ dec, init_decoder_error witnessParams witnessDecoder [[0, 1], [1, 2]] [1, 4] none =
        some dec ∧
      ∀ i, i < witnessParams.BLOCK_LENGTH → dec.syndrome.getD i 0 =
        witnessDecoder.syndrome.getD i 0 ^^^
          Hmul witnessParams.BLOCK_WEIGHT [[0, 1], [1, 2]]
            (fun k x => cyc witnessParams.BLOCK_LENGTH (dec.e.getD k []) x) i) :=
  initial_syndrome witnessParams witnessDecoder [[0, 1], [1, 2]] [1, 4] none rfl
    (by decide) witnessDecoder_allocated witnessH_valid witnessError_valid

/-! ## The flip list -/

theorem hd_cases (l : List Nat) : hd l = -1 ∨ ∃ q ∈ l, hd l = (q : Int) := by
  cases l with
  | nil => left; rfl
  | cons a t => right; exact ⟨a, List.mem_cons_self _ _, rfl⟩

theorem hd_ne_of_not_mem (l : List Nat) (a : Nat) (h : a ∉ l) : hd l ≠ (a : Int) := by
  rcases hd_cases l with h1 | ⟨q, hq, h1⟩
  · rw [h1]; omega
  · rw [h1]
    intro heq
    have : q = a := by omega
    exact h (this ▸ hq)

theorem succOf_cases (l : List Nat) (p : Nat) :
    succOf l p = -1 ∨ ∃ q ∈ l, succOf l p = (q : Int) := by
  induction l with
  | nil => left; rfl
  | cons a t ih =>
    simp only [succOf]
    split
    · rcases hd_cases t with h | ⟨q, hq, h⟩
      · left; exact h
      · right; exact ⟨q, List.mem_cons_of_mem _ hq, h⟩
    · rcases ih with h | ⟨q, hq, h⟩
      · left; exact h
      · right; exact ⟨q, List.mem_cons_of_mem _ hq, h⟩

theorem succOf_ne_of_not_mem (l : List Nat) (p a : Nat) (h : a ∉ l) :
    succOf l p ≠ (a : Int) := by
  rcases succOf_cases l p with h1 | ⟨q, hq, h1⟩
  · rw [h1]; omega
  · rw [h1]
    intro heq
    have : q = a := by omega
    exact h (this ▸ hq)

theorem predOf_cases (pv : Int) (l : List Nat) (p : Nat) (hp : p ∈ l) :
    predOf pv l p = pv ∨ ∃ q ∈ l, predOf pv l p = (q : Int) := by
  induction l generalizing pv with
  | nil => exact absurd hp (List.not_mem_nil _)
  | cons a t ih =>
    simp only [predOf]
    split
    · left; rfl
    · rename_i hne
      have hpt : p ∈ t := by
        rcases List.mem_cons.1 hp with h | h
        · exact absurd h hne
        · exact h
      rcases ih (a : Int) hpt with h | ⟨q, hq, h⟩
      · right; exact ⟨a, List.mem_cons_self _ _, h⟩
      · right; exact ⟨q, List.mem_cons_of_mem _ hq, h⟩

/-- The predecessor of `p` is the initial one exactly when `p` is the head. -/
theorem predOf_eq_pv_iff (pv : Int) (l : List Nat) (p : Nat) (hp : p ∈ l)
    (hpv : ∀ r ∈ l, (r : Int) ≠ pv) : predOf pv l p = pv ↔ hd l = (p : Int) := by
  cases l with
  | nil => exact absurd hp (List.not_mem_nil _)
  | cons a t =>
    simp only [predOf, hd]
    by_cases hpa : p = a
    · subst hpa; simp
    · rw [if_neg hpa]
      have hpt : p ∈ t := by
        rcases List.mem_cons.1 hp with h | h
        · exact absurd h hpa
        · exact h
      constructor
      · intro h
        rcases predOf_cases (a : Int) t p hpt with h1 | ⟨q, hq, h1⟩
        · rw [h1] at h
          exact absurd h (hpv a (List.mem_cons_self _ _))
        · rw [h1] at h
          exact absurd h (hpv q (List.mem_cons_of_mem _ hq))
      · intro h
        have : a = p := by omega
        exact absurd this.symm hpa

/-- Changing the initial predecessor only changes the predecessor of the head. -/
theorem predOf_change_pv (pv pv' : Int) (l : List Nat) (p : Nat) (hp : p ∈ l) :
    predOf pv l p = if hd l = (p : Int) then pv else predOf pv' l p := by
  cases l with
  | nil => exact absurd hp (List.not_mem_nil _)
  | cons a t =>
    simp only [predOf, hd]
    by_cases hpa : p = a
    · subst hpa; simp
    · rw [if_neg hpa, if_neg hpa, if_neg (by omega)]

theorem succ_pred (pv : Int) (l : List Nat) (hn : l.Nodup) (p q : Nat) (hp : p ∈ l)
    (hq : q ∈ l) (hpv : ∀ r ∈ l, (r : Int) ≠ pv) :
    succOf l p = (q : Int) ↔ predOf pv l q = (p : Int) := by
  induction l generalizing pv with
  | nil => exact absurd hp (List.not_mem_nil _)
  | cons a t ih =>
    rw [List.nodup_cons] at hn
    simp only [succOf, predOf]
    by_cases hpa : p = a
    · subst hpa
      rw [if_pos rfl]
      by_cases hqa : q = p
      · subst hqa
        rw [if_pos rfl]
        constructor
        · intro h; exact absurd h (hd_ne_of_not_mem t q hn.1)
        · intro h; exact absurd h.symm (hpv q (List.mem_cons_self _ _))
      · rw [if_neg hqa]
        have hqt : q ∈ t := by
          rcases List.mem_cons.1 hq with h | h
          · exact absurd h hqa
          · exact h
        rw [predOf_eq_pv_iff (p : Int) t q hqt (fun r hr heq => by
          have : r = p := by omega
          exact hn.1 (this ▸ hr))]
    · rw [if_neg hpa]
      have hpt : p ∈ t := by
        rcases List.mem_cons.1 hp with h | h
        · exact absurd h hpa
        · exact h
      by_cases hqa : q = a
      · subst hqa
        rw [if_pos rfl]
        constructor
        · intro h; exact absurd h (succOf_ne_of_not_mem t p q hn.1)
        · intro h; exact absurd h.symm (hpv p hp)
      · rw [if_neg hqa]
        have hqt : q ∈ t := by
          rcases List.mem_cons.1 hq with h | h
          · exact absurd h hqa
          · exact h
        exact ih (a : Int) hn.2 hpt hqt (fun r hr heq => by
          have : r = a := by omega
          exact hn.1 (this ▸ hr))


theorem erase_cons_ne (a pos : Nat) (t : List Nat) (h : a ≠ pos) :
    (a :: t).erase pos = a :: t.erase pos :=
  List.erase_cons_tail (by simpa using h)

theorem hd_erase (l : List Nat) (pos : Nat) (hpos : pos ∈ l) :
    hd (l.erase pos) = if hd l = (pos : Int) then succOf l pos else hd l := by
  cases l with
  | nil => exact absurd hpos (List.not_mem_nil _)
  | cons a t =>
    by_cases h : a = pos
    · subst h
      rw [List.erase_cons_head]
      simp [hd, succOf]
    · rw [erase_cons_ne a pos t h]
      simp only [hd]
      rw [if_neg (by omega)]

theorem succOf_erase (l : List Nat) (hn : l.Nodup) (pos p : Nat) (hpos : pos ∈ l)
    (hp : p ∈ l) (hne : p ≠ pos) :
    succOf (l.erase pos) p =
      if succOf l p = (pos : Int) then succOf l pos else succOf l p := by
  induction l with
  | nil => exact absurd hpos (List.not_mem_nil _)
  | cons a t ih =>
    rw [List.nodup_cons] at hn
    by_cases h : a = pos
    · subst h
      rw [List.erase_cons_head]
      have hpa : ¬ p = a := hne
      simp only [succOf, if_neg hpa]
      rw [if_neg (succOf_ne_of_not_mem t p a hn.1)]
    · rw [erase_cons_ne a pos t h]
      have hpost : pos ∈ t := by
        rcases List.mem_cons.1 hpos with h1 | h1
        · exact absurd h1.symm h
        · exact h1
      have hposa : ¬ pos = a := fun h1 => h h1.symm
      by_cases hpa : p = a
      · subst hpa
        simp only [succOf, if_pos, if_neg hposa]
        exact hd_erase t pos hpost
      · have hpt : p ∈ t := by
          rcases List.mem_cons.1 hp with h1 | h1
          · exact absurd h1 hpa
          · exact h1
        simp only [succOf, if_neg hpa, if_neg hposa]
        exact ih hn.2 hpost hpt

theorem predOf_erase (pv : Int) (l : List Nat) (hn : l.Nodup) (pos p : Nat)
    (hpos : pos ∈ l) (hp : p ∈ l) (hne : p ≠ pos) (hpv : ∀ r ∈ l, (r : Int) ≠ pv) :
    predOf pv (l.erase pos) p =
      if predOf pv l p = (pos : Int) then predOf pv l pos else predOf pv l p := by
  induction l generalizing pv with
  | nil => exact absurd hpos (List.not_mem_nil _)
  | cons a t ih =>
    rw [List.nodup_cons] at hn
    have hnotin : ∀ r ∈ t, (r : Int) ≠ (a : Int) := fun r hr heq => by
      have : r = a := by omega
      exact hn.1 (this ▸ hr)
    by_cases h : a = pos
    · subst h
      rw [List.erase_cons_head]
      have hpa : ¬ p = a := hne
      have hpt : p ∈ t := by
        rcases List.mem_cons.1 hp with h1 | h1
        · exact absurd h1 hpa
        · exact h1
      simp only [predOf, if_neg hpa, if_pos]
      rw [predOf_change_pv pv (a : Int) t p hpt]
      by_cases hh : hd t = (p : Int)
      · rw [if_pos hh, if_pos ((predOf_eq_pv_iff (a : Int) t p hpt hnotin).2 hh)]
      · rw [if_neg hh, if_neg (fun h1 => hh ((predOf_eq_pv_iff (a : Int) t p hpt hnotin).1 h1))]
    · rw [erase_cons_ne a pos t h]
      have hpost : pos ∈ t := by
        rcases List.mem_cons.1 hpos with h1 | h1
        · exact absurd h1.symm h
        · exact h1
      have hposa : ¬ pos = a := fun h1 => h h1.symm
      by_cases hpa : p = a
      · subst hpa
        simp only [predOf, if_pos]
        rw [if_neg (fun h1 => hpv pos hpos h1.symm)]
      · have hpt : p ∈ t := by
          rcases List.mem_cons.1 hp with h1 | h1
          · exact absurd h1 hpa
          · exact h1
        simp only [predOf, if_neg hpa, if_neg hposa]
        exact ih (a : Int) hn.2 hpost hpt hnotin

theorem succOf_append_head (kept rest : List Nat) (r : Nat) (h : r ∉ kept) :
    succOf (kept ++ r :: rest) r = hd rest := by
  induction kept with
  | nil => simp [succOf]
  | cons a t ih =>
    have hra : ¬ r = a := fun h1 => h (h1 ▸ List.mem_cons_self _ _)
    simp only [List.cons_append, succOf, if_neg hra]
    exact ih (fun h1 => h (List.mem_cons_of_mem _ h1))

theorem rd_nat_getD {α : Type} (a : List α) (d : α) (n : Nat) (h : n < a.length) :
    rd a (n : Int) = some (a.getD n d) := by
  rw [rd_natCast, getD_eq_of_lt a d n h]

theorem getD_set_int (a : List Int) (i j : Nat) (v : Int) (h : i < a.length) :
    (a.set i v).getD j 0 = if i = j then v else a.getD j 0 := by
  simp only [List.getD_eq_getElem?_getD, List.getElem?_set]
  split <;> simp [h]

theorem hd_eq_neg_one (l : List Nat) : hd l = -1 ↔ l = [] := by
  cases l with
  | nil => simp [hd]
  | cons a t =>
    simp only [hd]
    constructor
    · intro h; omega
    · intro h; exact absurd h (List.cons_ne_nil _ _)

theorem fl_add_spec (M : Nat) (fl : flip_list) (l : List Nat) (pos : Nat)
    (hl : IsList M fl l) (hpos : pos < M) (hnot : pos ∉ l) :
    ∃ fl', fl_add fl (pos : Int) = some fl' ∧ IsList M fl' (pos :: l) ∧ fl'.tod = fl.tod := by
  obtain ⟨hnl, hpl, htl, hnd, hb, hf, hlen, hlink⟩ := hl
  have e1 : wr fl.next (pos : Int) fl.first = some (fl.next.set pos fl.first) :=
    wr_natCast _ _ _ (by omega)
  have e2 : wr fl.prev (pos : Int) (-1) = some (fl.prev.set pos (-1)) :=
    wr_natCast _ _ _ (by omega)
  have hlen' : fl.length + 1 = ((pos :: l).length : Int) := by
    rw [hlen, List.length_cons]; omega
  by_cases hfirst : fl.first = -1
  · have hnil : l = [] := (hd_eq_neg_one l).1 (hf ▸ hfirst)
    refine ⟨{ fl with next := fl.next.set pos fl.first, prev := fl.prev.set pos (-1),
                      first := (pos : Int), length := fl.length + 1 }, ?_, ?_, rfl⟩
    · unfold fl_add
      simp only [Option.bind_eq_bind]
      rw [e1, Option.some_bind, e2, Option.some_bind, if_neg (fun h => h hfirst),
        Option.some_bind]
    · refine ⟨by simp [hnl], by simp [hpl], htl, List.nodup_cons.2 ⟨hnot, hnd⟩, ?_, rfl,
        hlen', ?_⟩
      · intro p hp
        rcases List.mem_cons.1 hp with rfl | h
        · exact hpos
        · exact hb p h
      · intro p hp
        subst hnil
        have : p = pos := by simpa using hp
        subst this
        show (fl.next.set p fl.first).getD p 0 = _ ∧ (fl.prev.set p (-1)).getD p 0 = _
        rw [getD_set_int _ _ _ _ (by omega), getD_set_int _ _ _ _ (by omega)]
        simp only [succOf, predOf, if_pos, hd]
        exact ⟨hfirst, trivial⟩
  · obtain ⟨q, hq, hqe⟩ : ∃ q ∈ l, hd l = (q : Int) := by
      rcases hd_cases l with h | h
      · exact absurd (hf.trans h) hfirst
      · exact h
    have hfq : fl.first = (q : Int) := hf.trans hqe
    have hqM := hb q hq
    have hqpos : q ≠ pos := fun h => hnot (h ▸ hq)
    have e3 : wr (fl.prev.set pos (-1)) fl.first (pos : Int) =
        some ((fl.prev.set pos (-1)).set q (pos : Int)) := by
      rw [hfq]; exact wr_natCast _ _ _ (by rw [List.length_set]; omega)
    refine ⟨{ fl with next := fl.next.set pos fl.first,
                      prev := (fl.prev.set pos (-1)).set q (pos : Int),
                      first := (pos : Int), length := fl.length + 1 }, ?_, ?_, rfl⟩
    · unfold fl_add
      simp only [Option.bind_eq_bind]
      rw [e1, Option.some_bind, e2, Option.some_bind, if_pos hfirst, e3, Option.some_bind]
    · refine ⟨by simp [hnl], by simp [hpl], htl, List.nodup_cons.2 ⟨hnot, hnd⟩, ?_, rfl,
        hlen', ?_⟩
      · intro p hp
        rcases List.mem_cons.1 hp with rfl | h
        · exact hpos
        · exact hb p h
      · intro p hp
        show (fl.next.set pos fl.first).getD p 0 = _ ∧
          ((fl.prev.set pos (-1)).set q (pos : Int)).getD p 0 = _
        rw [getD_set_int _ _ _ _ (by omega),
          getD_set_int _ _ _ _ (by rw [List.length_set]; omega),
          getD_set_int _ _ _ _ (by omega)]
        rcases List.mem_cons.1 hp with rfl | h
        · simp only [succOf, predOf, if_pos, if_neg hqpos]
          exact ⟨hf, trivial⟩
        · have hpp : ¬ pos = p := fun h1 => hnot (h1 ▸ h)
          have hpp' : ¬ p = pos := fun h1 => hpp h1.symm
          simp only [succOf, predOf, if_neg hpp, if_neg hpp']
          refine ⟨(hlink p h).1, ?_⟩
          rw [predOf_change_pv (pos : Int) (-1) l p h, hqe, (hlink p h).2]
          by_cases hqp : q = p
          · rw [if_pos hqp, if_pos (by omega)]
          · rw [if_neg hqp, if_neg (by omega)]


/-- In a duplicate-free list no node is its own predecessor. -/
theorem predOf_ne_self (pv : Int) (l : List Nat) (hn : l.Nodup) (p : Nat) (hp : p ∈ l)
    (hpv : ∀ r ∈ l, (r : Int) ≠ pv) : predOf pv l p ≠ (p : Int) := by
  induction l generalizing pv with
  | nil => exact absurd hp (List.not_mem_nil _)
  | cons a t ih =>
    rw [List.nodup_cons] at hn
    simp only [predOf]
    by_cases hpa : p = a
    · rw [if_pos hpa]
      exact fun h => hpv p hp h.symm
    · rw [if_neg hpa]
      have hpt : p ∈ t := by
        rcases List.mem_cons.1 hp with h | h
        · exact absurd h hpa
        · exact h
      exact ih (a : Int) hn.2 hpt (fun r hr heq => by
        have : r = a := by omega
        exact hn.1 (this ▸ hr))

theorem fl_remove_spec (M : Nat) (fl : flip_list) (l : List Nat) (pos : Nat)
    (hl : IsList M fl l) (hmem : pos ∈ l) :
    ∃ fl', fl_remove fl (pos : Int) = some fl' ∧ IsList M fl' (l.erase pos) ∧
      fl'.tod = fl.tod ∧ fl'.next.getD pos 0 = succOf l pos := by
  obtain ⟨hnl, hpl, htl, hnd, hb, hf, hlen, hlink⟩ := hl
  have hposM := hb pos hmem
  have hnx : fl.next.getD pos 0 = succOf l pos := (hlink pos hmem).1
  have hpr : fl.prev.getD pos 0 = predOf (-1) l pos := (hlink pos hmem).2
  have e1 : rd fl.next (pos : Int) = some (succOf l pos) := by
    rw [rd_nat_getD fl.next 0 pos (by omega), hnx]
  have e2 : rd fl.prev (pos : Int) = some (predOf (-1) l pos) := by
    rw [rd_nat_getD fl.prev 0 pos (by omega), hpr]
  have hneg : ∀ r ∈ l, (r : Int) ≠ -1 := fun r _ => by omega
  obtain ⟨prev1, e3, e3', hp1len, hp1⟩ : ∃ prev1 : List Int,
      (succOf l pos ≠ -1 →
        wr fl.prev (succOf l pos) (predOf (-1) l pos) = some prev1) ∧
      (succOf l pos = -1 → prev1 = fl.prev) ∧ prev1.length = M ∧
      ∀ p ∈ l, p ≠ pos → prev1.getD p 0 =
        if succOf l pos = (p : Int) then predOf (-1) l pos else predOf (-1) l p := by
    by_cases h : succOf l pos = -1
    · refine ⟨fl.prev, fun h' => absurd h h', fun _ => rfl, hpl, fun p hp _ => ?_⟩
      rw [if_neg (by rw [h]; omega), (hlink p hp).2]
    · obtain ⟨q, hq, hqe⟩ : ∃ q ∈ l, succOf l pos = (q : Int) := by
        rcases succOf_cases l pos with h1 | h1
        · exact absurd h1 h
        · exact h1
      have hqM := hb q hq
      refine ⟨fl.prev.set q (predOf (-1) l pos), fun _ => ?_, fun h' => absurd h' h,
        by simp [hpl], fun p hp _ => ?_⟩
      · rw [hqe, wr_natCast _ _ _ (by omega)]
      · rw [getD_set_int _ _ _ _ (by omega), hqe, (hlink p hp).2]
        by_cases hqp : q = p
        · rw [if_pos hqp, if_pos (by omega)]
        · rw [if_neg hqp, if_neg (by omega)]
  obtain ⟨next1, first1, e4, e4', hn1len, hfirst1, hn1, hn1pos⟩ :
      ∃ (next1 : List Int) (first1 : Int),
      (predOf (-1) l pos ≠ -1 →
        wr fl.next (predOf (-1) l pos) (succOf l pos) = some next1 ∧ first1 = fl.first) ∧
      (predOf (-1) l pos = -1 → next1 = fl.next ∧ first1 = succOf l pos) ∧
      next1.length = M ∧ first1 = hd (l.erase pos) ∧
      (∀ p ∈ l, p ≠ pos → next1.getD p 0 =
        if predOf (-1) l pos = (p : Int) then succOf l pos else succOf l p) ∧
      next1.getD pos 0 = succOf l pos := by
    by_cases h : predOf (-1) l pos = -1
    · refine ⟨fl.next, succOf l pos, fun h' => absurd h h', fun _ => ⟨rfl, rfl⟩, hnl, ?_,
        fun p hp _ => ?_, hnx⟩
      · rw [hd_erase l pos hmem, if_pos ((predOf_eq_pv_iff (-1) l pos hmem hneg).1 h)]
      · rw [if_neg (by rw [h]; omega), (hlink p hp).1]
    · obtain ⟨q, hq, hqe⟩ : ∃ q ∈ l, predOf (-1) l pos = (q : Int) := by
        rcases predOf_cases (-1) l pos hmem with h1 | h1
        · exact absurd h1 h
        · exact h1
      have hqM := hb q hq
      have hqpos : q ≠ pos := by
        intro heq
        subst heq
        exact predOf_ne_self (-1) l hnd q hq hneg hqe
      refine ⟨fl.next.set q (succOf l pos), fl.first, fun _ => ⟨?_, rfl⟩,
        fun h' => absurd h' h, by simp [hnl], ?_, fun p hp _ => ?_, ?_⟩
      · rw [hqe, wr_natCast _ _ _ (by omega)]
      · rw [hd_erase l pos hmem,
          if_neg (fun h' => h ((predOf_eq_pv_iff (-1) l pos hmem hneg).2 h')), hf]
      · rw [getD_set_int _ _ _ _ (by omega), hqe, (hlink p hp).1]
        by_cases hqp : q = p
        · rw [if_pos hqp, if_pos (by omega)]
        · rw [if_neg hqp, if_neg (by omega)]
      · rw [getD_set_int _ _ _ _ (by omega), if_neg hqpos, hnx]
  refine ⟨{ fl with prev := prev1, next := next1, first := first1,
                    length := fl.length - 1 }, ?_, ?_, rfl, hn1pos⟩
  · unfold fl_remove
    simp only [Option.bind_eq_bind]
    rw [e1, Option.some_bind, e2, Option.some_bind]
    by_cases h1 : succOf l pos = -1 <;> by_cases h2 : predOf (-1) l pos = -1
    · rw [if_neg (fun h' => h' h1)]
      simp only [Option.some_bind]
      rw [if_neg (fun h' => h' h2)]
      simp only [Option.some_bind, e3' h1, (e4' h2).1, (e4' h2).2]
    · rw [if_neg (fun h' => h' h1)]
      simp only [Option.some_bind]
      rw [if_pos h2, (e4 h2).1]
      simp only [Option.some_bind, e3' h1, (e4 h2).2]
    · rw [if_pos h1, e3 h1]
      simp only [Option.some_bind]
      rw [if_neg (fun h' => h' h2)]
      simp only [Option.some_bind, (e4' h2).1, (e4' h2).2]
    · rw [if_pos h1, e3 h1]
      simp only [Option.some_bind]
      rw [if_pos h2, (e4 h2).1]
      simp only [Option.some_bind, (e4 h2).2]
  · refine ⟨hn1len, hp1len, htl, hnd.erase pos, fun p hp => hb p (List.mem_of_mem_erase hp),
      hfirst1, ?_, ?_⟩
    · show fl.length - 1 = _
      rw [hlen, List.length_erase_of_mem hmem]
      have : 0 < l.length := List.length_pos_of_mem hmem
      omega
    · intro p hp
      obtain ⟨hne, hpl'⟩ := (hnd.mem_erase_iff).1 hp
      show next1.getD p 0 = _ ∧ prev1.getD p 0 = _
      rw [hn1 p hpl' hne, hp1 p hpl' hne, succOf_erase l hnd pos p hmem hpl' hne,
        predOf_erase (-1) l hnd pos p hmem hpl' hne hneg]
      constructor
      · by_cases h : succOf l p = (pos : Int)
        · rw [if_pos h, if_pos ((succ_pred (-1) l hnd p pos hpl' hmem hneg).1 h)]
        · rw [if_neg h, if_neg (fun h' => h ((succ_pred (-1) l hnd p pos hpl' hmem hneg).2 h'))]
      · by_cases h : predOf (-1) l p = (pos : Int)
        · rw [if_pos h, if_pos ((succ_pred (-1) l hnd pos p hmem hpl' hneg).2 h)]
        · rw [if_neg h, if_neg (fun h' => h ((succ_pred (-1) l hnd pos p hmem hpl' hneg).1 h'))]

/-! ## Algebra of a flip -/

theorem sumUpTo_eq_finset (n : Nat) (f : Nat → Nat) :
    sumUpTo n f = ∑ i in Finset.range n, f i := by
  induction n with
  | zero => simp [sumUpTo]
  | succ n ih => rw [sumUpTo, ih, Finset.sum_range_succ]

/-- Toggling the entries of a 0/1 vector at `W` distinct indices below `N` changes
its number of ones by `W - 2 * (number of ones among these entries)`. -/
theorem popcount_toggle (N W : Nat) (s s' : Nat → Nat) (idx : Nat → Nat)
    (h01 : ∀ i, i < N → s i ≤ 1)
    (hidx : ∀ l, l < W → idx l < N)
    (hinj : ∀ a b, a < W → b < W → idx a = idx b → a = b)
    (hs' : ∀ i, i < N → s' i = if ∃ l, l < W ∧ idx l = i then s i ^^^ 1 else s i) :
    sumUpTo N (fun i => if s' i = 1 then 1 else 0) + 2 * sumUpTo W (fun l => s (idx l)) =
      sumUpTo N (fun i => if s i = 1 then 1 else 0) + W := by
  classical
  rw [sumUpTo_eq_finset, sumUpTo_eq_finset, sumUpTo_eq_finset]
  set A : Finset Nat := (Finset.range W).image idx with hA
  have hAsub : A ⊆ Finset.range N := by
    intro i hi
    rw [hA, Finset.mem_image] at hi
    obtain ⟨l, hl, rfl⟩ := hi
    exact Finset.mem_range.2 (hidx l (Finset.mem_range.1 hl))
  have hmemA : ∀ i, i ∈ A ↔ ∃ l, l < W ∧ idx l = i := by
    intro i
    rw [hA, Finset.mem_image]
    constructor
    · rintro ⟨l, hl, h⟩; exact ⟨l, Finset.mem_range.1 hl, h⟩
    · rintro ⟨l, hl, h⟩; exact ⟨l, Finset.mem_range.2 hl, h⟩
  have hcard : A.card = W := by
    rw [hA, Finset.card_image_of_injOn, Finset.card_range]
    intro a ha b hb hab
    exact hinj a b (Finset.mem_range.1 (Finset.mem_coe.1 ha))
      (Finset.mem_range.1 (Finset.mem_coe.1 hb)) hab
  have hsumA : ∑ l in Finset.range W, s (idx l) = ∑ i in A, s i := by
    rw [hA, Finset.sum_image]
    intro a ha b hb hab
    exact hinj a b (Finset.mem_range.1 ha) (Finset.mem_range.1 hb) hab
  have split1 := Finset.sum_sdiff (f := fun i => if s' i = 1 then 1 else 0) hAsub
  have split2 := Finset.sum_sdiff (f := fun i => if s i = 1 then 1 else 0) hAsub
  have hout : ∑ i in Finset.range N \ A, (if s' i = 1 then 1 else 0) =
      ∑ i in Finset.range N \ A, (if s i = 1 then 1 else 0) := by
    apply Finset.sum_congr rfl
    intro i hi
    rw [Finset.mem_sdiff] at hi
    rw [hs' i (Finset.mem_range.1 hi.1), if_neg (fun h => hi.2 ((hmemA i).2 h))]
  have hin : ∑ i in A, (if s' i = 1 then 1 else 0) + ∑ i in A, s i = A.card := by
    rw [← Finset.sum_add_distrib, Finset.card_eq_sum_ones]
    apply Finset.sum_congr rfl
    intro i hi
    have hiN := Finset.mem_range.1 (hAsub hi)
    rw [hs' i hiN, if_pos ((hmemA i).1 hi)]
    have := h01 i hiN
    have h2 : s i = 0 ∨ s i = 1 := by omega
    rcases h2 with h | h <;> rw [h] <;> decide
  have hin2 : ∑ i in A, (if s i = 1 then 1 else 0) = ∑ i in A, s i := by
    apply Finset.sum_congr rfl
    intro i hi
    have := h01 i (Finset.mem_range.1 (hAsub hi))
    split <;> omega
  beta_reduce at split1 split2
  rw [hsumA]
  omega

theorem xorUpTo_xor (n : Nat) (a b : Nat → Nat) :
    xorUpTo n (fun k => a k ^^^ b k) = xorUpTo n a ^^^ xorUpTo n b := by
  induction n with
  | zero => simp [xorUpTo]
  | succ n ih =>
    simp only [xorUpTo, ih]
    rw [Nat.xor_assoc, Nat.xor_assoc, ← Nat.xor_assoc (a n), Nat.xor_comm (a n) (xorUpTo n b),
      Nat.xor_assoc]

theorem xorUpTo_zero (n : Nat) : xorUpTo n (fun _ => 0) = 0 := by
  induction n with
  | zero => rfl
  | succ n ih => simp [xorUpTo, ih]

theorem xorUpTo_congr (n : Nat) (a b : Nat → Nat) (h : ∀ k, k < n → a k = b k) :
    xorUpTo n a = xorUpTo n b := by
  induction n with
  | zero => rfl
  | succ n ih =>
    simp only [xorUpTo]
    rw [ih (fun k hk => h k (by omega)), h n (by omega)]

theorem sumUpTo_congr (n : Nat) (a b : Nat → Nat) (h : ∀ k, k < n → a k = b k) :
    sumUpTo n a = sumUpTo n b := by
  induction n with
  | zero => rfl
  | succ n ih =>
    simp only [sumUpTo]
    rw [ih (fun k hk => h k (by omega)), h n (by omega)]

/-- The index relation behind a flip: `i - c ≡ j` iff `j + c ≡ i` (mod `N`). -/
theorem shift_symm (N : Nat) (i j : Nat) (c : Int) (hi : i < N) (hj : j < N)
    (hc0 : 0 ≤ c) (hc : c < N) :
    (((i : Int) - c) % (N : Int)).toNat = j ↔ (((j : Int) + c) % (N : Int)).toNat = i := by
  have h1 : ((i : Int) - c) % (N : Int) = if c ≤ (i : Int) then (i : Int) - c else i - c + N := by
    split
    · exact Int.emod_eq_of_lt (by omega) (by omega)
    · rw [← Int.add_mul_emod_self (b := 1), Int.one_mul]
      exact Int.emod_eq_of_lt (by omega) (by omega)
  rw [h1, emod_two_ranges N _ (by omega) (by omega)]
  split <;> split <;> omega

/-! ## One flip -/

theorem getD_set_list (bits : List (List Nat)) (k k' : Nat) (b : List Nat)
    (hk : k < bits.length) :
    (bits.set k b).getD k' [] = if k = k' then b else bits.getD k' [] := by
  simp only [List.getD_eq_getElem?_getD, List.getElem?_set]
  split <;> simp [hk]

theorem bitAt_toggle (N : Nat) (bits : List (List Nat)) (k j : Nat) (v : Nat)
    (hk : k < bits.length) (hj : j < N) (hlen : N ≤ (bits.getD k []).length) (p : Nat) :
    bitAt N (bits.set k ((bits.getD k []).set j v)) p =
      if p = k * N + j then v else bitAt N bits p := by
  unfold bitAt
  rw [getD_set_list _ _ _ _ hk]
  have hdm := Nat.div_add_mod p N
  by_cases h1 : k = p / N
  · rw [if_pos h1, getD_set_eq_ite _ _ _ _ (by omega)]
    by_cases h2 : j = p % N
    · rw [if_pos h2, if_pos]
      rw [h1, h2, Nat.mul_comm]; omega
    · rw [if_neg h2, if_neg, ← h1]
      intro h3
      apply h2
      rw [h3, Nat.mul_comm, Nat.mul_add_mod, Nat.mod_eq_of_lt hj]
  · rw [if_neg h1, if_neg]
    intro h3
    apply h1
    rw [h3, Nat.mul_comm, Nat.mul_add_div (by omega), Nat.div_eq_of_lt hj]
    omega

theorem cyc_toggle (N : Nat) (bits : List (List Nat)) (k j : Nat) (v : Nat)
    (hk : k < bits.length) (hj : j < N) (hlen : N ≤ (bits.getD k []).length)
    (k' : Nat) (x : Int) :
    cyc N ((bits.set k ((bits.getD k []).set j v)).getD k' []) x =
      if k' = k ∧ (x % (N : Int)).toNat = j then v else cyc N (bits.getD k' []) x := by
  unfold cyc
  rw [getD_set_list _ _ _ _ hk]
  by_cases h1 : k = k'
  · subst h1
    rw [if_pos rfl, getD_set_eq_ite _ _ _ _ (by omega)]
    by_cases h2 : j = (x % (N : Int)).toNat
    · rw [if_pos h2, if_pos ⟨rfl, h2.symm⟩]
    · rw [if_neg h2, if_neg (fun h => h2 h.2.symm)]
  · rw [if_neg h1, if_neg (fun h => h1 h.1.symm)]


theorem hit_le_one (N : Nat) (j c : Int) (i : Nat) : hit N j c i ≤ 1 := by
  unfold hit; split <;> omega

theorem validH_getD (P : Params) (H : List (List Int)) (hH : ValidH P H) (k : Nat)
    (hk : k < INDEX) : ValidColumn P.BLOCK_LENGTH P.BLOCK_WEIGHT (H.getD k []) := by
  have hlt : k < H.length := by rw [hH.1]; exact hk
  rw [List.getD_eq_getElem _ _ hlt]
  exact hH.2 _ (List.getElem_mem _)

/-- A flip of column `j` of block `k` keeps the syndrome invariants. -/
theorem strong_flip (P : Params) (dec dec' : decoder) (k j : Nat) (hk : k < INDEX)
    (hj : j < P.BLOCK_LENGTH) (hS : Shape P dec)
    (hH : dec'.Hcolumns = dec.Hcolumns) (he : dec'.e = dec.e)
    (hbits : dec'.bits = dec.bits.set k
      ((dec.bits.getD k []).set j ((dec.bits.getD k []).getD j 0 ^^^ 1)))
    (hsyn : ∀ i, dec'.syndrome.getD i 0 = dec.syndrome.getD i 0 ^^^
      xorUpTo P.BLOCK_WEIGHT
        (fun l => hit P.BLOCK_LENGTH (j : Int) ((dec.Hcolumns.getD k []).getD l 0) i))
    (hw : dec'.syndrome_weight = dec.syndrome_weight + ((P.BLOCK_WEIGHT : Int) -
      2 * ((sumUpTo P.BLOCK_WEIGHT (fun l => cyc P.BLOCK_LENGTH dec.syndrome
        ((j : Int) + (dec.Hcolumns.getD k []).getD l 0)) % 256 : Nat) : Int)))
    (hstrong : Strong P dec) : Strong P dec' := by
  obtain ⟨hW, h01, hsi, hwi⟩ := hstrong
  obtain ⟨hVH, _, _, hbl, hbb, _, _, _⟩ := hS
  have hcol := validH_getD P dec.Hcolumns hVH k hk
  have hkb : k < dec.bits.length := by rw [hbl]; exact hk
  have hlenk : P.BLOCK_LENGTH ≤ (dec.bits.getD k []).length := by
    rw [List.getD_eq_getElem _ _ hkb]
    exact hbb _ (List.getElem_mem _)
  have hcb : ∀ l, l < P.BLOCK_WEIGHT → 0 ≤ (dec.Hcolumns.getD k []).getD l 0 ∧
      (dec.Hcolumns.getD k []).getD l 0 < (P.BLOCK_LENGTH : Int) := fun l hl =>
    getD_bounds _ _ hcol.2.1 l (by rw [hcol.1]; exact hl)
  refine ⟨hW, ?_, ?_, ?_⟩
  · intro i hi
    rw [hsyn i]
    exact xor_le_one _ _ (h01 i hi) (xorUpTo_le_one _ _ (fun l => hit_le_one _ _ _ _))
  · intro i hi
    rw [hsyn i, hsi i hi, hH, he, hbits, Hmul_pair, Hmul_pair]
    simp only [cyc_toggle _ _ _ _ _ hkb hj hlenk]
    have hdelta : ∀ (k' : Nat), xorUpTo P.BLOCK_WEIGHT (fun l =>
        cyc P.BLOCK_LENGTH (dec.e.getD k' []) ((i : Int) - (dec.Hcolumns.getD k' []).getD l 0) ^^^
        if k' = k ∧ (((i : Int) - (dec.Hcolumns.getD k' []).getD l 0) %
            (P.BLOCK_LENGTH : Int)).toNat = j
          then (dec.bits.getD k []).getD j 0 ^^^ 1
          else cyc P.BLOCK_LENGTH (dec.bits.getD k' [])
            ((i : Int) - (dec.Hcolumns.getD k' []).getD l 0)) =
        xorUpTo P.BLOCK_WEIGHT (fun l =>
          cyc P.BLOCK_LENGTH (dec.e.getD k' [])
            ((i : Int) - (dec.Hcolumns.getD k' []).getD l 0) ^^^
          cyc P.BLOCK_LENGTH (dec.bits.getD k' [])
            ((i : Int) - (dec.Hcolumns.getD k' []).getD l 0)) ^^^
        (if k' = k then xorUpTo P.BLOCK_WEIGHT
          (fun l => hit P.BLOCK_LENGTH (j : Int) ((dec.Hcolumns.getD k []).getD l 0) i)
         else 0) := by
      intro k'
      by_cases hkk : k' = k
      · subst hkk
        rw [if_pos rfl, ← xorUpTo_xor]
        apply xorUpTo_congr
        intro l hl
        have hc := hcb l hl
        unfold hit
        by_cases hh : (((i : Int) - (dec.Hcolumns.getD k' []).getD l 0) %
            (P.BLOCK_LENGTH : Int)).toNat = j
        · rw [if_pos ⟨rfl, hh⟩, if_pos ((shift_symm _ i j _ hi hj hc.1 hc.2).1 hh)]
          unfold cyc
          rw [hh, Nat.xor_assoc]
        · rw [if_neg (fun h => hh h.2),
            if_neg (fun h => hh ((shift_symm _ i j _ hi hj hc.1 hc.2).2 h)), Nat.xor_zero]
      · rw [if_neg hkk, Nat.xor_zero]
        apply xorUpTo_congr
        intro l _
        rw [if_neg (fun h => hkk h.1)]
    rw [hdelta 0, hdelta 1]
    have hk2 : k = 0 ∨ k = 1 := by unfold INDEX at hk; omega
    rcases hk2 with rfl | rfl
    · simp only [if_true, if_false, Nat.xor_zero, one_ne_zero]
      rw [Nat.xor_assoc, Nat.xor_assoc, Nat.xor_comm (xorUpTo _ (fun l => hit _ _ _ _))]
    · simp only [if_true, if_false, Nat.xor_zero, zero_ne_one]
      rw [Nat.xor_assoc]
  · show dec'.syndrome_weight = _
    rw [hw, hwi]
    have hidx : ∀ l, l < P.BLOCK_WEIGHT →
        ((((j : Int) + (dec.Hcolumns.getD k []).getD l 0) % (P.BLOCK_LENGTH : Int)).toNat) <
          P.BLOCK_LENGTH := by
      intro l _
      have h1 := Int.emod_nonneg ((j : Int) + (dec.Hcolumns.getD k []).getD l 0)
        (show (P.BLOCK_LENGTH : Int) ≠ 0 by omega)
      have h2 := Int.emod_lt_of_pos ((j : Int) + (dec.Hcolumns.getD k []).getD l 0)
        (show (0 : Int) < P.BLOCK_LENGTH by omega)
      omega
    have hinj : ∀ a b, a < P.BLOCK_WEIGHT → b < P.BLOCK_WEIGHT →
        ((((j : Int) + (dec.Hcolumns.getD k []).getD a 0) % (P.BLOCK_LENGTH : Int)).toNat) =
        ((((j : Int) + (dec.Hcolumns.getD k []).getD b 0) % (P.BLOCK_LENGTH : Int)).toNat) →
        a = b := fun a b ha hb h =>
      shifted_support_injective _ _ _ hcol (j : Int) (by omega) (by omega) a b ha hb h
    have key := popcount_toggle P.BLOCK_LENGTH P.BLOCK_WEIGHT
      (fun i => dec.syndrome.getD i 0) (fun i => dec'.syndrome.getD i 0)
      (fun l => (((j : Int) + (dec.Hcolumns.getD k []).getD l 0) %
        (P.BLOCK_LENGTH : Int)).toNat) h01 hidx hinj (by
        intro i _
        beta_reduce
        rw [hsyn i]
        have := xorUpTo_indicator
          (fun l => (((j : Int) + (dec.Hcolumns.getD k []).getD l 0) %
            (P.BLOCK_LENGTH : Int)).toNat = i) P.BLOCK_WEIGHT
          (fun a b ha hb pa pb => hinj a b ha hb (pa.trans pb.symm))
        unfold hit
        rw [this]
        split
        · rfl
        · exact Nat.xor_zero _)
    have hle := sumUpTo_le P.BLOCK_WEIGHT (fun l => cyc P.BLOCK_LENGTH dec.syndrome
        ((j : Int) + (dec.Hcolumns.getD k []).getD l 0)) (fun l =>
      cyc_le_one _ (by omega) _ h01 _)
    rw [Nat.mod_eq_of_lt (by omega)]
    unfold popcount
    unfold cyc at hle ⊢
    beta_reduce at key
    omega


/-- Specification of the shared flip statements on a decoder of the right shape. -/
theorem flip_column_spec (P : Params) (dec : decoder) (k j : Nat) (hk : k < INDEX)
    (hj : j < P.BLOCK_LENGTH) (hS : Shape P dec) :
    ∃ dec', flip_column P dec k (j : Int) = some dec' ∧ Shape P dec' ∧
      dec'.fl = dec.fl ∧ frameOf dec' = frameOf dec ∧ dec'.counters = dec.counters ∧
      (∀ p, bitAt P.BLOCK_LENGTH dec'.bits p =
        if p = k * P.BLOCK_LENGTH + j then bitAt P.BLOCK_LENGTH dec.bits p ^^^ 1
        else bitAt P.BLOCK_LENGTH dec.bits p) ∧
      (Strong P dec → Strong P dec') := by
  have hS' := hS
  obtain ⟨hVH, hrows, hsl, hbl, hbb, hcl, hcc, hb01⟩ := hS
  have hcol := validH_getD P dec.Hcolumns hVH k hk
  have hkH : k < dec.Hcolumns.length := by rw [hVH.1]; exact hk
  have hkb : k < dec.bits.length := by rw [hbl]; exact hk
  have hlenk : P.BLOCK_LENGTH ≤ (dec.bits.getD k []).length := by
    rw [List.getD_eq_getElem _ _ hkb]
    exact hbb _ (List.getElem_mem _)
  have ec := single_counter_general P (dec.Hcolumns.getD k []) dec.syndrome (j : Int) hcol.1
    hcol.2.1 (pairwise_le_of_lt _ hcol.2.2) (by omega) (by omega) (by omega)
  obtain ⟨S', ef, lS', gS'⟩ := single_flip_general P (dec.Hcolumns.getD k []) dec.syndrome
    (j : Int) hcol.1 hcol.2.1 (pairwise_le_of_lt _ hcol.2.2) (by omega) (by omega) (by omega)
  have hbit : bitAt P.BLOCK_LENGTH dec.bits (k * P.BLOCK_LENGTH + j) =
      (dec.bits.getD k []).getD j 0 := by
    unfold bitAt
    rw [Nat.mul_comm, Nat.mul_add_div (by omega), Nat.div_eq_of_lt hj, Nat.add_zero,
      Nat.mul_add_mod, Nat.mod_eq_of_lt hj]
  refine ⟨{ dec with
      syndrome := S',
      bits := dec.bits.set k
        ((dec.bits.getD k []).set j ((dec.bits.getD k []).getD j 0 ^^^ 1)),
      syndrome_weight := dec.syndrome_weight + ((P.BLOCK_WEIGHT : Int) -
        2 * ((sumUpTo P.BLOCK_WEIGHT (fun l => cyc P.BLOCK_LENGTH dec.syndrome
          ((j : Int) + (dec.Hcolumns.getD k []).getD l 0)) % 256 : Nat) : Int)) },
    ?_, ?_, rfl, rfl, rfl, ?_, ?_⟩
  · unfold flip_column
    simp only [Option.bind_eq_bind]
    rw [getD_eq_of_lt dec.Hcolumns [] k hkH, Option.some_bind, ec, Option.some_bind, ef,
      Option.some_bind, getD_eq_of_lt dec.bits [] k hkb, Option.some_bind,
      rd_nat_getD _ 0 j (by omega), Option.some_bind, wr_natCast _ _ _ (by omega),
      Option.some_bind]
  · refine ⟨hVH, hrows, by show 2 * _ ≤ S'.length; omega, by simp [hbl], ?_, hcl, hcc, ?_⟩
    · intro b hb
      rcases List.mem_or_eq_of_mem_set hb with h | h
      · exact hbb b h
      · rw [h, List.length_set]; exact hlenk
    · intro p hp
      show bitAt _ (dec.bits.set k _) p ≤ 1
      rw [bitAt_toggle _ _ _ _ _ hkb hj hlenk]
      split
      · rename_i h
        rw [← hbit, ← h]
        exact xor_le_one _ _ (hb01 p hp) (by omega)
      · exact hb01 p hp
  · intro p
    show bitAt _ (dec.bits.set k _) p = _
    rw [bitAt_toggle _ _ _ _ _ hkb hj hlenk]
    split
    · rename_i h
      rw [h, hbit]
    · rfl
  · intro hstrong
    exact strong_flip P dec _ k j hk hj hS' rfl rfl rfl gS' rfl hstrong

/-! ## The flip scan and the expiry sweep -/

theorem isList_set_tod (M : Nat) (fl : flip_list) (l : List Nat) (tod : List Nat)
    (h : IsList M fl l) (ht : tod.length = M) : IsList M { fl with tod := tod } l := by
  obtain ⟨h1, h2, _, h4, h5, h6, h7, h8⟩ := h
  exact ⟨h1, h2, ht, h4, h5, h6, h7, h8⟩

theorem bitAt_pos (N : Nat) (bits : List (List Nat)) (k j : Nat) (hj : j < N) :
    bitAt N bits (k * N + j) = (bits.getD k []).getD j 0 := by
  unfold bitAt
  rw [Nat.mul_comm, Nat.mul_add_div (by omega), Nat.div_eq_of_lt hj, Nat.add_zero,
    Nat.mul_add_mod, Nat.mod_eq_of_lt hj]

/-- One step of the flip scan keeps the decoder well formed (and keeps the syndrome
invariants when they hold). -/
theorem scan_step_spec (P : Params) (threshold k j : Nat) (hk : k < INDEX)
    (hj : j < P.BLOCK_LENGTH) (strong : Prop) (it : List (List Int) × List (List Nat) × Int) (st : decoder × Bool)
    (hwf : WellFormed P st.1) (hfr : frameOf st.1 = it) (hst : strong → Strong P st.1) :
    ∃ st', scan_step P threshold k j st = some st' ∧ WellFormed P st'.1 ∧
      frameOf st'.1 = it ∧ (strong → Strong P st'.1) := by
  obtain ⟨dec, flag⟩ := st
  simp only at hwf hfr hst
  obtain ⟨hS, l, hl, hlink⟩ := hwf
  have hS' := hS
  obtain ⟨hVH, hrows, hsl, hbl, hbb, hcl, hcc, hb01⟩ := hS
  have hkc : k < dec.counters.length := by rw [hcl]; exact hk
  have hkb : k < dec.bits.length := by rw [hbl]; exact hk
  have hlenc : P.BLOCK_LENGTH ≤ (dec.counters.getD k []).length := by
    rw [List.getD_eq_getElem _ _ hkc]
    exact hcc _ (List.getElem_mem _)
  have hlenk : P.BLOCK_LENGTH ≤ (dec.bits.getD k []).length := by
    rw [List.getD_eq_getElem _ _ hkb]
    exact hbb _ (List.getElem_mem _)
  have hposM : k * P.BLOCK_LENGTH + j < INDEX * P.BLOCK_LENGTH := by
    unfold INDEX at hk ⊢
    have : k = 0 ∨ k = 1 := by omega
    rcases this with rfl | rfl <;> omega
  have hpos : (k : Int) * (P.BLOCK_LENGTH : Int) + (j : Int) =
      ((k * P.BLOCK_LENGTH + j : Nat) : Int) := by push_cast; rfl
  unfold scan_step
  simp only [Option.bind_eq_bind]
  rw [getD_eq_of_lt dec.counters [] k hkc, Option.some_bind,
    getD_eq_of_lt (dec.counters.getD k []) 0 j (by omega), Option.some_bind]
  by_cases hc : (dec.counters.getD k []).getD j 0 ≥ threshold
  · rw [if_pos hc, getD_eq_of_lt dec.bits [] k hkb, Option.some_bind,
      getD_eq_of_lt (dec.bits.getD k []) 0 j (by omega), Option.some_bind, hpos]
    have hbit := bitAt_pos P.BLOCK_LENGTH dec.bits k j hj
    have hb1 := hb01 _ hposM
    rw [hbit] at hb1
    by_cases hb : (dec.bits.getD k []).getD j 0 ≠ 0
    · have hone : (dec.bits.getD k []).getD j 0 = 1 := by omega
      have hmem : k * P.BLOCK_LENGTH + j ∈ l := (hlink _ hposM).2 (hbit.trans hone)
      obtain ⟨fl', efl, hl', _, _⟩ := fl_remove_spec _ dec.fl l _ hl hmem
      obtain ⟨dec', ed, hSd, hfl, hiter, _, hbits, hstr⟩ :=
        flip_column_spec P { dec with fl := fl' } k j hk hj hS'
      rw [if_pos hb, efl, Option.some_bind, ed, Option.some_bind]
      refine ⟨_, rfl, ⟨hSd, l.erase (k * P.BLOCK_LENGTH + j), by rw [hfl]; exact hl', ?_⟩,
        by rw [hiter]; exact hfr, fun h => hstr (hst h)⟩
      intro p hp
      rw [hbits p, hl.2.2.2.1.mem_erase_iff]
      by_cases hpp : p = k * P.BLOCK_LENGTH + j
      · rw [if_pos hpp]
        subst hpp
        show _ ↔ bitAt P.BLOCK_LENGTH dec.bits _ ^^^ 1 = 1
        rw [hbit, hone]
        simp
      · rw [if_neg hpp]
        show _ ↔ bitAt P.BLOCK_LENGTH dec.bits p = 1
        rw [← hlink p hp]
        simp [hpp]
    · have hzero : (dec.bits.getD k []).getD j 0 = 0 := by omega
      have hnot : k * P.BLOCK_LENGTH + j ∉ l := by
        intro hmem
        have := (hlink _ hposM).1 hmem
        rw [hbit, hzero] at this
        exact absurd this (by decide)
      obtain ⟨fl1, efl, hl1, htod⟩ := fl_add_spec _ dec.fl l _ hl hposM hnot
      have htl : fl1.tod.length = INDEX * P.BLOCK_LENGTH := hl1.2.2.1
      have key : ∀ V : Nat, ∃ st' : decoder × Bool,
          ((wr fl1.tod ((k * P.BLOCK_LENGTH + j : Nat) : Int) V).bind fun tod =>
            (some { fl1 with tod := tod }).bind (fun fl =>
            (flip_column P { dec with fl := fl } k (j : Int)).bind fun dec =>
              some (dec, true))) = some st' ∧ WellFormed P st'.1 ∧
            frameOf st'.1 = it ∧ (strong → Strong P st'.1) := by
        intro V
        obtain ⟨dec', ed, hSd, hfl, hiter, _, hbits, hstr⟩ :=
          flip_column_spec P
            { dec with fl := { fl1 with tod := (fl1.tod.set (k * P.BLOCK_LENGTH + j) V) } }
            k j hk hj hS'
        rw [wr_natCast _ _ _ (by omega), Option.some_bind, Option.some_bind, ed,
          Option.some_bind]
        refine ⟨_, rfl, ⟨hSd, (k * P.BLOCK_LENGTH + j) :: l, ?_, ?_⟩,
          by rw [hiter]; exact hfr, fun h => hstr (hst h)⟩
        · rw [hfl]
          exact isList_set_tod _ fl1 _ _ hl1 (by rw [List.length_set]; exact htl)
        · intro p hp
          rw [hbits p, List.mem_cons]
          by_cases hpp : p = k * P.BLOCK_LENGTH + j
          · rw [if_pos hpp]
            subst hpp
            show _ ↔ bitAt P.BLOCK_LENGTH dec.bits _ ^^^ 1 = 1
            rw [hbit, hzero]
            simp
          · rw [if_neg hpp]
            show _ ↔ bitAt P.BLOCK_LENGTH dec.bits p = 1
            rw [← hlink p hp]
            simp [hpp]
      rw [if_neg hb, efl, Option.some_bind]
      exact key _
  · rw [if_neg hc]
    exact ⟨_, rfl, ⟨hS', l, hl, hlink⟩, hfr, hst⟩

theorem forUpTo_inv {σ : Type} (I : σ → Prop) (body : Nat → σ → Option σ) :
    ∀ (n : Nat), (∀ i, i < n → ∀ s, I s → ∃ s', body i s = some s' ∧ I s') →
    ∀ s, I s → ∃ s', forUpTo n body s = some s' ∧ I s' := by
  intro n
  induction n with
  | zero => intro _ s hs; exact ⟨s, rfl, hs⟩
  | succ n ih =>
    intro h s hs
    obtain ⟨s1, e1, h1⟩ := ih (fun i hi => h i (by omega)) s hs
    obtain ⟨s2, e2, h2⟩ := h n (by omega) s1 h1
    exact ⟨s2, by simp only [forUpTo, e1, Option.some_bind, e2], h2⟩

theorem flip_scan_spec (P : Params) (threshold : Nat) (strong : Prop) (it : List (List Int) × List (List Nat) × Int)
    (st : decoder × Bool)
    (hwf : WellFormed P st.1) (hfr : frameOf st.1 = it) (hst : strong → Strong P st.1) :
    ∃ st', flip_scan P threshold st = some st' ∧ WellFormed P st'.1 ∧
      frameOf st'.1 = it ∧ (strong → Strong P st'.1) := by
  unfold flip_scan
  exact forUpTo_inv
    (fun s : decoder × Bool => WellFormed P s.1 ∧ frameOf s.1 = it ∧ (strong → Strong P s.1))
    _ INDEX (fun k hk s hs =>
      forUpTo_inv
        (fun s : decoder × Bool =>
          WellFormed P s.1 ∧ frameOf s.1 = it ∧ (strong → Strong P s.1))
        _ P.BLOCK_LENGTH (fun j hj s hs =>
          scan_step_spec P threshold k j hk hj strong it s hs.1 hs.2.1 hs.2.2) s hs)
    st ⟨hwf, hfr, hst⟩

/-- One step of the expiry sweep at the linked position `r`, the list being
`kept ++ r :: rest`: the step returns the successor of `r` and a state whose list is
`kept' ++ rest`. -/
theorem sweep_step_spec (P : Params) (cur : Nat) (strong : Prop)
    (it : List (List Int) × List (List Nat) × Int) (kept rest : List Nat) (r : Nat)
    (st : decoder × Bool) (hS : Shape P st.1)
    (hl : IsList (INDEX * P.BLOCK_LENGTH) st.1.fl (kept ++ r :: rest))
    (hlink : ∀ p, p < INDEX * P.BLOCK_LENGTH →
      (p ∈ kept ++ r :: rest ↔ bitAt P.BLOCK_LENGTH st.1.bits p = 1))
    (hfr : frameOf st.1 = it) (hst : strong → Strong P st.1) :
    ∃ st' kept', sweep_step P cur (r : Int) st = some (hd rest, st') ∧ Shape P st'.1 ∧
      IsList (INDEX * P.BLOCK_LENGTH) st'.1.fl (kept' ++ rest) ∧
      (∀ p, p < INDEX * P.BLOCK_LENGTH →
        (p ∈ kept' ++ rest ↔ bitAt P.BLOCK_LENGTH st'.1.bits p = 1)) ∧
      frameOf st'.1 = it ∧ (strong → Strong P st'.1) := by
  obtain ⟨dec, flag⟩ := st
  simp only at hS hl hlink hfr hst
  have hrmem : r ∈ kept ++ r :: rest := by simp
  have hrM : r < INDEX * P.BLOCK_LENGTH := hl.2.2.2.2.1 r hrmem
  have hnd : (kept ++ r :: rest).Nodup := hl.2.2.2.1
  have hrk : r ∉ kept := by
    intro h
    have := List.nodup_append.1 hnd
    exact this.2.2 h (List.mem_cons_self _ _)
  have hsucc : succOf (kept ++ r :: rest) r = hd rest := succOf_append_head kept rest r hrk
  have htod : rd dec.fl.tod (r : Int) = some (dec.fl.tod.getD r 0) :=
    rd_nat_getD _ 0 r (by rw [hl.2.2.1]; exact hrM)
  have hnext : dec.fl.next.getD r 0 = hd rest := by
    rw [(hl.2.2.2.2.2.2.2 r hrmem).1, hsucc]
  unfold sweep_step
  simp only [Option.bind_eq_bind]
  rw [htod, Option.some_bind]
  by_cases hc : dec.fl.tod.getD r 0 = cur
  · -- the entry expires
    obtain ⟨k, j, hk, hj, hkj, hkjeq⟩ : ∃ k j : Nat, k < INDEX ∧ j < P.BLOCK_LENGTH ∧
        r = k * P.BLOCK_LENGTH + j ∧
        (if (r : Int) ≥ (P.BLOCK_LENGTH : Int) then
          ((1 : Nat), (r : Int) - (P.BLOCK_LENGTH : Int)) else ((0 : Nat), (r : Int))) =
          (k, (j : Int)) := by
      unfold INDEX at hrM ⊢
      by_cases hge : (r : Int) ≥ (P.BLOCK_LENGTH : Int)
      · refine ⟨1, r - P.BLOCK_LENGTH, by omega, by omega, by omega, ?_⟩
        rw [if_pos hge]
        congr 1
        omega
      · refine ⟨0, r, by omega, by omega, by omega, ?_⟩
        rw [if_neg hge]
    obtain ⟨dec', ed, hSd, hfl, hiter, _, hbits, hstr⟩ :=
      flip_column_spec P dec k j hk hj hS
    obtain ⟨fl', efl, hl', _, hnx'⟩ := fl_remove_spec _ dec.fl _ r hl hrmem
    have herase : (kept ++ r :: rest).erase r = kept ++ rest := by
      rw [List.erase_append_right _ hrk, List.erase_cons_head]
    rw [herase] at hl'
    have hbit1 : bitAt P.BLOCK_LENGTH dec.bits r = 1 := (hlink r hrM).1 hrmem
    refine ⟨({ dec' with fl := fl' }, true), kept, ?_, hSd, hl', ?_,
      by show frameOf dec' = it; rw [hiter]; exact hfr, fun h => hstr (hst h)⟩
    · rw [if_pos hc, hkjeq]
      simp only
      rw [ed, Option.some_bind, hfl, efl, Option.some_bind, Option.some_bind]
      simp only
      rw [rd_nat_getD _ 0 r (by rw [hl'.1]; exact hrM), Option.some_bind, hnx', hsucc]
    · intro p hp
      show _ ↔ bitAt P.BLOCK_LENGTH dec'.bits p = 1
      rw [hbits p, ← hkj]
      by_cases hpr : p = r
      · rw [if_pos hpr, hpr, hbit1]
        constructor
        · intro hm
          exfalso
          have := List.nodup_append.1 hnd
          rcases List.mem_append.1 hm with h1 | h1
          · exact hrk h1
          · exact (List.nodup_cons.1 this.2.1).1 h1
        · intro h; exact absurd h (by decide)
      · rw [if_neg hpr, ← hlink p hp]
        simp [hpr]
  · -- the entry stays
    refine ⟨(dec, flag), kept ++ [r], ?_, hS, by simpa using hl, by simpa using hlink,
      hfr, hst⟩
    rw [if_neg hc, Option.some_bind]
    simp only
    rw [rd_nat_getD _ 0 r (by rw [hl.1]; exact hrM), Option.some_bind, hnext]

/-- One step of the expiry sweep at a linked position keeps the decoder well formed
(and keeps the syndrome invariants when they hold). -/
theorem sweep_step_wf (P : Params) (cur : Nat) (strong : Prop) (r : Nat)
    (st : decoder × Bool) (hwf : WellFormed P st.1) (hst : strong → Strong P st.1)
    (hr : r < INDEX * P.BLOCK_LENGTH) (hbit : bitAt P.BLOCK_LENGTH st.1.bits r = 1) :
    ∃ res, sweep_step P cur (r : Int) st = some res ∧ WellFormed P res.2.1 ∧
      (strong → Strong P res.2.1) := by
  obtain ⟨hS, l, hl, hlink⟩ := hwf
  obtain ⟨kept, rest, rfl⟩ := List.append_of_mem ((hlink r hr).2 hbit)
  obtain ⟨st', kept', e, hS', hl', hlink', _, hst'⟩ :=
    sweep_step_spec P cur strong (frameOf st.1) kept rest r st hS hl hlink rfl hst
  exact ⟨_, e, ⟨hS', kept' ++ rest, hl', hlink'⟩, hst'⟩

theorem sweep_loop_spec (P : Params) (cur : Nat) (strong : Prop)
    (it : List (List Int) × List (List Nat) × Int) :
    ∀ (rest kept : List Nat) (fuel : Nat) (st : decoder × Bool),
    rest.length ≤ fuel → Shape P st.1 →
    IsList (INDEX * P.BLOCK_LENGTH) st.1.fl (kept ++ rest) →
    (∀ p, p < INDEX * P.BLOCK_LENGTH →
      (p ∈ kept ++ rest ↔ bitAt P.BLOCK_LENGTH st.1.bits p = 1)) →
    frameOf st.1 = it → (strong → Strong P st.1) →
    ∃ st', sweep_loop P cur fuel (hd rest) st = some st' ∧ WellFormed P st'.1 ∧
      frameOf st'.1 = it ∧ (strong → Strong P st'.1) := by
  intro rest
  induction rest with
  | nil =>
    intro kept fuel st _ hS hl hlink hfr hst
    refine ⟨st, ?_, ⟨hS, kept ++ [], hl, hlink⟩, hfr, hst⟩
    cases fuel with
    | zero => simp [sweep_loop, hd]
    | succ f => simp [sweep_loop, hd]
  | cons r rest ih =>
    intro kept fuel st hfuel hS hl hlink hfr hst
    cases fuel with
    | zero => simp at hfuel
    | succ f =>
      have hne : (r : Int) ≠ -1 := by omega
      obtain ⟨st1, kept', e1, hS1, hl1, hlink1, hfr1, hst1⟩ :=
        sweep_step_spec P cur strong it kept rest r st hS hl hlink hfr hst
      obtain ⟨st', e', h'⟩ := ih kept' f st1 (by simpa using hfuel) hS1 hl1 hlink1 hfr1 hst1
      refine ⟨st', ?_, h'⟩
      show sweep_loop P cur (f + 1) (r : Int) st = some st'
      unfold sweep_loop
      rw [if_pos hne, e1, Option.some_bind]
      exact e'

/-! ## The main loop -/

theorem nodup_length_le (M : Nat) (l : List Nat) (hn : l.Nodup) (hb : ∀ p ∈ l, p < M) :
    l.length ≤ M := by
  rw [← List.toFinset_card_of_nodup hn, ← Finset.card_range M]
  apply Finset.card_le_card
  intro p hp
  exact Finset.mem_range.2 (hb p (List.mem_toFinset.1 hp))

theorem expiry_sweep_spec (P : Params) (fuel : Nat) (strong : Prop) (it : List (List Int) × List (List Nat) × Int)
    (st : decoder × Bool) (hfuel : INDEX * P.BLOCK_LENGTH ≤ fuel)
    (hwf : WellFormed P st.1) (hfr : frameOf st.1 = it) (hst : strong → Strong P st.1) :
    ∃ st', expiry_sweep P fuel st = some st' ∧ WellFormed P st'.1 ∧
      frameOf st'.1 = it ∧ (strong → Strong P st'.1) := by
  unfold expiry_sweep
  simp only
  split
  · obtain ⟨hS, l, hl, hlink⟩ := hwf
    have hlen := nodup_length_le _ l hl.2.2.2.1 hl.2.2.2.2.1
    rw [hl.2.2.2.2.2.1]
    exact sweep_loop_spec P _ strong it l [] fuel st (by omega) hS (by simpa using hl)
      (by simpa using hlink) hfr hst
  · exact ⟨st, rfl, hwf, hfr, hst⟩

theorem popcount_congr (N : Nat) (a b : List Nat)
    (h : ∀ i, i < N → a.getD i 0 = b.getD i 0) : popcount N a = popcount N b := by
  unfold popcount
  exact sumUpTo_congr N _ _ (fun i hi => by rw [h i hi])

/-- The syndrome invariants only look at the first `N` entries of the syndrome. -/
theorem strong_congr (P : Params) (dec dec' : decoder)
    (hH : dec'.Hcolumns = dec.Hcolumns) (he : dec'.e = dec.e) (hb : dec'.bits = dec.bits)
    (hw : dec'.syndrome_weight = dec.syndrome_weight)
    (hs : ∀ i, i < P.BLOCK_LENGTH → dec'.syndrome.getD i 0 = dec.syndrome.getD i 0)
    (h : Strong P dec) : Strong P dec' := by
  obtain ⟨h1, h2, h3, h4⟩ := h
  refine ⟨h1, fun i hi => by rw [hs i hi]; exact h2 i hi, ?_, ?_⟩
  · intro i hi
    rw [hs i hi, hH, he, hb]
    exact h3 i hi
  · show dec'.syndrome_weight = _
    rw [hw, popcount_congr _ _ _ hs]
    exact h4

theorem decode_iteration_spec (P : Params) (oracle : Nat → Nat → Nat) (fuel : Nat)
    (strong : Prop) (st : decoder × Nat × Bool) (hfuel : INDEX * P.BLOCK_LENGTH ≤ fuel)
    (hwf : WellFormed P st.1) (hst : strong → Strong P st.1) :
    ∃ st', decode_iteration P oracle fuel st = some st' ∧ WellFormed P st'.1 ∧
      frameOf st'.1 = (st.1.Hcolumns, st.1.e, st.1.iter + 1) ∧
      (strong → Strong P st'.1) := by
  obtain ⟨dec, thr, flag⟩ := st
  simp only at hwf hst ⊢
  obtain ⟨hS, hL⟩ := hwf
  obtain ⟨hVH, hrows, hsl, hbl, hbb, hcl, hcc, hb01⟩ := hS
  obtain ⟨c0, c1, hH⟩ := list_eq_pair dec.Hcolumns hVH.1
  obtain ⟨k0, k1, hK⟩ := list_eq_pair dec.counters hcl
  have hv0 : ValidColumn P.BLOCK_LENGTH P.BLOCK_WEIGHT c0 := hVH.2 c0 (by rw [hH]; simp)
  have hv1 : ValidColumn P.BLOCK_LENGTH P.BLOCK_WEIGHT c1 := hVH.2 c1 (by rw [hH]; simp)
  have hrv0 := reflect_valid _ _ c0 hv0
  have hrv1 := reflect_valid _ _ c1 hv1
  obtain ⟨chk, d0, d1, ecc, lchk, gchk, ld0, ld1, _, _⟩ := compute_counters_pair P
    dec.Hcolumns (reflect P.BLOCK_LENGTH c0) (reflect P.BLOCK_LENGTH c1) dec.syndrome k0 k1 hrv0.1 hrv1.1
    hrv0.2.1 hrv1.2.1 hsl (hcc k0 (by rw [hK]; simp)) (hcc k1 (by rw [hK]; simp))
  have hrows' : dec.Hrows = [reflect P.BLOCK_LENGTH c0, reflect P.BLOCK_LENGTH c1] := by
    rw [hrows, hH]; rfl
  have hS2 : Shape P
      { dec with iter := dec.iter + 1, syndrome := chk, counters := [d0, d1] } := by
    refine ⟨hVH, hrows, by show 2 * _ ≤ chk.length; omega, hbl, hbb, rfl, ?_, hb01⟩
    intro c hc
    have h0 := hcc k0 (by rw [hK]; simp)
    have h1 := hcc k1 (by rw [hK]; simp)
    simp only [List.mem_cons, List.mem_singleton, List.not_mem_nil, or_false] at hc
    rcases hc with rfl | rfl <;> omega
  have hst2 : strong → Strong P
      { dec with iter := dec.iter + 1, syndrome := chk, counters := [d0, d1] } := fun h =>
    strong_congr P dec _ rfl rfl rfl rfl gchk (hst h)
  have key : ∀ threshold : Nat, ∃ st' : decoder × Nat × Bool,
      ((flip_scan P threshold
          ({ dec with iter := dec.iter + 1, syndrome := chk, counters := [d0, d1] },
            false)).bind fun r =>
        (expiry_sweep P fuel r).bind fun r => some (r.1, threshold, r.2)) = some st' ∧
      WellFormed P st'.1 ∧ frameOf st'.1 = (dec.Hcolumns, dec.e, dec.iter + 1) ∧
      (strong → Strong P st'.1) := by
    intro threshold
    obtain ⟨r1, e1, w1, i1, s1⟩ := flip_scan_spec P threshold strong (dec.Hcolumns, dec.e, dec.iter + 1)
      ({ dec with iter := dec.iter + 1, syndrome := chk, counters := [d0, d1] }, false)
      ⟨hS2, hL⟩ rfl hst2
    obtain ⟨r2, e2, w2, i2, s2⟩ := expiry_sweep_spec P fuel strong
      (dec.Hcolumns, dec.e, dec.iter + 1) r1 hfuel
      w1 i1 s1
    exact ⟨_, by rw [e1, Option.some_bind, e2, Option.some_bind], w2, i2, s2⟩
  have ecc' : compute_counters P dec.Hcolumns dec.Hrows dec.syndrome dec.counters =
      some (chk, [d0, d1]) := by
    rw [hrows', hK]; exact ecc
  unfold decode_iteration
  simp only [Option.bind_eq_bind]
  rw [ecc', Option.some_bind]
  exact key _

theorem decode_loop_spec (P : Params) (oracle : Nat → Nat → Nat) (fuel : Nat)
    (max_iter : Int) (strong : Prop) (hfuel : INDEX * P.BLOCK_LENGTH ≤ fuel) :
    ∀ (n : Nat) (st : decoder × Nat × Bool),
    WellFormed P st.1 → (strong → Strong P st.1) →
    st.1.iter ≤ max_iter → max_iter - st.1.iter ≤ (n : Int) →
    ∃ st', decode_loop P oracle fuel max_iter n st = some st' ∧ WellFormed P st'.1 ∧
      (strong → Strong P st'.1) ∧ st.1.iter ≤ st'.1.iter ∧ st'.1.iter ≤ max_iter ∧
      (st'.1.syndrome_weight ≠ (P.SYNDROME_STOP : Int) → st'.1.iter = max_iter) ∧
      st'.1.Hcolumns = st.1.Hcolumns ∧ st'.1.e = st.1.e := by
  intro n
  induction n with
  | zero =>
    intro st hwf hst hle hn
    have hfr : st.1.iter = max_iter := by omega
    refine ⟨st, ?_, hwf, hst, le_refl _, hle, fun _ => hfr, rfl, rfl⟩
    unfold decode_loop
    rw [if_neg (fun h => by omega)]
  | succ n ih =>
    intro st hwf hst hle hn
    unfold decode_loop
    by_cases hc : st.1.iter < max_iter ∧ st.1.syndrome_weight ≠ (P.SYNDROME_STOP : Int)
    · rw [if_pos hc]
      obtain ⟨st1, e1, w1, f1, s1⟩ :=
        decode_iteration_spec P oracle fuel strong st hfuel hwf hst
      have i1 : st1.1.iter = st.1.iter + 1 := congrArg (fun x => x.2.2) f1
      have hH1 : st1.1.Hcolumns = st.1.Hcolumns := congrArg (fun x => x.1) f1
      have he1 : st1.1.e = st.1.e := congrArg (fun x => x.2.1) f1
      obtain ⟨st2, e2, w2, s2, i2, i3, i4, hH2, he2⟩ := ih st1 w1 s1 (by omega) (by omega)
      exact ⟨st2, by rw [e1, Option.some_bind, e2], w2, s2, by omega, i3, i4,
        hH2.trans hH1, he2.trans he1⟩
    · rw [if_neg hc]
      refine ⟨st, rfl, hwf, hst, le_refl _, hle, fun h => ?_, rfl, rfl⟩
      by_contra hne
      exact hc ⟨by omega, h⟩

/-- Running `qcmdpc_decode_ttl` on a well-formed decoder: it returns, keeps the
decoder well formed and keeps the syndrome invariants when they hold on entry. -/
theorem qcmdpc_decode_ttl_spec (P : Params) (oracle : Nat → Nat → Nat) (fuel : Nat)
    (dec : decoder) (max_iter : Int) (strong : Prop)
    (hfuel : INDEX * P.BLOCK_LENGTH ≤ fuel) (hmax : 0 ≤ max_iter)
    (hwf : WellFormed P dec) (hst : strong → Strong P dec) :
    ∃ dec' r, qcmdpc_decode_ttl P oracle fuel dec max_iter = some (dec', r) ∧
      WellFormed P dec' ∧ (strong → Strong P dec') ∧
      0 ≤ dec'.iter ∧ dec'.iter ≤ max_iter ∧
      (r = 1 ↔ dec'.syndrome_weight = (P.SYNDROME_STOP : Int)) ∧
      (r = 0 → dec'.iter = max_iter) ∧ (r = 0 ∨ r = 1) ∧
      dec'.Hcolumns = dec.Hcolumns ∧ dec'.e = dec.e := by
  obtain ⟨st', e, w, s, i1, i2, i3, hH, he⟩ :=
    decode_loop_spec P oracle fuel max_iter strong hfuel
      max_iter.toNat ({ dec with iter := 0 }, 0, true) hwf hst hmax (by simp)
  refine ⟨st'.1, _, by unfold qcmdpc_decode_ttl; rw [e]; rfl, w, s, i1, i2, ?_, ?_, ?_,
    hH, he⟩
  · by_cases h : st'.1.syndrome_weight = (P.SYNDROME_STOP : Int)
    · simp [h]
    · simp [h]
  · intro h0
    apply i3
    intro h
    rw [if_pos h] at h0
    exact absurd h0 (by decide)
  · by_cases h : st'.1.syndrome_weight = (P.SYNDROME_STOP : Int)
    · right; rw [if_pos h]
    · left; rw [if_neg h]

theorem bitAt_zero (N n : Nat) (p : Nat) :
    bitAt N [List.replicate n 0, List.replicate n 0] p = 0 := by
  unfold bitAt
  have h : ∀ k, ([List.replicate n 0, List.replicate n 0].getD k []).getD (p % N) 0 = 0 := by
    intro k
    match k with
    | 0 => exact getD_replicate_zero _ _
    | 1 => exact getD_replicate_zero _ _
    | k + 2 => rfl
  exact h _

theorem cyc_zero (N n : Nat) (k : Nat) (x : Int) :
    cyc N ([List.replicate n 0, List.replicate n 0].getD k []) x = 0 := by
  unfold cyc
  match k with
  | 0 => exact getD_replicate_zero _ _
  | 1 => exact getD_replicate_zero _ _
  | k + 2 => rfl

theorem isList_empty (M : Nat) (fl : flip_list) (h1 : fl.next.length = M)
    (h2 : fl.prev.length = M) (h3 : fl.tod.length = M) :
    IsList M { fl with first := -1, length := 0 } [] :=
  ⟨h1, h2, h3, List.nodup_nil, fun _ hp => absurd hp (List.not_mem_nil _), rfl, rfl,
    fun _ hp => absurd hp (List.not_mem_nil _)⟩

/-- After `reset_decoder` and `init_decoder_error` the decoder is well formed and
the syndrome invariants hold. -/
theorem init_wellformed (P : Params) (dec0 : decoder) (H : List (List Int))
    (e_block : List Int) (e2 : Option (List Int))
    (hO : P.OUROBOROS = false) (hW : 0 < P.BLOCK_WEIGHT) (hW255 : P.BLOCK_WEIGHT ≤ 255)
    (hA : Allocated P dec0) (hH : ValidH P H) (hE : ValidError P e_block) :
    ∃ dec1 dec2, reset_decoder P dec0 = some dec1 ∧
      init_decoder_error P dec1 H e_block e2 = some dec2 ∧
      WellFormed P dec2 ∧ Strong P dec2 ∧ dec2.Hcolumns = H := by
  have hbuf := bufLen_ge P
  have hA1 := allocated_reset P dec0 hA
  obtain ⟨a1, a2, a3, a4, a5, a6, a7, a8, a9, a10, a11, a12⟩ := hA
  obtain ⟨E0, E1, S, e, _, _, g0, g1, lS, gS⟩ :=
    init_decoder_error_spec P _ H e_block e2 hO hW hH hE hA1.2.2.2.2.2.2.2.1
      hA1.2.2.2.2.2.2.2.2.1 hA1.2.2.1 (fun b hb => by rw [hA1.2.2.2.1 b hb]; omega)
      (by rw [hA1.2.2.2.2.2.2.1]; omega)
  have hS0 : ∀ i, i < P.BLOCK_LENGTH → S.getD i 0 = Hmul P.BLOCK_WEIGHT H
      (fun k x => cyc P.BLOCK_LENGTH ([E0, E1].getD k []) x) i := by
    intro i hi
    rw [gS i, if_pos hi]
    show (List.replicate P.bufLen 0).getD i 0 ^^^ _ = _
    rw [getD_replicate_zero, Nat.zero_xor]
  have hS01 : ∀ i, i < P.BLOCK_LENGTH → S.getD i 0 ≤ 1 := by
    intro i hi
    rw [hS0 i hi]
    apply Hmul_le_one
    intro k x
    have hk : ∀ v : List Nat, (∀ j, j < P.BLOCK_LENGTH → v.getD j 0 ≤ 1) →
        cyc P.BLOCK_LENGTH v x ≤ 1 := fun v hv => cyc_le_one _ (by omega) v hv x
    match k with
    | 0 => exact hk E0 (fun j hj => by rw [g0 j hj]; split <;> omega)
    | 1 => exact hk E1 (fun j hj => by rw [g1 j hj]; split <;> omega)
    | k + 2 => simp [cyc]
  refine ⟨_, _, reset_decoder_spec P dec0 ⟨a1, a2, a3, a4, a5, a6, a7, a8, a9, a10, a11, a12⟩,
    e, ⟨⟨hH, rfl, ?_, rfl, ?_, a5, ?_, ?_⟩, [], ?_, ?_⟩, ⟨hW255, hS01, ?_, ?_⟩, rfl⟩
  · show 2 * P.BLOCK_LENGTH ≤ S.length
    rw [lS]
    show 2 * P.BLOCK_LENGTH ≤ (List.replicate P.bufLen 0).length
    rw [List.length_replicate]
    exact hbuf
  · intro b hb
    have hb' : b ∈ [List.replicate P.bufLen 0, List.replicate P.bufLen 0] := hb
    simp only [List.mem_cons, List.mem_singleton, List.not_mem_nil, or_false] at hb'
    rcases hb' with rfl | rfl <;> rw [List.length_replicate] <;> omega
  · intro c hc
    rw [a6 c hc]
    omega
  · intro p _
    show bitAt _ [List.replicate P.bufLen 0, List.replicate P.bufLen 0] p ≤ 1
    rw [bitAt_zero]
    omega
  · exact isList_empty _ dec0.fl a11 a12 a10
  · intro p _
    show p ∈ [] ↔ bitAt _ [List.replicate P.bufLen 0, List.replicate P.bufLen 0] p = 1
    rw [bitAt_zero]
    simp
  · intro i hi
    show S.getD i 0 = Hmul P.BLOCK_WEIGHT H (fun k x =>
      cyc P.BLOCK_LENGTH ([E0, E1].getD k []) x ^^^
      cyc P.BLOCK_LENGTH ([List.replicate P.bufLen 0, List.replicate P.bufLen 0].getD k []) x) i
    rw [hS0 i hi]
    simp only [cyc_zero, Nat.xor_zero]
  · show ((sumUpTo P.BLOCK_LENGTH (fun j => S.getD j 0) : Nat) : Int) = _
    rw [popcount_eq_sum _ _ hS01]

/-! ## A well-formed small instance -/

theorem witnessReady_wellFormed : WellFormed witnessParams witnessReady := by
  refine ⟨⟨witnessH_valid, by decide, ?_, rfl, ?_, rfl, ?_, ?_⟩, [], ?_, ?_⟩
  · show 2 * 3 ≤ (0 :: 1 :: 1 :: List.replicate 509 0).length
    simp only [List.length_cons, List.length_replicate]
    decide
  · intro b hb
    have hb' : b ∈ [List.replicate 512 0, List.replicate 512 0] := hb
    simp only [List.mem_cons, List.mem_singleton, List.not_mem_nil, or_false] at hb'
    have h3 : witnessParams.BLOCK_LENGTH = 3 := rfl
    rcases hb' with rfl | rfl <;> rw [List.length_replicate, h3] <;> decide
  · intro c hc
    have hc' : c ∈ [List.replicate 512 4, List.replicate 512 4] := hc
    simp only [List.mem_cons, List.mem_singleton, List.not_mem_nil, or_false] at hc'
    have h3 : witnessParams.BLOCK_LENGTH = 3 := rfl
    rcases hc' with rfl | rfl <;> rw [List.length_replicate, h3] <;> decide
  · intro p _
    show bitAt _ [List.replicate 512 0, List.replicate 512 0] p ≤ 1
    rw [bitAt_zero]
    decide
  · exact ⟨List.length_replicate _ _, List.length_replicate _ _, List.length_replicate _ _,
      List.nodup_nil, fun _ hp => absurd hp (List.not_mem_nil _), rfl, rfl,
      fun _ hp => absurd hp (List.not_mem_nil _)⟩
  · intro p _
    show p ∈ [] ↔ bitAt _ [List.replicate 512 0, List.replicate 512 0] p = 1
    rw [bitAt_zero]
    simp


/-! ## Claims on `qcmdpc_decode_ttl` -/

/-- C1 (syndrome invariant): starting from `reset_decoder` followed by
`init_decoder_error` (non-Ouroboros build, allocated decoder, valid `H` with
`1 <= W <= 255`, valid error pattern), for every oracle standing for
`compute_threshold`:
(1) the state `dec2` left by `init_decoder_error` is well formed and satisfies the
syndrome invariants `Strong`, and for every `max_iter >= 0` the call of
`qcmdpc_decode_ttl` returns (with enough fuel for one traversal of the flip list),
and in the state it returns `syndrome[i]` is the XOR over `k` in `{0,1}` and `l < W`
of `(e[k] XOR bits[k])[(i - Hcolumns[k][l]) mod N]` for every `i < N`; `H` and `e`
are the ones installed by `init_decoder_error`;
(2) one iteration `decode_iteration` of the main loop, from any well-formed state
satisfying `Strong` and for any values of the locals, returns a well-formed state
satisfying `Strong` with the same `H` and `e`, in which the same equation holds.
By (1) the run starts in such a state and by (2) every iteration of the run leads to
such a state again. -/
theorem syndrome_invariant (P : Params) (dec0 : decoder) (H : List (List Int))
    (e_block : List Int) (e2 : Option (List Int)) (oracle : Nat → Nat → Nat)
    (fuel : Nat) (max_iter : Int)
    (hO : P.OUROBOROS = false) (hW : 0 < P.BLOCK_WEIGHT) (hW255 : P.BLOCK_WEIGHT ≤ 255)
    (hA : Allocated P dec0) (hH : ValidH P H) (hE : ValidError P e_block)
    (hfuel : INDEX * P.BLOCK_LENGTH ≤ fuel) (hmax : 0 ≤ max_iter) :
    (∃ dec1 dec2 dec' r, reset_decoder P dec0 = some dec1 ∧
      init_decoder_error P dec1 H e_block e2 = some dec2 ∧
      WellFormed P dec2 ∧ Strong P dec2 ∧
      qcmdpc_decode_ttl P oracle fuel dec2 max_iter = some (dec', r) ∧
      dec'.Hcolumns = H ∧ dec'.e = dec2.e ∧
      ∀ i, i < P.BLOCK_LENGTH → dec'.syndrome.getD i 0 =
        Hmul P.BLOCK_WEIGHT H
          (fun k x => cyc P.BLOCK_LENGTH (dec'.e.getD k []) x ^^^
            cyc P.BLOCK_LENGTH (dec'.bits.getD k []) x) i) ∧
    (∀ (st : decoder × Nat × Bool), WellFormed P st.1 → Strong P st.1 →
      ∃ st', decode_iteration P oracle fuel st = some st' ∧ WellFormed P st'.1 ∧
        Strong P st'.1 ∧ st'.1.Hcolumns = st.1.Hcolumns ∧ st'.1.e = st.1.e ∧
        ∀ i, i < P.BLOCK_LENGTH → st'.1.syndrome.getD i 0 =
          Hmul P.BLOCK_WEIGHT st.1.Hcolumns
            (fun k x => cyc P.BLOCK_LENGTH (st.1.e.getD k []) x ^^^
              cyc P.BLOCK_LENGTH (st'.1.bits.getD k []) x) i) := by
  constructor
  · obtain ⟨dec1, dec2, e1, e2', hwf, hstrong, hH2⟩ :=
      init_wellformed P dec0 H e_block e2 hO hW hW255 hA hH hE
    obtain ⟨dec', r, e3, _, hs, _, _, _, _, _, hH3, he3⟩ :=
      qcmdpc_decode_ttl_spec P oracle fuel dec2 max_iter True hfuel hmax hwf
        (fun _ => hstrong)
    refine ⟨dec1, dec2, dec', r, e1, e2', hwf, hstrong, e3, hH3.trans hH2, he3, ?_⟩
    have := (hs trivial).2.2.1
    unfold SyndromeInv at this
    rw [hH3, hH2] at this
    exact this
  · intro st hwf hst
    obtain ⟨st', e, hwf', hfr, hs'⟩ :=
      decode_iteration_spec P oracle fuel True st hfuel hwf (fun _ => hst)
    have hH1 : st'.1.Hcolumns = st.1.Hcolumns := congrArg (fun x => x.1) hfr
    have hE1 : st'.1.e = st.1.e := congrArg (fun x => x.2.1) hfr
    refine ⟨st', e, hwf', hs' trivial, hH1, hE1, ?_⟩
    have := (hs' trivial).2.2.1
    unfold SyndromeInv at this
    rw [hH1, hE1] at this
    exact this

theorem syndrome_invariant_witness :
    (∃ dec1 dec2 dec' r, reset_decoder witnessParams witnessDecoder = some dec1 ∧
      init_decoder_error witnessParams dec1 [[0, 1], [1, 2]] [1, 4] none = some dec2 ∧
      WellFormed witnessParams dec2 ∧ Strong witnessParams dec2 ∧
      qcmdpc_decode_ttl witnessParams (fun _ _ => 2) 6 dec2 3 = some (dec', r) ∧
      dec'.Hcolumns = [[0, 1], [1, 2]] ∧ dec'.e = dec2.e ∧
      ∀ i, i < witnessParams.BLOCK_LENGTH → dec'.syndrome.getD i 0 =
        Hmul witnessParams.BLOCK_WEIGHT [[0, 1], [1, 2]]
          (fun k x => cyc witnessParams.BLOCK_LENGTH (dec'.e.getD k []) x ^^^
            cyc witnessParams.BLOCK_LENGTH (dec'.bits.getD k []) x) i) ∧
    (∀ (st : decoder × Nat × Bool), WellFormed witnessParams st.1 →
      Strong witnessParams st.1 →
      ∃ st', decode_iteration witnessParams (fun _ _ => 2) 6 st = some st' ∧
        WellFormed witnessParams st'.1 ∧ Strong witnessParams st'.1 ∧
        st'.1.Hcolumns = st.1.Hcolumns ∧ st'.1.e = st.1.e ∧
        ∀ i, i < witnessParams.BLOCK_LENGTH → st'.1.syndrome.getD i 0 =
          Hmul witnessParams.BLOCK_WEIGHT st.1.Hcolumns
            (fun k x => cyc witnessParams.BLOCK_LENGTH (st.1.e.getD k []) x ^^^
              cyc witnessParams.BLOCK_LENGTH (st'.1.bits.getD k []) x) i) :=
  syndrome_invariant witnessParams witnessDecoder [[0, 1], [1, 2]] [1, 4] none
    (fun _ _ => 2) 6 3 rfl (by decide) (by decide) witnessDecoder_allocated witnessH_valid
    witnessError_valid (by decide) (by decide)

/-- C3: for every well-formed decoder state, every oracle standing for
`compute_threshold`, every `max_iter >= 0` (and enough fuel for one traversal of the
flip list, `INDEX * BLOCK_LENGTH` nodes), `qcmdpc_decode_ttl` returns, with
`0 <= iter <= max_iter`; the returned value is 0 or 1, it is 1 exactly when the
final `syndrome_weight` equals `SYNDROME_STOP`, and whenever it is 0 the final
`iter` equals `max_iter`. -/
theorem decode_terminates (P : Params) (oracle : Nat → Nat → Nat) (fuel : Nat)
    (dec : decoder) (max_iter : Int)
    (hwf : WellFormed P dec) (hfuel : INDEX * P.BLOCK_LENGTH ≤ fuel)
    (hmax : 0 ≤ max_iter) :
    ∃ dec' r, qcmdpc_decode_ttl P oracle fuel dec max_iter = some (dec', r) ∧
      0 ≤ dec'.iter ∧ dec'.iter ≤ max_iter ∧
      (r = 1 ↔ dec'.syndrome_weight = (P.SYNDROME_STOP : Int)) ∧
      (r = 0 → dec'.iter = max_iter) ∧ (r = 0 ∨ r = 1) ∧ WellFormed P dec' := by
  obtain ⟨dec', r, e, hwf', _, h1, h2, h3, h4, h5, _, _⟩ :=
    qcmdpc_decode_ttl_spec P oracle fuel dec max_iter False hfuel hmax hwf
      (fun h => absurd h id)
  exact ⟨dec', r, e, h1, h2, h3, h4, h5, hwf'⟩

theorem decode_terminates_witness :
    ∃ dec' r, qcmdpc_decode_ttl witnessParams (fun _ _ => 2) 6 witnessReady 4 =
        some (dec', r) ∧
      0 ≤ dec'.iter ∧ dec'.iter ≤ 4 ∧
      (r = 1 ↔ dec'.syndrome_weight = (witnessParams.SYNDROME_STOP : Int)) ∧
      (r = 0 → dec'.iter = 4) ∧ (r = 0 ∨ r = 1) ∧ WellFormed witnessParams dec' :=
  decode_terminates witnessParams (fun _ _ => 2) 6 witnessReady 4 witnessReady_wellFormed
    (by decide) (by decide)

/-! ## The dense error vector installed by `init_decoder_error` -/

/-- The Ouroboros loop of `init_decoder_error` returns when `e2_block` holds enough
positions inside the syndrome buffer. -/
theorem forUpTo_toggle (l : List Int) :
    ∀ (n : Nat) (s : List Nat), n ≤ l.length → (∀ p ∈ l, 0 ≤ p ∧ p < (s.length : Int)) →
    ∃ s', forUpTo n (fun (k : Nat) (syndrome : List Nat) => do
        let p ← l[k]?
        let v ← rd syndrome p
        wr syndrome p (v ^^^ 1)) s = some s' ∧ s'.length = s.length := by
  intro n
  induction n with
  | zero => intro s _ _; exact ⟨s, rfl, rfl⟩
  | succ n ih =>
    intro s hn hb
    obtain ⟨s1, e1, l1⟩ := ih s (by omega) hb
    have hp := hb (l.getD n 0) (by
      rw [List.getD_eq_getElem _ _ (by omega)]; exact List.getElem_mem _)
    refine ⟨s1.set (l.getD n 0).toNat (s1.getD (l.getD n 0).toNat 0 ^^^ 1), ?_, by simp [l1]⟩
    show (forUpTo n _ s).bind _ = _
    rw [e1]
    simp only [Option.some_bind, getD_eq_of_lt l 0 n (by omega), Option.bind_eq_bind,
      rd_of_bounds s1 _ hp.1 (by omega), wr_of_bounds s1 _ _ hp.1 (by omega)]

/-- The dense error vector installed by `init_decoder_error`, in both build modes:
inside `[0, N)` block 0 holds the indicator of the positions of `e_block` and block 1
the indicator of the positions shifted by `N`; beyond `N` both blocks are left as
they were. -/
theorem init_decoder_error_e (P : Params) (dec : decoder) (H : List (List Int))
    (e_block : List Int) (e2 : Option (List Int))
    (hW : 0 < P.BLOCK_WEIGHT) (hH : ValidH P H) (hE : ValidError P e_block)
    (hrl : dec.Hrows.length = INDEX) (hr : ∀ r ∈ dec.Hrows, r.length = P.BLOCK_WEIGHT)
    (hel : dec.e.length = INDEX) (he : ∀ b ∈ dec.e, P.BLOCK_LENGTH ≤ b.length)
    (hs : P.BLOCK_LENGTH ≤ dec.syndrome.length)
    (h2 : P.OUROBOROS = true → ∀ l, e2 = some l → P.SYNDROME_STOP ≤ l.length ∧
      ∀ p ∈ l, 0 ≤ p ∧ p < (dec.syndrome.length : Int)) :
    ∃ dec' E0 E1, init_decoder_error P dec H e_block e2 = some dec' ∧ dec'.e = [E0, E1] ∧
      E0.length = (dec.e.getD 0 []).length ∧ E1.length = (dec.e.getD 1 []).length ∧
      (∀ j, E0.getD j 0 =
        if j < P.BLOCK_LENGTH then
          (if ∃ m, m < P.ERROR_WEIGHT ∧ e_block.getD m 0 = (j : Int) then 1 else 0)
        else (dec.e.getD 0 []).getD j 0) ∧
      (∀ j, E1.getD j 0 =
        if j < P.BLOCK_LENGTH then
          (if ∃ m, m < P.ERROR_WEIGHT ∧
              e_block.getD m 0 = (P.BLOCK_LENGTH : Int) + (j : Int) then 1 else 0)
        else (dec.e.getD 1 []).getD j 0) := by
  obtain ⟨hHl, hHv⟩ := hH
  obtain ⟨hEl, hEb, hEs⟩ := hE
  obtain ⟨h0, h1, rfl⟩ := list_eq_pair H hHl
  obtain ⟨r0, r1, hrows⟩ := list_eq_pair dec.Hrows hrl
  obtain ⟨a0, a1, hes⟩ := list_eq_pair dec.e hel
  have hv0 := hHv h0 (by simp)
  have hv1 := hHv h1 (by simp)
  have ha0 : P.BLOCK_LENGTH ≤ a0.length := he a0 (by rw [hes]; simp)
  have ha1 : P.BLOCK_LENGTH ≤ a1.length := he a1 (by rw [hes]; simp)
  have erows := columns_to_rows_pair P h0 h1 r0 r1 hW hv0.1 hv1.1
    (hr r0 (by rw [hrows]; simp)) (hr r1 (by rw [hrows]; simp))
  obtain ⟨z0, ez0, lz0, gz0⟩ := forUpTo_zero a0 P.BLOCK_LENGTH ha0
  obtain ⟨z1, ez1, lz1, gz1⟩ := forUpTo_zero a1 P.BLOCK_LENGTH ha1
  obtain ⟨k', E0, eE0, hk1, hk2, lE0, hlow, hhigh, gE0⟩ :=
    init_error_loop1_spec P e_block hEl (fun x hx => (hEb x hx).1) P.ERROR_WEIGHT 0 z0
      (by omega) (by omega)
  have hmem : ∀ m, m < P.ERROR_WEIGHT → 0 ≤ e_block.getD m 0 ∧
      e_block.getD m 0 < 2 * (P.BLOCK_LENGTH : Int) := by
    intro m hm
    have hb := hEb (e_block.getD m 0) (by
      rw [List.getD_eq_getElem _ _ (by omega)]; exact List.getElem_mem _)
    unfold INDEX at hb
    omega
  have hrange : ∀ m, k' ≤ m → m < P.ERROR_WEIGHT →
      (P.BLOCK_LENGTH : Int) ≤ e_block.getD m 0 ∧
        e_block.getD m 0 < 2 * (P.BLOCK_LENGTH : Int) := by
    intro m hm1 hm2
    refine ⟨?_, (hmem m hm2).2⟩
    have := hhigh (by omega)
    have := sorted_getD_le e_block (pairwise_le_of_lt _ hEs) k' m hm1 (by omega)
    omega
  obtain ⟨E1, eE1, lE1, gE1⟩ := init_error_loop2_spec P e_block hEl (P.ERROR_WEIGHT - k') k' z1
    (by omega) (by omega) hrange
  obtain ⟨S, eS, lS, gS⟩ := compute_syndrome_pair P h0 h1 E0 E1 dec.syndrome hv0 hv1
    (by omega) (by omega) hs
  have eW := weight_loop_spec S P.BLOCK_LENGTH (by omega)
  simp only [Option.bind_eq_bind] at ez0 ez1 eW
  have hmap : (init_decoder_error P dec [h0, h1] e_block e2).map decoder.e =
      some [E0, E1] := by
    cases hOu : P.OUROBOROS with
    | false =>
      simp only [init_decoder_error, hrows, erows, hes, INDEX, forUpTo, Option.bind_eq_bind,
        Option.some_bind, List.getElem?_cons_zero, List.getElem?_cons_succ,
        List.set_cons_zero, List.set_cons_succ, hOu, ez0, ez1, eE0, eE1, eS, eW,
        List.map_cons, List.map_nil]
      rfl
    | true =>
      cases e2 with
      | none =>
        simp only [init_decoder_error, hrows, erows, hes, INDEX, forUpTo,
          Option.bind_eq_bind, Option.some_bind, List.getElem?_cons_zero,
          List.getElem?_cons_succ, List.set_cons_zero, List.set_cons_succ, hOu, ez0, ez1,
          eE0, eE1, eS, eW, List.map_cons, List.map_nil]
        rfl
      | some l =>
        obtain ⟨hl1, hl2⟩ := h2 hOu l rfl
        obtain ⟨S2, eS2, lS2⟩ := forUpTo_toggle l P.SYNDROME_STOP S hl1
          (fun p hp => by rw [lS]; exact hl2 p hp)
        have eW2 := weight_loop_spec S2 P.BLOCK_LENGTH (by omega)
        simp only [Option.bind_eq_bind] at eS2 eW2
        simp only [init_decoder_error, hrows, erows, hes, INDEX, forUpTo,
          Option.bind_eq_bind, Option.some_bind, List.getElem?_cons_zero,
          List.getElem?_cons_succ, List.set_cons_zero, List.set_cons_succ, hOu, ez0, ez1,
          eE0, eE1, eS, eS2, eW2, List.map_cons, List.map_nil]
        rfl
  obtain ⟨dec', hd1, hd2⟩ := Option.map_eq_some'.1 hmap
  refine ⟨dec', E0, E1, hd1, hd2, by rw [hes]; simpa using (by omega : E0.length = a0.length),
    by rw [hes]; simpa using (by omega : E1.length = a1.length), ?_, ?_⟩
  · intro j
    rw [gE0 j, gz0 j, hes]
    show _ = if j < P.BLOCK_LENGTH then _ else a0.getD j 0
    by_cases hj : j < P.BLOCK_LENGTH
    · rw [if_pos hj, if_pos hj]
      by_cases hex : ∃ m, m < P.ERROR_WEIGHT ∧ e_block.getD m 0 = (j : Int)
      · have hl : ∃ m, m < k' ∧ 0 ≤ m ∧ (e_block.getD m 0).toNat = j := by
          obtain ⟨m, hm, hmj⟩ := hex
          refine ⟨m, ?_, Nat.zero_le _, by omega⟩
          by_contra hge
          have := (hrange m (by omega) hm).1
          omega
        rw [if_pos hex, if_pos hl]
      · have hl : ¬ ∃ m, m < k' ∧ 0 ≤ m ∧ (e_block.getD m 0).toNat = j := by
          rintro ⟨m, hm1, _, hm3⟩
          have := hmem m (by omega)
          exact hex ⟨m, by omega, by omega⟩
        rw [if_neg hex, if_neg hl]
    · rw [if_neg hj, if_neg hj, if_neg]
      rintro ⟨m, hm1, _, hm3⟩
      have := hlow m (Nat.zero_le _) hm1
      have := hmem m (by omega)
      omega
  · intro j
    rw [gE1 j, gz1 j, hes]
    show _ = if j < P.BLOCK_LENGTH then _ else a1.getD j 0
    by_cases hj : j < P.BLOCK_LENGTH
    · rw [if_pos hj, if_pos hj]
      by_cases hex : ∃ m, m < P.ERROR_WEIGHT ∧
          e_block.getD m 0 = (P.BLOCK_LENGTH : Int) + (j : Int)
      · have hl : ∃ m, m < P.ERROR_WEIGHT ∧ k' ≤ m ∧
            (e_block.getD m 0 - (P.BLOCK_LENGTH : Int)).toNat = j := by
          obtain ⟨m, hm, hmj⟩ := hex
          refine ⟨m, hm, ?_, by omega⟩
          by_contra hge
          have := hlow m (Nat.zero_le _) (by omega)
          omega
        rw [if_pos hex, if_pos hl]
      · have hl : ¬ ∃ m, m < P.ERROR_WEIGHT ∧ k' ≤ m ∧
            (e_block.getD m 0 - (P.BLOCK_LENGTH : Int)).toNat = j := by
          rintro ⟨m, hm1, hm2, hm3⟩
          have := (hrange m hm2 hm1).1
          exact hex ⟨m, hm1, by omega⟩
        rw [if_neg hex, if_neg hl]
    · rw [if_neg hj, if_neg hj, if_neg]
      rintro ⟨m, hm1, hm2, hm3⟩
      have := (hrange m hm2 hm1)
      omega

/-- Membership in a list, in index form. -/
theorem exists_getD_iff_mem (L : List Int) (n : Nat) (hn : L.length = n) (x : Int) :
    (∃ m, m < n ∧ L.getD m 0 = x) ↔ x ∈ L := by
  constructor
  · rintro ⟨m, hm, rfl⟩
    rw [List.getD_eq_getElem _ _ (by omega)]
    exact List.getElem_mem _
  · intro hx
    obtain ⟨m, hm, rfl⟩ := List.mem_iff_getElem.1 hx
    exact ⟨m, by omega, List.getD_eq_getElem _ _ hm⟩

/-- The number of ones of the indicator vector of the window `[a, a + N)` of a list
without repetition is the number of entries of the list in that window. -/
theorem popcount_indicator (N : Nat) (a : Int) (L : List Int) (E : List Nat) (hnd : L.Nodup)
    (hE : ∀ j, j < N → E.getD j 0 = if a + (j : Int) ∈ L then 1 else 0) :
    popcount N E = (L.filter (fun x => decide (a ≤ x ∧ x < a + (N : Int)))).length := by
  unfold popcount
  rw [sumUpTo_eq_finset]
  have h1 : ∑ i in Finset.range N, (if E.getD i 0 = 1 then 1 else 0) =
      ∑ i in Finset.range N, (if a + (i : Int) ∈ L then 1 else 0) := by
    apply Finset.sum_congr rfl
    intro i hi
    rw [hE i (Finset.mem_range.1 hi)]
    split <;> simp
  rw [h1, Finset.sum_boole, ← List.toFinset_card_of_nodup (hnd.filter _)]
  simp only [Nat.cast_id]
  refine Finset.card_bij (fun (i : Nat) _ => a + (i : Int)) ?_ ?_ ?_
  · intro i hi
    simp only [Finset.mem_filter, Finset.mem_range] at hi
    simp only [List.mem_toFinset, List.mem_filter, decide_eq_true_eq]
    exact ⟨hi.2, by omega, by omega⟩
  · intro i _ j _ h
    beta_reduce at h
    omega
  · intro x hx
    simp only [List.mem_toFinset, List.mem_filter, decide_eq_true_eq] at hx
    have hxa : a + ((x - a).toNat : Int) = x := by omega
    refine ⟨(x - a).toNat, ?_, hxa⟩
    simp only [Finset.mem_filter, Finset.mem_range]
    refine ⟨by omega, ?_⟩
    rw [hxa]
    exact hx.1

/-- Two windows that cover a list split its length. -/
theorem length_filter_split (L : List Int) (p q : Int → Bool)
    (h : ∀ x ∈ L, (p x = true ∧ q x = false) ∨ (p x = false ∧ q x = true)) :
    (L.filter p).length + (L.filter q).length = L.length := by
  induction L with
  | nil => rfl
  | cons x t ih =>
    have := ih (fun y hy => h y (List.mem_cons_of_mem _ hy))
    rcases h x (List.mem_cons_self _ _) with ⟨h1, h2⟩ | ⟨h1, h2⟩ <;>
      simp only [List.filter_cons, h1, h2, List.length_cons] <;> simp <;> omega

theorem witnessError_block0_valid : ValidError witnessParams [0, 2] := by
  unfold ValidError witnessParams INDEX
  decide

/-- C11 (error-vector installation): for every `e_block` holding `T` strictly
ascending positions in `[0, 2N)` (valid `H` with `W >= 1`, row buffers of `W`
entries, two error blocks and a syndrome buffer of at least `N` entries; in an
Ouroboros build a given `e2_block` holds `SYNDROME_STOP` positions inside the
syndrome buffer), `init_decoder_error` returns and afterwards, for `j < N`,
`e[0][j] = 1` iff `j` is in `e_block` and `e[1][j] = 1` iff `N + j` is in `e_block`,
every entry of either block below `N` is 0 or 1, the two blocks hold `T` ones in
total, both blocks keep their length and every entry at an index `>= N` keeps its
value: no index outside `[0, N)` is written. The positions may all lie in one
block. -/
theorem error_vector_installed (P : Params) (dec : decoder) (H : List (List Int))
    (e_block : List Int) (e2 : Option (List Int))
    (hW : 0 < P.BLOCK_WEIGHT) (hH : ValidH P H) (hE : ValidError P e_block)
    (hrl : dec.Hrows.length = INDEX) (hr : ∀ r ∈ dec.Hrows, r.length = P.BLOCK_WEIGHT)
    (hel : dec.e.length = INDEX) (he : ∀ b ∈ dec.e, P.BLOCK_LENGTH ≤ b.length)
    (hs : P.BLOCK_LENGTH ≤ dec.syndrome.length)
    (h2 : P.OUROBOROS = true → ∀ l, e2 = some l → P.SYNDROME_STOP ≤ l.length ∧
      ∀ p ∈ l, 0 ≤ p ∧ p < (dec.syndrome.length : Int)) :
    ∃ dec', init_decoder_error P dec H e_block e2 = some dec' ∧
      dec'.e.length = INDEX ∧
      (∀ j, j < P.BLOCK_LENGTH →
        ((dec'.e.getD 0 []).getD j 0 = 1 ↔ (j : Int) ∈ e_block) ∧
        ((dec'.e.getD 1 []).getD j 0 = 1 ↔ (P.BLOCK_LENGTH : Int) + (j : Int) ∈ e_block)) ∧
      (∀ k j, k < INDEX → j < P.BLOCK_LENGTH →
        (dec'.e.getD k []).getD j 0 = 0 ∨ (dec'.e.getD k []).getD j 0 = 1) ∧
      popcount P.BLOCK_LENGTH (dec'.e.getD 0 []) + popcount P.BLOCK_LENGTH (dec'.e.getD 1 []) =
        P.ERROR_WEIGHT ∧
      (∀ k, k < INDEX → (dec'.e.getD k []).length = (dec.e.getD k []).length) ∧
      (∀ k j, k < INDEX → P.BLOCK_LENGTH ≤ j →
        (dec'.e.getD k []).getD j 0 = (dec.e.getD k []).getD j 0) := by
  obtain ⟨dec', E0, E1, hd, hde, l0, l1, g0, g1⟩ :=
    init_decoder_error_e P dec H e_block e2 hW hH hE hrl hr hel he hs h2
  obtain ⟨hEl, hEb, hEs⟩ := hE
  have hnd : e_block.Nodup := hEs.imp (fun h => ne_of_lt h)
  have g0' : ∀ j, j < P.BLOCK_LENGTH →
      E0.getD j 0 = if (0 : Int) + (j : Int) ∈ e_block then 1 else 0 := by
    intro j hj
    rw [g0 j, if_pos hj, Int.zero_add]
    simp only [exists_getD_iff_mem e_block P.ERROR_WEIGHT hEl]
  have g1' : ∀ j, j < P.BLOCK_LENGTH →
      E1.getD j 0 = if (P.BLOCK_LENGTH : Int) + (j : Int) ∈ e_block then 1 else 0 := by
    intro j hj
    rw [g1 j, if_pos hj]
    simp only [exists_getD_iff_mem e_block P.ERROR_WEIGHT hEl]
  have hk : ∀ k, k < INDEX → k = 0 ∨ k = 1 := by
    intro k hk
    unfold INDEX at hk
    omega
  refine ⟨dec', hd, by rw [hde]; rfl, ?_, ?_, ?_, ?_, ?_⟩
  · intro j hj
    rw [hde]
    show (E0.getD j 0 = 1 ↔ _) ∧ (E1.getD j 0 = 1 ↔ _)
    rw [g0' j hj, g1' j hj, Int.zero_add]
    constructor <;> split <;> simp_all
  · intro k j hk' hj
    rw [hde]
    rcases hk k hk' with rfl | rfl
    · show E0.getD j 0 = 0 ∨ E0.getD j 0 = 1
      rw [g0' j hj]
      split <;> simp
    · show E1.getD j 0 = 0 ∨ E1.getD j 0 = 1
      rw [g1' j hj]
      split <;> simp
  · rw [hde]
    show popcount P.BLOCK_LENGTH E0 + popcount P.BLOCK_LENGTH E1 = _
    rw [popcount_indicator P.BLOCK_LENGTH 0 e_block E0 hnd g0',
      popcount_indicator P.BLOCK_LENGTH P.BLOCK_LENGTH e_block E1 hnd g1',
      length_filter_split, hEl]
    intro x hx
    have := hEb x hx
    unfold INDEX at this
    simp only [decide_eq_true_eq, decide_eq_false_iff_not]
    omega
  · intro k hk'
    rw [hde]
    rcases hk k hk' with rfl | rfl
    · exact l0
    · exact l1
  · intro k j hk' hj
    rw [hde]
    rcases hk k hk' with rfl | rfl
    · show E0.getD j 0 = _
      rw [g0 j, if_neg (by omega)]
    · show E1.getD j 0 = _
      rw [g1 j, if_neg (by omega)]

theorem error_vector_installed_witness :
    ∃ dec', init_decoder_error witnessParams witnessDecoder [[0, 1], [1, 2]] [0, 2] none =
        some dec' ∧
      dec'.e.length = INDEX ∧
      (∀ j, j < witnessParams.BLOCK_LENGTH →
        ((dec'.e.getD 0 []).getD j 0 = 1 ↔ (j : Int) ∈ [(0 : Int), 2]) ∧
        ((dec'.e.getD 1 []).getD j 0 = 1 ↔
          (witnessParams.BLOCK_LENGTH : Int) + (j : Int) ∈ [(0 : Int), 2])) ∧
      (∀ k j, k < INDEX → j < witnessParams.BLOCK_LENGTH →
        (dec'.e.getD k []).getD j 0 = 0 ∨ (dec'.e.getD k []).getD j 0 = 1) ∧
      popcount witnessParams.BLOCK_LENGTH (dec'.e.getD 0 []) +
          popcount witnessParams.BLOCK_LENGTH (dec'.e.getD 1 []) =
        witnessParams.ERROR_WEIGHT ∧
      (∀ k, k < INDEX → (dec'.e.getD k []).length = (witnessDecoder.e.getD k []).length) ∧
      (∀ k j, k < INDEX → witnessParams.BLOCK_LENGTH ≤ j →
        (dec'.e.getD k []).getD j 0 = (witnessDecoder.e.getD k []).getD j 0) :=
  error_vector_installed witnessParams witnessDecoder [[0, 1], [1, 2]] [0, 2] none
    (by decide) witnessH_valid witnessError_block0_valid rfl (by decide) rfl
    (by
      intro b hb
      have hl : b.length = 512 := by
        simp only [witnessDecoder, List.mem_cons, List.mem_singleton, List.not_mem_nil,
          or_false] at hb
        rcases hb with rfl | rfl <;> exact List.length_replicate _ _
      rw [hl]
      decide)
    (by
      have hl : witnessDecoder.syndrome.length = 512 := List.length_replicate _ _
      rw [hl]
      decide)
    (fun h => absurd h (by decide))

/-! ## Lower bounds on the rounded value -/

theorem ilog2_aux_spec : ∀ (fuel n : Nat), 0 < n → n ≤ fuel →
    2 ^ ilog2_aux fuel n ≤ n ∧ n < 2 ^ (ilog2_aux fuel n + 1) := by
  intro fuel
  induction fuel with
  | zero => intro n h1 h2; omega
  | succ fuel ih =>
    intro n h1 h2
    unfold ilog2_aux
    by_cases h : n < 2
    · rw [if_pos h]
      have : n = 1 := by omega
      subst this
      decide
    · rw [if_neg h]
      obtain ⟨a1, a2⟩ := ih (n / 2) (by omega) (by omega)
      rw [pow_succ] at a2 ⊢
      rw [pow_succ (2 : Nat) (ilog2_aux fuel (n / 2) + 1), pow_succ]
      constructor <;> omega

theorem ilog2_spec (n : Nat) (h : 0 < n) : 2 ^ ilog2 n ≤ n ∧ n < 2 ^ (ilog2 n + 1) :=
  ilog2_aux_spec n n h (le_refl n)

theorem round_half_even_ge (n d a : Nat) (hd : 0 < d) (h : a * d ≤ n) :
    a ≤ round_half_even n d := by
  have hq : a ≤ n / d := (Nat.le_div_iff_mul_le hd).2 h
  unfold round_half_even
  split_ifs <;> omega

theorem pow2_nonneg (e : Int) (k : Nat) (hk : e = (k : Int)) : pow2 e = 2 ^ k := by
  unfold pow2
  rw [hk, Int.toNat_ofNat]

theorem pow2_neg (e : Int) (h : e ≤ 0) : pow2 e = 1 := by
  unfold pow2
  rw [Int.toNat_eq_zero.2 h, pow_zero]

theorem pow2_pos (e : Int) : 0 < pow2 e := by
  unfold pow2
  exact pow_pos (by decide) _

theorem two_pow_split (J k : Nat) (h : k ≤ J) : (2 : Nat) ^ J = 2 ^ (J - k) * 2 ^ k := by
  rw [← pow_add, Nat.sub_add_cancel h]

/-- The exponent chosen by `round_double_pos` before the subnormal bound: the scaled
fraction is at least `2 ^ 52`. -/
theorem round_double_exponent (n d : Nat) (hn : 0 < n) (hd : 0 < d) (e0 e1 : Int)
    (h0 : e0 = (ilog2 n : Int) - (ilog2 d : Int) - 52)
    (h1 : e1 = if n * pow2 (-e0) < 2 ^ 52 * (d * pow2 e0) then e0 - 1 else e0) :
    2 ^ 52 * (d * pow2 e1) ≤ n * pow2 (-e1) := by
  obtain ⟨n1, n2⟩ := ilog2_spec n hn
  obtain ⟨d1, d2⟩ := ilog2_spec d hd
  by_cases ht : n * pow2 (-e0) < 2 ^ 52 * (d * pow2 e0)
  · rw [if_pos ht] at h1
    by_cases hs : 0 ≤ e1
    · obtain ⟨K, hK⟩ : ∃ K : Nat, e1 = (K : Int) := ⟨e1.toNat, by omega⟩
      rw [pow2_nonneg e1 K hK, pow2_neg (-e1) (by omega), Nat.mul_one]
      have hb : ilog2 n = 52 + (ilog2 d + 1 + K) := by omega
      have hle : d * 2 ^ K ≤ 2 ^ (ilog2 d + 1) * 2 ^ K :=
        Nat.mul_le_mul_right _ (Nat.le_of_lt d2)
      calc 2 ^ 52 * (d * 2 ^ K) ≤ 2 ^ 52 * (2 ^ (ilog2 d + 1) * 2 ^ K) :=
            Nat.mul_le_mul_left _ hle
        _ = 2 ^ ilog2 n := by rw [← pow_add, ← pow_add, hb]
        _ ≤ n := n1
    · obtain ⟨J, hJ⟩ : ∃ J : Nat, -e1 = (J : Int) := ⟨(-e1).toNat, by omega⟩
      rw [pow2_nonneg (-e1) J hJ, pow2_neg e1 (by omega), Nat.mul_one]
      have hb : ilog2 n + J = 52 + (ilog2 d + 1) := by omega
      calc 2 ^ 52 * d ≤ 2 ^ 52 * 2 ^ (ilog2 d + 1) :=
            Nat.mul_le_mul_left _ (Nat.le_of_lt d2)
        _ = 2 ^ ilog2 n * 2 ^ J := by rw [← pow_add, ← pow_add, hb]
        _ ≤ n * 2 ^ J := Nat.mul_le_mul_right _ n1
  · rw [if_neg ht] at h1
    rw [h1]
    exact Nat.le_of_not_lt ht

/-- A number `a / 2 ^ k` with a significand below `2 ^ 53` is a binary64 number, so
rounding a fraction that is not below it gives a value that is not below it. -/
theorem round_double_pos_ge (n d a k : Nat) (hn : 0 < n) (hd : 0 < d) (ha : a < 2 ^ 53)
    (hk : k ≤ 1074) (h : a * d ≤ n * 2 ^ k) :
    a * (round_double_pos n d).2 ≤ (round_double_pos n d).1 * 2 ^ k := by
  obtain ⟨e0, h0⟩ : ∃ e0 : Int, e0 = (ilog2 n : Int) - (ilog2 d : Int) - 52 := ⟨_, rfl⟩
  obtain ⟨e1, h1⟩ : ∃ e1 : Int,
      e1 = if n * pow2 (-e0) < 2 ^ 52 * (d * pow2 e0) then e0 - 1 else e0 := ⟨_, rfl⟩
  obtain ⟨e, he⟩ : ∃ e : Int, e = if e1 < -1074 then -1074 else e1 := ⟨_, rfl⟩
  have hnorm := round_double_exponent n d hn hd e0 e1 h0 h1
  have hval : round_double_pos n d =
      (round_half_even (n * pow2 (-e)) (d * pow2 e) * pow2 e, pow2 (-e)) := by
    unfold round_double_pos
    simp only [← h0, ← h1, ← he]
  rw [hval]
  show a * pow2 (-e) ≤ round_half_even (n * pow2 (-e)) (d * pow2 e) * pow2 e * 2 ^ k
  have h53 : (2 : Nat) ^ 53 = 2 ^ 52 * 2 := by decide
  by_cases hs : 0 ≤ e
  · have hee : e = e1 := by rw [he]; split_ifs <;> omega
    obtain ⟨E, hE⟩ : ∃ E : Nat, e = (E : Int) := ⟨e.toNat, by omega⟩
    rw [hee] at hE
    rw [hee, pow2_nonneg e1 E hE, pow2_neg (-e1) (by omega), Nat.mul_one, Nat.mul_one]
    rw [pow2_nonneg e1 E hE, pow2_neg (-e1) (by omega), Nat.mul_one] at hnorm
    have hm : 2 ^ 52 ≤ round_half_even n (d * 2 ^ E) :=
      round_half_even_ge n (d * 2 ^ E) (2 ^ 52) (Nat.mul_pos hd (pow_pos (by decide) _)) hnorm
    by_cases hz : E + k = 0
    · have hE0 : E = 0 := by omega
      have hk0 : k = 0 := by omega
      subst hE0
      subst hk0
      simp only [pow_zero, Nat.mul_one] at h ⊢
      exact round_half_even_ge n d a hd h
    · have h2 : 2 ≤ 2 ^ E * 2 ^ k := by
        rw [← pow_add]
        calc 2 = 2 ^ 1 := rfl
          _ ≤ 2 ^ (E + k) := Nat.pow_le_pow_right (by decide) (by omega)
      calc a ≤ 2 ^ 52 * 2 := by omega
        _ ≤ round_half_even n (d * 2 ^ E) * (2 ^ E * 2 ^ k) := Nat.mul_le_mul hm h2
        _ = round_half_even n (d * 2 ^ E) * 2 ^ E * 2 ^ k := by rw [Nat.mul_assoc]
  · obtain ⟨J, hJ⟩ : ∃ J : Nat, -e = (J : Int) := ⟨(-e).toNat, by omega⟩
    rw [pow2_nonneg (-e) J hJ, pow2_neg e (by omega), Nat.mul_one, Nat.mul_one]
    by_cases hkJ : k ≤ J
    · have hA : a * 2 ^ (J - k) * d ≤ n * 2 ^ J := by
        rw [two_pow_split J k hkJ]
        calc a * 2 ^ (J - k) * d = a * d * 2 ^ (J - k) := by ring
          _ ≤ n * 2 ^ k * 2 ^ (J - k) := Nat.mul_le_mul_right _ h
          _ = n * (2 ^ (J - k) * 2 ^ k) := by ring
      have hm := round_half_even_ge (n * 2 ^ J) d (a * 2 ^ (J - k)) hd hA
      calc a * 2 ^ J = a * 2 ^ (J - k) * 2 ^ k := by rw [two_pow_split J k hkJ, Nat.mul_assoc]
        _ ≤ round_half_even (n * 2 ^ J) d * 2 ^ k := Nat.mul_le_mul_right _ hm
    · have hee : e = e1 := by rw [he]; split_ifs <;> omega
      rw [hee] at hJ
      rw [pow2_nonneg (-e1) J hJ, pow2_neg e1 (by omega), Nat.mul_one] at hnorm
      have hm : 2 ^ 52 ≤ round_half_even (n * 2 ^ J) d :=
        round_half_even_ge (n * 2 ^ J) d (2 ^ 52) hd hnorm
      have hk2 : 2 * 2 ^ J ≤ 2 ^ k := by
        calc 2 * 2 ^ J = 2 ^ (J + 1) := by rw [pow_succ, Nat.mul_comm]
          _ ≤ 2 ^ k := Nat.pow_le_pow_right (by decide) (by omega)
      calc a * 2 ^ J ≤ 2 ^ 52 * 2 * 2 ^ J := Nat.mul_le_mul_right _ (by omega)
        _ = 2 ^ 52 * (2 * 2 ^ J) := by rw [Nat.mul_assoc]
        _ ≤ round_half_even (n * 2 ^ J) d * 2 ^ k := Nat.mul_le_mul hm hk2

theorem round_double_of_pos (n d : Nat) (hn : 0 < n) :
    round_double (n : Int) d =
      (((round_double_pos n d).1 : Int), (round_double_pos n d).2) := by
  unfold round_double
  rw [if_neg (by omega), if_neg (by omega), Int.natAbs_ofNat]

theorem round_double_pos_den (n d : Nat) : 0 < (round_double_pos n d).2 := by
  unfold round_double_pos
  exact pow2_pos _

/-- The value of `compute_ttl` depends on the build constants of the time-to-live
only. -/
theorem compute_ttl_congr (P Q : Params) (h0 : P.TTL_COEFF0_NUM = Q.TTL_COEFF0_NUM)
    (h1 : P.TTL_COEFF1_NUM = Q.TTL_COEFF1_NUM) (hden : P.TTL_COEFF_DEN = Q.TTL_COEFF_DEN)
    (hsat : P.TTL_SATURATE = Q.TTL_SATURATE) (d : Int) :
    compute_ttl P d = compute_ttl Q d := by
  unfold compute_ttl
  rw [h0, h1, hden, hsat]

set_option maxRecDepth 100000 in
/-- The binary64 constants of the default coefficients: `0.435` is
`7836263351624663 / 2 ^ 54` and `1.15` is `5179139571476070 / 2 ^ 52`. -/
theorem default_coefficients :
    round_double 435 1000 = (7836263351624663, 2 ^ 54) ∧
      round_double 1150 1000 = (5179139571476070, 2 ^ 52) := by
  decide

/-- With the default coefficients, the value computed in `double` for a difference of
at least 9 is at least 5, so the time-to-live is saturated. -/
theorem compute_ttl_saturated (P : Params) (d : Nat) (hd : 9 ≤ d)
    (h0 : P.TTL_COEFF0_NUM = 435) (h1 : P.TTL_COEFF1_NUM = 1150)
    (hden : P.TTL_COEFF_DEN = 1000) (hsat : P.TTL_SATURATE = 5) :
    compute_ttl P (d : Int) = 5 := by
  obtain ⟨c0, c1⟩ := default_coefficients
  have hX := round_double_pos_ge d 1 9 0 (by omega) (by decide) (by decide) (by decide)
    (by omega)
  have hX2 := round_double_pos_den d 1
  obtain ⟨X1, hX1e⟩ : ∃ X1, (round_double_pos d 1).1 = X1 := ⟨_, rfl⟩
  obtain ⟨X2, hX2e⟩ : ∃ X2, (round_double_pos d 1).2 = X2 := ⟨_, rfl⟩
  rw [hX1e, hX2e] at hX
  rw [hX2e] at hX2
  have hx : round_double (d : Int) 1 = ((X1 : Int), X2) := by
    rw [round_double_of_pos d 1 (by omega), hX1e, hX2e]
  have hP := round_double_pos_ge (X1 * 7836263351624663) (X2 * 2 ^ 54) 31 3 (by omega)
    (by omega) (by decide) (by decide) (by omega)
  have hP2 := round_double_pos_den (X1 * 7836263351624663) (X2 * 2 ^ 54)
  obtain ⟨P1, hP1e⟩ : ∃ P1, (round_double_pos (X1 * 7836263351624663) (X2 * 2 ^ 54)).1 = P1 :=
    ⟨_, rfl⟩
  obtain ⟨P2, hP2e⟩ : ∃ P2, (round_double_pos (X1 * 7836263351624663) (X2 * 2 ^ 54)).2 = P2 :=
    ⟨_, rfl⟩
  rw [hP1e, hP2e] at hP
  rw [hP2e] at hP2
  have hp : round_double ((X1 : Int) * 7836263351624663) (X2 * 2 ^ 54) = ((P1 : Int), P2) := by
    have e : (X1 : Int) * 7836263351624663 = ((X1 * 7836263351624663 : Nat) : Int) := by
      push_cast
      rfl
    rw [e, round_double_of_pos _ _ (by omega), hP1e, hP2e]
  have hS := round_double_pos_ge (P1 * 2 ^ 52 + 5179139571476070 * P2) (P2 * 2 ^ 52) 5 0
    (by omega) (by omega) (by decide) (by decide) (by omega)
  have hS2 := round_double_pos_den (P1 * 2 ^ 52 + 5179139571476070 * P2) (P2 * 2 ^ 52)
  obtain ⟨S1, hS1e⟩ : ∃ S1,
      (round_double_pos (P1 * 2 ^ 52 + 5179139571476070 * P2) (P2 * 2 ^ 52)).1 = S1 := ⟨_, rfl⟩
  obtain ⟨S2, hS2e⟩ : ∃ S2,
      (round_double_pos (P1 * 2 ^ 52 + 5179139571476070 * P2) (P2 * 2 ^ 52)).2 = S2 := ⟨_, rfl⟩
  rw [hS1e, hS2e] at hS
  rw [hS2e] at hS2
  have hs : round_double ((P1 : Int) * ((2 ^ 52 : Nat) : Int) + 5179139571476070 * (P2 : Int))
      (P2 * 2 ^ 52) = ((S1 : Int), S2) := by
    have e : (P1 : Int) * ((2 ^ 52 : Nat) : Int) + 5179139571476070 * (P2 : Int) =
        ((P1 * 2 ^ 52 + 5179139571476070 * P2 : Nat) : Int) := by
      push_cast
      rfl
    rw [e, round_double_of_pos _ _ (by omega), hS1e, hS2e]
  have hq : (5 : Int) ≤ (S1 : Int).tdiv (S2 : Int) := by
    rw [Int.tdiv_eq_ediv (by omega) (by omega)]
    exact Int.le_ediv_of_mul_le (by omega) (by omega)
  unfold compute_ttl
  simp only [h0, h1, hden, hsat, c0, c1, hx, hp, hs]
  split_ifs <;> omega

set_option maxRecDepth 100000 in
/-- With the default coefficients, the values computed in `double` for the differences
0 to 8. -/
theorem default_ttl_table : ∀ d : Nat, d < 9 →
    compute_ttl witnessParams (d : Int) =
      if d ≤ 1 then 1 else if d ≤ 4 then 2 else if d ≤ 6 then 3 else 4 := by
  decide

/-! ## The threshold: range and value at `S = 0` -/

theorem u32_of_lt (n : Nat) (h : n < 4294967296) : u32 (n : Int) = n := by
  unfold u32
  omega

/-- The loop of `iks` has ended once `i >= 10`: further iterations change nothing,
so the five iterations of `iks` are all the program can make. -/
theorem iks_loop_fuel {F : Type} (P : Params) (fp : FloatOps F) (t : Nat) :
    ∀ (m n i : Nat) (acc : F × F), 10 ≤ i + 2 * m → i < 1000 →
      iks_loop P fp t (m + n) i acc = iks_loop P fp t m i acc := by
  intro m
  induction m with
  | zero =>
    intro n i acc h _
    cases n with
    | zero => rfl
    | succ n =>
      simp only [Nat.zero_add, iks_loop]
      rw [if_neg (by omega)]
  | succ m ih =>
    intro n i acc h hi
    have hu : u32 ((i : Int) + 2) = i + 2 := by
      unfold u32
      omega
    rw [Nat.add_right_comm]
    simp only [iks_loop, hu]
    split
    · rename_i hc
      exact ih n (i + 2) _ (by omega) (by omega)
    · rfl

/-- The search loop of `compute_threshold` ends within `threshold - (W+1)/2`
iterations, on a value between the floor `(W+1)/2` and `threshold - 1`, whatever the
values of `diff` are. -/
theorem threshold_loop_bounds {F : Type} (P : Params) (fp : FloatOps F) (diff : Nat → F) :
    ∀ (fuel threshold : Nat), (P.BLOCK_WEIGHT + 1) / 2 < threshold →
      threshold < 4294967296 → threshold ≤ (P.BLOCK_WEIGHT + 1) / 2 + fuel →
      ∃ r, threshold_loop P fp diff fuel threshold = some r ∧
        (P.BLOCK_WEIGHT + 1) / 2 ≤ r ∧ r < threshold := by
  intro fuel
  induction fuel with
  | zero => intro th h1 _ h3; omega
  | succ n ih =>
    intro th h1 h2 h3
    have hu : u32 ((th : Int) - 1) = th - 1 := by
      unfold u32
      omega
    unfold threshold_loop
    simp only [hu]
    by_cases hc : fp.ge (diff (th - 1)) (fp.ofNat 0) = true ∧ th - 1 > (P.BLOCK_WEIGHT + 1) / 2
    · rw [if_pos hc]
      obtain ⟨r, e, r1, r2⟩ := ih (th - 1) hc.2 (by omega) (by omega)
      exact ⟨r, e, r1, by omega⟩
    · rw [if_neg hc]
      exact ⟨th - 1, rfl, by omega, by omega⟩

theorem threshold_final_bounds (P : Params) (hW : P.BLOCK_WEIGHT ≤ 255) (r : Nat)
    (h1 : (P.BLOCK_WEIGHT + 1) / 2 ≤ r) (h2 : r ≤ P.BLOCK_WEIGHT) :
    (P.BLOCK_WEIGHT + 1) / 2 ≤ threshold_final P r ∧ threshold_final P r ≤ P.BLOCK_WEIGHT := by
  unfold threshold_final
  rw [u32_of_lt P.BLOCK_WEIGHT (by omega)]
  have : u32 ((r : Int) + 1) = r + 1 := by
    unfold u32
    omega
  rw [this]
  split <;> omega

/-- C12: for every syndrome weight `S` and every `t` (in particular every `t >= 1`),
`compute_threshold(S, t)` returns (the search loop ends within `W + 1` iterations) an
integer `tau` with `(W + 1) / 2 <= tau <= W` (integer division). The statement holds
for every interpretation `fp` of the floating-point operations, hence whatever values
`p`, `q` and `diff` take; `W <= 255` is the build-time guard of `param.h`. -/
theorem compute_threshold_range {F : Type} (P : Params) (fp : FloatOps F) (fuel S t : Nat)
    (hW : P.BLOCK_WEIGHT ≤ 255) (hfuel : P.BLOCK_WEIGHT + 1 ≤ fuel) :
    ∃ tau, compute_threshold P fp fuel S t = some tau ∧
      (P.BLOCK_WEIGHT + 1) / 2 ≤ tau ∧ tau ≤ P.BLOCK_WEIGHT := by
  have hu : u32 ((P.BLOCK_WEIGHT : Int) + 1) = P.BLOCK_WEIGHT + 1 := by
    unfold u32
    omega
  have hloop : ∀ diff : Nat → F, ∃ tau,
      (threshold_loop P fp diff fuel (u32 ((P.BLOCK_WEIGHT : Int) + 1))).map
        (threshold_final P) = some tau ∧
      (P.BLOCK_WEIGHT + 1) / 2 ≤ tau ∧ tau ≤ P.BLOCK_WEIGHT := by
    intro diff
    rw [hu]
    obtain ⟨r, e, r1, r2⟩ := threshold_loop_bounds P fp diff fuel (P.BLOCK_WEIGHT + 1)
      (by omega) (by omega) (by omega)
    rw [e]
    exact ⟨_, rfl, threshold_final_bounds P hW r r1 (by omega)⟩
  unfold compute_threshold
  simp only
  split
  · exact ⟨_, rfl, by rw [u32_of_lt _ (by omega)]; omega, by rw [u32_of_lt _ (by omega)]⟩
  · split
    · exact hloop _
    · exact hloop _

theorem classOps_annexF : AnnexF classOps := by
  refine ⟨rfl, rfl, rfl, ?_, ?_, ?_, ?_, ?_, rfl, rfl, rfl, rfl, rfl, rfl, rfl, rfl, ?_⟩
  · intro n h _
    have : classOps.ofNat n = FloatClass.pos := if_neg (by omega)
    rw [this]
    rfl
  · intro n _
    by_cases h : n = 0
    · subst h; rfl
    · have : classOps.ofNat n = FloatClass.pos := if_neg h
      rw [this]
      rfl
  · intro n _
    by_cases h : n = 0
    · subst h; rfl
    · have : classOps.ofNat n = FloatClass.pos := if_neg h
      rw [this]
      rfl
  · intro n h _
    have : classOps.ofNat n = FloatClass.pos := if_neg (by omega)
    rw [this]
    rfl
  · intro n h _
    have : classOps.ofNat n = FloatClass.pos := if_neg (by omega)
    rw [this]
    rfl
  · intro n h _
    have : classOps.ofNat n = FloatClass.pos := if_neg (by omega)
    rw [this]
    rfl

theorem compute_threshold_range_witness :
    ∃ tau, compute_threshold thresholdParams classOps 5 3 2 = some tau ∧
      (thresholdParams.BLOCK_WEIGHT + 1) / 2 ≤ tau ∧ tau ≤ thresholdParams.BLOCK_WEIGHT :=
  compute_threshold_range thresholdParams classOps 5 3 2 (by decide) (by decide)

/-- When `diff >= 0.` holds at every value down to the floor, the search loop of
`compute_threshold` stops exactly on the floor `(W + 1) / 2`. -/
theorem threshold_loop_floor {F : Type} (P : Params) (fp : FloatOps F) (diff : Nat → F) :
    ∀ (fuel threshold : Nat), (P.BLOCK_WEIGHT + 1) / 2 < threshold →
      threshold < 4294967296 → threshold ≤ (P.BLOCK_WEIGHT + 1) / 2 + fuel →
      (∀ th, (P.BLOCK_WEIGHT + 1) / 2 ≤ th → th < threshold →
        fp.ge (diff th) (fp.ofNat 0) = true) →
      threshold_loop P fp diff fuel threshold = some ((P.BLOCK_WEIGHT + 1) / 2) := by
  intro fuel
  induction fuel with
  | zero => intro th h1 _ h3; omega
  | succ n ih =>
    intro th h1 h2 h3 hge
    have hu : u32 ((th : Int) - 1) = th - 1 := by
      unfold u32
      omega
    unfold threshold_loop
    simp only [hu]
    by_cases hc : th - 1 > (P.BLOCK_WEIGHT + 1) / 2
    · rw [if_pos ⟨hge (th - 1) (by omega) (by omega), hc⟩]
      exact ih (th - 1) hc (by omega) (by omega) (fun k k1 k2 => hge k k1 (by omega))
    · rw [if_neg (fun h => hc h.2)]
      congr 1
      omega

/-- With `p = 0` the logarithm of the binomial probability of `k >= 1` ones is `-inf`. -/
theorem lnbinomialpmf_zero {F : Type} (fp : FloatOps F) (hA : AnnexF fp) (W k : Nat)
    (hW : W ≤ 255) (hk1 : 1 ≤ k) (hk2 : k ≤ W)
    (hL : fp.add (lnbino fp W k) (fp.log (fp.ofNat 0)) = fp.log (fp.ofNat 0)) :
    lnbinomialpmf fp (u32 W) k (fp.ofNat 0) (fp.sub (fp.ofNat 1) (fp.ofNat 0)) =
      fp.log (fp.ofNat 0) := by
  have hu : u32 ((u32 (W : Int) : Int) - (k : Int)) = W - k := by
    unfold u32
    omega
  have h1 : xlny fp (fp.ofNat k) (fp.ofNat 0) = fp.log (fp.ofNat 0) := by
    unfold xlny
    rw [hA.pos_eq_zero k (by omega) (by omega)]
    exact hA.mul_ninf k (by omega) (by omega)
  have h2 : xlny fp (fp.ofNat (W - k)) (fp.ofNat 1) = fp.ofNat 0 := by
    unfold xlny
    by_cases h : W - k = 0
    · rw [h, hA.zero_eq_zero]
      rfl
    · rw [hA.pos_eq_zero (W - k) (by omega) (by omega), hA.log_one]
      exact hA.mul_zero _ (by omega)
  unfold lnbinomialpmf
  rw [hu, hA.one_sub_zero, h1, h2, u32_of_lt W (by omega), hL, hA.ninf_add]

/-- C13 (amended): for `S = 0` and every `t` with `1 <= t < 2N`, in every `double`
arithmetic that satisfies the facts `AnnexF`, `compute_threshold(0, t)` returns
`min(W, (W + 1) / 2 + 1)` whenever `x = iks(t) * 0` evaluates to 0 (`iks(t)` is
finite) and no `lnbino(W, k)` met by the search is `+inf` or NaN (adding `-inf` to it
gives `-inf`). Both `p` and `q` are 0, so neither `p >= 1` nor `p > q` holds and the
branch that returns `W` is not taken; every `diff` of the search is 0, so the search
runs down to the floor `(W + 1) / 2` and the value above it is returned. This is `W`
only for `W <= 3`. -/
theorem compute_threshold_zero {F : Type} (P : Params) (fp : FloatOps F) (fuel t : Nat)
    (hA : AnnexF fp) (hW1 : 1 ≤ P.BLOCK_WEIGHT) (hW : P.BLOCK_WEIGHT ≤ 255)
    (hN : P.BLOCK_LENGTH ≤ 65536) (ht1 : 1 ≤ t) (ht2 : t < INDEX * P.BLOCK_LENGTH)
    (hfuel : P.BLOCK_WEIGHT + 1 ≤ fuel)
    (hx : fp.mul (iks P fp t) (fp.ofNat 0) = fp.ofNat 0)
    (hL : ∀ k, (P.BLOCK_WEIGHT + 1) / 2 ≤ k → k ≤ P.BLOCK_WEIGHT →
      fp.add (lnbino fp P.BLOCK_WEIGHT k) (fp.log (fp.ofNat 0)) = fp.log (fp.ofNat 0)) :
    compute_threshold P fp fuel 0 t =
      some (min P.BLOCK_WEIGHT ((P.BLOCK_WEIGHT + 1) / 2 + 1)) := by
  unfold INDEX at ht2
  have hm : u32 ((INDEX : Int) * (P.BLOCK_LENGTH : Int) - (t : Int)) =
      2 * P.BLOCK_LENGTH - t := by
    unfold u32 INDEX
    omega
  have hp : counters_C0 P fp 0 t (fp.ofNat 0) = fp.ofNat 0 := by
    unfold counters_C0
    have h0 : u32 (((INDEX : Int) * (P.BLOCK_WEIGHT : Int) - 1) * ((0 : Nat) : Int)) = 0 := by
      simp [u32]
    rw [h0, hm, hA.sub_zero, hA.zero_div _ (by omega) (by omega),
      hA.zero_div _ (by omega) (by omega)]
  have hq : counters_C1 P fp 0 t (fp.ofNat 0) = fp.ofNat 0 := by
    unfold counters_C1
    rw [hA.add_zero, hA.zero_div _ (by omega) (by omega), hA.zero_div _ (by omega) (by omega)]
  have hdiff : ∀ th, (P.BLOCK_WEIGHT + 1) / 2 ≤ th → th < P.BLOCK_WEIGHT + 1 →
      fp.ge (threshold_diff2 P fp t (fp.ofNat 0) (fp.ofNat 0) th) (fp.ofNat 0) = true := by
    intro th h1 h2
    unfold threshold_diff2
    rw [lnbinomialpmf_zero fp hA P.BLOCK_WEIGHT th hW (by omega) (by omega)
      (hL th h1 (by omega)), hA.exp_ninf, hm, hA.nzero_mul _ (by omega) (by omega),
      hA.zero_mul _ (by omega), hA.nzero_add]
    exact hA.zero_ge_zero
  have hu : u32 ((P.BLOCK_WEIGHT : Int) + 1) = P.BLOCK_WEIGHT + 1 := by
    unfold u32
    omega
  unfold compute_threshold
  simp only [hx, hp, hq, hA.zero_ge_one, hA.zero_gt_zero, hu]
  rw [if_neg (by simp), if_neg (by simp),
    threshold_loop_floor P fp _ fuel (P.BLOCK_WEIGHT + 1) (by omega) (by omega) (by omega) hdiff]
  show some (threshold_final P ((P.BLOCK_WEIGHT + 1) / 2)) = _
  unfold threshold_final
  rw [u32_of_lt P.BLOCK_WEIGHT (by omega)]
  have : u32 ((((P.BLOCK_WEIGHT + 1) / 2 : Nat) : Int) + 1) = (P.BLOCK_WEIGHT + 1) / 2 + 1 := by
    unfold u32
    omega
  rw [this]
  congr 1
  split <;> omega

theorem compute_threshold_zero_witness :
    compute_threshold thresholdParams classOps 5 0 1 =
      some (min thresholdParams.BLOCK_WEIGHT ((thresholdParams.BLOCK_WEIGHT + 1) / 2 + 1)) :=
  compute_threshold_zero thresholdParams classOps 5 1 classOps_annexF (by decide) (by decide)
    (by decide) (by decide) (by decide) (by decide) (by decide) (by decide)

/-- C13 as stated fails: with `W = 4`, `N = 8`, `S = 0` and `t = 1` the quantities
`x`, `p` and `q` are all 0, the test `p >= 1.0 || p > q` is false, the search loop runs
over `threshold = 4, 3, 2` with `diff = 0` each time and stops on the floor
`(W + 1) / 2 = 2`, and the function returns `3`, not `W = 4`. -/
theorem threshold_at_zero_is_not_W :
    thresholdParams.BLOCK_WEIGHT = 4 ∧
    compute_threshold thresholdParams classOps 5 0 1 = some 3 ∧
    ¬ (∀ t, 1 ≤ t →
      compute_threshold thresholdParams classOps 5 0 t = some thresholdParams.BLOCK_WEIGHT) := by
  refine ⟨rfl, by decide, fun h => ?_⟩
  exact absurd (h 1 (by decide)) (by decide)

/-! ## The time-to-live of a new flip -/

set_option maxRecDepth 100000 in
/-- C14 as stated fails: with the default coefficients and a counter one above the
threshold (`c = 3`, `tau = 2`) the value is `0.435 + 1.15 = 1.585` (in `double`,
`1.58499999999999996`); the program converts it to `int`, which truncates, and
computes a time-to-live of 1, whereas `clamp(round(1.585), 1, 5)` is 2. -/
theorem ttl_not_rounded :
    compute_ttl witnessParams ((3 : Int) - 2) % 256 = 1 ∧
    ttl_rounded witnessParams ((3 : Int) - 2) = 2 ∧
    ¬ (∀ c tau : Nat, tau ≤ c →
      compute_ttl witnessParams ((c : Int) - (tau : Int)) % 256 =
        ttl_rounded witnessParams ((c : Int) - (tau : Int))) := by
  refine ⟨by decide, by decide, fun h => ?_⟩
  exact absurd (h 3 2 (by decide)) (by decide)

/-- C14 (amended): for every counter value `c >= tau`, the time-to-live computed for
the flip (the byte `ttl` of the flip scan) equals
`clamp(floor(c0 * (c - tau) + c1), 1, TTL_SAT)` with the default coefficients
`c0 = 0.435`, `c1 = 1.15`, `TTL_SAT = 5`, evaluated as exact rationals: the conversion
to `int` truncates, it does not round, and the `double` evaluation of the program
gives the value of the exact one. Explicitly the time-to-live is 1 for
`c - tau <= 1`, 2 for `2 <= c - tau <= 4`, 3 for `5 <= c - tau <= 6`, 4 for
`7 <= c - tau <= 8` and 5 from `c - tau = 9` on. -/
theorem ttl_new_flip (P : Params) (c tau : Nat) (h : tau ≤ c)
    (h0 : P.TTL_COEFF0_NUM = 435) (h1 : P.TTL_COEFF1_NUM = 1150)
    (hden : P.TTL_COEFF_DEN = 1000) (hsat : P.TTL_SATURATE = 5) :
    compute_ttl P ((c : Int) - (tau : Int)) % 256 =
      max 1 (min 5 ((435 * ((c : Int) - (tau : Int)) + 1150) / 1000)) ∧
    (c - tau ≤ 1 → compute_ttl P ((c : Int) - (tau : Int)) % 256 = 1) ∧
    (2 ≤ c - tau → c - tau ≤ 4 → compute_ttl P ((c : Int) - (tau : Int)) % 256 = 2) ∧
    (5 ≤ c - tau → c - tau ≤ 6 → compute_ttl P ((c : Int) - (tau : Int)) % 256 = 3) ∧
    (7 ≤ c - tau → c - tau ≤ 8 → compute_ttl P ((c : Int) - (tau : Int)) % 256 = 4) ∧
    (9 ≤ c - tau → compute_ttl P ((c : Int) - (tau : Int)) % 256 = 5) := by
  obtain ⟨d, hd1, hd2⟩ : ∃ d : Nat, (c : Int) - (tau : Int) = (d : Int) ∧ c - tau = d :=
    ⟨c - tau, by omega, rfl⟩
  rw [hd1, hd2]
  obtain ⟨x, hx, hx1, hx2⟩ : ∃ x : Int, (435 * (d : Int) + 1150) / 1000 = x ∧
      1000 * x ≤ 435 * (d : Int) + 1150 ∧ 435 * (d : Int) + 1150 < 1000 * x + 1000 :=
    ⟨_, rfl, by omega, by omega⟩
  have key : compute_ttl P (d : Int) = max 1 (min 5 x) := by
    by_cases hd9 : 9 ≤ d
    · rw [compute_ttl_saturated P d hd9 h0 h1 hden hsat]
      simp only [max_def, min_def]
      split_ifs <;> omega
    · rw [compute_ttl_congr P witnessParams h0 h1 hden hsat, default_ttl_table d (by omega)]
      simp only [max_def, min_def]
      split_ifs <;> omega
  rw [key, hx]
  have hm : max 1 (min 5 x) = if 5 ≤ x then 5 else x := by
    simp only [max_def, min_def]
    split_ifs <;> omega
  rw [hm]
  have hx0 : 1 ≤ x := by omega
  have hmod : (if 5 ≤ x then 5 else x) % 256 = if 5 ≤ x then 5 else x := by
    apply Int.emod_eq_of_lt <;> split_ifs <;> omega
  rw [hmod]
  refine ⟨rfl, fun h => ?_, fun h h' => ?_, fun h h' => ?_, fun h h' => ?_, fun h => ?_⟩
  · have : x = 1 := by omega
    rw [this]; rfl
  · have : x = 2 := by omega
    rw [this]; rfl
  · have : x = 3 := by omega
    rw [this]; rfl
  · have : x = 4 := by omega
    rw [this]; rfl
  · rw [if_pos (by omega)]

theorem ttl_new_flip_witness :
    compute_ttl witnessParams (((7 : Nat) : Int) - ((2 : Nat) : Int)) % 256 =
      max 1 (min 5 ((435 * (((7 : Nat) : Int) - ((2 : Nat) : Int)) + 1150) / 1000)) ∧
    (7 - 2 ≤ 1 → compute_ttl witnessParams (((7 : Nat) : Int) - ((2 : Nat) : Int)) % 256 = 1) ∧
    (2 ≤ 7 - 2 → 7 - 2 ≤ 4 →
      compute_ttl witnessParams (((7 : Nat) : Int) - ((2 : Nat) : Int)) % 256 = 2) ∧
    (5 ≤ 7 - 2 → 7 - 2 ≤ 6 →
      compute_ttl witnessParams (((7 : Nat) : Int) - ((2 : Nat) : Int)) % 256 = 3) ∧
    (7 ≤ 7 - 2 → 7 - 2 ≤ 8 →
      compute_ttl witnessParams (((7 : Nat) : Int) - ((2 : Nat) : Int)) % 256 = 4) ∧
    (9 ≤ 7 - 2 → compute_ttl witnessParams (((7 : Nat) : Int) - ((2 : Nat) : Int)) % 256 = 5) :=
  ttl_new_flip witnessParams 7 2 (by decide) rfl rfl rfl rfl

/-! ## Traversals of the flip list, `fl_add` and `fl_remove` -/

theorem hd_append (x y : List Nat) : hd (x ++ y) = if x = [] then hd y else hd x := by
  cases x with
  | nil => simp
  | cons a t => simp [hd]

/-- The predecessor of a node is the last node in front of it. -/
theorem predOf_append_head (pv : Int) (kept rest : List Nat) (r : Nat) (h : r ∉ kept) :
    predOf pv (kept ++ r :: rest) r = if kept = [] then pv else hd kept.reverse := by
  induction kept generalizing pv with
  | nil => simp [predOf]
  | cons a t ih =>
    have hra : ¬ r = a := fun h1 => h (h1 ▸ List.mem_cons_self _ _)
    have e := ih (a : Int) (fun h1 => h (List.mem_cons_of_mem _ h1))
    show (if r = a then pv else predOf (a : Int) (t ++ r :: rest) r) = _
    rw [if_neg hra, e, List.reverse_cons, hd_append]
    simp only [List.reverse_eq_nil_iff, reduceCtorEq, if_false]
    rfl

/-- Walking an array that holds the successor of every node of `l` visits the nodes
of `l` in order. -/
theorem traverse_succ (links : List Int) (l : List Nat) (hn : l.Nodup)
    (hb : ∀ p ∈ l, p < links.length)
    (hlink : ∀ p ∈ l, links.getD p 0 = succOf l p) :
    ∀ (rest kept : List Nat) (fuel : Nat), l = kept ++ rest → rest.length ≤ fuel →
      traverse links fuel (hd rest) = some rest := by
  intro rest
  induction rest with
  | nil =>
    intro kept fuel _ _
    cases fuel <;> simp [traverse, hd]
  | cons r rest ih =>
    intro kept fuel hl hfuel
    cases fuel with
    | zero => simp at hfuel
    | succ f =>
      have hrmem : r ∈ l := by rw [hl]; simp
      have hrk : r ∉ kept := by
        intro h
        rw [hl] at hn
        exact (List.nodup_append.1 hn).2.2 h (List.mem_cons_self _ _)
      have hnext : links.getD r 0 = hd rest := by
        rw [hlink r hrmem, hl, succOf_append_head kept rest r hrk]
      have hne : (r : Int) ≠ -1 := by omega
      simp only [traverse, hd, if_neg hne]
      rw [rd_nat_getD links 0 r (hb r hrmem), Option.some_bind, hnext,
        ih (kept ++ [r]) f (by rw [hl]; simp) (by simpa using hfuel)]
      simp

/-- Walking an array that holds the predecessor of every node of `l` from the last
node of a prefix visits the prefix backwards. -/
theorem traverse_pred (links : List Int) (l : List Nat) (hn : l.Nodup)
    (hb : ∀ p ∈ l, p < links.length)
    (hlink : ∀ p ∈ l, links.getD p 0 = predOf (-1) l p) :
    ∀ (pre suf : List Nat) (fuel : Nat), l = pre ++ suf → pre.length ≤ fuel →
      traverse links fuel (hd pre.reverse) = some pre.reverse := by
  intro pre
  induction pre using List.reverseRecOn with
  | nil =>
    intro suf fuel _ _
    cases fuel <;> simp [traverse, hd]
  | append_singleton pre r ih =>
    intro suf fuel hl hfuel
    cases fuel with
    | zero => simp at hfuel
    | succ f =>
      have hl' : l = pre ++ r :: suf := by rw [hl]; simp
      have hrmem : r ∈ l := by rw [hl']; simp
      have hrk : r ∉ pre := by
        intro h
        rw [hl'] at hn
        exact (List.nodup_append.1 hn).2.2 h (List.mem_cons_self _ _)
      have hprev : links.getD r 0 = hd pre.reverse := by
        rw [hlink r hrmem, hl', predOf_append_head (-1) pre suf r hrk]
        split
        · rename_i h; rw [h]; rfl
        · rfl
      have hne : (r : Int) ≠ -1 := by omega
      simp only [List.reverse_append, List.reverse_cons, List.reverse_nil, List.nil_append,
        List.singleton_append, traverse, hd, if_neg hne]
      rw [rd_nat_getD links 0 r (hb r hrmem), Option.some_bind, hprev,
        ih (r :: suf) f hl' (by simpa using hfuel)]
      simp

/-- The forward traversal of a well-formed flip list visits its nodes in order. -/
theorem isList_forward (M : Nat) (fl : flip_list) (l : List Nat) (h : IsList M fl l) :
    traverse fl.next M fl.first = some l := by
  obtain ⟨hnl, _, _, hnd, hb, hf, _, hlink⟩ := h
  rw [hf]
  exact traverse_succ fl.next l hnd (fun p hp => by rw [hnl]; exact hb p hp)
    (fun p hp => (hlink p hp).1) l [] M rfl (nodup_length_le M l hnd hb)

/-- The backward traversal of a well-formed flip list, from its last node, visits its
nodes in reverse order. -/
theorem isList_backward (M : Nat) (fl : flip_list) (l : List Nat) (h : IsList M fl l) :
    traverse fl.prev M (hd l.reverse) = some l.reverse := by
  obtain ⟨_, hpl, _, hnd, hb, _, _, hlink⟩ := h
  exact traverse_pred fl.prev l hnd (fun p hp => by rw [hpl]; exact hb p hp)
    (fun p hp => (hlink p hp).2) l [] M (by simp) (nodup_length_le M l hnd hb)

/-- Consistency of the two link arrays of a well-formed flip list. -/
theorem isList_links (M : Nat) (fl : flip_list) (l : List Nat) (h : IsList M fl l) :
    (fl.first ≠ -1 → fl.prev.getD fl.first.toNat 0 = -1) ∧
    ∀ p ∈ l,
      (fl.prev.getD p 0 ≠ -1 → fl.next.getD (fl.prev.getD p 0).toNat 0 = (p : Int)) ∧
      (fl.next.getD p 0 ≠ -1 → fl.prev.getD (fl.next.getD p 0).toNat 0 = (p : Int)) := by
  obtain ⟨_, _, _, hnd, hb, hf, _, hlink⟩ := h
  have hpv : ∀ r ∈ l, (r : Int) ≠ -1 := fun r _ => by omega
  constructor
  · intro hne
    rw [hf] at hne ⊢
    cases l with
    | nil => exact absurd rfl hne
    | cons a t =>
      show fl.prev.getD ((a : Int)).toNat 0 = -1
      rw [Int.toNat_ofNat, (hlink a (List.mem_cons_self _ _)).2]
      simp [predOf]
  · intro p hp
    constructor
    · intro hne
      rw [(hlink p hp).2] at hne ⊢
      rcases predOf_cases (-1) l p hp with h1 | ⟨q, hq, h1⟩
      · exact absurd h1 hne
      · rw [h1, Int.toNat_ofNat, (hlink q hq).1]
        exact (succ_pred (-1) l hnd q p hq hp hpv).2 h1
    · intro hne
      rw [(hlink p hp).1] at hne ⊢
      rcases succOf_cases l p with h1 | ⟨q, hq, h1⟩
      · exact absurd h1 hne
      · rw [h1, Int.toNat_ofNat, (hlink q hq).2]
        exact (succ_pred (-1) l hnd p q hp hq hpv).1 h1

/-- A valid sequence of operations keeps the flip list well formed; its nodes are
the positions computed by `linked_after`. -/
theorem run_ops_spec (M : Nat) :
    ∀ (ops : List fl_op) (fl : flip_list) (l : List Nat), IsList M fl l → ValidOps M l ops →
      ∃ fl', run_ops fl ops = some fl' ∧ IsList M fl' (linked_after l ops) ∧
        fl'.tod = fl.tod := by
  intro ops
  induction ops with
  | nil => intro fl l h _; exact ⟨fl, rfl, h, rfl⟩
  | cons op ops ih =>
    intro fl l h hv
    cases op with
    | add pos =>
      obtain ⟨hpos, hnot, hv'⟩ := hv
      obtain ⟨fl1, e1, h1, t1⟩ := fl_add_spec M fl l pos h hpos hnot
      obtain ⟨fl2, e2, h2, t2⟩ := ih fl1 (pos :: l) h1 hv'
      exact ⟨fl2, by simp only [run_ops, e1, Option.some_bind, e2], h2, t2.trans t1⟩
    | remove pos =>
      obtain ⟨hmem, hv'⟩ := hv
      obtain ⟨fl1, e1, h1, t1, _⟩ := fl_remove_spec M fl l pos h hmem
      obtain ⟨fl2, e2, h2, t2⟩ := ih fl1 (l.erase pos) h1 hv'
      exact ⟨fl2, by simp only [run_ops, e1, Option.some_bind, e2], h2, t2.trans t1⟩

/-- C15 (flip-list well-formedness): starting from the empty list (`first = -1`,
`length = 0`, arrays over `M` slots with any contents), after any sequence of
`fl_add` on unlinked positions below `M` and `fl_remove` on linked positions, every
call returns and, `l` being the sequence of linked positions: the forward traversal
from `first` via `next` ends at `-1` and visits exactly `l`, without repetition; its
number of nodes equals `length`; `prev[first] = -1`; `next[prev[p]] = p` whenever
`prev[p] != -1` and `prev[next[p]] = p` whenever `next[p] != -1`; and the backward
traversal via `prev` from the tail (the last node of the forward traversal) visits
the same nodes in reverse order. -/
theorem flip_list_well_formed (M : Nat) (fl0 : flip_list) (ops : List fl_op)
    (h1 : fl0.next.length = M) (h2 : fl0.prev.length = M) (h3 : fl0.tod.length = M)
    (hv : ValidOps M [] ops) :
    ∃ fl, run_ops { fl0 with first := -1, length := 0 } ops = some fl ∧
      traverse fl.next M fl.first = some (linked_after [] ops) ∧
      (linked_after [] ops).Nodup ∧
      fl.length = ((linked_after [] ops).length : Int) ∧
      (fl.first ≠ -1 → fl.prev.getD fl.first.toNat 0 = -1) ∧
      (∀ p ∈ linked_after [] ops,
        (fl.prev.getD p 0 ≠ -1 → fl.next.getD (fl.prev.getD p 0).toNat 0 = (p : Int)) ∧
        (fl.next.getD p 0 ≠ -1 → fl.prev.getD (fl.next.getD p 0).toNat 0 = (p : Int))) ∧
      traverse fl.prev M (hd (linked_after [] ops).reverse) =
        some (linked_after [] ops).reverse := by
  obtain ⟨fl, e, hl, _⟩ := run_ops_spec M ops _ [] (isList_empty M fl0 h1 h2 h3) hv
  have hk := isList_links M fl _ hl
  exact ⟨fl, e, isList_forward M fl _ hl, hl.2.2.2.1, hl.2.2.2.2.2.2.1, hk.1, hk.2,
    isList_backward M fl _ hl⟩

theorem flip_list_well_formed_witness :
    ∃ fl, run_ops { witnessList with first := -1, length := 0 } witnessOps = some fl ∧
      traverse fl.next 6 fl.first = some (linked_after [] witnessOps) ∧
      (linked_after [] witnessOps).Nodup ∧
      fl.length = ((linked_after [] witnessOps).length : Int) ∧
      (fl.first ≠ -1 → fl.prev.getD fl.first.toNat 0 = -1) ∧
      (∀ p ∈ linked_after [] witnessOps,
        (fl.prev.getD p 0 ≠ -1 → fl.next.getD (fl.prev.getD p 0).toNat 0 = (p : Int)) ∧
        (fl.next.getD p 0 ≠ -1 → fl.prev.getD (fl.next.getD p 0).toNat 0 = (p : Int))) ∧
      traverse fl.prev 6 (hd (linked_after [] witnessOps).reverse) =
        some (linked_after [] witnessOps).reverse :=
  flip_list_well_formed 6 witnessList witnessOps rfl rfl rfl (by
    simp only [witnessOps, ValidOps]
    decide)

/-- The flip list of `witnessList` after `witnessOps`. -/
theorem witnessOps_result :
    run_ops { witnessList with first := -1, length := 0 } witnessOps =
      some { first := 4, tod := [9, 9, 9, 9, 9, 9], prev := [4, 7, 0, -1, -1, 0],
             next := [-1, 8, -1, 0, 0, 2], length := 2 } ∧
    linked_after [] witnessOps = [4, 0] :=
  ⟨rfl, rfl⟩

/-- C16: `fl_add(fl, pos)` on a well-formed list (of nodes `l`, over `M` slots) in
which `pos < M` is not linked returns, and afterwards `first = pos`, the forward
traversal is `pos` followed by the previous traversal `l`, `length` has grown by
exactly 1, the array `tod` is unchanged, and for every previously linked node `p` the
link `next[p]` is unchanged and `prev[p]` is unchanged unless `p` is the old head
(whose `prev` now is `pos`); the list is well formed again. -/
theorem fl_add_correct (M : Nat) (fl : flip_list) (l : List Nat) (pos : Nat)
    (hl : IsList M fl l) (hpos : pos < M) (hnot : pos ∉ l) :
    ∃ fl', fl_add fl (pos : Int) = some fl' ∧ fl'.first = (pos : Int) ∧
      traverse fl.next M fl.first = some l ∧
      traverse fl'.next M fl'.first = some (pos :: l) ∧
      fl'.length = fl.length + 1 ∧ fl'.tod = fl.tod ∧
      (∀ p ∈ l, fl'.next.getD p 0 = fl.next.getD p 0 ∧
        ((p : Int) ≠ fl.first → fl'.prev.getD p 0 = fl.prev.getD p 0) ∧
        ((p : Int) = fl.first → fl'.prev.getD p 0 = (pos : Int))) ∧
      IsList M fl' (pos :: l) := by
  obtain ⟨fl', e, hl', htod⟩ := fl_add_spec M fl l pos hl hpos hnot
  refine ⟨fl', e, hl'.2.2.2.2.2.1, isList_forward M fl l hl, isList_forward M fl' _ hl', ?_,
    htod, ?_, hl'⟩
  · rw [hl'.2.2.2.2.2.2.1, hl.2.2.2.2.2.2.1, List.length_cons]
    push_cast
    rfl
  · intro p hp
    have hpp : p ≠ pos := fun h => hnot (h ▸ hp)
    have h1 := hl'.2.2.2.2.2.2.2 p (List.mem_cons_of_mem _ hp)
    have h2 := hl.2.2.2.2.2.2.2 p hp
    have hs : succOf (pos :: l) p = succOf l p := by simp [succOf, hpp]
    have hp' : predOf (-1) (pos :: l) p = predOf (pos : Int) l p := by simp [predOf, hpp]
    rw [h1.1, h1.2, h2.1, h2.2, hs, hp', hl.2.2.2.2.2.1,
      predOf_change_pv (pos : Int) (-1) l p hp]
    refine ⟨rfl, fun hne => ?_, fun heq => ?_⟩
    · rw [if_neg (fun h => hne h.symm)]
    · rw [if_pos heq.symm]

theorem fl_add_correct_witness :
    ∃ fl', fl_add { first := 4, tod := [9, 9, 9, 9, 9, 9], prev := [4, 7, 0, -1, -1, 0],
                    next := [-1, 8, -1, 0, 0, 2], length := 2 } ((1 : Nat) : Int) = some fl' ∧
      fl'.first = ((1 : Nat) : Int) ∧
      traverse [-1, 8, -1, 0, 0, 2] 6 4 = some [4, 0] ∧
      traverse fl'.next 6 fl'.first = some (1 :: [4, 0]) ∧
      fl'.length = 2 + 1 ∧ fl'.tod = [9, 9, 9, 9, 9, 9] ∧
      (∀ p ∈ [4, 0], fl'.next.getD p 0 = [-1, 8, -1, 0, 0, 2].getD p 0 ∧
        ((p : Int) ≠ 4 → fl'.prev.getD p 0 = [4, 7, 0, -1, -1, 0].getD p 0) ∧
        ((p : Int) = 4 → fl'.prev.getD p 0 = ((1 : Nat) : Int))) ∧
      IsList 6 fl' (1 :: [4, 0]) :=
  fl_add_correct 6 _ [4, 0] 1 (by
    refine ⟨rfl, rfl, rfl, by decide, by decide, rfl, rfl, ?_⟩
    decide) (by decide) (by decide)

/-- C17: `fl_remove(fl, pos)` on a well-formed list (of nodes `l`) in which `pos` is
linked returns, and afterwards the forward traversal is the previous traversal `l`
with `pos` erased, the others keeping their relative order, `length` has shrunk by
exactly 1 and `tod` is unchanged; `first` becomes `next[pos]` when `pos` is the head
and is unchanged otherwise, and becomes `-1` when `pos` is the only element. The
statement covers the head, the tail and the only element alike; the list is well
formed again. -/
theorem fl_remove_correct (M : Nat) (fl : flip_list) (l : List Nat) (pos : Nat)
    (hl : IsList M fl l) (hmem : pos ∈ l) :
    ∃ fl', fl_remove fl (pos : Int) = some fl' ∧
      traverse fl.next M fl.first = some l ∧
      traverse fl'.next M fl'.first = some (l.erase pos) ∧
      l.erase pos = l.filter (fun p => p != pos) ∧
      fl'.length = fl.length - 1 ∧ fl'.tod = fl.tod ∧
      (fl.first = (pos : Int) → fl'.first = fl.next.getD pos 0) ∧
      (fl.first ≠ (pos : Int) → fl'.first = fl.first) ∧
      (l = [pos] → fl'.first = -1 ∧ fl'.length = 0) ∧
      IsList M fl' (l.erase pos) := by
  obtain ⟨fl', e, hl', htod, _⟩ := fl_remove_spec M fl l pos hl hmem
  have hlen : fl'.length = fl.length - 1 := by
    rw [hl'.2.2.2.2.2.2.1, hl.2.2.2.2.2.2.1, List.length_erase_of_mem hmem]
    have : 0 < l.length := List.length_pos_of_mem hmem
    omega
  have hfirst : fl'.first = if hd l = (pos : Int) then succOf l pos else hd l := by
    rw [hl'.2.2.2.2.2.1, hd_erase l pos hmem]
  refine ⟨fl', e, isList_forward M fl l hl, isList_forward M fl' _ hl',
    hl.2.2.2.1.erase_eq_filter pos, hlen, htod, ?_, ?_, ?_, hl'⟩
  · intro h
    rw [hfirst, if_pos (by rw [← hl.2.2.2.2.2.1]; exact h), (hl.2.2.2.2.2.2.2 pos hmem).1]
  · intro h
    rw [hfirst, if_neg (by rw [← hl.2.2.2.2.2.1]; exact h), hl.2.2.2.2.2.1]
  · intro h
    subst h
    refine ⟨?_, ?_⟩
    · rw [hl'.2.2.2.2.2.1]
      simp [hd]
    · rw [hl'.2.2.2.2.2.2.1]
      simp

theorem fl_remove_correct_witness :
    ∃ fl', fl_remove { first := 4, tod := [9, 9, 9, 9, 9, 9], prev := [4, 7, 0, -1, -1, 0],
                       next := [-1, 8, -1, 0, 0, 2], length := 2 } ((4 : Nat) : Int) =
        some fl' ∧
      traverse [-1, 8, -1, 0, 0, 2] 6 4 = some [4, 0] ∧
      traverse fl'.next 6 fl'.first = some ([4, 0].erase 4) ∧
      [4, 0].erase 4 = [4, 0].filter (fun p => p != 4) ∧
      fl'.length = 2 - 1 ∧ fl'.tod = [9, 9, 9, 9, 9, 9] ∧
      ((4 : Int) = ((4 : Nat) : Int) → fl'.first = [-1, 8, -1, 0, 0, 2].getD 4 0) ∧
      ((4 : Int) ≠ ((4 : Nat) : Int) → fl'.first = 4) ∧
      ([4, 0] = [4] → fl'.first = -1 ∧ fl'.length = 0) ∧
      IsList 6 fl' ([4, 0].erase 4) :=
  fl_remove_correct 6 _ [4, 0] 4 (by
    refine ⟨rfl, rfl, rfl, by decide, by decide, rfl, rfl, ?_⟩
    decide) (by decide)

/-! ## The flip scan and the expiry sweep in detail -/

/-- One step of the flip scan in detail: below the threshold the state is unchanged;
from the threshold on the bit at the position is toggled, `recompute_threshold` is
set, and `tod` is written at the position exactly when the bit was 0 (a new flip),
with the ring slot of `iter + ttl`. -/
theorem scan_step_detail (P : Params) (threshold k j : Nat) (hk : k < INDEX)
    (hj : j < P.BLOCK_LENGTH) (st : decoder × Bool) (hwf : WellFormed P st.1) :
    ∃ st', scan_step P threshold k j st = some st' ∧ WellFormed P st'.1 ∧
      frameOf st'.1 = frameOf st.1 ∧ st'.1.counters = st.1.counters ∧
      (Strong P st.1 → Strong P st'.1) ∧
      ((st.1.counters.getD k []).getD j 0 < threshold → st' = st) ∧
      (threshold ≤ (st.1.counters.getD k []).getD j 0 → st'.2 = true ∧
        (∀ p, bitAt P.BLOCK_LENGTH st'.1.bits p =
          if p = k * P.BLOCK_LENGTH + j then bitAt P.BLOCK_LENGTH st.1.bits p ^^^ 1
          else bitAt P.BLOCK_LENGTH st.1.bits p) ∧
        st'.1.fl.tod =
          if bitAt P.BLOCK_LENGTH st.1.bits (k * P.BLOCK_LENGTH + j) = 0 then
            st.1.fl.tod.set (k * P.BLOCK_LENGTH + j)
              (ring_slot P (st.1.iter +
                compute_ttl P (((st.1.counters.getD k []).getD j 0 : Nat) - (threshold : Int))
                  % 256))
          else st.1.fl.tod) := by
  obtain ⟨dec, flag⟩ := st
  simp only at hwf ⊢
  obtain ⟨hS, l, hl, hlink⟩ := hwf
  have hS' := hS
  obtain ⟨hVH, hrows, hsl, hbl, hbb, hcl, hcc, hb01⟩ := hS
  have hkc : k < dec.counters.length := by rw [hcl]; exact hk
  have hkb : k < dec.bits.length := by rw [hbl]; exact hk
  have hlenc : P.BLOCK_LENGTH ≤ (dec.counters.getD k []).length := by
    rw [List.getD_eq_getElem _ _ hkc]
    exact hcc _ (List.getElem_mem _)
  have hlenk : P.BLOCK_LENGTH ≤ (dec.bits.getD k []).length := by
    rw [List.getD_eq_getElem _ _ hkb]
    exact hbb _ (List.getElem_mem _)
  have hposM : k * P.BLOCK_LENGTH + j < INDEX * P.BLOCK_LENGTH := by
    unfold INDEX at hk ⊢
    have : k = 0 ∨ k = 1 := by omega
    rcases this with rfl | rfl <;> omega
  have hpos : (k : Int) * (P.BLOCK_LENGTH : Int) + (j : Int) =
      ((k * P.BLOCK_LENGTH + j : Nat) : Int) := by push_cast; rfl
  have hbit := bitAt_pos P.BLOCK_LENGTH dec.bits k j hj
  have hb1 := hb01 _ hposM
  rw [hbit] at hb1
  unfold scan_step
  simp only [Option.bind_eq_bind]
  rw [getD_eq_of_lt dec.counters [] k hkc, Option.some_bind,
    getD_eq_of_lt (dec.counters.getD k []) 0 j (by omega), Option.some_bind]
  by_cases hc : (dec.counters.getD k []).getD j 0 ≥ threshold
  · rw [if_pos hc, getD_eq_of_lt dec.bits [] k hkb, Option.some_bind,
      getD_eq_of_lt (dec.bits.getD k []) 0 j (by omega), Option.some_bind, hpos]
    by_cases hb : (dec.bits.getD k []).getD j 0 ≠ 0
    · have hone : (dec.bits.getD k []).getD j 0 = 1 := by omega
      have hmem : k * P.BLOCK_LENGTH + j ∈ l := (hlink _ hposM).2 (hbit.trans hone)
      obtain ⟨fl', efl, hl', htod', _⟩ := fl_remove_spec _ dec.fl l _ hl hmem
      obtain ⟨dec', ed, hSd, hfl, hiter, hcnt, hbits, hstr⟩ :=
        flip_column_spec P { dec with fl := fl' } k j hk hj hS'
      rw [if_pos hb, efl, Option.some_bind, ed, Option.some_bind]
      refine ⟨_, rfl, ⟨hSd, l.erase (k * P.BLOCK_LENGTH + j), by rw [hfl]; exact hl', ?_⟩,
        hiter, hcnt, hstr, fun h => absurd hc (by omega), fun _ => ⟨rfl, hbits, ?_⟩⟩
      · intro p hp
        rw [hbits p, hl.2.2.2.1.mem_erase_iff]
        by_cases hpp : p = k * P.BLOCK_LENGTH + j
        · rw [if_pos hpp]
          subst hpp
          show _ ↔ bitAt P.BLOCK_LENGTH dec.bits _ ^^^ 1 = 1
          rw [hbit, hone]
          simp
        · rw [if_neg hpp]
          show _ ↔ bitAt P.BLOCK_LENGTH dec.bits p = 1
          rw [← hlink p hp]
          simp [hpp]
      · show dec'.fl.tod = _
        rw [hfl, hbit, hone, if_neg (by decide)]
        exact htod'
    · have hzero : (dec.bits.getD k []).getD j 0 = 0 := by omega
      have hnot : k * P.BLOCK_LENGTH + j ∉ l := by
        intro hmem
        have := (hlink _ hposM).1 hmem
        rw [hbit, hzero] at this
        exact absurd this (by decide)
      obtain ⟨fl1, efl, hl1, htod⟩ := fl_add_spec _ dec.fl l _ hl hposM hnot
      have htl : fl1.tod.length = INDEX * P.BLOCK_LENGTH := hl1.2.2.1
      have key : ∀ V : Nat, ∃ st' : decoder × Bool,
          ((wr fl1.tod ((k * P.BLOCK_LENGTH + j : Nat) : Int) V).bind fun tod =>
            (some { fl1 with tod := tod }).bind (fun fl =>
            (flip_column P { dec with fl := fl } k (j : Int)).bind fun dec =>
              some (dec, true))) = some st' ∧ WellFormed P st'.1 ∧
            frameOf st'.1 = frameOf dec ∧ st'.1.counters = dec.counters ∧
            (Strong P dec → Strong P st'.1) ∧ st'.2 = true ∧
            (∀ p, bitAt P.BLOCK_LENGTH st'.1.bits p =
              if p = k * P.BLOCK_LENGTH + j then bitAt P.BLOCK_LENGTH dec.bits p ^^^ 1
              else bitAt P.BLOCK_LENGTH dec.bits p) ∧
            st'.1.fl.tod = dec.fl.tod.set (k * P.BLOCK_LENGTH + j) V := by
        intro V
        obtain ⟨dec', ed, hSd, hfl, hiter, hcnt, hbits, hstr⟩ :=
          flip_column_spec P
            { dec with fl := { fl1 with tod := (fl1.tod.set (k * P.BLOCK_LENGTH + j) V) } }
            k j hk hj hS'
        rw [wr_natCast _ _ _ (by omega), Option.some_bind, Option.some_bind, ed,
          Option.some_bind]
        refine ⟨_, rfl, ⟨hSd, (k * P.BLOCK_LENGTH + j) :: l, ?_, ?_⟩,
          hiter, hcnt, hstr, rfl, hbits, ?_⟩
        · rw [hfl]
          exact isList_set_tod _ fl1 _ _ hl1 (by rw [List.length_set]; exact htl)
        · intro p hp
          rw [hbits p, List.mem_cons]
          by_cases hpp : p = k * P.BLOCK_LENGTH + j
          · rw [if_pos hpp]
            subst hpp
            show _ ↔ bitAt P.BLOCK_LENGTH dec.bits _ ^^^ 1 = 1
            rw [hbit, hzero]
            simp
          · rw [if_neg hpp]
            show _ ↔ bitAt P.BLOCK_LENGTH dec.bits p = 1
            rw [← hlink p hp]
            simp [hpp]
        · show dec'.fl.tod = _
          rw [hfl, ← htod]
      rw [if_neg hb, efl, Option.some_bind]
      obtain ⟨st', e, h1, h2, h3, h4, h5, h6, h7⟩ := key
        ((((dec.iter + compute_ttl P (((dec.counters.getD k []).getD j 0 : Nat) -
          (threshold : Int)) % 256).tmod ((P.TTL_SATURATE : Int) + 1)) % 256).toNat)
      refine ⟨st', e, h1, h2, h3, h4, fun h => absurd hc (by omega), fun _ => ⟨h5, h6, ?_⟩⟩
      rw [h7, hbit, hzero, if_pos rfl]
      rfl
  · rw [if_neg hc]
    exact ⟨_, rfl, ⟨hS', l, hl, hlink⟩, rfl, rfl, fun h => h, fun _ => rfl,
      fun h => absurd h (by omega)⟩

/-- One step of the expiry sweep at the linked position `r` in detail, the list being
`kept ++ r :: rest`: the step returns the successor of `r`; when `tod[r]` differs from
the current slot the state is unchanged, otherwise the bit at `r` is cleared, `r` is
unlinked and `recompute_threshold` is set. The array `tod` is never written. -/
theorem sweep_step_detail (P : Params) (cur : Nat) (kept rest : List Nat) (r : Nat)
    (st : decoder × Bool) (hS : Shape P st.1)
    (hl : IsList (INDEX * P.BLOCK_LENGTH) st.1.fl (kept ++ r :: rest))
    (hlink : ∀ p, p < INDEX * P.BLOCK_LENGTH →
      (p ∈ kept ++ r :: rest ↔ bitAt P.BLOCK_LENGTH st.1.bits p = 1)) :
    ∃ st', sweep_step P cur (r : Int) st = some (hd rest, st') ∧ Shape P st'.1 ∧
      IsList (INDEX * P.BLOCK_LENGTH) st'.1.fl
        ((if st.1.fl.tod.getD r 0 = cur then kept else kept ++ [r]) ++ rest) ∧
      (∀ p, p < INDEX * P.BLOCK_LENGTH →
        (p ∈ (if st.1.fl.tod.getD r 0 = cur then kept else kept ++ [r]) ++ rest ↔
          bitAt P.BLOCK_LENGTH st'.1.bits p = 1)) ∧
      frameOf st'.1 = frameOf st.1 ∧ st'.1.counters = st.1.counters ∧
      st'.1.fl.tod = st.1.fl.tod ∧ (Strong P st.1 → Strong P st'.1) ∧
      (st.1.fl.tod.getD r 0 ≠ cur → st' = st) ∧
      (st.1.fl.tod.getD r 0 = cur → st'.2 = true ∧
        ∀ p, bitAt P.BLOCK_LENGTH st'.1.bits p =
          if p = r then 0 else bitAt P.BLOCK_LENGTH st.1.bits p) := by
  obtain ⟨dec, flag⟩ := st
  simp only at hS hl hlink ⊢
  have hrmem : r ∈ kept ++ r :: rest := by simp
  have hrM : r < INDEX * P.BLOCK_LENGTH := hl.2.2.2.2.1 r hrmem
  have hnd : (kept ++ r :: rest).Nodup := hl.2.2.2.1
  have hrk : r ∉ kept := by
    intro h
    have := List.nodup_append.1 hnd
    exact this.2.2 h (List.mem_cons_self _ _)
  have hsucc : succOf (kept ++ r :: rest) r = hd rest := succOf_append_head kept rest r hrk
  have htod : rd dec.fl.tod (r : Int) = some (dec.fl.tod.getD r 0) :=
    rd_nat_getD _ 0 r (by rw [hl.2.2.1]; exact hrM)
  have hnext : dec.fl.next.getD r 0 = hd rest := by
    rw [(hl.2.2.2.2.2.2.2 r hrmem).1, hsucc]
  unfold sweep_step
  simp only [Option.bind_eq_bind]
  rw [htod, Option.some_bind]
  by_cases hc : dec.fl.tod.getD r 0 = cur
  · obtain ⟨k, j, hk, hj, hkj, hkjeq⟩ : ∃ k j : Nat, k < INDEX ∧ j < P.BLOCK_LENGTH ∧
        r = k * P.BLOCK_LENGTH + j ∧
        (if (r : Int) ≥ (P.BLOCK_LENGTH : Int) then
          ((1 : Nat), (r : Int) - (P.BLOCK_LENGTH : Int)) else ((0 : Nat), (r : Int))) =
          (k, (j : Int)) := by
      unfold INDEX at hrM ⊢
      by_cases hge : (r : Int) ≥ (P.BLOCK_LENGTH : Int)
      · refine ⟨1, r - P.BLOCK_LENGTH, by omega, by omega, by omega, ?_⟩
        rw [if_pos hge]
        congr 1
        omega
      · refine ⟨0, r, by omega, by omega, by omega, ?_⟩
        rw [if_neg hge]
    obtain ⟨dec', ed, hSd, hfl, hiter, hcnt, hbits, hstr⟩ :=
      flip_column_spec P dec k j hk hj hS
    obtain ⟨fl', efl, hl', htod', hnx'⟩ := fl_remove_spec _ dec.fl _ r hl hrmem
    have herase : (kept ++ r :: rest).erase r = kept ++ rest := by
      rw [List.erase_append_right _ hrk, List.erase_cons_head]
    rw [herase] at hl'
    have hbit1 : bitAt P.BLOCK_LENGTH dec.bits r = 1 := (hlink r hrM).1 hrmem
    have hbits' : ∀ p, bitAt P.BLOCK_LENGTH dec'.bits p =
        if p = r then 0 else bitAt P.BLOCK_LENGTH dec.bits p := by
      intro p
      rw [hbits p, ← hkj]
      by_cases hpr : p = r
      · rw [if_pos hpr, if_pos hpr, hpr, hbit1]
        rfl
      · rw [if_neg hpr, if_neg hpr]
    simp only [if_pos hc]
    refine ⟨({ dec' with fl := fl' }, true), ?_, hSd, hl', ?_, hiter, hcnt, htod', hstr,
      fun h => absurd hc h, fun _ => ⟨rfl, hbits'⟩⟩
    · rw [hkjeq]
      simp only
      rw [ed, Option.some_bind, hfl, efl, Option.some_bind, Option.some_bind]
      simp only
      rw [rd_nat_getD _ 0 r (by rw [hl'.1]; exact hrM), Option.some_bind, hnx', hsucc]
    · intro p hp
      show _ ↔ bitAt P.BLOCK_LENGTH dec'.bits p = 1
      rw [hbits' p]
      by_cases hpr : p = r
      · rw [if_pos hpr, hpr]
        constructor
        · intro hm
          exfalso
          have := List.nodup_append.1 hnd
          rcases List.mem_append.1 hm with h1 | h1
          · exact hrk h1
          · exact (List.nodup_cons.1 this.2.1).1 h1
        · intro h; exact absurd h (by decide)
      · rw [if_neg hpr, ← hlink p hp]
        simp [hpr]
  · simp only [if_neg hc]
    refine ⟨(dec, flag), ?_, hS, by simpa using hl, by simpa using hlink, rfl, rfl, rfl,
      fun h => h, fun _ => rfl, fun h => absurd h hc⟩
    rw [Option.some_bind]
    simp only
    rw [rd_nat_getD _ 0 r (by rw [hl.1]; exact hrM), Option.some_bind, hnext]

/-- The loop of the expiry sweep in detail, started on the part `rest` of the list
`kept ++ rest`: it returns; every node of `rest` whose `tod` is the current slot has
its bit cleared and is unlinked, the others stay; `tod` is not written. -/
theorem sweep_loop_detail (P : Params) (cur : Nat) :
    ∀ (rest kept : List Nat) (fuel : Nat) (st : decoder × Bool),
    rest.length ≤ fuel → Shape P st.1 →
    IsList (INDEX * P.BLOCK_LENGTH) st.1.fl (kept ++ rest) →
    (∀ p, p < INDEX * P.BLOCK_LENGTH →
      (p ∈ kept ++ rest ↔ bitAt P.BLOCK_LENGTH st.1.bits p = 1)) →
    ∃ st', sweep_loop P cur fuel (hd rest) st = some st' ∧ Shape P st'.1 ∧
      IsList (INDEX * P.BLOCK_LENGTH) st'.1.fl
        (kept ++ rest.filter (fun p => decide (st.1.fl.tod.getD p 0 ≠ cur))) ∧
      (∀ p, p < INDEX * P.BLOCK_LENGTH →
        (p ∈ kept ++ rest.filter (fun p => decide (st.1.fl.tod.getD p 0 ≠ cur)) ↔
          bitAt P.BLOCK_LENGTH st'.1.bits p = 1)) ∧
      frameOf st'.1 = frameOf st.1 ∧ st'.1.counters = st.1.counters ∧
      st'.1.fl.tod = st.1.fl.tod ∧ (Strong P st.1 → Strong P st'.1) ∧
      (∀ p, bitAt P.BLOCK_LENGTH st'.1.bits p =
        if p ∈ rest ∧ st.1.fl.tod.getD p 0 = cur then 0
        else bitAt P.BLOCK_LENGTH st.1.bits p) ∧
      ((∀ p ∈ rest, st.1.fl.tod.getD p 0 ≠ cur) → st' = st) ∧
      ((∃ p ∈ rest, st.1.fl.tod.getD p 0 = cur) → st'.2 = true) := by
  intro rest
  induction rest with
  | nil =>
    intro kept fuel st _ hS hl hlink
    refine ⟨st, ?_, hS, by simpa using hl, by simpa using hlink, rfl, rfl, rfl, fun h => h,
      fun p => by simp, fun _ => rfl, fun ⟨p, hp, _⟩ => absurd hp (List.not_mem_nil _)⟩
    cases fuel with
    | zero => simp [sweep_loop, hd]
    | succ f => simp [sweep_loop, hd]
  | cons r rest ih =>
    intro kept fuel st hfuel hS hl hlink
    cases fuel with
    | zero => simp at hfuel
    | succ f =>
      have hne : (r : Int) ≠ -1 := by omega
      obtain ⟨st1, e1, hS1, hl1, hlink1, hfr1, hc1, ht1, hst1, hsame1, hexp1⟩ :=
        sweep_step_detail P cur kept rest r st hS hl hlink
      obtain ⟨st', e', hS', hl', hlink', hfr', hc', ht', hst', hbits', hsame', hexp'⟩ :=
        ih _ f st1 (by simpa using hfuel) hS1 hl1 hlink1
      have hlist : (if st.1.fl.tod.getD r 0 = cur then kept else kept ++ [r]) ++
          rest.filter (fun p => decide (st1.1.fl.tod.getD p 0 ≠ cur)) =
          kept ++ (r :: rest).filter (fun p => decide (st.1.fl.tod.getD p 0 ≠ cur)) := by
        rw [ht1]
        by_cases hc : st.1.fl.tod.getD r 0 = cur
        · rw [if_pos hc, List.filter_cons_of_neg (by
            rw [decide_eq_true_eq]; exact fun h => h hc)]
        · rw [if_neg hc, List.filter_cons_of_pos (by
            rw [decide_eq_true_eq]; exact hc), List.append_assoc]
          rfl
      rw [hlist] at hl' hlink'
      refine ⟨st', ?_, hS', hl', hlink', hfr'.trans hfr1, hc'.trans hc1, ht'.trans ht1,
        fun h => hst' (hst1 h), ?_, ?_, ?_⟩
      · show sweep_loop P cur (f + 1) (r : Int) st = some st'
        unfold sweep_loop
        rw [if_pos hne, e1, Option.some_bind]
        exact e'
      · intro p
        rw [hbits' p, ht1]
        by_cases hc : st.1.fl.tod.getD r 0 = cur
        · rw [(hexp1 hc).2 p]
          by_cases hpr : p = r
          · subst hpr
            rw [if_pos rfl, ite_self, if_pos ⟨List.mem_cons_self _ _, hc⟩]
          · rw [if_neg hpr]
            exact if_congr (by rw [List.mem_cons]; simp only [hpr, false_or]) rfl rfl
        · rw [hsame1 hc]
          refine if_congr ⟨fun h => ⟨List.mem_cons_of_mem _ h.1, h.2⟩, fun h => ?_⟩ rfl rfl
          rcases List.mem_cons.1 h.1 with rfl | h1
          · exact absurd h.2 hc
          · exact ⟨h1, h.2⟩
      · intro hall
        have h1 : st1 = st := hsame1 (hall r (List.mem_cons_self _ _))
        rw [hsame' (fun p hp => by
          rw [h1]; exact hall p (List.mem_cons_of_mem _ hp)), h1]
      · rintro ⟨p, hp, hpc⟩
        by_cases hc : st.1.fl.tod.getD r 0 = cur
        · by_cases hex : ∃ q ∈ rest, st1.1.fl.tod.getD q 0 = cur
          · exact hexp' hex
          · rw [hsame' (fun q hq hqc => hex ⟨q, hq, hqc⟩)]
            exact (hexp1 hc).1
        · rcases List.mem_cons.1 hp with rfl | hp'
          · exact absurd hpc hc
          · exact hexp' ⟨p, hp', by rw [ht1]; exact hpc⟩

/-- The expiry sweep in detail: it returns and keeps the decoder well formed; it is
skipped when the syndrome weight is `SYNDROME_STOP`; otherwise exactly the flipped
positions whose `tod` is the ring slot of the current iteration have their bit
cleared and leave the list, in which the other nodes keep their order. -/
theorem expiry_sweep_detail (P : Params) (fuel : Nat) (st : decoder × Bool)
    (hfuel : INDEX * P.BLOCK_LENGTH ≤ fuel) (hwf : WellFormed P st.1) :
    ∃ st', expiry_sweep P fuel st = some st' ∧ WellFormed P st'.1 ∧
      frameOf st'.1 = frameOf st.1 ∧ st'.1.counters = st.1.counters ∧
      st'.1.fl.tod = st.1.fl.tod ∧ (Strong P st.1 → Strong P st'.1) ∧
      (st.1.syndrome_weight = (P.SYNDROME_STOP : Int) → st' = st) ∧
      (st.1.syndrome_weight ≠ (P.SYNDROME_STOP : Int) →
        (∀ p, p < INDEX * P.BLOCK_LENGTH → bitAt P.BLOCK_LENGTH st'.1.bits p =
          if bitAt P.BLOCK_LENGTH st.1.bits p = 1 ∧
              st.1.fl.tod.getD p 0 = ring_slot P st.1.iter then 0
          else bitAt P.BLOCK_LENGTH st.1.bits p) ∧
        ∃ l, IsList (INDEX * P.BLOCK_LENGTH) st.1.fl l ∧
          IsList (INDEX * P.BLOCK_LENGTH) st'.1.fl
            (l.filter (fun p => decide (st.1.fl.tod.getD p 0 ≠ ring_slot P st.1.iter)))) := by
  obtain ⟨hS, l, hl, hlink⟩ := hwf
  unfold expiry_sweep
  simp only
  by_cases hc : st.1.syndrome_weight ≠ (P.SYNDROME_STOP : Int) ∧ st.1.fl.length ≠ 0
  · rw [if_pos hc]
    have hlen := nodup_length_le _ l hl.2.2.2.1 hl.2.2.2.2.1
    obtain ⟨st', e, hS', hl', hlink', hfr', hc', ht', hst', hbits', _, _⟩ :=
      sweep_loop_detail P (ring_slot P st.1.iter) l [] fuel st (by omega) hS
        (by simpa using hl) (by simpa using hlink)
    rw [hl.2.2.2.2.2.1]
    refine ⟨st', e, ⟨hS', _, hl', hlink'⟩, hfr', hc', ht', hst', fun h => absurd h hc.1,
      fun _ => ⟨fun p hp => ?_, l, hl, by simpa using hl'⟩⟩
    rw [hbits' p]
    by_cases hp1 : bitAt P.BLOCK_LENGTH st.1.bits p = 1
    · simp [(hlink p hp).2 hp1, hp1]
    · have : p ∉ l := fun h => hp1 ((hlink p hp).1 h)
      simp [this, hp1]
  · rw [if_neg hc]
    refine ⟨st, rfl, ⟨hS, l, hl, hlink⟩, rfl, rfl, rfl, fun h => h, fun _ => rfl,
      fun hne => ⟨fun p hp => ?_, l, hl, ?_⟩⟩
    · have hl0 : st.1.fl.length = 0 := by
        by_contra h
        exact hc ⟨hne, h⟩
      have hnil : l = [] := by
        have := hl.2.2.2.2.2.2.1
        rw [hl0] at this
        exact List.length_eq_zero.1 (by omega)
      have : bitAt P.BLOCK_LENGTH st.1.bits p ≠ 1 := by
        intro h
        have := (hlink p hp).2 h
        rw [hnil] at this
        exact absurd this (List.not_mem_nil _)
      rw [if_neg (fun h => this h.1)]
    · have hl0 : st.1.fl.length = 0 := by
        by_contra h
        exact hc ⟨hne, h⟩
      have hnil : l = [] := by
        have := hl.2.2.2.2.2.2.1
        rw [hl0] at this
        exact List.length_eq_zero.1 (by omega)
      rw [hnil]
      rw [hnil] at hl
      exact hl

/-! ## Invariants of the main loop: flipped positions and the time-to-live ring -/

/-- The first statements of an iteration (`++iter` and `compute_counters`) on a
well-formed decoder: the call returns, the decoder stays well formed and the first
`N` entries of the syndrome are unchanged. -/
theorem iteration_start_wf (P : Params) (dec : decoder) (hwf : WellFormed P dec) :
    ∃ cc, compute_counters P dec.Hcolumns dec.Hrows dec.syndrome dec.counters = some cc ∧
      WellFormed P { dec with iter := dec.iter + 1, syndrome := cc.1, counters := cc.2 } ∧
      (∀ i, i < P.BLOCK_LENGTH → cc.1.getD i 0 = dec.syndrome.getD i 0) := by
  obtain ⟨hS, hL⟩ := hwf
  obtain ⟨hVH, hrows, hsl, hbl, hbb, hcl, hcc, hb01⟩ := hS
  obtain ⟨c0, c1, hH⟩ := list_eq_pair dec.Hcolumns hVH.1
  obtain ⟨k0, k1, hK⟩ := list_eq_pair dec.counters hcl
  have hv0 : ValidColumn P.BLOCK_LENGTH P.BLOCK_WEIGHT c0 := hVH.2 c0 (by rw [hH]; simp)
  have hv1 : ValidColumn P.BLOCK_LENGTH P.BLOCK_WEIGHT c1 := hVH.2 c1 (by rw [hH]; simp)
  have hrv0 := reflect_valid _ _ c0 hv0
  have hrv1 := reflect_valid _ _ c1 hv1
  obtain ⟨chk, d0, d1, ecc, lchk, gchk, ld0, ld1, _, _⟩ := compute_counters_pair P
    dec.Hcolumns (reflect P.BLOCK_LENGTH c0) (reflect P.BLOCK_LENGTH c1) dec.syndrome k0 k1
    hrv0.1 hrv1.1 hrv0.2.1 hrv1.2.1 hsl (hcc k0 (by rw [hK]; simp)) (hcc k1 (by rw [hK]; simp))
  have hrows' : dec.Hrows = [reflect P.BLOCK_LENGTH c0, reflect P.BLOCK_LENGTH c1] := by
    rw [hrows, hH]; rfl
  have ecc' : compute_counters P dec.Hcolumns dec.Hrows dec.syndrome dec.counters =
      some (chk, [d0, d1]) := by
    rw [hrows', hK]; exact ecc
  refine ⟨(chk, [d0, d1]), ecc', ⟨?_, hL⟩, gchk⟩
  refine ⟨hVH, hrows, by show 2 * _ ≤ chk.length; omega, hbl, hbb, rfl, ?_, hb01⟩
  intro c hc
  have h0 := hcc k0 (by rw [hK]; simp)
  have h1 := hcc k1 (by rw [hK]; simp)
  simp only [List.mem_cons, List.mem_singleton, List.not_mem_nil, or_false] at hc
  rcases hc with rfl | rfl <;> omega

/-- The flip scan keeps the decoder well formed and keeps every property `J` that
each of its steps keeps. -/
theorem flip_scan_inv (P : Params) (threshold : Nat) (J : decoder → Prop)
    (hscan : ∀ k j st st', k < INDEX → j < P.BLOCK_LENGTH → WellFormed P st.1 → J st.1 →
      scan_step P threshold k j st = some st' → J st'.1)
    (st : decoder × Bool) (hwf : WellFormed P st.1) (hJ : J st.1) :
    ∃ st', flip_scan P threshold st = some st' ∧ WellFormed P st'.1 ∧
      frameOf st'.1 = frameOf st.1 ∧ J st'.1 := by
  have step : ∀ k j, k < INDEX → j < P.BLOCK_LENGTH → ∀ s : decoder × Bool,
      (WellFormed P s.1 ∧ frameOf s.1 = frameOf st.1 ∧ J s.1) →
      ∃ s', scan_step P threshold k j s = some s' ∧
        (WellFormed P s'.1 ∧ frameOf s'.1 = frameOf st.1 ∧ J s'.1) := by
    intro k j hk hj s hs
    obtain ⟨s', e, w, f, _⟩ := scan_step_detail P threshold k j hk hj s hs.1
    exact ⟨s', e, w, f.trans hs.2.1, hscan k j s s' hk hj hs.1 hs.2.2 e⟩
  unfold flip_scan
  exact forUpTo_inv
    (fun s : decoder × Bool => WellFormed P s.1 ∧ frameOf s.1 = frameOf st.1 ∧ J s.1)
    _ INDEX (fun k hk s hs =>
      forUpTo_inv
        (fun s : decoder × Bool => WellFormed P s.1 ∧ frameOf s.1 = frameOf st.1 ∧ J s.1)
        _ P.BLOCK_LENGTH (fun j hj s hs => step k j hk hj s hs) s hs)
    st ⟨hwf, rfl, hJ⟩

/-- One iteration of the main loop keeps the decoder well formed and keeps every
property `J` that the first statements of the iteration, each step of the flip scan
and the expiry sweep keep. -/
theorem decode_iteration_inv (P : Params) (oracle : Nat → Nat → Nat) (fuel : Nat)
    (J : decoder → Prop) (hfuel : INDEX * P.BLOCK_LENGTH ≤ fuel)
    (hpre : ∀ dec cc, WellFormed P dec → J dec →
      compute_counters P dec.Hcolumns dec.Hrows dec.syndrome dec.counters = some cc →
      J { dec with iter := dec.iter + 1, syndrome := cc.1, counters := cc.2 })
    (hscan : ∀ threshold k j st st', k < INDEX → j < P.BLOCK_LENGTH → WellFormed P st.1 →
      J st.1 → scan_step P threshold k j st = some st' → J st'.1)
    (hsweep : ∀ st st', WellFormed P st.1 → J st.1 → expiry_sweep P fuel st = some st' →
      J st'.1)
    (st : decoder × Nat × Bool) (hwf : WellFormed P st.1) (hJ : J st.1) :
    ∃ st', decode_iteration P oracle fuel st = some st' ∧ WellFormed P st'.1 ∧
      frameOf st'.1 = (st.1.Hcolumns, st.1.e, st.1.iter + 1) ∧ J st'.1 := by
  obtain ⟨cc, ecc, wcc, _⟩ := iteration_start_wf P st.1 hwf
  have jcc := hpre st.1 cc hwf hJ ecc
  have key : ∀ threshold : Nat, ∃ st' : decoder × Nat × Bool,
      ((flip_scan P threshold
          ({ st.1 with iter := st.1.iter + 1, syndrome := cc.1, counters := cc.2 },
            false)).bind fun r =>
        (expiry_sweep P fuel r).bind fun r => some (r.1, threshold, r.2)) = some st' ∧
      WellFormed P st'.1 ∧ frameOf st'.1 = (st.1.Hcolumns, st.1.e, st.1.iter + 1) ∧
      J st'.1 := by
    intro threshold
    obtain ⟨r1, e1, w1, f1, j1⟩ := flip_scan_inv P threshold J (hscan threshold)
      ({ st.1 with iter := st.1.iter + 1, syndrome := cc.1, counters := cc.2 }, false) wcc jcc
    obtain ⟨r2, e2, w2, f2, _⟩ := expiry_sweep_detail P fuel r1 hfuel w1
    exact ⟨_, by rw [e1, Option.some_bind, e2, Option.some_bind], w2, f2.trans f1,
      hsweep r1 r2 w1 j1 e2⟩
  unfold decode_iteration
  simp only [Option.bind_eq_bind]
  rw [ecc, Option.some_bind]
  exact key _

/-- The main loop keeps the decoder well formed and keeps every property `J` that
one iteration keeps. -/
theorem decode_loop_inv (P : Params) (oracle : Nat → Nat → Nat) (fuel : Nat)
    (max_iter : Int) (J : decoder → Prop)
    (hiter : ∀ st : decoder × Nat × Bool, WellFormed P st.1 → J st.1 →
      ∃ st', decode_iteration P oracle fuel st = some st' ∧ WellFormed P st'.1 ∧
        frameOf st'.1 = (st.1.Hcolumns, st.1.e, st.1.iter + 1) ∧ J st'.1) :
    ∀ (n : Nat) (st : decoder × Nat × Bool),
    WellFormed P st.1 → J st.1 → max_iter - st.1.iter ≤ (n : Int) →
    ∃ st', decode_loop P oracle fuel max_iter n st = some st' ∧ WellFormed P st'.1 ∧
      J st'.1 := by
  intro n
  induction n with
  | zero =>
    intro st hwf hJ hn
    refine ⟨st, ?_, hwf, hJ⟩
    unfold decode_loop
    rw [if_neg (fun h => by omega)]
  | succ n ih =>
    intro st hwf hJ hn
    unfold decode_loop
    by_cases hc : st.1.iter < max_iter ∧ st.1.syndrome_weight ≠ (P.SYNDROME_STOP : Int)
    · rw [if_pos hc]
      obtain ⟨st1, e1, w1, f1, j1⟩ := hiter st hwf hJ
      have i1 : st1.1.iter = st.1.iter + 1 := congrArg (fun x => x.2.2) f1
      obtain ⟨st2, e2, w2, j2⟩ := ih st1 w1 j1 (by omega)
      exact ⟨st2, by rw [e1, Option.some_bind, e2], w2, j2⟩
    · rw [if_neg hc]
      exact ⟨st, rfl, hwf, hJ⟩

/-- The nodes of the flip list of a well-formed decoder are the flipped positions. -/
theorem wellFormed_nodes (P : Params) (dec : decoder) (hwf : WellFormed P dec) :
    ∃ l, flip_list_nodes P dec = some l ∧ l.Nodup ∧
      ∀ p, p ∈ l ↔ (p < INDEX * P.BLOCK_LENGTH ∧ bitAt P.BLOCK_LENGTH dec.bits p = 1) := by
  obtain ⟨_, l, hl, hlink⟩ := hwf
  refine ⟨l, isList_forward _ dec.fl l hl, hl.2.2.2.1, fun p => ⟨fun h => ?_, fun h => ?_⟩⟩
  · have hp := hl.2.2.2.2.1 p h
    exact ⟨hp, (hlink p hp).1 h⟩
  · exact (hlink p h.1).2 h.2

theorem wellFormed_listedBitsSet (P : Params) (dec : decoder) (hwf : WellFormed P dec) :
    ListedBitsSet P dec := by
  obtain ⟨l, e, _, hmem⟩ := wellFormed_nodes P dec hwf
  refine ⟨l, e, fun k j _ hj h => ?_⟩
  rw [← bitAt_pos P.BLOCK_LENGTH dec.bits k j hj]
  exact ((hmem _).1 h).2

/-- The ring slot of a non-negative iteration is its remainder modulo
`TTL_SATURATE + 1` when the ring fits a byte. -/
theorem ring_slot_eq (P : Params) (x : Int) (hx : 0 ≤ x) (hs : P.TTL_SATURATE ≤ 255) :
    (ring_slot P x : Int) = x % ((P.TTL_SATURATE : Int) + 1) ∧
      ring_slot P x ≤ P.TTL_SATURATE := by
  unfold ring_slot
  rw [Int.tmod_eq_emod hx (by omega)]
  have h1 : 0 ≤ x % ((P.TTL_SATURATE : Int) + 1) := Int.emod_nonneg _ (by omega)
  have h2 : x % ((P.TTL_SATURATE : Int) + 1) < (P.TTL_SATURATE : Int) + 1 :=
    Int.emod_lt_of_pos _ (by omega)
  rw [Int.emod_eq_of_lt h1 (by omega)]
  omega

/-- After `reset_decoder` and `init_decoder_error` no bit is flipped. -/
theorem init_bits_zero (P : Params) (dec0 : decoder) (H : List (List Int))
    (e_block : List Int) (e2 : Option (List Int))
    (hO : P.OUROBOROS = false) (hW : 0 < P.BLOCK_WEIGHT)
    (hA : Allocated P dec0) (hH : ValidH P H) (hE : ValidError P e_block)
    (dec1 dec2 : decoder) (e1 : reset_decoder P dec0 = some dec1)
    (e2' : init_decoder_error P dec1 H e_block e2 = some dec2) :
    ∀ p, bitAt P.BLOCK_LENGTH dec2.bits p = 0 := by
  have hbuf := bufLen_ge P
  have hA1 := allocated_reset P dec0 hA
  rw [reset_decoder_spec P dec0 hA] at e1
  cases e1
  obtain ⟨E0, E1, S, e, _⟩ :=
    init_decoder_error_spec P _ H e_block e2 hO hW hH hE hA1.2.2.2.2.2.2.2.1
      hA1.2.2.2.2.2.2.2.2.1 hA1.2.2.1 (fun b hb => by rw [hA1.2.2.2.1 b hb]; omega)
      (by rw [hA1.2.2.2.2.2.2.1]; omega)
  rw [e] at e2'
  cases e2'
  intro p
  show bitAt _ [List.replicate P.bufLen 0, List.replicate P.bufLen 0] p = 0
  exact bitAt_zero _ _ _

theorem witnessFlipped_wellFormed : WellFormed witnessParams witnessFlipped := by
  have h3 : witnessParams.BLOCK_LENGTH = 3 := rfl
  have hbits : ∀ p, p < 6 → bitAt 3 witnessFlipped.bits p = if p = 1 then 1 else 0 := by
    intro p hp
    have hb : witnessFlipped.bits = [0 :: 1 :: List.replicate 510 0, List.replicate 512 0] :=
      rfl
    rw [hb]
    have : p = 0 ∨ p = 1 ∨ p = 2 ∨ p = 3 ∨ p = 4 ∨ p = 5 := by omega
    rcases this with rfl | rfl | rfl | rfl | rfl | rfl <;> rfl
  refine ⟨⟨witnessH_valid, by decide, ?_, rfl, ?_, rfl, ?_, ?_⟩, [1], ?_, ?_⟩
  · show 2 * 3 ≤ (1 :: 0 :: 1 :: List.replicate 509 0).length
    simp only [List.length_cons, List.length_replicate]
    decide
  · intro b hb
    have hb' : b ∈ [0 :: 1 :: List.replicate 510 0, List.replicate 512 0] := hb
    simp only [List.mem_cons, List.mem_singleton, List.not_mem_nil, or_false] at hb'
    rcases hb' with rfl | rfl
    · rw [h3]
      simp only [List.length_cons, List.length_replicate]
      decide
    · rw [List.length_replicate, h3]
      decide
  · intro c hc
    have hc' : c ∈ [List.replicate 512 4, List.replicate 512 4] := hc
    simp only [List.mem_cons, List.mem_singleton, List.not_mem_nil, or_false] at hc'
    rcases hc' with rfl | rfl <;> rw [List.length_replicate, h3] <;> decide
  · intro p hp
    rw [h3, hbits p hp]
    split <;> decide
  · exact ⟨rfl, rfl, rfl, by decide, by decide, rfl, rfl, by decide⟩
  · intro p hp
    rw [h3, hbits p hp]
    by_cases h : p = 1
    · simp [h]
    · simp [h]

/-- Within one turn of the ring a stored time of death meets the sweep slot only at
the iteration it was computed for. -/
theorem ring_slot_match (P : Params) (it ttl iter : Int) (hs : P.TTL_SATURATE ≤ 255)
    (hit : 0 ≤ it) (h1 : 1 ≤ ttl) (h2 : ttl ≤ (P.TTL_SATURATE : Int))
    (hlo : it ≤ iter) (hhi : iter ≤ it + ttl) :
    ring_slot P (it + ttl) = ring_slot P iter ↔ iter = it + ttl := by
  constructor
  · intro h
    have e1 := (ring_slot_eq P (it + ttl) (by omega) hs).1
    have e2 := (ring_slot_eq P iter (by omega) hs).1
    rw [h, e2] at e1
    have h4 : (it + ttl - iter) % ((P.TTL_SATURATE : Int) + 1) = 0 := by
      rw [Int.sub_emod, ← e1, Int.sub_self, Int.zero_emod]
    rw [Int.emod_eq_of_lt (by omega) (by omega)] at h4
    omega
  · intro h
    rw [h]

/-- C20 (TTL ring wrap): with `TTL_SATURATE <= 255`, for every iteration `it >= 0`
and every `ttl` with `1 <= ttl <= TTL_SATURATE`, an entry stored with
`tod = (it + ttl) mod (TTL_SATURATE + 1)` (the ring slot of `it + ttl`) matches the
sweep slot `iter mod (TTL_SATURATE + 1)` at `iter = it + ttl` and at no `iter` with
`it <= iter < it + ttl`. Consequently, in a well-formed state of an iteration `iter`
in `[it, it + ttl]` in which the position `p` is still flipped with that `tod` (it
was not re-flipped by a scan in between) and the syndrome weight is not
`SYNDROME_STOP` (else the decoder stops), the expiry sweep returns and reverts the
bit at `p` exactly when `iter = it + ttl`; before, it leaves it flipped. -/
theorem ttl_ring_wrap (P : Params) (it ttl : Int) (fuel : Nat) (st : decoder × Bool)
    (p : Nat) (hs : P.TTL_SATURATE ≤ 255)
    (hit : 0 ≤ it) (h1 : 1 ≤ ttl) (h2 : ttl ≤ (P.TTL_SATURATE : Int))
    (hfuel : INDEX * P.BLOCK_LENGTH ≤ fuel) (hwf : WellFormed P st.1)
    (hS : st.1.syndrome_weight ≠ (P.SYNDROME_STOP : Int))
    (hp : p < INDEX * P.BLOCK_LENGTH) (hbit : bitAt P.BLOCK_LENGTH st.1.bits p = 1)
    (htod : st.1.fl.tod.getD p 0 = ring_slot P (it + ttl))
    (hlo : it ≤ st.1.iter) (hhi : st.1.iter ≤ it + ttl) :
    ((ring_slot P (it + ttl) : Nat) : Int) = (it + ttl) % ((P.TTL_SATURATE : Int) + 1) ∧
    (∀ iter, 0 ≤ iter →
      ((ring_slot P iter : Nat) : Int) = iter % ((P.TTL_SATURATE : Int) + 1)) ∧
    (∀ iter, it ≤ iter → iter < it + ttl → ring_slot P (it + ttl) ≠ ring_slot P iter) ∧
    ∃ st', expiry_sweep P fuel st = some st' ∧ WellFormed P st'.1 ∧
      st'.1.iter = st.1.iter ∧
      (st.1.iter = it + ttl → bitAt P.BLOCK_LENGTH st'.1.bits p = 0) ∧
      (st.1.iter < it + ttl → bitAt P.BLOCK_LENGTH st'.1.bits p = 1 ∧
        st'.1.fl.tod.getD p 0 = ring_slot P (it + ttl)) := by
  refine ⟨(ring_slot_eq P _ (by omega) hs).1, fun iter h => (ring_slot_eq P iter h hs).1,
    fun iter ha hb h => ?_, ?_⟩
  · have := (ring_slot_match P it ttl iter hs hit h1 h2 ha (by omega)).1 h
    omega
  · obtain ⟨st', e, hwf', hfr, _, htod', _, _, hrun⟩ := expiry_sweep_detail P fuel st hfuel hwf
    have hb := (hrun hS).1 p hp
    refine ⟨st', e, hwf', congrArg (fun x => x.2.2) hfr, fun h => ?_, fun h => ⟨?_, ?_⟩⟩
    · rw [hb, if_pos ⟨hbit, by rw [htod, h]⟩]
    · rw [hb, if_neg, hbit]
      rintro ⟨_, h'⟩
      rw [htod] at h'
      have := (ring_slot_match P it ttl st.1.iter hs hit h1 h2 hlo hhi).1 h'
      omega
    · rw [htod', htod]

theorem ttl_ring_wrap_witness :
    ring_slot witnessParams (100 + 3) = 1 ∧
    (((ring_slot witnessParams (100 + 3) : Nat) : Int) =
        (100 + 3) % ((witnessParams.TTL_SATURATE : Int) + 1) ∧
      (∀ iter, 0 ≤ iter → ((ring_slot witnessParams iter : Nat) : Int) =
        iter % ((witnessParams.TTL_SATURATE : Int) + 1)) ∧
      (∀ iter, (100 : Int) ≤ iter → iter < 100 + 3 →
        ring_slot witnessParams (100 + 3) ≠ ring_slot witnessParams iter) ∧
      ∃ st', expiry_sweep witnessParams 6 (witnessFlipped, false) = some st' ∧
        WellFormed witnessParams st'.1 ∧ st'.1.iter = witnessFlipped.iter ∧
        (witnessFlipped.iter = 100 + 3 → bitAt witnessParams.BLOCK_LENGTH st'.1.bits 1 = 0) ∧
        (witnessFlipped.iter < 100 + 3 →
          bitAt witnessParams.BLOCK_LENGTH st'.1.bits 1 = 1 ∧
          st'.1.fl.tod.getD 1 0 = ring_slot witnessParams (100 + 3))) :=
  ⟨by decide, ttl_ring_wrap witnessParams 100 3 6 (witnessFlipped, false) 1 (by decide)
    (by decide) (by decide) (by decide) (by decide) witnessFlipped_wellFormed (by decide)
    (by decide) rfl (by decide) (by decide) (by decide)⟩

/-! ## A flip is the XOR-multiplication by a unit vector -/

theorem unit_vector_getD (N j i : Nat) (hj : j < N) :
    (unit_vector N j).getD i 0 = if i = j then 1 else 0 := by
  unfold unit_vector
  rw [getD_set_eq_ite _ _ _ _ (by simpa using hj), getD_replicate_zero]
  by_cases h : j = i
  · rw [if_pos h, if_pos h.symm]
  · rw [if_neg h, if_neg (fun h' => h h'.symm)]

theorem cyc_unit_vector (N j : Nat) (hj : j < N) (i : Nat) (hi : i < N) (c : Int)
    (hc0 : 0 ≤ c) (hc : c < N) :
    cyc N (unit_vector N j) ((i : Int) - c) = hit N (j : Int) c i := by
  unfold cyc hit
  rw [unit_vector_getD N j _ hj]
  exact if_congr (shift_symm N i j c hi hj hc0 hc) rfl rfl

theorem hit_ge (N : Nat) (hN : 0 < N) (j c : Int) (i : Nat) (hi : N ≤ i) : hit N j c i = 0 := by
  unfold hit
  rw [if_neg]
  intro h
  have h2 := Int.emod_lt_of_pos (j + c) (show (0 : Int) < N by omega)
  have h1 := Int.emod_nonneg (j + c) (show (N : Int) ≠ 0 by omega)
  omega

/-- C28: `single_flip(col, j, s)` returns the same vector as
`multiply_mod2(N, W, col, u_j, s)`, `u_j` being the unit vector of length `N` with its
1 at index `j`: both calls return, and both toggle exactly the entries
`(j + col[k]) mod N` of `s` (so the two paths agree on the shift direction). Stated
for a valid column, `0 <= j < N` and a syndrome buffer of at least `N` bytes holding
arbitrary values. -/
theorem single_flip_is_multiply (P : Params) (col : List Int) (j : Nat) (s : List Nat)
    (hv : ValidColumn P.BLOCK_LENGTH P.BLOCK_WEIGHT col)
    (hj : j < P.BLOCK_LENGTH) (hs : P.BLOCK_LENGTH ≤ s.length) :
    ∃ s', single_flip P col (j : Int) s = some s' ∧
      multiply_mod2 (P.BLOCK_LENGTH : Int) P.BLOCK_WEIGHT col
        (unit_vector P.BLOCK_LENGTH j) s = some s' ∧
      s'.length = s.length ∧
      ∀ i, s'.getD i 0 =
        if ∃ k, k < P.BLOCK_WEIGHT ∧
            (((j : Int) + col.getD k 0) % (P.BLOCK_LENGTH : Int)).toNat = i
        then s.getD i 0 ^^^ 1 else s.getD i 0 := by
  obtain ⟨s1, e1, l1, g1⟩ := single_flip_general P col s (j : Int) hv.1 hv.2.1
    (pairwise_le_of_lt _ hv.2.2) (by omega) (by omega) hs
  obtain ⟨s2, e2, l2, g2⟩ := multiply_mod2_general P.BLOCK_LENGTH P.BLOCK_WEIGHT col
    (unit_vector P.BLOCK_LENGTH j) s (by rw [hv.1])
    (fun c hc => hv.2.1 c (List.mem_of_mem_take hc))
    (by unfold unit_vector; simp) hs
  obtain ⟨s3, e3, _, g3⟩ := single_flip_valid P col s (j : Int) hv (by omega) (by omega) hs
  rw [e1] at e3
  cases e3
  have heq : s2 = s1 := by
    apply List.ext_getElem (by omega)
    intro i h1 h2
    have a := g2 i
    have b := g1 i
    rw [List.getD_eq_getElem _ _ h1] at a
    rw [List.getD_eq_getElem _ _ h2] at b
    rw [a, b]
    by_cases hi : i < P.BLOCK_LENGTH
    · rw [if_pos hi]
      congr 1
      apply xorUpTo_congr
      intro k hk
      have hb := getD_bounds _ _ hv.2.1 k (by rw [hv.1]; exact hk)
      exact cyc_unit_vector _ j hj i hi _ hb.1 hb.2
    · rw [if_neg hi]
      have hz : xorUpTo P.BLOCK_WEIGHT
          (fun k => hit P.BLOCK_LENGTH (j : Int) (col.getD k 0) i) = 0 := by
        rw [← xorUpTo_zero P.BLOCK_WEIGHT]
        apply xorUpTo_congr
        intro k _
        exact hit_ge _ (by omega) _ _ _ (by omega)
      rw [hz, Nat.xor_zero]
  exact ⟨s1, e1, by rw [← heq]; exact e2, l1, g3⟩

theorem single_flip_is_multiply_witness :
    ∃ s', single_flip ⟨5, 3, 2, false, 435, 1150, 1000, 5⟩ [0, 3, 4] ((2 : Nat) : Int)
        [1, 1, 0, 0, 1] = some s' ∧
      multiply_mod2 ((5 : Nat) : Int) 3 [0, 3, 4] (unit_vector 5 2) [1, 1, 0, 0, 1] = some s' ∧
      s'.length = [1, 1, 0, 0, 1].length ∧
      ∀ i, s'.getD i 0 =
        if ∃ k, k < 3 ∧ ((((2 : Nat) : Int) + [0, 3, 4].getD k 0) % ((5 : Nat) : Int)).toNat = i
        then [1, 1, 0, 0, 1].getD i 0 ^^^ 1 else [1, 1, 0, 0, 1].getD i 0 :=
  single_flip_is_multiply ⟨5, 3, 2, false, 435, 1150, 1000, 5⟩ [0, 3, 4] 2 [1, 1, 0, 0, 1]
    (by unfold ValidColumn; decide) (by decide) (by decide)

/-! ## The weight update of a flip -/

/-- The exact result of the shared flip statements on a decoder of the right shape. -/
theorem flip_column_eq (P : Params) (dec : decoder) (k j : Nat) (hk : k < INDEX)
    (hj : j < P.BLOCK_LENGTH) (hS : Shape P dec) :
    ∃ S', single_flip P (dec.Hcolumns.getD k []) (j : Int) dec.syndrome = some S' ∧
      S'.length = dec.syndrome.length ∧
      (∀ i, S'.getD i 0 = dec.syndrome.getD i 0 ^^^
        xorUpTo P.BLOCK_WEIGHT
          (fun l => hit P.BLOCK_LENGTH (j : Int) ((dec.Hcolumns.getD k []).getD l 0) i)) ∧
      single_counter P (dec.Hcolumns.getD k []) (j : Int) dec.syndrome =
        some (sumUpTo P.BLOCK_WEIGHT (fun l => cyc P.BLOCK_LENGTH dec.syndrome
          ((j : Int) + (dec.Hcolumns.getD k []).getD l 0)) % 256) ∧
      flip_column P dec k (j : Int) = some { dec with
        syndrome := S',
        bits := dec.bits.set k
          ((dec.bits.getD k []).set j ((dec.bits.getD k []).getD j 0 ^^^ 1)),
        syndrome_weight := dec.syndrome_weight + ((P.BLOCK_WEIGHT : Int) -
          2 * ((sumUpTo P.BLOCK_WEIGHT (fun l => cyc P.BLOCK_LENGTH dec.syndrome
            ((j : Int) + (dec.Hcolumns.getD k []).getD l 0)) % 256 : Nat) : Int)) } := by
  obtain ⟨hVH, hrows, hsl, hbl, hbb, hcl, hcc, hb01⟩ := hS
  have hcol := validH_getD P dec.Hcolumns hVH k hk
  have hkH : k < dec.Hcolumns.length := by rw [hVH.1]; exact hk
  have hkb : k < dec.bits.length := by rw [hbl]; exact hk
  have hlenk : P.BLOCK_LENGTH ≤ (dec.bits.getD k []).length := by
    rw [List.getD_eq_getElem _ _ hkb]
    exact hbb _ (List.getElem_mem _)
  have ec := single_counter_general P (dec.Hcolumns.getD k []) dec.syndrome (j : Int) hcol.1
    hcol.2.1 (pairwise_le_of_lt _ hcol.2.2) (by omega) (by omega) (by omega)
  obtain ⟨S', ef, lS', gS'⟩ := single_flip_general P (dec.Hcolumns.getD k []) dec.syndrome
    (j : Int) hcol.1 hcol.2.1 (pairwise_le_of_lt _ hcol.2.2) (by omega) (by omega) (by omega)
  refine ⟨S', ef, lS', gS', ec, ?_⟩
  unfold flip_column
  simp only [Option.bind_eq_bind]
  rw [getD_eq_of_lt dec.Hcolumns [] k hkH, Option.some_bind, ec, Option.some_bind, ef,
    Option.some_bind, getD_eq_of_lt dec.bits [] k hkb, Option.some_bind,
    rd_nat_getD _ 0 j (by omega), Option.some_bind, wr_natCast _ _ _ (by omega),
    Option.some_bind]

/-- The number of ones of a 0/1 syndrome after the entries `(j + col[l]) mod N` were
toggled. -/
theorem popcount_flip (N W : Nat) (col : List Int) (j : Nat) (s s' : List Nat)
    (hv : ValidColumn N W col) (hj : j < N)
    (h01 : ∀ i, i < N → s.getD i 0 ≤ 1)
    (hs' : ∀ i, i < N → s'.getD i 0 = s.getD i 0 ^^^
      xorUpTo W (fun l => hit N (j : Int) (col.getD l 0) i)) :
    popcount N s' + 2 * sumUpTo W (fun l => cyc N s ((j : Int) + col.getD l 0)) =
      popcount N s + W := by
  have hidx : ∀ l, l < W → ((((j : Int) + col.getD l 0) % (N : Int)).toNat) < N := by
    intro l _
    have h1 := Int.emod_nonneg ((j : Int) + col.getD l 0) (show (N : Int) ≠ 0 by omega)
    have h2 := Int.emod_lt_of_pos ((j : Int) + col.getD l 0) (show (0 : Int) < N by omega)
    omega
  have hinj : ∀ a b, a < W → b < W →
      ((((j : Int) + col.getD a 0) % (N : Int)).toNat) =
      ((((j : Int) + col.getD b 0) % (N : Int)).toNat) → a = b := fun a b ha hb h =>
    shifted_support_injective _ _ _ hv (j : Int) (by omega) (by omega) a b ha hb h
  have key := popcount_toggle N W (fun i => s.getD i 0) (fun i => s'.getD i 0)
    (fun l => (((j : Int) + col.getD l 0) % (N : Int)).toNat) h01 hidx hinj (by
      intro i hi
      beta_reduce
      rw [hs' i hi]
      have := xorUpTo_indicator
        (fun l => (((j : Int) + col.getD l 0) % (N : Int)).toNat = i) W
        (fun a b ha hb pa pb => hinj a b ha hb (pa.trans pb.symm))
      unfold hit
      rw [this]
      split
      · rfl
      · exact Nat.xor_zero _)
  unfold popcount
  unfold cyc
  beta_reduce at key
  omega

/-- C27: for a valid column `col` (`W` strictly ascending entries in `[0, N)`,
`W <= 255` as `param.h` requires), `0 <= j < N` and a syndrome whose first `N` entries
are 0 or 1, `single_flip` and `single_counter` return and
`popcount(single_flip(col, j, s)) = popcount(s) + W - 2 * single_counter(col, j, s)`;
the counter is at most `W`. The flip statements of the decoder (`flip_column`, run by
every step of the flip scan and of the expiry sweep that flips) apply exactly this
update: on a decoder of the right shape whose column `k` is `col` and whose syndrome is
`s` they store the vector returned by `single_flip` and add `W - 2 * counter` to
`syndrome_weight`, so that `syndrome_weight = popcount(syndrome)` is kept. -/
theorem weight_update_identity (P : Params) (col : List Int) (j : Nat) (s : List Nat)
    (hW : P.BLOCK_WEIGHT ≤ 255)
    (hv : ValidColumn P.BLOCK_LENGTH P.BLOCK_WEIGHT col)
    (hj : j < P.BLOCK_LENGTH) (hs : P.BLOCK_LENGTH ≤ s.length)
    (h01 : ∀ i, i < P.BLOCK_LENGTH → s.getD i 0 ≤ 1) :
    ∃ s' c, single_flip P col (j : Int) s = some s' ∧
      single_counter P col (j : Int) s = some c ∧ c ≤ P.BLOCK_WEIGHT ∧
      ((popcount P.BLOCK_LENGTH s' : Nat) : Int) =
        (popcount P.BLOCK_LENGTH s : Nat) + (P.BLOCK_WEIGHT : Int) - 2 * (c : Int) ∧
      ∀ (dec : decoder) (k : Nat), k < INDEX → Shape P dec →
        dec.Hcolumns.getD k [] = col → dec.syndrome = s →
        ∃ dec', flip_column P dec k (j : Int) = some dec' ∧ dec'.syndrome = s' ∧
          dec'.syndrome_weight =
            dec.syndrome_weight + ((P.BLOCK_WEIGHT : Int) - 2 * (c : Int)) ∧
          (dec.syndrome_weight = ((popcount P.BLOCK_LENGTH s : Nat) : Int) →
            dec'.syndrome_weight = ((popcount P.BLOCK_LENGTH s' : Nat) : Int)) := by
  have ec := single_counter_general P col s (j : Int) hv.1 hv.2.1
    (pairwise_le_of_lt _ hv.2.2) (by omega) (by omega) hs
  obtain ⟨s', ef, _, gs'⟩ := single_flip_general P col s (j : Int) hv.1 hv.2.1
    (pairwise_le_of_lt _ hv.2.2) (by omega) (by omega) hs
  have hle := sumUpTo_le P.BLOCK_WEIGHT
    (fun l => cyc P.BLOCK_LENGTH s ((j : Int) + col.getD l 0))
    (fun l => cyc_le_one _ (by omega) _ h01 _)
  have hmod : sumUpTo P.BLOCK_WEIGHT
      (fun l => cyc P.BLOCK_LENGTH s ((j : Int) + col.getD l 0)) % 256 =
      sumUpTo P.BLOCK_WEIGHT (fun l => cyc P.BLOCK_LENGTH s ((j : Int) + col.getD l 0)) :=
    Nat.mod_eq_of_lt (by omega)
  have key := popcount_flip P.BLOCK_LENGTH P.BLOCK_WEIGHT col j s s' hv hj h01
    (fun i _ => gs' i)
  have hid : ((popcount P.BLOCK_LENGTH s' : Nat) : Int) =
      (popcount P.BLOCK_LENGTH s : Nat) + (P.BLOCK_WEIGHT : Int) -
        2 * ((sumUpTo P.BLOCK_WEIGHT
          (fun l => cyc P.BLOCK_LENGTH s ((j : Int) + col.getD l 0)) : Nat) : Int) := by
    omega
  rw [hmod] at ec
  refine ⟨s', _, ef, ec, hle, hid, ?_⟩
  intro dec k hk hS hcol hsyn
  obtain ⟨S', ef', _, _, _, efc⟩ := flip_column_eq P dec k j hk hj hS
  rw [hcol, hsyn, ef] at ef'
  cases ef'
  rw [hcol, hsyn, hmod] at efc
  refine ⟨_, efc, rfl, rfl, ?_⟩
  intro hw
  show dec.syndrome_weight + _ = _
  rw [hw, hid]
  omega

theorem weight_update_identity_witness :
    ∃ s' c, single_flip witnessParams [0, 1] ((1 : Nat) : Int) witnessReady.syndrome = some s' ∧
      single_counter witnessParams [0, 1] ((1 : Nat) : Int) witnessReady.syndrome = some c ∧
      c ≤ witnessParams.BLOCK_WEIGHT ∧
      ((popcount witnessParams.BLOCK_LENGTH s' : Nat) : Int) =
        (popcount witnessParams.BLOCK_LENGTH witnessReady.syndrome : Nat) +
          (witnessParams.BLOCK_WEIGHT : Int) - 2 * (c : Int) ∧
      ∀ (dec : decoder) (k : Nat), k < INDEX → Shape witnessParams dec →
        dec.Hcolumns.getD k [] = [0, 1] → dec.syndrome = witnessReady.syndrome →
        ∃ dec', flip_column witnessParams dec k ((1 : Nat) : Int) = some dec' ∧
          dec'.syndrome = s' ∧
          dec'.syndrome_weight =
            dec.syndrome_weight + ((witnessParams.BLOCK_WEIGHT : Int) - 2 * (c : Int)) ∧
          (dec.syndrome_weight =
              ((popcount witnessParams.BLOCK_LENGTH witnessReady.syndrome : Nat) : Int) →
            dec'.syndrome_weight = ((popcount witnessParams.BLOCK_LENGTH s' : Nat) : Int)) :=
  weight_update_identity witnessParams [0, 1] 1 witnessReady.syndrome (by decide)
    (by unfold ValidColumn witnessParams; decide) (by decide)
    (by show 3 ≤ (0 :: 1 :: 1 :: List.replicate 509 0).length
        simp only [List.length_cons, List.length_replicate]; decide)
    (by
      intro i hi
      have h3 : witnessParams.BLOCK_LENGTH = 3 := rfl
      rw [h3] at hi
      have : i = 0 ∨ i = 1 ∨ i = 2 := by omega
      rcases this with rfl | rfl | rfl <;> decide)

/-! ## The stopping weight -/

theorem range_validColumn (N W : Nat) (h : W ≤ N) :
    ValidColumn N W ((List.range W).map Int.ofNat) := by
  refine ⟨by simp, ?_, ?_⟩
  · intro c hc
    obtain ⟨a, ha, rfl⟩ := List.mem_map.1 hc
    have := List.mem_range.1 ha
    constructor
    · exact Int.ofNat_nonneg a
    · show (a : Int) < N
      omega
  · rw [List.pairwise_map]
    exact (List.pairwise_lt_range W).imp (fun {a b} hab => by
      show (a : Int) < (b : Int)
      omega)

theorem presetDecoder_wellFormed : WellFormed preset128Ouroboros presetDecoder := by
  have hN : preset128Ouroboros.BLOCK_LENGTH = 11027 := rfl
  have hcol := range_validColumn 11027 67 (by decide)
  refine ⟨⟨⟨rfl, ?_⟩, rfl, ?_, rfl, ?_, rfl, ?_, ?_⟩, [], ?_, ?_⟩
  · intro c hc
    have hc' : c ∈ [(List.range 67).map Int.ofNat, (List.range 67).map Int.ofNat] := hc
    simp only [List.mem_cons, List.mem_singleton, List.not_mem_nil, or_false, or_self] at hc'
    rw [hc']
    exact hcol
  · show 2 * 11027 ≤ (List.replicate 22528 0).length
    rw [List.length_replicate]
    decide
  · intro b hb
    have hb' : b ∈ [List.replicate 22528 0, List.replicate 22528 0] := hb
    simp only [List.mem_cons, List.mem_singleton, List.not_mem_nil, or_false, or_self] at hb'
    rw [hb', List.length_replicate, hN]
    decide
  · intro b hb
    have hb' : b ∈ [List.replicate 22528 0, List.replicate 22528 0] := hb
    simp only [List.mem_cons, List.mem_singleton, List.not_mem_nil, or_false, or_self] at hb'
    rw [hb', List.length_replicate, hN]
    decide
  · intro p _
    show bitAt _ [List.replicate 22528 0, List.replicate 22528 0] p ≤ 1
    rw [bitAt_zero]
    decide
  · exact ⟨List.length_replicate _ _, List.length_replicate _ _, List.length_replicate _ _,
      List.nodup_nil, fun _ hp => absurd hp (List.not_mem_nil _), rfl, rfl,
      fun _ hp => absurd hp (List.not_mem_nil _)⟩
  · intro p _
    show p ∈ [] ↔ bitAt _ [List.replicate 22528 0, List.replicate 22528 0] p = 1
    rw [bitAt_zero]
    simp

/-- A call of `qcmdpc_decode_ttl` on a decoder whose syndrome weight is already
`SYNDROME_STOP` clears `iter` and returns 1 without executing the loop body. -/
theorem decode_at_stop (P : Params) (oracle : Nat → Nat → Nat) (fuel : Nat) (dec : decoder)
    (max_iter : Int) (h : dec.syndrome_weight = (P.SYNDROME_STOP : Int)) :
    qcmdpc_decode_ttl P oracle fuel dec max_iter = some ({ dec with iter := 0 }, 1) := by
  have hl : ∀ n, decode_loop P oracle fuel max_iter n ({ dec with iter := 0 }, 0, true) =
      some ({ dec with iter := 0 }, 0, true) := by
    intro n
    cases n with
    | zero =>
      unfold decode_loop
      rw [if_neg (fun hc => hc.2 h)]
    | succ n =>
      unfold decode_loop
      rw [if_neg (fun hc => hc.2 h)]
  unfold qcmdpc_decode_ttl
  rw [hl]
  show some (_, if dec.syndrome_weight = (P.SYNDROME_STOP : Int) then (1 : Int) else 0) = _
  rw [if_pos h]

/-- C26: `SYNDROME_STOP` is `ERROR_WEIGHT / 2` when `OUROBOROS = 1` and 0 when
`OUROBOROS = 0`; `PRESET = 128` with `OUROBOROS = 1` selects `N = 11027`, `T = 156`,
hence `SYNDROME_STOP = 78`. With these constants a call of `qcmdpc_decode_ttl` on a
well-formed decoder returns (for `max_iter >= 0` and enough fuel for the list
traversals), its result is 1 exactly when the final syndrome weight is 78, so it is 1
for a final weight of 78 and 0 for a final weight of 0; a call on a decoder whose
weight is 78 at entry returns 1 at once. -/
theorem syndrome_stop_weight (oracle : Nat → Nat → Nat) (fuel : Nat) (dec : decoder)
    (max_iter : Int) (hwf : WellFormed preset128Ouroboros dec)
    (hfuel : INDEX * preset128Ouroboros.BLOCK_LENGTH ≤ fuel) (hmax : 0 ≤ max_iter) :
    (∀ P : Params, (P.OUROBOROS = true → P.SYNDROME_STOP = P.ERROR_WEIGHT / 2) ∧
      (P.OUROBOROS = false → P.SYNDROME_STOP = 0)) ∧
    presetParams 128 true = some preset128Ouroboros ∧
    preset128Ouroboros.OUROBOROS = true ∧
    preset128Ouroboros.BLOCK_LENGTH = 11027 ∧ preset128Ouroboros.ERROR_WEIGHT = 156 ∧
    preset128Ouroboros.SYNDROME_STOP = 78 ∧
    (∃ dec' r, qcmdpc_decode_ttl preset128Ouroboros oracle fuel dec max_iter = some (dec', r) ∧
      (r = 1 ↔ dec'.syndrome_weight = 78) ∧
      (dec'.syndrome_weight = 78 → r = 1) ∧ (dec'.syndrome_weight = 0 → r = 0)) ∧
    (dec.syndrome_weight = 78 →
      qcmdpc_decode_ttl preset128Ouroboros oracle fuel dec max_iter =
        some ({ dec with iter := 0 }, 1)) := by
  have hstop : preset128Ouroboros.SYNDROME_STOP = 78 := by decide
  refine ⟨fun P => ⟨fun h => by unfold Params.SYNDROME_STOP; rw [h]; rfl,
    fun h => by unfold Params.SYNDROME_STOP; rw [h]; rfl⟩, rfl, rfl, rfl, rfl, hstop, ?_, ?_⟩
  · obtain ⟨dec', r, e, _, _, _, _, hiff, _, h01, _⟩ :=
      qcmdpc_decode_ttl_spec preset128Ouroboros oracle fuel dec max_iter False hfuel hmax hwf
        (fun h => h.elim)
    rw [hstop] at hiff
    refine ⟨dec', r, e, hiff, hiff.2, fun h0 => ?_⟩
    rcases h01 with h | h
    · exact h
    · have := hiff.1 h
      rw [h0] at this
      exact absurd this (by decide)
  · intro h
    exact decode_at_stop _ oracle fuel dec max_iter (by rw [hstop]; exact h)

theorem syndrome_stop_weight_witness :
    (∀ P : Params, (P.OUROBOROS = true → P.SYNDROME_STOP = P.ERROR_WEIGHT / 2) ∧
      (P.OUROBOROS = false → P.SYNDROME_STOP = 0)) ∧
    presetParams 128 true = some preset128Ouroboros ∧
    preset128Ouroboros.OUROBOROS = true ∧
    preset128Ouroboros.BLOCK_LENGTH = 11027 ∧ preset128Ouroboros.ERROR_WEIGHT = 156 ∧
    preset128Ouroboros.SYNDROME_STOP = 78 ∧
    (∃ dec' r, qcmdpc_decode_ttl preset128Ouroboros (fun _ _ => 67) 22054 presetDecoder 0 =
        some (dec', r) ∧
      (r = 1 ↔ dec'.syndrome_weight = 78) ∧
      (dec'.syndrome_weight = 78 → r = 1) ∧ (dec'.syndrome_weight = 0 → r = 0)) ∧
    (presetDecoder.syndrome_weight = 78 →
      qcmdpc_decode_ttl preset128Ouroboros (fun _ _ => 67) 22054 presetDecoder 0 =
        some ({ presetDecoder with iter := 0 }, 1)) :=
  syndrome_stop_weight (fun _ _ => 67) 22054 presetDecoder 0 presetDecoder_wellFormed
    (by decide) (by decide)

/-! ## The zero error -/

theorem Hmul_zero (W : Nat) (H : List (List Int)) (v : Nat → Int → Nat)
    (h : ∀ k x, v k x = 0) (i : Nat) : Hmul W H v i = 0 := by
  unfold Hmul
  rw [← xorUpTo_zero INDEX]
  apply xorUpTo_congr
  intro k _
  rw [← xorUpTo_zero W]
  apply xorUpTo_congr
  intro l _
  exact h _ _

theorem cyc_eq_zero (N : Nat) (hN : 0 < N) (v : List Nat)
    (h : ∀ j, j < N → v.getD j 0 = 0) (x : Int) : cyc N v x = 0 := by
  unfold cyc
  apply h
  have h1 := Int.emod_nonneg x (show (N : Int) ≠ 0 by omega)
  have h2 := Int.emod_lt_of_pos x (show (0 : Int) < N by omega)
  omega

theorem popcount_zero (N : Nat) (s : List Nat) (h : ∀ i, i < N → s.getD i 0 = 0) :
    popcount N s = 0 := by
  unfold popcount
  induction N with
  | zero => rfl
  | succ n ih =>
    show sumUpTo n _ + (if s.getD n 0 = 1 then 1 else 0) = 0
    rw [ih (fun i hi => h i (by omega)), h n (by omega)]
    rfl

theorem allocated_of_eq (P Q : Params) (dec : decoder) (hN : Q.BLOCK_LENGTH = P.BLOCK_LENGTH)
    (hW : Q.BLOCK_WEIGHT = P.BLOCK_WEIGHT) (h : Allocated P dec) : Allocated Q dec := by
  have hb : Q.bufLen = P.bufLen := by unfold Params.bufLen; rw [hN]
  unfold Allocated at h ⊢
  rw [hb, hN, hW]
  exact h

/-- C23: in standard mode, for a valid `H`:
(1) for every value of `ERROR_WEIGHT`, on error blocks whose first `N` entries are 0
and a syndrome buffer whose first `N` entries are 0, `compute_syndrome` returns a
syndrome whose first `N` entries are 0 (every entry is as before), of weight 0, and
a call of `qcmdpc_decode_ttl` on a decoder of syndrome weight 0 returns 1 for every
`max_iter` with `iter = 0`, the main loop returning its initial state for every bound
on its iterations, so no other field is written;
(2) with `ERROR_WEIGHT = 0`, `reset_decoder` followed by `init_decoder_error` on the
empty list of error positions leaves an all-zero error vector, an all-zero syndrome
and `syndrome_weight = 0`, and the call of `qcmdpc_decode_ttl` then returns 1 with
`iter = 0` and with `bits`, `syndrome`, `counters` and the flip list as they were. -/
theorem zero_error_decodes (P : Params) (dec0 : decoder) (H : List (List Int))
    (e2 : Option (List Int)) (oracle : Nat → Nat → Nat) (fuel : Nat) (max_iter : Int)
    (hO : P.OUROBOROS = false) (hW : 0 < P.BLOCK_WEIGHT) (hW255 : P.BLOCK_WEIGHT ≤ 255)
    (hA : Allocated P dec0) (hH : ValidH P H) (hT : P.ERROR_WEIGHT = 0) :
    (∀ (T : Nat) (e0 e1 s : List Nat), P.BLOCK_LENGTH ≤ e0.length →
      P.BLOCK_LENGTH ≤ e1.length → P.BLOCK_LENGTH ≤ s.length →
      (∀ j, j < P.BLOCK_LENGTH → e0.getD j 0 = 0 ∧ e1.getD j 0 = 0 ∧ s.getD j 0 = 0) →
      (∃ S, compute_syndrome { P with ERROR_WEIGHT := T } H [e0, e1] s = some S ∧
        S.length = s.length ∧ (∀ i, S.getD i 0 = s.getD i 0) ∧
        (∀ i, i < P.BLOCK_LENGTH → S.getD i 0 = 0) ∧ popcount P.BLOCK_LENGTH S = 0) ∧
      ∀ dec : decoder, dec.syndrome_weight = 0 →
        qcmdpc_decode_ttl { P with ERROR_WEIGHT := T } oracle fuel dec max_iter =
          some ({ dec with iter := 0 }, 1) ∧
        ∀ n threshold flag,
          decode_loop { P with ERROR_WEIGHT := T } oracle fuel max_iter n
            ({ dec with iter := 0 }, threshold, flag) =
            some ({ dec with iter := 0 }, threshold, flag)) ∧
    ∃ dec1 dec2, reset_decoder P dec0 = some dec1 ∧
      init_decoder_error P dec1 H [] e2 = some dec2 ∧
      (∀ k j, k < INDEX → j < P.BLOCK_LENGTH → (dec2.e.getD k []).getD j 0 = 0) ∧
      (∀ i, i < P.BLOCK_LENGTH → dec2.syndrome.getD i 0 = 0) ∧
      dec2.syndrome_weight = 0 ∧
      (∀ k j, k < INDEX → j < P.BLOCK_LENGTH → (dec2.bits.getD k []).getD j 0 = 0) ∧
      dec2.fl.first = -1 ∧ dec2.fl.length = 0 ∧
      ∃ dec', qcmdpc_decode_ttl P oracle fuel dec2 max_iter = some (dec', 1) ∧
        dec'.iter = 0 ∧ dec'.bits = dec2.bits ∧ dec'.syndrome = dec2.syndrome ∧
        dec'.counters = dec2.counters ∧ dec'.fl = dec2.fl ∧ dec'.e = dec2.e ∧
        dec'.syndrome_weight = 0 := by
  have hN : 0 < P.BLOCK_LENGTH := by
    obtain ⟨hl, hv⟩ := hH
    obtain ⟨c0, c1, rfl⟩ := list_eq_pair H hl
    have hc := hv c0 (by simp)
    have h0 : c0.getD 0 0 < (P.BLOCK_LENGTH : Int) ∧ 0 ≤ c0.getD 0 0 := by
      have := getD_bounds _ _ hc.2.1 0 (by rw [hc.1]; exact hW)
      exact ⟨this.2, this.1⟩
    omega
  have hstop : ∀ T, (({ P with ERROR_WEIGHT := T } : Params).SYNDROME_STOP : Int) = 0 := by
    intro T
    unfold Params.SYNDROME_STOP
    simp [hO]
  constructor
  · intro T e0 e1 s he0 he1 hs hz
    constructor
    · obtain ⟨hl, hv⟩ := hH
      obtain ⟨c0, c1, rfl⟩ := list_eq_pair H hl
      obtain ⟨S, eS, lS, gS⟩ := compute_syndrome_pair { P with ERROR_WEIGHT := T } c0 c1 e0 e1 s
        (hv c0 (by simp)) (hv c1 (by simp)) he0 he1 hs
      have hS : ∀ i, S.getD i 0 = s.getD i 0 := by
        intro i
        rw [gS i]
        split
        · rw [Hmul_zero, Nat.xor_zero]
          intro k x
          match k with
          | 0 => exact cyc_eq_zero _ hN e0 (fun j hj => (hz j hj).1) x
          | 1 => exact cyc_eq_zero _ hN e1 (fun j hj => (hz j hj).2.1) x
          | k + 2 => simp [cyc]
        · rfl
      have hS0 : ∀ i, i < P.BLOCK_LENGTH → S.getD i 0 = 0 := fun i hi => by
        rw [hS i]; exact (hz i hi).2.2
      exact ⟨S, eS, lS, hS, hS0, popcount_zero _ _ hS0⟩
    · intro dec hw
      refine ⟨decode_at_stop _ oracle fuel dec max_iter (by rw [hstop]; exact hw), ?_⟩
      intro n threshold flag
      cases n with
      | zero =>
        unfold decode_loop
        rw [if_neg (fun hc => hc.2 (by rw [hstop]; exact hw))]
      | succ n =>
        unfold decode_loop
        rw [if_neg (fun hc => hc.2 (by rw [hstop]; exact hw))]
  · have hE : ValidError P [] := ⟨by rw [hT]; rfl, fun x hx => absurd hx (List.not_mem_nil _),
      List.Pairwise.nil⟩
    obtain ⟨dec1, dec2, e1, e2', hwf, hstr, _⟩ :=
      init_wellformed P dec0 H [] e2 hO hW hW255 hA hH hE
    have hbits := init_bits_zero P dec0 H [] e2 hO hW hA hH hE dec1 dec2 e1 e2'
    have hA1 := allocated_reset P dec0 hA
    have hbuf := bufLen_ge P
    have e1' := e1
    rw [reset_decoder_spec P dec0 hA] at e1'
    cases e1'
    obtain ⟨dec', E0, E1, ed, hde, _, _, g0, g1⟩ :=
      init_decoder_error_e P _ H [] e2 hW hH hE hA1.2.2.2.2.2.2.2.1
        hA1.2.2.2.2.2.2.2.2.1 hA1.2.2.1 (fun b hb => by rw [hA1.2.2.2.1 b hb]; omega)
        (by rw [hA1.2.2.2.2.2.2.1]; omega) (fun h => by rw [hO] at h; cases h)
    rw [e2'] at ed
    cases ed
    have hez : ∀ k j, k < INDEX → j < P.BLOCK_LENGTH → (dec2.e.getD k []).getD j 0 = 0 := by
      intro k j hk hj
      rw [hde]
      have hk2 : k = 0 ∨ k = 1 := by unfold INDEX at hk; omega
      rcases hk2 with rfl | rfl
      · show E0.getD j 0 = 0
        rw [g0 j, if_pos hj, if_neg]
        rintro ⟨m, hm, _⟩
        omega
      · show E1.getD j 0 = 0
        rw [g1 j, if_pos hj, if_neg]
        rintro ⟨m, hm, _⟩
        omega
    have hbz : ∀ k j, k < INDEX → j < P.BLOCK_LENGTH → (dec2.bits.getD k []).getD j 0 = 0 := by
      intro k j _ hj
      rw [← bitAt_pos P.BLOCK_LENGTH dec2.bits k j hj]
      exact hbits _
    have hsz : ∀ i, i < P.BLOCK_LENGTH → dec2.syndrome.getD i 0 = 0 := by
      intro i hi
      rw [hstr.2.2.1 i hi]
      apply Hmul_zero
      intro k x
      have hx1 := Int.emod_nonneg x (show (P.BLOCK_LENGTH : Int) ≠ 0 by omega)
      have hx2 := Int.emod_lt_of_pos x (show (0 : Int) < P.BLOCK_LENGTH by omega)
      by_cases hk : k < INDEX
      · unfold cyc
        rw [hez k _ hk (by omega), hbz k _ hk (by omega)]
        rfl
      · have h1 : dec2.e.getD k [] = [] := by
          rw [hde]
          unfold INDEX at hk
          match k, hk with
          | k + 2, _ => rfl
        have h2 : dec2.bits.getD k [] = [] := by
          have hl := hwf.1.2.2.2.1
          rw [List.getD_eq_default _ _ (by rw [hl]; omega)]
        unfold cyc
        rw [h1, h2]
        simp
    have hw0 : dec2.syndrome_weight = 0 := by
      have := hstr.2.2.2
      unfold WeightInv at this
      rw [this, popcount_zero _ _ hsz]
      rfl
    have hfl : dec2.fl.first = -1 ∧ dec2.fl.length = 0 := by
      obtain ⟨_, l, hl, hlink⟩ := hwf
      have hnil : l = [] := by
        cases l with
        | nil => rfl
        | cons a t =>
          have ha := hl.2.2.2.2.1 a (List.mem_cons_self _ _)
          have := (hlink a ha).1 (List.mem_cons_self _ _)
          rw [hbits a] at this
          exact absurd this (by decide)
      subst hnil
      exact ⟨hl.2.2.2.2.2.1, hl.2.2.2.2.2.2.1⟩
    refine ⟨_, dec2, e1, e2', hez, hsz, hw0, hbz, hfl.1, hfl.2, { dec2 with iter := 0 },
      decode_at_stop P oracle fuel dec2 max_iter ?_, rfl, rfl, rfl, rfl, rfl, rfl, hw0⟩
    rw [hw0]
    unfold Params.SYNDROME_STOP
    simp [hO]

theorem zeroError_allocated : Allocated zeroErrorParams witnessDecoder :=
  allocated_of_eq witnessParams zeroErrorParams witnessDecoder rfl rfl witnessDecoder_allocated

theorem zeroError_validH : ValidH zeroErrorParams [[0, 1], [1, 2]] := witnessH_valid

theorem zero_error_decodes_witness :
    (∀ (T : Nat) (e0 e1 s : List Nat), zeroErrorParams.BLOCK_LENGTH ≤ e0.length →
      zeroErrorParams.BLOCK_LENGTH ≤ e1.length → zeroErrorParams.BLOCK_LENGTH ≤ s.length →
      (∀ j, j < zeroErrorParams.BLOCK_LENGTH →
        e0.getD j 0 = 0 ∧ e1.getD j 0 = 0 ∧ s.getD j 0 = 0) →
      (∃ S, compute_syndrome { zeroErrorParams with ERROR_WEIGHT := T } [[0, 1], [1, 2]]
          [e0, e1] s = some S ∧
        S.length = s.length ∧ (∀ i, S.getD i 0 = s.getD i 0) ∧
        (∀ i, i < zeroErrorParams.BLOCK_LENGTH → S.getD i 0 = 0) ∧
        popcount zeroErrorParams.BLOCK_LENGTH S = 0) ∧
      ∀ dec : decoder, dec.syndrome_weight = 0 →
        qcmdpc_decode_ttl { zeroErrorParams with ERROR_WEIGHT := T } (fun _ _ => 2) 6 dec 100 =
          some ({ dec with iter := 0 }, 1) ∧
        ∀ n threshold flag,
          decode_loop { zeroErrorParams with ERROR_WEIGHT := T } (fun _ _ => 2) 6 100 n
            ({ dec with iter := 0 }, threshold, flag) =
            some ({ dec with iter := 0 }, threshold, flag)) ∧
    ∃ dec1 dec2, reset_decoder zeroErrorParams witnessDecoder = some dec1 ∧
      init_decoder_error zeroErrorParams dec1 [[0, 1], [1, 2]] [] none = some dec2 ∧
      (∀ k j, k < INDEX → j < zeroErrorParams.BLOCK_LENGTH →
        (dec2.e.getD k []).getD j 0 = 0) ∧
      (∀ i, i < zeroErrorParams.BLOCK_LENGTH → dec2.syndrome.getD i 0 = 0) ∧
      dec2.syndrome_weight = 0 ∧
      (∀ k j, k < INDEX → j < zeroErrorParams.BLOCK_LENGTH →
        (dec2.bits.getD k []).getD j 0 = 0) ∧
      dec2.fl.first = -1 ∧ dec2.fl.length = 0 ∧
      ∃ dec', qcmdpc_decode_ttl zeroErrorParams (fun _ _ => 2) 6 dec2 100 = some (dec', 1) ∧
        dec'.iter = 0 ∧ dec'.bits = dec2.bits ∧ dec'.syndrome = dec2.syndrome ∧
        dec'.counters = dec2.counters ∧ dec'.fl = dec2.fl ∧ dec'.e = dec2.e ∧
        dec'.syndrome_weight = 0 :=
  zero_error_decodes zeroErrorParams witnessDecoder [[0, 1], [1, 2]] none (fun _ _ => 2) 6 100
    rfl (by decide) (by decide) zeroError_allocated zeroError_validH rfl

/-! ## A single error: the initial syndrome -/

theorem cyc_indicator (N j : Nat) (hj : j < N) (v : List Nat)
    (hv : ∀ a, a < N → v.getD a 0 = if a = j then 1 else 0) (i : Nat) (hi : i < N) (c : Int)
    (hc0 : 0 ≤ c) (hc : c < N) : cyc N v ((i : Int) - c) = hit N (j : Int) c i := by
  unfold cyc hit
  have h1 := Int.emod_nonneg ((i : Int) - c) (show (N : Int) ≠ 0 by omega)
  have h2 := Int.emod_lt_of_pos ((i : Int) - c) (show (0 : Int) < N by omega)
  rw [hv _ (by omega)]
  exact if_congr (shift_symm N i j c hi hj hc0 hc) rfl rfl

theorem sumUpTo_zero (n : Nat) : sumUpTo n (fun _ => 0) = 0 := by
  induction n with
  | zero => rfl
  | succ n ih => show sumUpTo n _ + 0 = 0; rw [ih]

/-- The syndrome `H · u` of the unit vector `u` with its 1 at position `j` of block
`k`: the indicator of the positions `(j + c) mod N`, `c` in the support of block `k`. -/
theorem Hmul_unit (P : Params) (H : List (List Int)) (hH : ValidH P H) (k j : Nat)
    (hk : k < INDEX) (hj : j < P.BLOCK_LENGTH) (v : Nat → Int → Nat)
    (hv : ∀ k' i l, k' < INDEX → i < P.BLOCK_LENGTH → l < P.BLOCK_WEIGHT →
      v k' ((i : Int) - (H.getD k' []).getD l 0) =
        if k' = k then hit P.BLOCK_LENGTH (j : Int) ((H.getD k' []).getD l 0) i else 0)
    (i : Nat) (hi : i < P.BLOCK_LENGTH) :
    Hmul P.BLOCK_WEIGHT H v i =
      if ∃ l, l < P.BLOCK_WEIGHT ∧
          (((j : Int) + (H.getD k []).getD l 0) % (P.BLOCK_LENGTH : Int)).toNat = i
      then 1 else 0 := by
  have hcol := validH_getD P H hH k hk
  have hind := xorUpTo_indicator
    (fun l => (((j : Int) + (H.getD k []).getD l 0) % (P.BLOCK_LENGTH : Int)).toNat = i)
    P.BLOCK_WEIGHT
    (fun a b ha hb pa pb =>
      shifted_support_injective _ _ _ hcol (j : Int) (by omega) (by omega) a b ha hb
        (pa.trans pb.symm))
  have hblock : ∀ k', k' < INDEX →
      xorUpTo P.BLOCK_WEIGHT (fun l => v k' ((i : Int) - (H.getD k' []).getD l 0)) =
        if k' = k then
          (if ∃ l, l < P.BLOCK_WEIGHT ∧
            (((j : Int) + (H.getD k []).getD l 0) % (P.BLOCK_LENGTH : Int)).toNat = i
           then 1 else 0)
        else 0 := by
    intro k' hk'
    by_cases hkk : k' = k
    · subst hkk
      rw [if_pos rfl, ← hind]
      apply xorUpTo_congr
      intro l hl
      rw [hv k' i l hk' hi hl, if_pos rfl]
      rfl
    · rw [if_neg hkk, ← xorUpTo_zero P.BLOCK_WEIGHT]
      apply xorUpTo_congr
      intro l hl
      rw [hv k' i l hk' hi hl, if_neg hkk]
  rw [Hmul_pair, hblock 0 (by decide), hblock 1 (by decide)]
  have hk2 : k = 0 ∨ k = 1 := by unfold INDEX at hk; omega
  rcases hk2 with rfl | rfl
  · simp
  · simp

/-- The state left by `reset_decoder` and `init_decoder_error` for a single error at
offset `j` of block `k`, in standard mode. -/
theorem single_error_init (P : Params) (dec0 : decoder) (H : List (List Int))
    (e2 : Option (List Int)) (k j : Nat)
    (hO : P.OUROBOROS = false) (hW : 0 < P.BLOCK_WEIGHT) (hW255 : P.BLOCK_WEIGHT ≤ 255)
    (hA : Allocated P dec0) (hH : ValidH P H) (hT : P.ERROR_WEIGHT = 1)
    (hk : k < INDEX) (hj : j < P.BLOCK_LENGTH) :
    ∃ dec1 dec2, reset_decoder P dec0 = some dec1 ∧
      init_decoder_error P dec1 H [((k * P.BLOCK_LENGTH + j : Nat) : Int)] e2 = some dec2 ∧
      (∀ k' j', k' < INDEX → j' < P.BLOCK_LENGTH →
        (dec2.e.getD k' []).getD j' 0 = if k' = k ∧ j' = j then 1 else 0) ∧
      (∀ i, i < P.BLOCK_LENGTH → dec2.syndrome.getD i 0 =
        if ∃ l, l < P.BLOCK_WEIGHT ∧
            (((j : Int) + (H.getD k []).getD l 0) % (P.BLOCK_LENGTH : Int)).toNat = i
        then 1 else 0) ∧
      dec2.syndrome_weight = (P.BLOCK_WEIGHT : Int) ∧
      WellFormed P dec2 ∧ Strong P dec2 ∧ dec2.Hcolumns = H ∧
      (∀ p, bitAt P.BLOCK_LENGTH dec2.bits p = 0) := by
  have hk2 : k = 0 ∨ k = 1 := by unfold INDEX at hk; omega
  have hE : ValidError P [((k * P.BLOCK_LENGTH + j : Nat) : Int)] := by
    refine ⟨by rw [hT]; rfl, ?_, List.pairwise_singleton _ _⟩
    intro x hx
    rw [List.mem_singleton] at hx
    subst hx
    unfold INDEX
    rcases hk2 with rfl | rfl <;> omega
  obtain ⟨dec1, dec2, e1, e2', hwf, hstr, hHc⟩ :=
    init_wellformed P dec0 H _ e2 hO hW hW255 hA hH hE
  have hbits := init_bits_zero P dec0 H _ e2 hO hW hA hH hE dec1 dec2 e1 e2'
  have hA1 := allocated_reset P dec0 hA
  have hbuf := bufLen_ge P
  have e1' := e1
  rw [reset_decoder_spec P dec0 hA] at e1'
  cases e1'
  obtain ⟨dec', E0, E1, ed, hde, _, _, g0, g1⟩ :=
    init_decoder_error_e P _ H _ e2 hW hH hE hA1.2.2.2.2.2.2.2.1
      hA1.2.2.2.2.2.2.2.2.1 hA1.2.2.1 (fun b hb => by rw [hA1.2.2.2.1 b hb]; omega)
      (by rw [hA1.2.2.2.2.2.2.1]; omega) (fun h => by rw [hO] at h; cases h)
  rw [e2'] at ed
  cases ed
  have hex : ∀ x : Int, (∃ m, m < P.ERROR_WEIGHT ∧
      [((k * P.BLOCK_LENGTH + j : Nat) : Int)].getD m 0 = x) ↔
      ((k * P.BLOCK_LENGTH + j : Nat) : Int) = x := by
    intro x
    rw [hT]
    constructor
    · rintro ⟨m, hm, h⟩
      have : m = 0 := by omega
      subst this
      exact h
    · intro h
      exact ⟨0, by omega, h⟩
  have hez : ∀ k' j', k' < INDEX → j' < P.BLOCK_LENGTH →
      (dec2.e.getD k' []).getD j' 0 = if k' = k ∧ j' = j then 1 else 0 := by
    intro k' j' hk' hj'
    rw [hde]
    have hk3 : k' = 0 ∨ k' = 1 := by unfold INDEX at hk'; omega
    rcases hk3 with rfl | rfl
    · show E0.getD j' 0 = _
      rw [g0 j', if_pos hj']
      refine if_congr ?_ rfl rfl
      rw [hex]
      rcases hk2 with rfl | rfl
      · constructor
        · intro h; exact ⟨rfl, by omega⟩
        · intro h; rw [h.2]; simp
      · constructor
        · intro h; exfalso; omega
        · intro h; exact absurd h.1 (by decide)
    · show E1.getD j' 0 = _
      rw [g1 j', if_pos hj']
      refine if_congr ?_ rfl rfl
      rw [hex]
      rcases hk2 with rfl | rfl
      · constructor
        · intro h; exfalso; push_cast at h; omega
        · intro h; exact absurd h.1 (by decide)
      · constructor
        · intro h; exact ⟨rfl, by push_cast at h; omega⟩
        · intro h; rw [h.2]; push_cast; omega
  have hsyn : ∀ i, i < P.BLOCK_LENGTH → dec2.syndrome.getD i 0 =
      if ∃ l, l < P.BLOCK_WEIGHT ∧
          (((j : Int) + (H.getD k []).getD l 0) % (P.BLOCK_LENGTH : Int)).toNat = i
      then 1 else 0 := by
    intro i hi
    rw [hstr.2.2.1 i hi, hHc]
    apply Hmul_unit P H hH k j hk hj _ _ i hi
    intro k' i' l hk' hi' hl
    have hb := getD_bounds _ _ (validH_getD P H hH k' hk').2.1 l
      (by rw [(validH_getD P H hH k' hk').1]; exact hl)
    have hx1 := Int.emod_nonneg ((i' : Int) - (H.getD k' []).getD l 0)
      (show (P.BLOCK_LENGTH : Int) ≠ 0 by omega)
    have hx2 := Int.emod_lt_of_pos ((i' : Int) - (H.getD k' []).getD l 0)
      (show (0 : Int) < P.BLOCK_LENGTH by omega)
    have hbz : cyc P.BLOCK_LENGTH (dec2.bits.getD k' [])
        ((i' : Int) - (H.getD k' []).getD l 0) = 0 := by
      unfold cyc
      rw [← bitAt_pos P.BLOCK_LENGTH dec2.bits k' _ (by omega : _ < P.BLOCK_LENGTH)]
      exact hbits _
    rw [hbz, Nat.xor_zero]
    by_cases hkk : k' = k
    · rw [if_pos hkk]
      subst hkk
      exact cyc_indicator _ j hj _ (fun a ha => by rw [hez k' a hk' ha]; simp) i' hi' _
        hb.1 hb.2
    · rw [if_neg hkk]
      unfold cyc
      rw [hez k' _ hk' (by omega), if_neg (fun h => hkk h.1)]
  have hcol := validH_getD P H hH k hk
  have hpop : popcount P.BLOCK_LENGTH dec2.syndrome = P.BLOCK_WEIGHT := by
    have key := popcount_flip P.BLOCK_LENGTH P.BLOCK_WEIGHT (H.getD k []) j []
      dec2.syndrome hcol hj (fun i _ => by simp) (fun i hi => by
        rw [hsyn i hi]
        have hind := xorUpTo_indicator
          (fun l => (((j : Int) + (H.getD k []).getD l 0) % (P.BLOCK_LENGTH : Int)).toNat = i)
          P.BLOCK_WEIGHT
          (fun a b ha hb pa pb =>
            shifted_support_injective _ _ _ hcol (j : Int) (by omega) (by omega) a b ha hb
              (pa.trans pb.symm))
        unfold hit
        rw [hind]
        simp)
    have hz : sumUpTo P.BLOCK_WEIGHT
        (fun l => cyc P.BLOCK_LENGTH [] ((j : Int) + (H.getD k []).getD l 0)) = 0 := by
      rw [← sumUpTo_zero P.BLOCK_WEIGHT]
      apply sumUpTo_congr
      intro l _
      simp [cyc]
    have hp0 : popcount P.BLOCK_LENGTH [] = 0 := popcount_zero _ _ (fun i _ => by simp)
    omega
  have hw : dec2.syndrome_weight = (P.BLOCK_WEIGHT : Int) := by
    have := hstr.2.2.2
    unfold WeightInv at this
    rw [this, hpop]
  exact ⟨_, dec2, e1, e2', hez, hsyn, hw, hwf, hstr, hHc, hbits⟩

/-- C24: in standard mode with `ERROR_WEIGHT = 1`, for a valid `H` and the single
error position `k * N + j` (block `k < INDEX`, offset `j < N`), `reset_decoder`
followed by `init_decoder_error` leaves the error vector with its single 1 at offset
`j` of block `k`, a syndrome that is 1 exactly at the positions `(j + c) mod N`, `c`
in `Hcolumns[k]` (and 0 elsewhere in `[0, N)`), and `syndrome_weight = W`. -/
theorem single_error_syndrome (P : Params) (dec0 : decoder) (H : List (List Int))
    (e2 : Option (List Int)) (k j : Nat)
    (hO : P.OUROBOROS = false) (hW : 0 < P.BLOCK_WEIGHT) (hW255 : P.BLOCK_WEIGHT ≤ 255)
    (hA : Allocated P dec0) (hH : ValidH P H) (hT : P.ERROR_WEIGHT = 1)
    (hk : k < INDEX) (hj : j < P.BLOCK_LENGTH) :
    ∃ dec1 dec2, reset_decoder P dec0 = some dec1 ∧
      init_decoder_error P dec1 H [((k * P.BLOCK_LENGTH + j : Nat) : Int)] e2 = some dec2 ∧
      (∀ k' j', k' < INDEX → j' < P.BLOCK_LENGTH →
        (dec2.e.getD k' []).getD j' 0 = if k' = k ∧ j' = j then 1 else 0) ∧
      (∀ i, i < P.BLOCK_LENGTH → dec2.syndrome.getD i 0 =
        if ∃ l, l < P.BLOCK_WEIGHT ∧
            (((j : Int) + (H.getD k []).getD l 0) % (P.BLOCK_LENGTH : Int)).toNat = i
        then 1 else 0) ∧
      dec2.syndrome_weight = (P.BLOCK_WEIGHT : Int) ∧
      WellFormed P dec2 ∧ Strong P dec2 ∧ dec2.Hcolumns = H ∧
      (∀ p, bitAt P.BLOCK_LENGTH dec2.bits p = 0) :=
  single_error_init P dec0 H e2 k j hO hW hW255 hA hH hT hk hj

theorem singleError_allocated : Allocated singleErrorParams witnessDecoder :=
  allocated_of_eq witnessParams singleErrorParams witnessDecoder rfl rfl
    witnessDecoder_allocated

theorem single_error_syndrome_witness :
    ∃ dec1 dec2, reset_decoder singleErrorParams witnessDecoder = some dec1 ∧
      init_decoder_error singleErrorParams dec1 [[0, 1], [1, 2]]
        [((0 * singleErrorParams.BLOCK_LENGTH + 0 : Nat) : Int)] none = some dec2 ∧
      (∀ k' j', k' < INDEX → j' < singleErrorParams.BLOCK_LENGTH →
        (dec2.e.getD k' []).getD j' 0 = if k' = 0 ∧ j' = 0 then 1 else 0) ∧
      (∀ i, i < singleErrorParams.BLOCK_LENGTH → dec2.syndrome.getD i 0 =
        if ∃ l, l < singleErrorParams.BLOCK_WEIGHT ∧
            ((((0 : Nat) : Int) + ([[0, 1], [1, 2]].getD 0 []).getD l 0) %
              (singleErrorParams.BLOCK_LENGTH : Int)).toNat = i
        then 1 else 0) ∧
      dec2.syndrome_weight = (singleErrorParams.BLOCK_WEIGHT : Int) ∧
      WellFormed singleErrorParams dec2 ∧ Strong singleErrorParams dec2 ∧
      dec2.Hcolumns = [[0, 1], [1, 2]] ∧
      (∀ p, bitAt singleErrorParams.BLOCK_LENGTH dec2.bits p = 0) :=
  single_error_syndrome singleErrorParams witnessDecoder [[0, 1], [1, 2]] none 0 0
    rfl (by decide) (by decide) singleError_allocated witnessH_valid rfl (by decide) (by decide)

/-! ## The syndrome and the equality of the estimate with the error -/

theorem Hmul_xor (W : Nat) (H : List (List Int)) (u v : Nat → Int → Nat) (i : Nat) :
    Hmul W H (fun k x => u k x ^^^ v k x) i = Hmul W H u i ^^^ Hmul W H v i := by
  unfold Hmul
  rw [← xorUpTo_xor]
  apply xorUpTo_congr
  intro k _
  exact xorUpTo_xor W _ _

theorem nat_xor_eq_zero (a b : Nat) : a ^^^ b = 0 ↔ a = b := by
  constructor
  · intro h
    have : (a ^^^ b) ^^^ b = 0 ^^^ b := by rw [h]
    rw [Nat.xor_assoc, Nat.xor_self, Nat.xor_zero, Nat.zero_xor] at this
    exact this
  · intro h
    rw [h, Nat.xor_self]

theorem popcount_eq_zero_iff (N : Nat) (s : List Nat) :
    popcount N s = 0 ↔ ∀ i, i < N → s.getD i 0 ≠ 1 := by
  unfold popcount
  induction N with
  | zero => exact ⟨fun _ i hi => absurd hi (Nat.not_lt_zero _), fun _ => rfl⟩
  | succ n ih =>
    show sumUpTo n _ + (if s.getD n 0 = 1 then 1 else 0) = 0 ↔ _
    constructor
    · intro h i hi
      have h1 : sumUpTo n (fun i => if s.getD i 0 = 1 then 1 else 0) = 0 := by omega
      by_cases hin : i = n
      · subst hin
        intro h2
        rw [if_pos h2] at h
        omega
      · exact ih.1 h1 i (by omega)
    · intro h
      rw [ih.2 (fun i hi => h i (by omega)), if_neg (h n (by omega))]

theorem Hmul_congr (W : Nat) (H : List (List Int)) (u v : Nat → Int → Nat)
    (h : ∀ k x, k < INDEX → u k x = v k x) (i : Nat) : Hmul W H u i = Hmul W H v i := by
  unfold Hmul
  apply xorUpTo_congr
  intro k hk
  apply xorUpTo_congr
  intro l _
  exact h k _ hk

/-- When the estimate equals the error on `[0, N)`, `H · (e XOR bits)` is zero. -/
theorem Hmul_equal_bits (P : Params) (hN : 0 < P.BLOCK_LENGTH) (dec : decoder)
    (h : BitsEqualError P dec) (i : Nat) :
    Hmul P.BLOCK_WEIGHT dec.Hcolumns
      (fun k x => cyc P.BLOCK_LENGTH (dec.e.getD k []) x ^^^
        cyc P.BLOCK_LENGTH (dec.bits.getD k []) x) i = 0 := by
  rw [Hmul_congr _ _ _ (fun _ _ => 0), Hmul_zero _ _ _ (fun _ _ => rfl)]
  intro k x hk
  have hx1 := Int.emod_nonneg x (show (P.BLOCK_LENGTH : Int) ≠ 0 by omega)
  have hx2 := Int.emod_lt_of_pos x (show (0 : Int) < P.BLOCK_LENGTH by omega)
  unfold cyc
  rw [h k _ hk (by omega), Nat.xor_self]

theorem validH_pos (P : Params) (H : List (List Int)) (hH : ValidH P H)
    (hW : 0 < P.BLOCK_WEIGHT) : 0 < P.BLOCK_LENGTH := by
  have hc := validH_getD P H hH 0 (by decide)
  have := getD_bounds _ _ hc.2.1 0 (by rw [hc.1]; exact hW)
  omega

theorem standard_stop (P : Params) (hO : P.OUROBOROS = false) : P.SYNDROME_STOP = 0 := by
  unfold Params.SYNDROME_STOP
  rw [hO]
  rfl

/-- C22 (amended): in standard mode, on a well-formed decoder that satisfies the
syndrome invariants (`syndrome = H · (e XOR bits)`, 0/1 entries,
`syndrome_weight = popcount(syndrome)`; they hold after `init_decoder_error` and after
every iteration):
(1) if the estimate equals the error on `[0, N)` of both blocks, the syndrome is zero
on `[0, N)` and `syndrome_weight = 0`;
(2) the syndrome is zero on `[0, N)` exactly when `H · e = H · bits`, that is when the
error and the estimate have the same syndrome, and exactly when `syndrome_weight = 0`;
(3) a call of `qcmdpc_decode_ttl` (with `max_iter >= 0` and enough fuel) returns, and
its result is 1 exactly when the final syndrome weight is 0, that is exactly when the
final estimate has the syndrome of the error; on a decoder of weight 0 it returns 1 at
once. The converse of (1) does not hold. -/
theorem syndrome_zero_iff (P : Params) (dec : decoder) (oracle : Nat → Nat → Nat)
    (fuel : Nat) (max_iter : Int)
    (hO : P.OUROBOROS = false) (hW : 0 < P.BLOCK_WEIGHT)
    (hwf : WellFormed P dec) (hstr : Strong P dec)
    (hfuel : INDEX * P.BLOCK_LENGTH ≤ fuel) (hmax : 0 ≤ max_iter) :
    (BitsEqualError P dec →
      (∀ i, i < P.BLOCK_LENGTH → dec.syndrome.getD i 0 = 0) ∧ dec.syndrome_weight = 0) ∧
    ((∀ i, i < P.BLOCK_LENGTH → dec.syndrome.getD i 0 = 0) ↔
      ∀ i, i < P.BLOCK_LENGTH →
        Hmul P.BLOCK_WEIGHT dec.Hcolumns
          (fun k x => cyc P.BLOCK_LENGTH (dec.e.getD k []) x) i =
        Hmul P.BLOCK_WEIGHT dec.Hcolumns
          (fun k x => cyc P.BLOCK_LENGTH (dec.bits.getD k []) x) i) ∧
    (dec.syndrome_weight = 0 ↔ ∀ i, i < P.BLOCK_LENGTH → dec.syndrome.getD i 0 = 0) ∧
    (∃ dec' r, qcmdpc_decode_ttl P oracle fuel dec max_iter = some (dec', r) ∧
      Strong P dec' ∧ dec'.Hcolumns = dec.Hcolumns ∧ dec'.e = dec.e ∧
      (r = 1 ↔ dec'.syndrome_weight = 0) ∧
      (r = 1 ↔ ∀ i, i < P.BLOCK_LENGTH →
        Hmul P.BLOCK_WEIGHT dec.Hcolumns
          (fun k x => cyc P.BLOCK_LENGTH (dec.e.getD k []) x) i =
        Hmul P.BLOCK_WEIGHT dec.Hcolumns
          (fun k x => cyc P.BLOCK_LENGTH (dec'.bits.getD k []) x) i) ∧
      (BitsEqualError P dec' → r = 1)) ∧
    (dec.syndrome_weight = 0 →
      qcmdpc_decode_ttl P oracle fuel dec max_iter = some ({ dec with iter := 0 }, 1)) := by
  have hN := validH_pos P dec.Hcolumns hwf.1.1 hW
  have hstop := standard_stop P hO
  -- the three facts on one state
  have facts : ∀ d : decoder, Strong P d →
      (BitsEqualError P d →
        (∀ i, i < P.BLOCK_LENGTH → d.syndrome.getD i 0 = 0) ∧ d.syndrome_weight = 0) ∧
      ((∀ i, i < P.BLOCK_LENGTH → d.syndrome.getD i 0 = 0) ↔
        ∀ i, i < P.BLOCK_LENGTH →
          Hmul P.BLOCK_WEIGHT d.Hcolumns
            (fun k x => cyc P.BLOCK_LENGTH (d.e.getD k []) x) i =
          Hmul P.BLOCK_WEIGHT d.Hcolumns
            (fun k x => cyc P.BLOCK_LENGTH (d.bits.getD k []) x) i) ∧
      (d.syndrome_weight = 0 ↔ ∀ i, i < P.BLOCK_LENGTH → d.syndrome.getD i 0 = 0) := by
    intro d hs
    obtain ⟨_, h01, hsi, hwi⟩ := hs
    have hw : d.syndrome_weight = 0 ↔ ∀ i, i < P.BLOCK_LENGTH → d.syndrome.getD i 0 = 0 := by
      unfold WeightInv at hwi
      rw [hwi]
      constructor
      · intro h i hi
        have h0 : popcount P.BLOCK_LENGTH d.syndrome = 0 := by omega
        have := (popcount_eq_zero_iff _ _).1 h0 i hi
        have := h01 i hi
        omega
      · intro h
        rw [popcount_zero _ _ h]
        rfl
    have hz : (∀ i, i < P.BLOCK_LENGTH → d.syndrome.getD i 0 = 0) ↔
        ∀ i, i < P.BLOCK_LENGTH →
          Hmul P.BLOCK_WEIGHT d.Hcolumns
            (fun k x => cyc P.BLOCK_LENGTH (d.e.getD k []) x) i =
          Hmul P.BLOCK_WEIGHT d.Hcolumns
            (fun k x => cyc P.BLOCK_LENGTH (d.bits.getD k []) x) i := by
      constructor
      · intro h i hi
        have := h i hi
        rw [hsi i hi, Hmul_xor, nat_xor_eq_zero] at this
        exact this
      · intro h i hi
        rw [hsi i hi, Hmul_xor, nat_xor_eq_zero]
        exact h i hi
    refine ⟨fun heq => ?_, hz, hw⟩
    have h0 : ∀ i, i < P.BLOCK_LENGTH → d.syndrome.getD i 0 = 0 := fun i hi => by
      rw [hsi i hi]
      exact Hmul_equal_bits P hN d heq i
    exact ⟨h0, hw.2 h0⟩
  obtain ⟨f1, f2, f3⟩ := facts dec hstr
  refine ⟨f1, f2, f3, ?_, fun h => decode_at_stop P oracle fuel dec max_iter
    (by rw [hstop]; exact h)⟩
  obtain ⟨dec', r, e, _, hs', _, _, hiff, _, _, hH', he'⟩ :=
    qcmdpc_decode_ttl_spec P oracle fuel dec max_iter True hfuel hmax hwf (fun _ => hstr)
  have hs'' := hs' trivial
  rw [hstop] at hiff
  obtain ⟨g1, g2, g3⟩ := facts dec' hs''
  rw [hH', he'] at g2
  refine ⟨dec', r, e, hs'', hH', he', hiff, hiff.trans (g3.trans g2), fun h => ?_⟩
  exact hiff.2 (g1 h).2

theorem wellFormed_update (P : Params) (dec : decoder) (e : List (List Nat)) (s : List Nat)
    (w : Int) (h : WellFormed P dec) (hs : 2 * P.BLOCK_LENGTH ≤ s.length) :
    WellFormed P { dec with e := e, syndrome := s, syndrome_weight := w } := by
  obtain ⟨⟨a, b, _, d, e', f, g, h'⟩, L⟩ := h
  exact ⟨⟨a, b, hs, d, e', f, g, h'⟩, L⟩

theorem witnessDecoded_wellFormed : WellFormed witnessParams witnessDecoded :=
  wellFormed_update witnessParams witnessFlipped _ _ _ witnessFlipped_wellFormed (by
    rw [List.length_replicate]; decide)

theorem witnessDecoded_equal : BitsEqualError witnessParams witnessDecoded :=
  fun _ _ _ _ => rfl

theorem witnessDecoded_strong : Strong witnessParams witnessDecoded := by
  have hz : ∀ i, witnessDecoded.syndrome.getD i 0 = 0 := fun i => getD_replicate_zero _ _
  refine ⟨by decide, fun i _ => by rw [hz i]; decide, fun i _ => ?_, ?_⟩
  · rw [hz i]
    exact (Hmul_equal_bits witnessParams (by decide) witnessDecoded witnessDecoded_equal i).symm
  · show (0 : Int) = _
    rw [popcount_zero _ _ (fun i _ => hz i)]
    rfl

theorem syndrome_zero_iff_witness :
    (BitsEqualError witnessParams witnessDecoded →
      (∀ i, i < witnessParams.BLOCK_LENGTH → witnessDecoded.syndrome.getD i 0 = 0) ∧
        witnessDecoded.syndrome_weight = 0) ∧
    ((∀ i, i < witnessParams.BLOCK_LENGTH → witnessDecoded.syndrome.getD i 0 = 0) ↔
      ∀ i, i < witnessParams.BLOCK_LENGTH →
        Hmul witnessParams.BLOCK_WEIGHT witnessDecoded.Hcolumns
          (fun k x => cyc witnessParams.BLOCK_LENGTH (witnessDecoded.e.getD k []) x) i =
        Hmul witnessParams.BLOCK_WEIGHT witnessDecoded.Hcolumns
          (fun k x => cyc witnessParams.BLOCK_LENGTH (witnessDecoded.bits.getD k []) x) i) ∧
    (witnessDecoded.syndrome_weight = 0 ↔
      ∀ i, i < witnessParams.BLOCK_LENGTH → witnessDecoded.syndrome.getD i 0 = 0) ∧
    (∃ dec' r, qcmdpc_decode_ttl witnessParams (fun _ _ => 2) 6 witnessDecoded 100 =
        some (dec', r) ∧
      Strong witnessParams dec' ∧ dec'.Hcolumns = witnessDecoded.Hcolumns ∧
      dec'.e = witnessDecoded.e ∧
      (r = 1 ↔ dec'.syndrome_weight = 0) ∧
      (r = 1 ↔ ∀ i, i < witnessParams.BLOCK_LENGTH →
        Hmul witnessParams.BLOCK_WEIGHT witnessDecoded.Hcolumns
          (fun k x => cyc witnessParams.BLOCK_LENGTH (witnessDecoded.e.getD k []) x) i =
        Hmul witnessParams.BLOCK_WEIGHT witnessDecoded.Hcolumns
          (fun k x => cyc witnessParams.BLOCK_LENGTH (dec'.bits.getD k []) x) i) ∧
      (BitsEqualError witnessParams dec' → r = 1)) ∧
    (witnessDecoded.syndrome_weight = 0 →
      qcmdpc_decode_ttl witnessParams (fun _ _ => 2) 6 witnessDecoded 100 =
        some ({ witnessDecoded with iter := 0 }, 1)) :=
  syndrome_zero_iff witnessParams witnessDecoded (fun _ _ => 2) 6 100 rfl (by decide)
    witnessDecoded_wellFormed witnessDecoded_strong (by decide) (by decide)

theorem witnessCodeword_wellFormed : WellFormed codewordParams witnessCodeword :=
  wellFormed_update codewordParams witnessReady _ _ _ witnessReady_wellFormed (by
    rw [List.length_replicate]; decide)


theorem witnessCodeword_strong : Strong codewordParams witnessCodeword := by
  have hz : ∀ i, witnessCodeword.syndrome.getD i 0 = 0 := fun i => getD_replicate_zero _ _
  refine ⟨by decide, fun i _ => by rw [hz i]; decide, ?_, ?_⟩
  · unfold SyndromeInv
    decide
  · show (0 : Int) = _
    rw [popcount_zero _ _ (fun i _ => hz i)]
    rfl

set_option maxRecDepth 100000 in
/-- C22 (counterexample): with `N = 3`, `W = 2`, `H = [[0, 1], [1, 2]]` and the error
`e = ([0, 1, 1], [1, 1, 0])` (positions 1, 2, 3, 4), the run of `reset_decoder`,
`init_decoder_error` and `qcmdpc_decode_ttl` returns 1 with `iter = 0`: the syndrome is
zero and of weight 0 although no bit is flipped and `e` is not zero, so the estimate
differs from the error. `compute_syndrome` maps this `e` (that is `e XOR flipped` for
`flipped = 0`) to the zero syndrome, and on the well-formed decoder `witnessCodeword`,
which satisfies the syndrome invariants, the syndrome is zero while the estimate is
not the error. -/
theorem zero_syndrome_not_equal :
    codewordRun.map (fun r => r.2) = some 1 ∧
    codewordRun.map (fun r => r.1.iter) = some 0 ∧
    codewordRun.map (fun r => r.1.syndrome_weight) = some 0 ∧
    codewordRun.map (fun r => r.1.syndrome.take 3) = some [0, 0, 0] ∧
    codewordRun.map (fun r => (r.1.e.getD 0 []).take 3) = some [0, 1, 1] ∧
    codewordRun.map (fun r => (r.1.e.getD 1 []).take 3) = some [1, 1, 0] ∧
    codewordRun.map (fun r => (r.1.bits.getD 0 []).take 3) = some [0, 0, 0] ∧
    codewordRun.map (fun r => (r.1.bits.getD 1 []).take 3) = some [0, 0, 0] ∧
    compute_syndrome codewordParams [[0, 1], [1, 2]] [[0, 1, 1], [1, 1, 0]] [0, 0, 0] =
      some [0, 0, 0] ∧
    ¬ (∀ dec : decoder, WellFormed codewordParams dec → Strong codewordParams dec →
      ((∀ i, i < codewordParams.BLOCK_LENGTH → dec.syndrome.getD i 0 = 0) ↔
        BitsEqualError codewordParams dec)) := by
  refine ⟨by decide, by decide, by decide, by decide, by decide, by decide, by decide,
    by decide, by decide, ?_⟩
  intro h
  have h1 := (h witnessCodeword witnessCodeword_wellFormed witnessCodeword_strong).1
    (fun i _ => getD_replicate_zero _ _) 0 1 (by decide) (by decide)
  exact absurd h1 (by decide)

/-! ## Properties kept by every statement of an iteration -/

/-- One step of the flip scan keeps every property that the flip statements keep. -/
theorem scan_step_keeps (P : Params) (J : decoder → Prop) (hJ : FlipKept P J)
    (threshold k j : Nat) (st st' : decoder × Bool) (hk : k < INDEX)
    (hj : j < P.BLOCK_LENGTH) (hwf : WellFormed P st.1) (h : J st.1)
    (e : scan_step P threshold k j st = some st') : J st'.1 := by
  unfold scan_step at e
  simp only [Option.bind_eq_bind] at e
  obtain ⟨ck, _, e⟩ := Option.bind_eq_some.1 e
  obtain ⟨c, _, e⟩ := Option.bind_eq_some.1 e
  by_cases hc : c ≥ threshold
  · rw [if_pos hc] at e
    obtain ⟨bk, _, e⟩ := Option.bind_eq_some.1 e
    obtain ⟨b, _, e⟩ := Option.bind_eq_some.1 e
    by_cases hb : b ≠ 0
    · rw [if_pos hb] at e
      obtain ⟨fl, _, e⟩ := Option.bind_eq_some.1 e
      obtain ⟨dec', hd, e⟩ := Option.bind_eq_some.1 e
      cases e
      exact hJ.flip { st.1 with fl := fl } dec' k j hk hj hwf.1 (hJ.list _ _ h) hd
    · rw [if_neg hb] at e
      obtain ⟨fl1, _, e⟩ := Option.bind_eq_some.1 e
      obtain ⟨tod, _, e⟩ := Option.bind_eq_some.1 e
      rw [Option.some_bind] at e
      obtain ⟨dec', hd, e⟩ := Option.bind_eq_some.1 e
      cases e
      exact hJ.flip { st.1 with fl := { fl1 with tod := tod } } dec' k j hk hj hwf.1
        (hJ.list _ _ h) hd
  · rw [if_neg hc] at e
    cases e
    exact h

/-- One step of the expiry sweep at a position of the universe keeps every property
that the flip statements keep. -/
theorem sweep_step_keeps (P : Params) (J : decoder → Prop) (hJ : FlipKept P J)
    (cur r : Nat) (st : decoder × Bool) (res : Int × (decoder × Bool))
    (hr : r < INDEX * P.BLOCK_LENGTH) (hS : Shape P st.1) (h : J st.1)
    (e : sweep_step P cur (r : Int) st = some res) : J res.2.1 := by
  unfold sweep_step at e
  simp only [Option.bind_eq_bind] at e
  obtain ⟨tod, _, e⟩ := Option.bind_eq_some.1 e
  by_cases hc : tod = cur
  · rw [if_pos hc] at e
    obtain ⟨k, j, hk, hj, hkjeq⟩ : ∃ k j : Nat, k < INDEX ∧ j < P.BLOCK_LENGTH ∧
        (if (r : Int) ≥ (P.BLOCK_LENGTH : Int) then
          ((1 : Nat), (r : Int) - (P.BLOCK_LENGTH : Int)) else ((0 : Nat), (r : Int))) =
          (k, (j : Int)) := by
      unfold INDEX at hr ⊢
      by_cases hge : (r : Int) ≥ (P.BLOCK_LENGTH : Int)
      · refine ⟨1, r - P.BLOCK_LENGTH, by omega, by omega, ?_⟩
        rw [if_pos hge]
        congr 1
        omega
      · refine ⟨0, r, by omega, by omega, ?_⟩
        rw [if_neg hge]
    rw [hkjeq] at e
    simp only at e
    obtain ⟨dec', hd, e⟩ := Option.bind_eq_some.1 e
    obtain ⟨fl, _, e⟩ := Option.bind_eq_some.1 e
    rw [Option.some_bind] at e
    obtain ⟨nx, _, e⟩ := Option.bind_eq_some.1 e
    cases e
    exact hJ.list _ _ (hJ.flip st.1 dec' k j hk hj hS h hd)
  · rw [if_neg hc, Option.some_bind] at e
    obtain ⟨nx, _, e⟩ := Option.bind_eq_some.1 e
    cases e
    exact h

/-- The loop of the expiry sweep keeps every property that the flip statements keep. -/
theorem sweep_loop_keeps (P : Params) (J : decoder → Prop) (hJ : FlipKept P J) (cur : Nat) :
    ∀ (rest kept : List Nat) (fuel : Nat) (st st' : decoder × Bool),
    rest.length ≤ fuel → Shape P st.1 →
    IsList (INDEX * P.BLOCK_LENGTH) st.1.fl (kept ++ rest) →
    (∀ p, p < INDEX * P.BLOCK_LENGTH →
      (p ∈ kept ++ rest ↔ bitAt P.BLOCK_LENGTH st.1.bits p = 1)) →
    J st.1 → sweep_loop P cur fuel (hd rest) st = some st' → J st'.1 := by
  intro rest
  induction rest with
  | nil =>
    intro kept fuel st st' _ _ _ _ h e
    cases fuel with
    | zero =>
      simp only [sweep_loop, hd, ne_eq, not_true_eq_false, if_false] at e
      cases e
      exact h
    | succ f =>
      simp only [sweep_loop, hd, ne_eq, not_true_eq_false, if_false] at e
      cases e
      exact h
  | cons r rest ih =>
    intro kept fuel st st' hfuel hS hl hlink h e
    cases fuel with
    | zero => simp at hfuel
    | succ f =>
      have hne : (r : Int) ≠ -1 := by omega
      have hrM : r < INDEX * P.BLOCK_LENGTH := hl.2.2.2.2.1 r (by simp)
      obtain ⟨st1, e1, hS1, hl1, hlink1, _⟩ :=
        sweep_step_detail P cur kept rest r st hS hl hlink
      have j1 := sweep_step_keeps P J hJ cur r st _ hrM hS h e1
      have e' : sweep_loop P cur (f + 1) (r : Int) st = some st' := e
      unfold sweep_loop at e'
      rw [if_pos hne, e1, Option.some_bind] at e'
      exact ih _ f st1 st' (by simpa using hfuel) hS1 hl1 hlink1 j1 e'

/-- The expiry sweep keeps every property that the flip statements keep. -/
theorem expiry_sweep_keeps (P : Params) (J : decoder → Prop) (hJ : FlipKept P J)
    (fuel : Nat) (hfuel : INDEX * P.BLOCK_LENGTH ≤ fuel) (st st' : decoder × Bool)
    (hwf : WellFormed P st.1) (h : J st.1) (e : expiry_sweep P fuel st = some st') :
    J st'.1 := by
  obtain ⟨hS, l, hl, hlink⟩ := hwf
  unfold expiry_sweep at e
  simp only at e
  by_cases hc : st.1.syndrome_weight ≠ (P.SYNDROME_STOP : Int) ∧ st.1.fl.length ≠ 0
  · rw [if_pos hc, hl.2.2.2.2.2.1] at e
    have hlen := nodup_length_le _ l hl.2.2.2.1 hl.2.2.2.2.1
    exact sweep_loop_keeps P J hJ _ l [] fuel st st' (by omega) hS (by simpa using hl)
      (by simpa using hlink) h e
  · rw [if_neg hc] at e
    cases e
    exact h

/-- One iteration of the main loop keeps the decoder well formed and keeps every
property that the flip statements keep. -/
theorem decode_iteration_keeps (P : Params) (J : decoder → Prop) (hJ : FlipKept P J)
    (oracle : Nat → Nat → Nat) (fuel : Nat) (hfuel : INDEX * P.BLOCK_LENGTH ≤ fuel)
    (st : decoder × Nat × Bool) (hwf : WellFormed P st.1) (h : J st.1) :
    ∃ st', decode_iteration P oracle fuel st = some st' ∧ WellFormed P st'.1 ∧
      frameOf st'.1 = (st.1.Hcolumns, st.1.e, st.1.iter + 1) ∧ J st'.1 :=
  decode_iteration_inv P oracle fuel J hfuel
    (fun dec cc hw hj ecc => by
      obtain ⟨cc', ecc', _, hsame⟩ := iteration_start_wf P dec hw
      rw [ecc] at ecc'
      cases ecc'
      exact hJ.start dec cc.1 cc.2 (dec.iter + 1) hj hsame)
    (fun threshold k j s s' hk hj hw hj' e =>
      scan_step_keeps P J hJ threshold k j s s' hk hj hw hj' e)
    (fun s s' hw hj' e => expiry_sweep_keeps P J hJ fuel hfuel s s' hw hj' e) st hwf h

/-- A call of `qcmdpc_decode_ttl` on a well-formed decoder returns a well-formed decoder
and keeps every property that the flip statements keep. -/
theorem qcmdpc_decode_ttl_keeps (P : Params) (J : decoder → Prop) (hJ : FlipKept P J)
    (oracle : Nat → Nat → Nat) (fuel : Nat) (hfuel : INDEX * P.BLOCK_LENGTH ≤ fuel)
    (dec : decoder) (max_iter : Int) (hwf : WellFormed P dec) (h : J dec) :
    ∃ dec' r, qcmdpc_decode_ttl P oracle fuel dec max_iter = some (dec', r) ∧
      WellFormed P dec' ∧ J dec' ∧
      r = (if dec'.syndrome_weight = (P.SYNDROME_STOP : Int) then 1 else 0) := by
  obtain ⟨st', e, w, j⟩ := decode_loop_inv P oracle fuel max_iter J
    (fun st hw hj => decode_iteration_keeps P J hJ oracle fuel hfuel st hw hj)
    max_iter.toNat ({ dec with iter := 0 }, 0, true) hwf
    (hJ.start dec dec.syndrome dec.counters 0 h (fun _ _ => rfl)) (by simp)
  exact ⟨st'.1, _, by unfold qcmdpc_decode_ttl; rw [e]; rfl, w, j, rfl⟩

/-- The product `H · (e XOR bits)` after the bit at offset `j` of block `k` was toggled:
column `j` of block `k` is added. -/
theorem Hmul_flip (P : Params) (dec : decoder) (k j : Nat) (hk : k < INDEX)
    (hj : j < P.BLOCK_LENGTH) (hS : Shape P dec) (i : Nat) (hi : i < P.BLOCK_LENGTH) :
    Hmul P.BLOCK_WEIGHT dec.Hcolumns
      (fun k' x => cyc P.BLOCK_LENGTH (dec.e.getD k' []) x ^^^
        cyc P.BLOCK_LENGTH ((dec.bits.set k
          ((dec.bits.getD k []).set j ((dec.bits.getD k []).getD j 0 ^^^ 1))).getD k' []) x) i =
      Hmul P.BLOCK_WEIGHT dec.Hcolumns
        (fun k' x => cyc P.BLOCK_LENGTH (dec.e.getD k' []) x ^^^
          cyc P.BLOCK_LENGTH (dec.bits.getD k' []) x) i ^^^
      xorUpTo P.BLOCK_WEIGHT
        (fun l => hit P.BLOCK_LENGTH (j : Int) ((dec.Hcolumns.getD k []).getD l 0) i) := by
  obtain ⟨hVH, _, _, hbl, hbb, _, _, _⟩ := hS
  have hcol := validH_getD P dec.Hcolumns hVH k hk
  have hkb : k < dec.bits.length := by rw [hbl]; exact hk
  have hlenk : P.BLOCK_LENGTH ≤ (dec.bits.getD k []).length := by
    rw [List.getD_eq_getElem _ _ hkb]
    exact hbb _ (List.getElem_mem _)
  have hcb : ∀ l, l < P.BLOCK_WEIGHT → 0 ≤ (dec.Hcolumns.getD k []).getD l 0 ∧
      (dec.Hcolumns.getD k []).getD l 0 < (P.BLOCK_LENGTH : Int) := fun l hl =>
    getD_bounds _ _ hcol.2.1 l (by rw [hcol.1]; exact hl)
  rw [Hmul_pair, Hmul_pair]
  simp only [cyc_toggle _ _ _ _ _ hkb hj hlenk]
  have hdelta : ∀ (k' : Nat), xorUpTo P.BLOCK_WEIGHT (fun l =>
      cyc P.BLOCK_LENGTH (dec.e.getD k' []) ((i : Int) - (dec.Hcolumns.getD k' []).getD l 0) ^^^
      if k' = k ∧ (((i : Int) - (dec.Hcolumns.getD k' []).getD l 0) %
          (P.BLOCK_LENGTH : Int)).toNat = j
        then (dec.bits.getD k []).getD j 0 ^^^ 1
        else cyc P.BLOCK_LENGTH (dec.bits.getD k' [])
          ((i : Int) - (dec.Hcolumns.getD k' []).getD l 0)) =
      xorUpTo P.BLOCK_WEIGHT (fun l =>
        cyc P.BLOCK_LENGTH (dec.e.getD k' [])
          ((i : Int) - (dec.Hcolumns.getD k' []).getD l 0) ^^^
        cyc P.BLOCK_LENGTH (dec.bits.getD k' [])
          ((i : Int) - (dec.Hcolumns.getD k' []).getD l 0)) ^^^
      (if k' = k then xorUpTo P.BLOCK_WEIGHT
        (fun l => hit P.BLOCK_LENGTH (j : Int) ((dec.Hcolumns.getD k []).getD l 0) i)
       else 0) := by
    intro k'
    by_cases hkk : k' = k
    · subst hkk
      rw [if_pos rfl, ← xorUpTo_xor]
      apply xorUpTo_congr
      intro l hl
      have hc := hcb l hl
      unfold hit
      by_cases hh : (((i : Int) - (dec.Hcolumns.getD k' []).getD l 0) %
          (P.BLOCK_LENGTH : Int)).toNat = j
      · rw [if_pos ⟨rfl, hh⟩, if_pos ((shift_symm _ i j _ hi hj hc.1 hc.2).1 hh)]
        unfold cyc
        rw [hh, Nat.xor_assoc]
      · rw [if_neg (fun h => hh h.2),
          if_neg (fun h => hh ((shift_symm _ i j _ hi hj hc.1 hc.2).2 h)), Nat.xor_zero]
    · rw [if_neg hkk, Nat.xor_zero]
      apply xorUpTo_congr
      intro l _
      rw [if_neg (fun h => hkk h.1)]
  rw [hdelta 0, hdelta 1]
  have hk2 : k = 0 ∨ k = 1 := by unfold INDEX at hk; omega
  rcases hk2 with rfl | rfl
  · simp only [if_true, if_false, Nat.xor_zero, one_ne_zero]
    rw [Nat.xor_assoc, Nat.xor_assoc, Nat.xor_comm (xorUpTo _ (fun l => hit _ _ _ _))]
  · simp only [if_true, if_false, Nat.xor_zero, zero_ne_one]
    rw [Nat.xor_assoc]

/-- The syndrome invariant with a syndrome-side error is kept by the statements of an
iteration, whatever the syndrome-side error. -/
theorem flipKept_syndrome (P : Params) (noise : Nat → Nat) :
    FlipKept P (SyndromeInvWith P noise) := by
  refine ⟨fun dec fl h => h, ?_, ?_⟩
  · intro dec dec' k j hk hj hS h e
    obtain ⟨S', _, _, gS', _, efc⟩ := flip_column_eq P dec k j hk hj hS
    rw [efc] at e
    cases e
    intro i hi
    show S'.getD i 0 = _
    rw [gS' i, h i hi]
    show _ = Hmul P.BLOCK_WEIGHT dec.Hcolumns
      (fun k' x => cyc P.BLOCK_LENGTH (dec.e.getD k' []) x ^^^
        cyc P.BLOCK_LENGTH ((dec.bits.set k
          ((dec.bits.getD k []).set j ((dec.bits.getD k []).getD j 0 ^^^ 1))).getD k' []) x) i
      ^^^ noise i
    rw [Hmul_flip P dec k j hk hj hS i hi, Nat.xor_assoc, Nat.xor_assoc,
      Nat.xor_comm (noise i)]
  · intro dec s c it h hs i hi
    show s.getD i 0 = _
    rw [hs i hi]
    exact h i hi

/-- The 0/1 entries of the syndrome and the equation
`syndrome_weight = popcount(syndrome)` are kept by the statements of an iteration. -/
theorem flipKept_weight (P : Params) : FlipKept P (WeightOk P) := by
  refine ⟨fun dec fl h => h, ?_, ?_⟩
  · intro dec dec' k j hk hj hS h e
    obtain ⟨hW, h01, hwi⟩ := h
    obtain ⟨S', _, _, gS', _, efc⟩ := flip_column_eq P dec k j hk hj hS
    rw [efc] at e
    cases e
    have hcol := validH_getD P dec.Hcolumns hS.1 k hk
    refine ⟨hW, ?_, ?_⟩
    · intro i hi
      show S'.getD i 0 ≤ 1
      rw [gS' i]
      exact xor_le_one _ _ (h01 i hi) (xorUpTo_le_one _ _ (fun l => hit_le_one _ _ _ _))
    · show dec.syndrome_weight + _ = ((popcount P.BLOCK_LENGTH S' : Nat) : Int)
      unfold WeightInv at hwi
      rw [hwi]
      have key := popcount_flip P.BLOCK_LENGTH P.BLOCK_WEIGHT (dec.Hcolumns.getD k []) j
        dec.syndrome S' hcol hj h01 (fun i _ => gS' i)
      have hle := sumUpTo_le P.BLOCK_WEIGHT (fun l => cyc P.BLOCK_LENGTH dec.syndrome
          ((j : Int) + (dec.Hcolumns.getD k []).getD l 0)) (fun l =>
        cyc_le_one _ (by omega) _ h01 _)
      rw [Nat.mod_eq_of_lt (by omega)]
      omega
  · intro dec s c it h hs
    obtain ⟨hW, h01, hwi⟩ := h
    refine ⟨hW, fun i hi => by show s.getD i 0 ≤ 1; rw [hs i hi]; exact h01 i hi, ?_⟩
    show dec.syndrome_weight = ((popcount P.BLOCK_LENGTH s : Nat) : Int)
    unfold WeightInv at hwi
    rw [hwi, popcount_congr _ _ _ hs]

theorem flipKept_and (P : Params) (J K : decoder → Prop) (hJ : FlipKept P J)
    (hK : FlipKept P K) : FlipKept P (fun dec => J dec ∧ K dec) :=
  ⟨fun dec fl h => ⟨hJ.list dec fl h.1, hK.list dec fl h.2⟩,
    fun dec dec' k j hk hj hS h e =>
      ⟨hJ.flip dec dec' k j hk hj hS h.1 e, hK.flip dec dec' k j hk hj hS h.2 e⟩,
    fun dec s c it h hs => ⟨hJ.start dec s c it h.1 hs, hK.start dec s c it h.2 hs⟩⟩

theorem flipKept_strongWith (P : Params) (noise : Nat → Nat) :
    FlipKept P (StrongWith P noise) :=
  flipKept_and P _ _ (flipKept_weight P) (flipKept_syndrome P noise)

/-! ## `init_decoder_error` in both build modes -/

/-- The Ouroboros loop of `init_decoder_error`: entry `i` of the syndrome is toggled
once for every `k < n` with `e2_block[k] = i`. -/
theorem forUpTo_toggle_spec (l : List Int) :
    ∀ (n : Nat) (s : List Nat), n ≤ l.length → (∀ p ∈ l, 0 ≤ p ∧ p < (s.length : Int)) →
    ∃ s', forUpTo n (fun (k : Nat) (syndrome : List Nat) => do
        let p ← l[k]?
        let v ← rd syndrome p
        wr syndrome p (v ^^^ 1)) s = some s' ∧ s'.length = s.length ∧
      ∀ i, s'.getD i 0 = s.getD i 0 ^^^
        xorUpTo n (fun k => if l.getD k 0 = (i : Int) then 1 else 0) := by
  intro n
  induction n with
  | zero => intro s _ _; exact ⟨s, rfl, rfl, fun i => (Nat.xor_zero _).symm⟩
  | succ n ih =>
    intro s hn hb
    obtain ⟨s1, e1, l1, g1⟩ := ih s (by omega) hb
    have hp := hb (l.getD n 0) (by
      rw [List.getD_eq_getElem _ _ (by omega)]; exact List.getElem_mem _)
    refine ⟨s1.set (l.getD n 0).toNat (s1.getD (l.getD n 0).toNat 0 ^^^ 1), ?_,
      by simp [l1], ?_⟩
    · show (forUpTo n _ s).bind _ = _
      rw [e1]
      simp only [Option.some_bind, getD_eq_of_lt l 0 n (by omega), Option.bind_eq_bind,
        rd_of_bounds s1 _ hp.1 (by omega), wr_of_bounds s1 _ _ hp.1 (by omega)]
    · intro i
      rw [getD_set_eq_ite _ _ _ _ (by omega)]
      show _ = s.getD i 0 ^^^ (xorUpTo n _ ^^^ (if l.getD n 0 = (i : Int) then 1 else 0))
      by_cases hi : (l.getD n 0).toNat = i
      · rw [if_pos hi, if_pos (by omega), ← Nat.xor_assoc, ← g1 i, hi]
      · rw [if_neg hi, if_neg (by omega), Nat.xor_zero, g1 i]

/-- The state left by `init_decoder_error`, in both build modes: on `[0, N)` the
syndrome is the former syndrome XOR `H · e` XOR the syndrome-side error, and
`syndrome_weight` is the sum of its first `N` entries. -/
theorem init_decoder_error_full (P : Params) (dec : decoder) (H : List (List Int))
    (e_block : List Int) (e2 : Option (List Int))
    (hW : 0 < P.BLOCK_WEIGHT) (hH : ValidH P H) (hE : ValidError P e_block)
    (hrl : dec.Hrows.length = INDEX) (hr : ∀ r ∈ dec.Hrows, r.length = P.BLOCK_WEIGHT)
    (hel : dec.e.length = INDEX) (he : ∀ b ∈ dec.e, P.BLOCK_LENGTH ≤ b.length)
    (hs : P.BLOCK_LENGTH ≤ dec.syndrome.length)
    (h2 : P.OUROBOROS = true → ∀ l, e2 = some l → P.SYNDROME_STOP ≤ l.length ∧
      ∀ p ∈ l, 0 ≤ p ∧ p < (dec.syndrome.length : Int)) :
    ∃ E0 E1 S, init_decoder_error P dec H e_block e2 =
        some { dec with Hcolumns := H, Hrows := H.map (reflect P.BLOCK_LENGTH),
                        e := [E0, E1], syndrome := S,
                        syndrome_weight :=
                          ((sumUpTo P.BLOCK_LENGTH (fun j => S.getD j 0) : Nat) : Int) } ∧
      S.length = dec.syndrome.length ∧
      ∀ i, i < P.BLOCK_LENGTH → S.getD i 0 =
        dec.syndrome.getD i 0 ^^^ Hmul P.BLOCK_WEIGHT H
          (fun k x => cyc P.BLOCK_LENGTH ([E0, E1].getD k []) x) i ^^^ side_error P e2 i := by
  obtain ⟨hHl, hHv⟩ := hH
  obtain ⟨hEl, hEb, hEs⟩ := hE
  obtain ⟨h0, h1, rfl⟩ := list_eq_pair H hHl
  obtain ⟨r0, r1, hrows⟩ := list_eq_pair dec.Hrows hrl
  obtain ⟨a0, a1, hes⟩ := list_eq_pair dec.e hel
  have hv0 := hHv h0 (by simp)
  have hv1 := hHv h1 (by simp)
  have ha0 : P.BLOCK_LENGTH ≤ a0.length := he a0 (by rw [hes]; simp)
  have ha1 : P.BLOCK_LENGTH ≤ a1.length := he a1 (by rw [hes]; simp)
  have erows := columns_to_rows_pair P h0 h1 r0 r1 hW hv0.1 hv1.1
    (hr r0 (by rw [hrows]; simp)) (hr r1 (by rw [hrows]; simp))
  obtain ⟨z0, ez0, lz0, gz0⟩ := forUpTo_zero a0 P.BLOCK_LENGTH ha0
  obtain ⟨z1, ez1, lz1, gz1⟩ := forUpTo_zero a1 P.BLOCK_LENGTH ha1
  obtain ⟨k', E0, eE0, hk1, hk2, lE0, hlow, hhigh, gE0⟩ :=
    init_error_loop1_spec P e_block hEl (fun x hx => (hEb x hx).1) P.ERROR_WEIGHT 0 z0
      (by omega) (by omega)
  have hmem : ∀ m, m < P.ERROR_WEIGHT → 0 ≤ e_block.getD m 0 ∧
      e_block.getD m 0 < 2 * (P.BLOCK_LENGTH : Int) := by
    intro m hm
    have hb := hEb (e_block.getD m 0) (by
      rw [List.getD_eq_getElem _ _ (by omega)]; exact List.getElem_mem _)
    unfold INDEX at hb
    omega
  have hrange : ∀ m, k' ≤ m → m < P.ERROR_WEIGHT →
      (P.BLOCK_LENGTH : Int) ≤ e_block.getD m 0 ∧
        e_block.getD m 0 < 2 * (P.BLOCK_LENGTH : Int) := by
    intro m hm1 hm2
    refine ⟨?_, (hmem m hm2).2⟩
    have := hhigh (by omega)
    have := sorted_getD_le e_block (pairwise_le_of_lt _ hEs) k' m hm1 (by omega)
    omega
  obtain ⟨E1, eE1, lE1, gE1⟩ := init_error_loop2_spec P e_block hEl (P.ERROR_WEIGHT - k') k' z1
    (by omega) (by omega) hrange
  obtain ⟨S, eS, lS, gS⟩ := compute_syndrome_pair P h0 h1 E0 E1 dec.syndrome hv0 hv1
    (by omega) (by omega) hs
  have eW := weight_loop_spec S P.BLOCK_LENGTH (by omega)
  simp only [Option.bind_eq_bind] at ez0 ez1 eW
  have hS : ∀ i, i < P.BLOCK_LENGTH → S.getD i 0 =
      dec.syndrome.getD i 0 ^^^ Hmul P.BLOCK_WEIGHT [h0, h1]
        (fun k x => cyc P.BLOCK_LENGTH ([E0, E1].getD k []) x) i := by
    intro i hi
    rw [gS i, if_pos hi]
  cases hOu : P.OUROBOROS with
  | false =>
    refine ⟨E0, E1, S, ?_, lS, fun i hi => ?_⟩
    · simp only [init_decoder_error, hrows, erows, hes, INDEX, forUpTo, Option.bind_eq_bind,
        Option.some_bind, List.getElem?_cons_zero, List.getElem?_cons_succ,
        List.set_cons_zero, List.set_cons_succ, hOu, ez0, ez1, eE0, eE1, eS, eW,
        List.map_cons, List.map_nil]
      rfl
    · rw [hS i hi]
      unfold side_error
      rw [hOu]
      simp
  | true =>
    cases e2 with
    | none =>
      refine ⟨E0, E1, S, ?_, lS, fun i hi => ?_⟩
      · simp only [init_decoder_error, hrows, erows, hes, INDEX, forUpTo,
          Option.bind_eq_bind, Option.some_bind, List.getElem?_cons_zero,
          List.getElem?_cons_succ, List.set_cons_zero, List.set_cons_succ, hOu, ez0, ez1,
          eE0, eE1, eS, eW, List.map_cons, List.map_nil]
        rfl
      · rw [hS i hi]
        unfold side_error
        rw [hOu]
        simp
    | some l =>
      obtain ⟨hl1, hl2⟩ := h2 hOu l rfl
      obtain ⟨S2, eS2, lS2, gS2⟩ := forUpTo_toggle_spec l P.SYNDROME_STOP S hl1
        (fun p hp => by rw [lS]; exact hl2 p hp)
      have eW2 := weight_loop_spec S2 P.BLOCK_LENGTH (by omega)
      simp only [Option.bind_eq_bind] at eS2 eW2
      refine ⟨E0, E1, S2, ?_, by omega, fun i hi => ?_⟩
      · simp only [init_decoder_error, hrows, erows, hes, INDEX, forUpTo,
          Option.bind_eq_bind, Option.some_bind, List.getElem?_cons_zero,
          List.getElem?_cons_succ, List.set_cons_zero, List.set_cons_succ, hOu, ez0, ez1,
          eE0, eE1, eS, eS2, eW2, List.map_cons, List.map_nil]
        rfl
      · rw [gS2 i, hS i hi]
        unfold side_error
        rw [hOu]
        rfl

theorem side_error_le_one (P : Params) (e2 : Option (List Int)) (i : Nat) :
    side_error P e2 i ≤ 1 := by
  unfold side_error
  split
  · split
    · exact xorUpTo_le_one _ _ (fun k => by split <;> omega)
    · omega
  · omega

theorem side_error_standard (P : Params) (e2 : Option (List Int)) (hO : P.OUROBOROS = false)
    (i : Nat) : side_error P e2 i = 0 := by
  unfold side_error
  rw [hO]
  rfl

/-- After `reset_decoder` and `init_decoder_error`, in both build modes, the decoder is
well formed, no bit is flipped, and the syndrome invariants hold with the syndrome-side
error of `e2_block`. -/
theorem init_wellformed_with (P : Params) (dec0 : decoder) (H : List (List Int))
    (e_block : List Int) (e2 : Option (List Int))
    (hW : 0 < P.BLOCK_WEIGHT) (hW255 : P.BLOCK_WEIGHT ≤ 255)
    (hA : Allocated P dec0) (hH : ValidH P H) (hE : ValidError P e_block)
    (h2 : P.OUROBOROS = true → ∀ l, e2 = some l → P.SYNDROME_STOP ≤ l.length ∧
      ∀ p ∈ l, 0 ≤ p ∧ p < (P.bufLen : Int)) :
    ∃ dec1 dec2, reset_decoder P dec0 = some dec1 ∧
      init_decoder_error P dec1 H e_block e2 = some dec2 ∧
      WellFormed P dec2 ∧ StrongWith P (side_error P e2) dec2 ∧ dec2.Hcolumns = H ∧
      (∀ p, bitAt P.BLOCK_LENGTH dec2.bits p = 0) ∧ dec2.fl.length = 0 := by
  have hbuf := bufLen_ge P
  have hA1 := allocated_reset P dec0 hA
  obtain ⟨a1, a2, a3, a4, a5, a6, a7, a8, a9, a10, a11, a12⟩ := hA
  have h2' : P.OUROBOROS = true → ∀ l, e2 = some l → P.SYNDROME_STOP ≤ l.length ∧
      ∀ p ∈ l, 0 ≤ p ∧ p < (((List.replicate P.bufLen 0 : List Nat).length : Nat) : Int) := by
    intro hO l hl
    rw [List.length_replicate]
    exact h2 hO l hl
  obtain ⟨E0, E1, S, e, lS, gS⟩ :=
    init_decoder_error_full P _ H e_block e2 hW hH hE hA1.2.2.2.2.2.2.2.1
      hA1.2.2.2.2.2.2.2.2.1 hA1.2.2.1 (fun b hb => by rw [hA1.2.2.2.1 b hb]; omega)
      (by rw [hA1.2.2.2.2.2.2.1]; omega) h2'
  obtain ⟨dec', E0', E1', e', hde, _, _, g0, g1⟩ :=
    init_decoder_error_e P _ H e_block e2 hW hH hE hA1.2.2.2.2.2.2.2.1
      hA1.2.2.2.2.2.2.2.2.1 hA1.2.2.1 (fun b hb => by rw [hA1.2.2.2.1 b hb]; omega)
      (by rw [hA1.2.2.2.2.2.2.1]; omega) h2'
  rw [e] at e'
  cases e'
  have hE01 : [E0, E1] = [E0', E1'] := hde
  have hE0 : E0 = E0' := by injection hE01
  have hE1 : E1 = E1' := by
    injection hE01 with _ h
    injection h
  subst hE0 hE1
  have hS0 : ∀ i, i < P.BLOCK_LENGTH → S.getD i 0 = Hmul P.BLOCK_WEIGHT H
      (fun k x => cyc P.BLOCK_LENGTH ([E0, E1].getD k []) x) i ^^^ side_error P e2 i := by
    intro i hi
    rw [gS i hi]
    show (List.replicate P.bufLen 0).getD i 0 ^^^ _ ^^^ _ = _
    rw [getD_replicate_zero, Nat.zero_xor]
  have hN := validH_pos P H hH hW
  have hS01 : ∀ i, i < P.BLOCK_LENGTH → S.getD i 0 ≤ 1 := by
    intro i hi
    rw [hS0 i hi]
    refine xor_le_one _ _ (Hmul_le_one _ _ _ ?_ _) (side_error_le_one _ _ _)
    intro k x
    have hk : ∀ v : List Nat, (∀ j, j < P.BLOCK_LENGTH → v.getD j 0 ≤ 1) →
        cyc P.BLOCK_LENGTH v x ≤ 1 := fun v hv => cyc_le_one _ hN v hv x
    match k with
    | 0 => exact hk E0 (fun j hj => by rw [g0 j, if_pos hj]; split <;> omega)
    | 1 => exact hk E1 (fun j hj => by rw [g1 j, if_pos hj]; split <;> omega)
    | k + 2 => simp [cyc]
  refine ⟨_, _, reset_decoder_spec P dec0 ⟨a1, a2, a3, a4, a5, a6, a7, a8, a9, a10, a11, a12⟩,
    e, ⟨⟨hH, rfl, ?_, rfl, ?_, a5, ?_, ?_⟩, [], ?_, ?_⟩, ⟨⟨hW255, hS01, ?_⟩, ?_⟩, rfl, ?_, rfl⟩
  · show 2 * P.BLOCK_LENGTH ≤ S.length
    rw [lS]
    show 2 * P.BLOCK_LENGTH ≤ (List.replicate P.bufLen 0).length
    rw [List.length_replicate]
    exact hbuf
  · intro b hb
    have hb' : b ∈ [List.replicate P.bufLen 0, List.replicate P.bufLen 0] := hb
    simp only [List.mem_cons, List.mem_singleton, List.not_mem_nil, or_false] at hb'
    rcases hb' with rfl | rfl <;> rw [List.length_replicate] <;> omega
  · intro c hc
    rw [a6 c hc]
    omega
  · intro p _
    show bitAt _ [List.replicate P.bufLen 0, List.replicate P.bufLen 0] p ≤ 1
    rw [bitAt_zero]
    omega
  · exact isList_empty _ dec0.fl a11 a12 a10
  · intro p _
    show p ∈ [] ↔ bitAt _ [List.replicate P.bufLen 0, List.replicate P.bufLen 0] p = 1
    rw [bitAt_zero]
    simp
  · show ((sumUpTo P.BLOCK_LENGTH (fun j => S.getD j 0) : Nat) : Int) = _
    rw [popcount_eq_sum _ _ hS01]
  · intro i hi
    show S.getD i 0 = Hmul P.BLOCK_WEIGHT H (fun k x =>
      cyc P.BLOCK_LENGTH ([E0, E1].getD k []) x ^^^
      cyc P.BLOCK_LENGTH ([List.replicate P.bufLen 0, List.replicate P.bufLen 0].getD k []) x) i
      ^^^ side_error P e2 i
    rw [hS0 i hi]
    simp only [cyc_zero, Nat.xor_zero]
  · intro p
    show bitAt _ [List.replicate P.bufLen 0, List.replicate P.bufLen 0] p = 0
    exact bitAt_zero _ _ _

/-- The weight of a syndrome that equals the syndrome-side error on `[0, N)`:
`SYNDROME_STOP`, when in Ouroboros mode `e2_block` holds `SYNDROME_STOP` distinct
positions of `[0, N)`. -/
theorem popcount_side_error (P : Params) (e2 : Option (List Int)) (s : List Nat)
    (h2 : P.OUROBOROS = true → ∃ l, e2 = some l ∧ l.length = P.SYNDROME_STOP ∧ l.Nodup ∧
      ∀ p ∈ l, 0 ≤ p ∧ p < (P.BLOCK_LENGTH : Int))
    (hs : ∀ i, i < P.BLOCK_LENGTH → s.getD i 0 = side_error P e2 i) :
    popcount P.BLOCK_LENGTH s = P.SYNDROME_STOP := by
  cases hO : P.OUROBOROS with
  | false =>
    rw [standard_stop P hO]
    exact popcount_zero _ _ (fun i hi => by rw [hs i hi, side_error_standard P e2 hO])
  | true =>
    obtain ⟨l, rfl, hlen, hnd, hb⟩ := h2 hO
    have hE : ∀ j, j < P.BLOCK_LENGTH →
        s.getD j 0 = if (0 : Int) + (j : Int) ∈ l then 1 else 0 := by
      intro j hj
      rw [hs j hj]
      unfold side_error
      rw [hO]
      simp only [if_true]
      rw [xorUpTo_indicator (fun k => l.getD k 0 = (j : Int)) P.SYNDROME_STOP (by
        intro a b ha hb' pa pb
        have hab : l.getD a 0 = l.getD b 0 := pa.trans pb.symm
        have ha' : a < l.length := by omega
        have hb'' : b < l.length := by omega
        rw [List.getD_eq_getElem _ _ ha', List.getD_eq_getElem l 0 hb''] at hab
        exact (List.Nodup.getElem_inj_iff hnd).1 hab)]
      refine if_congr ?_ rfl rfl
      rw [exists_getD_iff_mem l P.SYNDROME_STOP hlen, Int.zero_add]
    rw [popcount_indicator P.BLOCK_LENGTH 0 l s hnd hE, List.filter_eq_self.2, hlen]
    intro x hx
    have := hb x hx
    simp only [decide_eq_true_eq]
    omega

/-! ## The loop stops when the estimate equals the error -/

/-- On a state that satisfies the syndrome invariants, if the estimate equals the error
then the syndrome is the syndrome-side error and its weight is `SYNDROME_STOP`. -/
theorem equal_bits_weight (P : Params) (e2 : Option (List Int)) (dec : decoder)
    (hN : 0 < P.BLOCK_LENGTH)
    (h2 : P.OUROBOROS = true → ∃ l, e2 = some l ∧ l.length = P.SYNDROME_STOP ∧ l.Nodup ∧
      ∀ p ∈ l, 0 ≤ p ∧ p < (P.BLOCK_LENGTH : Int))
    (hstr : StrongWith P (side_error P e2) dec) (heq : BitsEqualError P dec) :
    (∀ i, i < P.BLOCK_LENGTH → dec.syndrome.getD i 0 = side_error P e2 i) ∧
    dec.syndrome_weight = (P.SYNDROME_STOP : Int) := by
  have hs : ∀ i, i < P.BLOCK_LENGTH → dec.syndrome.getD i 0 = side_error P e2 i := by
    intro i hi
    rw [hstr.2 i hi, Hmul_equal_bits P hN dec heq i, Nat.zero_xor]
  refine ⟨hs, ?_⟩
  have hw := hstr.1.2.2
  unfold WeightInv at hw
  rw [hw, popcount_side_error P e2 dec.syndrome h2 hs]

/-- The main loop leaves at once a state whose syndrome weight is `SYNDROME_STOP`. -/
theorem decode_loop_at_stop (P : Params) (oracle : Nat → Nat → Nat) (fuel : Nat)
    (max_iter : Int) (st : decoder × Nat × Bool)
    (h : st.1.syndrome_weight = (P.SYNDROME_STOP : Int)) (n : Nat) :
    decode_loop P oracle fuel max_iter n st = some st := by
  cases n with
  | zero =>
    unfold decode_loop
    rw [if_neg (fun hc => hc.2 h)]
  | succ n =>
    unfold decode_loop
    rw [if_neg (fun hc => hc.2 h)]

/-- C21: in both build modes, for an allocated decoder, a valid `H`, a valid error
pattern and, in Ouroboros mode, an `e2_block` of `SYNDROME_STOP = ERROR_WEIGHT / 2`
distinct positions of `[0, N)`:
(1) the state left by `reset_decoder` and `init_decoder_error` is well formed and
satisfies the syndrome invariants `syndrome = H · (e XOR bits) XOR e2`, 0/1 entries,
`syndrome_weight = popcount(syndrome)`;
(2) one iteration of the main loop, from any well-formed state satisfying these
invariants, returns such a state again with the same `H` and `e`, so they hold at
every evaluation of the loop condition;
(3) in any state satisfying these invariants in which the estimate equals the error
on `[0, N)` of both blocks, `syndrome_weight = SYNDROME_STOP` (0 in standard mode,
`ERROR_WEIGHT / 2` in Ouroboros mode), the loop returns this very state for every
bound on its iterations and every value of its locals, and the value of the `return`
statement is 1;
(4) the call of `qcmdpc_decode_ttl` on the initial state returns, and returns 1 when
the final estimate equals the error. -/
theorem equal_bits_stop (P : Params) (dec0 : decoder) (H : List (List Int))
    (e_block : List Int) (e2 : Option (List Int)) (oracle : Nat → Nat → Nat)
    (fuel : Nat) (max_iter : Int)
    (hW : 0 < P.BLOCK_WEIGHT) (hW255 : P.BLOCK_WEIGHT ≤ 255)
    (hA : Allocated P dec0) (hH : ValidH P H) (hE : ValidError P e_block)
    (h2 : P.OUROBOROS = true → ∃ l, e2 = some l ∧ l.length = P.SYNDROME_STOP ∧ l.Nodup ∧
      ∀ p ∈ l, 0 ≤ p ∧ p < (P.BLOCK_LENGTH : Int))
    (hfuel : INDEX * P.BLOCK_LENGTH ≤ fuel) :
    (P.OUROBOROS = false → P.SYNDROME_STOP = 0) ∧
    (P.OUROBOROS = true → P.SYNDROME_STOP = P.ERROR_WEIGHT / 2) ∧
    (∃ dec1 dec2, reset_decoder P dec0 = some dec1 ∧
      init_decoder_error P dec1 H e_block e2 = some dec2 ∧
      WellFormed P dec2 ∧ StrongWith P (side_error P e2) dec2 ∧
      ∃ dec' r, qcmdpc_decode_ttl P oracle fuel dec2 max_iter = some (dec', r) ∧
        WellFormed P dec' ∧ StrongWith P (side_error P e2) dec' ∧
        (r = 1 ↔ dec'.syndrome_weight = (P.SYNDROME_STOP : Int)) ∧
        (BitsEqualError P dec' → r = 1)) ∧
    (∀ st : decoder × Nat × Bool, WellFormed P st.1 → StrongWith P (side_error P e2) st.1 →
      ∃ st', decode_iteration P oracle fuel st = some st' ∧ WellFormed P st'.1 ∧
        StrongWith P (side_error P e2) st'.1 ∧ st'.1.Hcolumns = st.1.Hcolumns ∧
        st'.1.e = st.1.e ∧ st'.1.iter = st.1.iter + 1) ∧
    (∀ st : decoder × Nat × Bool, StrongWith P (side_error P e2) st.1 →
      BitsEqualError P st.1 →
      st.1.syndrome_weight = (P.SYNDROME_STOP : Int) ∧
      (∀ i, i < P.BLOCK_LENGTH → st.1.syndrome.getD i 0 = side_error P e2 i) ∧
      (∀ n, decode_loop P oracle fuel max_iter n st = some st) ∧
      (if st.1.syndrome_weight = (P.SYNDROME_STOP : Int) then (1 : Int) else 0) = 1) := by
  have hN := validH_pos P H hH hW
  have hbuf := bufLen_ge P
  have h2' : P.OUROBOROS = true → ∀ l, e2 = some l → P.SYNDROME_STOP ≤ l.length ∧
      ∀ p ∈ l, 0 ≤ p ∧ p < (P.bufLen : Int) := by
    intro hO l hl
    obtain ⟨l', hl', hlen, _, hb⟩ := h2 hO
    rw [hl] at hl'
    cases hl'
    exact ⟨by omega, fun p hp => ⟨(hb p hp).1, by have := (hb p hp).2; omega⟩⟩
  have hK := flipKept_strongWith P (side_error P e2)
  have hstopfacts : ∀ d : decoder, StrongWith P (side_error P e2) d → BitsEqualError P d →
      d.syndrome_weight = (P.SYNDROME_STOP : Int) := fun d hs he =>
    (equal_bits_weight P e2 d hN h2 hs he).2
  refine ⟨fun h => standard_stop P h,
    fun h => by unfold Params.SYNDROME_STOP; rw [h]; rfl, ?_, ?_, ?_⟩
  · obtain ⟨dec1, dec2, e1, e2', hwf, hstr, _, _, _⟩ :=
      init_wellformed_with P dec0 H e_block e2 hW hW255 hA hH hE h2'
    obtain ⟨dec', r, e, hwf', hstr', hr⟩ :=
      qcmdpc_decode_ttl_keeps P _ hK oracle fuel hfuel dec2 max_iter hwf hstr
    have hiff : r = 1 ↔ dec'.syndrome_weight = (P.SYNDROME_STOP : Int) := by
      rw [hr]
      by_cases hc : dec'.syndrome_weight = (P.SYNDROME_STOP : Int)
      · rw [if_pos hc]; exact ⟨fun _ => hc, fun _ => rfl⟩
      · rw [if_neg hc]; exact ⟨fun h => absurd h (by decide), fun h => absurd h hc⟩
    exact ⟨dec1, dec2, e1, e2', hwf, hstr, dec', r, e, hwf', hstr', hiff,
      fun he => hiff.2 (hstopfacts dec' hstr' he)⟩
  · intro st hwf hstr
    obtain ⟨st', e, hwf', hfr, hstr'⟩ :=
      decode_iteration_keeps P _ hK oracle fuel hfuel st hwf hstr
    exact ⟨st', e, hwf', hstr', congrArg (fun x => x.1) hfr, congrArg (fun x => x.2.1) hfr,
      congrArg (fun x => x.2.2) hfr⟩
  · intro st hstr he
    have hw := hstopfacts st.1 hstr he
    exact ⟨hw, (equal_bits_weight P e2 st.1 hN h2 hstr he).1,
      fun n => decode_loop_at_stop P oracle fuel max_iter st hw n, by rw [if_pos hw]⟩

theorem ouroboros_allocated : Allocated ouroborosParams witnessDecoder :=
  allocated_of_eq witnessParams ouroborosParams witnessDecoder rfl rfl witnessDecoder_allocated

theorem equal_bits_stop_witness :
    (ouroborosParams.OUROBOROS = false → ouroborosParams.SYNDROME_STOP = 0) ∧
    (ouroborosParams.OUROBOROS = true →
      ouroborosParams.SYNDROME_STOP = ouroborosParams.ERROR_WEIGHT / 2) ∧
    (∃ dec1 dec2, reset_decoder ouroborosParams witnessDecoder = some dec1 ∧
      init_decoder_error ouroborosParams dec1 [[0, 1], [1, 2]] [1, 4] (some [2]) = some dec2 ∧
      WellFormed ouroborosParams dec2 ∧
      StrongWith ouroborosParams (side_error ouroborosParams (some [2])) dec2 ∧
      ∃ dec' r, qcmdpc_decode_ttl ouroborosParams (fun _ _ => 2) 6 dec2 3 = some (dec', r) ∧
        WellFormed ouroborosParams dec' ∧
        StrongWith ouroborosParams (side_error ouroborosParams (some [2])) dec' ∧
        (r = 1 ↔ dec'.syndrome_weight = (ouroborosParams.SYNDROME_STOP : Int)) ∧
        (BitsEqualError ouroborosParams dec' → r = 1)) ∧
    (∀ st : decoder × Nat × Bool, WellFormed ouroborosParams st.1 →
      StrongWith ouroborosParams (side_error ouroborosParams (some [2])) st.1 →
      ∃ st', decode_iteration ouroborosParams (fun _ _ => 2) 6 st = some st' ∧
        WellFormed ouroborosParams st'.1 ∧
        StrongWith ouroborosParams (side_error ouroborosParams (some [2])) st'.1 ∧
        st'.1.Hcolumns = st.1.Hcolumns ∧ st'.1.e = st.1.e ∧ st'.1.iter = st.1.iter + 1) ∧
    (∀ st : decoder × Nat × Bool,
      StrongWith ouroborosParams (side_error ouroborosParams (some [2])) st.1 →
      BitsEqualError ouroborosParams st.1 →
      st.1.syndrome_weight = (ouroborosParams.SYNDROME_STOP : Int) ∧
      (∀ i, i < ouroborosParams.BLOCK_LENGTH →
        st.1.syndrome.getD i 0 = side_error ouroborosParams (some [2]) i) ∧
      (∀ n, decode_loop ouroborosParams (fun _ _ => 2) 6 3 n st = some st) ∧
      (if st.1.syndrome_weight = (ouroborosParams.SYNDROME_STOP : Int) then (1 : Int) else 0)
        = 1) :=
  equal_bits_stop ouroborosParams witnessDecoder [[0, 1], [1, 2]] [1, 4] (some [2])
    (fun _ _ => 2) 6 3 (by decide) (by decide) ouroboros_allocated witnessH_valid
    witnessError_valid
    (fun _ => ⟨[2], rfl, by decide, by decide, by decide⟩) (by decide)

/-! ## Invariants of the run in both build modes -/

/-- C2 (weight invariant), in both build modes: starting from `reset_decoder` followed
by `init_decoder_error` (allocated decoder, valid `H` and error pattern; in Ouroboros
mode a non-null `e2_block` holds `SYNDROME_STOP` positions inside the syndrome
buffer), `syndrome_weight` equals the number of indices `i < N` with
`syndrome[i] = 1`
(1) right after `init_decoder_error`, which tallies the weight after the XOR of
`e2_block`, and in the state returned by `qcmdpc_decode_ttl` for every `max_iter`,
that is after every iteration; both states are well formed and satisfy `WeightOk`
(0/1 entries on `[0, N)` and the weight equation);
(2) after every flip: one step `scan_step` of the flip scan, at any position and for
any threshold, maps a well-formed state satisfying `WeightOk` to a well-formed state
satisfying `WeightOk`;
(3) after every expiry: one step `sweep_step` of the expiry sweep, at any linked
position and for any ring slot, does the same;
(4) after every iteration: one iteration `decode_iteration` of the main loop, for
any values of the locals, does the same.
By (1) the run starts in such a state and by (2), (3) and (4) every flip, every
expiry and every iteration of the run leads to such a state again. Nothing depends on
the build mode nor on the relation between the syndrome and the error. -/
theorem weight_invariant (P : Params) (dec0 : decoder) (H : List (List Int))
    (e_block : List Int) (e2 : Option (List Int)) (oracle : Nat → Nat → Nat)
    (fuel : Nat) (max_iter : Int)
    (hW : 0 < P.BLOCK_WEIGHT) (hW255 : P.BLOCK_WEIGHT ≤ 255)
    (hA : Allocated P dec0) (hH : ValidH P H) (hE : ValidError P e_block)
    (h2 : P.OUROBOROS = true → ∀ l, e2 = some l → P.SYNDROME_STOP ≤ l.length ∧
      ∀ p ∈ l, 0 ≤ p ∧ p < (P.bufLen : Int))
    (hfuel : INDEX * P.BLOCK_LENGTH ≤ fuel) :
    (∃ dec1 dec2 dec' r, reset_decoder P dec0 = some dec1 ∧
      init_decoder_error P dec1 H e_block e2 = some dec2 ∧
      dec2.syndrome_weight = ((popcount P.BLOCK_LENGTH dec2.syndrome : Nat) : Int) ∧
      WellFormed P dec2 ∧ WeightOk P dec2 ∧
      qcmdpc_decode_ttl P oracle fuel dec2 max_iter = some (dec', r) ∧
      dec'.syndrome_weight = ((popcount P.BLOCK_LENGTH dec'.syndrome : Nat) : Int) ∧
      WellFormed P dec' ∧ WeightOk P dec') ∧
    (∀ (st : decoder × Bool) (threshold k j : Nat), WellFormed P st.1 → WeightOk P st.1 →
      k < INDEX → j < P.BLOCK_LENGTH →
      ∃ st', scan_step P threshold k j st = some st' ∧ WellFormed P st'.1 ∧
        WeightOk P st'.1 ∧
        st'.1.syndrome_weight = ((popcount P.BLOCK_LENGTH st'.1.syndrome : Nat) : Int)) ∧
    (∀ (st : decoder × Bool) (current_iter pos : Nat), WellFormed P st.1 → WeightOk P st.1 →
      pos < INDEX * P.BLOCK_LENGTH → bitAt P.BLOCK_LENGTH st.1.bits pos = 1 →
      ∃ res, sweep_step P current_iter (pos : Int) st = some res ∧ WellFormed P res.2.1 ∧
        WeightOk P res.2.1 ∧
        res.2.1.syndrome_weight =
          ((popcount P.BLOCK_LENGTH res.2.1.syndrome : Nat) : Int)) ∧
    (∀ (st : decoder × Nat × Bool), WellFormed P st.1 → WeightOk P st.1 →
      ∃ st', decode_iteration P oracle fuel st = some st' ∧ WellFormed P st'.1 ∧
        WeightOk P st'.1 ∧
        st'.1.syndrome_weight =
          ((popcount P.BLOCK_LENGTH st'.1.syndrome : Nat) : Int)) := by
  have hK := flipKept_weight P
  refine ⟨?_, ?_, ?_, ?_⟩
  · obtain ⟨dec1, dec2, e1, e2', hwf, hstrong, _⟩ :=
      init_wellformed_with P dec0 H e_block e2 hW hW255 hA hH hE h2
    obtain ⟨dec', r, e3, hwf', hs, _⟩ :=
      qcmdpc_decode_ttl_keeps P (WeightOk P) hK oracle fuel hfuel dec2 max_iter hwf hstrong.1
    exact ⟨dec1, dec2, dec', r, e1, e2', hstrong.1.2.2, hwf, hstrong.1, e3, hs.2.2, hwf', hs⟩
  · intro st threshold k j hwf hst hk hj
    obtain ⟨st', e, hwf', _⟩ := scan_step_detail P threshold k j hk hj st hwf
    have hs' := scan_step_keeps P (WeightOk P) hK threshold k j st st' hk hj hwf hst e
    exact ⟨st', e, hwf', hs', hs'.2.2⟩
  · intro st current_iter pos hwf hst hpos hbit
    obtain ⟨res, e, hwf', _⟩ :=
      sweep_step_wf P current_iter False pos st hwf (fun h => h.elim) hpos hbit
    have hs' := sweep_step_keeps P (WeightOk P) hK current_iter pos st res hpos hwf.1 hst e
    exact ⟨res, e, hwf', hs', hs'.2.2⟩
  · intro st hwf hst
    obtain ⟨st', e, hwf', _, hs'⟩ :=
      decode_iteration_keeps P (WeightOk P) hK oracle fuel hfuel st hwf hst
    exact ⟨st', e, hwf', hs', hs'.2.2⟩

set_option maxRecDepth 100000 in
theorem weight_invariant_witness :
    (ouroborosParams.OUROBOROS = true ∧ INDEX * ouroborosParams.BLOCK_LENGTH ≤ 6) ∧
    ((∃ dec1 dec2 dec' r, reset_decoder ouroborosParams witnessDecoder = some dec1 ∧
      init_decoder_error ouroborosParams dec1 [[0, 1], [1, 2]] [1, 4] (some [2]) =
        some dec2 ∧
      dec2.syndrome_weight =
        ((popcount ouroborosParams.BLOCK_LENGTH dec2.syndrome : Nat) : Int) ∧
      WellFormed ouroborosParams dec2 ∧ WeightOk ouroborosParams dec2 ∧
      qcmdpc_decode_ttl ouroborosParams (fun _ _ => 2) 6 dec2 3 = some (dec', r) ∧
      dec'.syndrome_weight =
        ((popcount ouroborosParams.BLOCK_LENGTH dec'.syndrome : Nat) : Int) ∧
      WellFormed ouroborosParams dec' ∧ WeightOk ouroborosParams dec') ∧
    (∀ (st : decoder × Bool) (threshold k j : Nat), WellFormed ouroborosParams st.1 →
      WeightOk ouroborosParams st.1 → k < INDEX → j < ouroborosParams.BLOCK_LENGTH →
      ∃ st', scan_step ouroborosParams threshold k j st = some st' ∧
        WellFormed ouroborosParams st'.1 ∧ WeightOk ouroborosParams st'.1 ∧
        st'.1.syndrome_weight =
          ((popcount ouroborosParams.BLOCK_LENGTH st'.1.syndrome : Nat) : Int)) ∧
    (∀ (st : decoder × Bool) (current_iter pos : Nat), WellFormed ouroborosParams st.1 →
      WeightOk ouroborosParams st.1 → pos < INDEX * ouroborosParams.BLOCK_LENGTH →
      bitAt ouroborosParams.BLOCK_LENGTH st.1.bits pos = 1 →
      ∃ res, sweep_step ouroborosParams current_iter (pos : Int) st = some res ∧
        WellFormed ouroborosParams res.2.1 ∧ WeightOk ouroborosParams res.2.1 ∧
        res.2.1.syndrome_weight =
          ((popcount ouroborosParams.BLOCK_LENGTH res.2.1.syndrome : Nat) : Int)) ∧
    (∀ (st : decoder × Nat × Bool), WellFormed ouroborosParams st.1 →
      WeightOk ouroborosParams st.1 →
      ∃ st', decode_iteration ouroborosParams (fun _ _ => 2) 6 st = some st' ∧
        WellFormed ouroborosParams st'.1 ∧ WeightOk ouroborosParams st'.1 ∧
        st'.1.syndrome_weight =
          ((popcount ouroborosParams.BLOCK_LENGTH st'.1.syndrome : Nat) : Int))) ∧
    ((reset_decoder ouroborosParams witnessDecoder).bind (fun d =>
      init_decoder_error ouroborosParams d [[0, 1], [1, 2]] [1, 4] (some [2]))).map
        (fun d => (d.syndrome_weight, d.syndrome.take 3)) = some (3, [1, 1, 1]) :=
  ⟨⟨rfl, by decide⟩,
    weight_invariant ouroborosParams witnessDecoder [[0, 1], [1, 2]] [1, 4] (some [2])
      (fun _ _ => 2) 6 3 (by decide) (by decide) ouroboros_allocated witnessH_valid
      witnessError_valid
      (fun _ l hl => by
        cases hl
        exact ⟨by decide, by decide⟩)
      (by decide),
    by decide⟩

/-- C18, in both build modes: starting from `reset_decoder` followed by
`init_decoder_error` (allocated decoder, valid `H` and error pattern; in Ouroboros
mode a non-null `e2_block` holds `SYNDROME_STOP` positions inside the syndrome
buffer), every position `p = k * N + j` that is in the flip list (the forward
traversal from `first`) has `bits[k][j] = 1`
(1) in the state left by `init_decoder_error` and in the state returned by
`qcmdpc_decode_ttl`, for every `max_iter`;
(2) after one step `scan_step` of the flip scan, (3) after one step `sweep_step` of
the expiry sweep at a linked position, and (4) after one iteration
`decode_iteration`, each taken from any well-formed state, which they leave well
formed. By (1) the run starts well formed, so by (2), (3) and (4) the property holds
after every flip, every expiry and every iteration of the run. -/
theorem listed_bits_set (P : Params) (dec0 : decoder) (H : List (List Int))
    (e_block : List Int) (e2 : Option (List Int)) (oracle : Nat → Nat → Nat)
    (fuel : Nat) (max_iter : Int)
    (hW : 0 < P.BLOCK_WEIGHT) (hW255 : P.BLOCK_WEIGHT ≤ 255)
    (hA : Allocated P dec0) (hH : ValidH P H) (hE : ValidError P e_block)
    (h2 : P.OUROBOROS = true → ∀ l, e2 = some l → P.SYNDROME_STOP ≤ l.length ∧
      ∀ p ∈ l, 0 ≤ p ∧ p < (P.bufLen : Int))
    (hfuel : INDEX * P.BLOCK_LENGTH ≤ fuel) :
    (∃ dec1 dec2 dec' r, reset_decoder P dec0 = some dec1 ∧
      init_decoder_error P dec1 H e_block e2 = some dec2 ∧
      WellFormed P dec2 ∧ ListedBitsSet P dec2 ∧
      qcmdpc_decode_ttl P oracle fuel dec2 max_iter = some (dec', r) ∧
      WellFormed P dec' ∧ ListedBitsSet P dec') ∧
    (∀ (st : decoder × Bool) (threshold k j : Nat), WellFormed P st.1 →
      k < INDEX → j < P.BLOCK_LENGTH →
      ∃ st', scan_step P threshold k j st = some st' ∧ WellFormed P st'.1 ∧
        ListedBitsSet P st'.1) ∧
    (∀ (st : decoder × Bool) (current_iter pos : Nat), WellFormed P st.1 →
      pos < INDEX * P.BLOCK_LENGTH → bitAt P.BLOCK_LENGTH st.1.bits pos = 1 →
      ∃ res, sweep_step P current_iter (pos : Int) st = some res ∧ WellFormed P res.2.1 ∧
        ListedBitsSet P res.2.1) ∧
    (∀ (st : decoder × Nat × Bool), WellFormed P st.1 →
      ∃ st', decode_iteration P oracle fuel st = some st' ∧ WellFormed P st'.1 ∧
        ListedBitsSet P st'.1) := by
  refine ⟨?_, ?_, ?_, ?_⟩
  · obtain ⟨dec1, dec2, e1, e2', hwf, _, _⟩ :=
      init_wellformed_with P dec0 H e_block e2 hW hW255 hA hH hE h2
    obtain ⟨dec', r, e3, hwf', _⟩ :=
      qcmdpc_decode_ttl_keeps P (fun _ => True) ⟨fun _ _ _ => trivial,
        fun _ _ _ _ _ _ _ _ _ => trivial, fun _ _ _ _ _ _ => trivial⟩ oracle fuel hfuel dec2
        max_iter hwf trivial
    exact ⟨dec1, dec2, dec', r, e1, e2', hwf, wellFormed_listedBitsSet P dec2 hwf, e3, hwf',
      wellFormed_listedBitsSet P dec' hwf'⟩
  · intro st threshold k j hwf hk hj
    obtain ⟨st', e, hwf', _⟩ := scan_step_detail P threshold k j hk hj st hwf
    exact ⟨st', e, hwf', wellFormed_listedBitsSet P _ hwf'⟩
  · intro st current_iter pos hwf hpos hbit
    obtain ⟨res, e, hwf', _⟩ :=
      sweep_step_wf P current_iter False pos st hwf (fun h => h.elim) hpos hbit
    exact ⟨res, e, hwf', wellFormed_listedBitsSet P _ hwf'⟩
  · intro st hwf
    obtain ⟨st', e, hwf', _⟩ :=
      decode_iteration_spec P oracle fuel False st hfuel hwf (fun h => h.elim)
    exact ⟨st', e, hwf', wellFormed_listedBitsSet P _ hwf'⟩

set_option maxRecDepth 100000 in
theorem listed_bits_set_witness :
    (ouroborosParams.OUROBOROS = true ∧ INDEX * ouroborosParams.BLOCK_LENGTH ≤ 6) ∧
    ((∃ dec1 dec2 dec' r, reset_decoder ouroborosParams witnessDecoder = some dec1 ∧
      init_decoder_error ouroborosParams dec1 [[0, 1], [1, 2]] [1, 4] (some [2]) =
        some dec2 ∧
      WellFormed ouroborosParams dec2 ∧ ListedBitsSet ouroborosParams dec2 ∧
      qcmdpc_decode_ttl ouroborosParams (fun _ _ => 2) 6 dec2 3 = some (dec', r) ∧
      WellFormed ouroborosParams dec' ∧ ListedBitsSet ouroborosParams dec') ∧
    (∀ (st : decoder × Bool) (threshold k j : Nat), WellFormed ouroborosParams st.1 →
      k < INDEX → j < ouroborosParams.BLOCK_LENGTH →
      ∃ st', scan_step ouroborosParams threshold k j st = some st' ∧
        WellFormed ouroborosParams st'.1 ∧ ListedBitsSet ouroborosParams st'.1) ∧
    (∀ (st : decoder × Bool) (current_iter pos : Nat), WellFormed ouroborosParams st.1 →
      pos < INDEX * ouroborosParams.BLOCK_LENGTH →
      bitAt ouroborosParams.BLOCK_LENGTH st.1.bits pos = 1 →
      ∃ res, sweep_step ouroborosParams current_iter (pos : Int) st = some res ∧
        WellFormed ouroborosParams res.2.1 ∧ ListedBitsSet ouroborosParams res.2.1) ∧
    (∀ (st : decoder × Nat × Bool), WellFormed ouroborosParams st.1 →
      ∃ st', decode_iteration ouroborosParams (fun _ _ => 2) 6 st = some st' ∧
        WellFormed ouroborosParams st'.1 ∧ ListedBitsSet ouroborosParams st'.1)) ∧
    (((reset_decoder ouroborosParams witnessDecoder).bind (fun d =>
      init_decoder_error ouroborosParams d [[0, 1], [1, 2]] [1, 4] (some [2]))).bind
        (fun d => qcmdpc_decode_ttl ouroborosParams (fun _ _ => 2) 6 d 1)).map
      (fun r => (flip_list_nodes ouroborosParams r.1, r.1.bits.map (fun b => b.take 3))) =
      some (some [5, 4, 3, 2, 1, 0], [[1, 1, 1], [1, 1, 1]]) :=
  ⟨⟨rfl, by decide⟩,
    listed_bits_set ouroborosParams witnessDecoder [[0, 1], [1, 2]] [1, 4] (some [2])
      (fun _ _ => 2) 6 3 (by decide) (by decide) ouroboros_allocated witnessH_valid
      witnessError_valid
      (fun _ l hl => by
        cases hl
        exact ⟨by decide, by decide⟩)
      (by decide),
    by decide⟩

/-- The decoder state computed by `sweep_visits` is the one computed by `sweep_loop`. -/
theorem sweep_visits_state (P : Params) (cur : Nat) :
    ∀ (fuel : Nat) (pos : Int) (st : decoder × Bool),
    (sweep_visits P cur fuel pos st).map (fun v => v.2) = sweep_loop P cur fuel pos st := by
  intro fuel
  induction fuel with
  | zero =>
    intro pos st
    unfold sweep_visits sweep_loop
    split <;> rfl
  | succ f ih =>
    intro pos st
    unfold sweep_visits sweep_loop
    by_cases hp : pos ≠ -1
    · rw [if_pos hp, if_pos hp]
      cases hstep : sweep_step P cur pos st with
      | none => rfl
      | some r =>
        rw [Option.some_bind, Option.some_bind, ← ih r.1 r.2, Option.map_map]
        rfl
    · rw [if_neg hp, if_neg hp]
      rfl

/-- Started on the part `rest` of the list, the loop of the expiry sweep examines the
nodes of `rest`, each once and in order. -/
theorem sweep_visits_list (P : Params) (cur : Nat) :
    ∀ (rest kept : List Nat) (fuel : Nat) (st : decoder × Bool),
    rest.length ≤ fuel → Shape P st.1 →
    IsList (INDEX * P.BLOCK_LENGTH) st.1.fl (kept ++ rest) →
    (∀ p, p < INDEX * P.BLOCK_LENGTH →
      (p ∈ kept ++ rest ↔ bitAt P.BLOCK_LENGTH st.1.bits p = 1)) →
    (sweep_visits P cur fuel (hd rest) st).map (fun v => v.1) =
      some (rest.map (fun p => (p : Int))) := by
  intro rest
  induction rest with
  | nil =>
    intro kept fuel st _ _ _ _
    cases fuel with
    | zero => simp [sweep_visits, hd]
    | succ f => simp [sweep_visits, hd]
  | cons r rest ih =>
    intro kept fuel st hfuel hS hl hlink
    cases fuel with
    | zero => simp at hfuel
    | succ f =>
      have hne : (r : Int) ≠ -1 := by omega
      obtain ⟨st1, e1, hS1, hl1, hlink1, _⟩ :=
        sweep_step_detail P cur kept rest r st hS hl hlink
      have hrec := ih _ f st1 (by simpa using hfuel) hS1 hl1 hlink1
      show (sweep_visits P cur (f + 1) (r : Int) st).map (fun v => v.1) = _
      unfold sweep_visits
      rw [if_pos hne, e1, Option.some_bind, Option.map_map]
      obtain ⟨v, hv, hv1⟩ := Option.map_eq_some'.1 hrec
      rw [hv]
      show some ((r : Int) :: v.1) = _
      rw [hv1]
      rfl
theorem flip_column_counters (P : Params) (dec : decoder) (c : List (List Nat)) (k : Nat)
    (j : Int) :
    flip_column P { dec with counters := c } k j =
      (flip_column P dec k j).map (fun d => { d with counters := c }) := by
  unfold flip_column
  simp only [Option.bind_eq_bind]
  cases dec.Hcolumns[k]? with
  | none => rfl
  | some col =>
    simp only [Option.some_bind]
    cases single_counter P col j dec.syndrome with
    | none => rfl
    | some cnt =>
      simp only [Option.some_bind]
      cases single_flip P col j dec.syndrome with
      | none => rfl
      | some s =>
        simp only [Option.some_bind]
        cases dec.bits[k]? with
        | none => rfl
        | some bk =>
          simp only [Option.some_bind]
          cases rd bk j with
          | none => rfl
          | some b =>
            simp only [Option.some_bind]
            cases wr bk j (b ^^^ 1) with
            | none => rfl
            | some bk' => rfl

theorem sweep_step_counters (P : Params) (cur : Nat) (pos : Int) (st : decoder × Bool)
    (c : List (List Nat)) :
    sweep_step P cur pos ({ st.1 with counters := c }, st.2) =
      (sweep_step P cur pos st).map
        (fun r => (r.1, ({ r.2.1 with counters := c }, r.2.2))) := by
  unfold sweep_step
  simp only [Option.bind_eq_bind]
  cases rd st.1.fl.tod pos with
  | none => rfl
  | some tod =>
    simp only [Option.some_bind]
    by_cases hc : tod = cur
    · simp only [if_pos hc]
      rw [flip_column_counters]
      cases flip_column P st.1
          (if pos ≥ (P.BLOCK_LENGTH : Int) then ((1 : Nat), pos - (P.BLOCK_LENGTH : Int))
            else ((0 : Nat), pos)).1
          (if pos ≥ (P.BLOCK_LENGTH : Int) then ((1 : Nat), pos - (P.BLOCK_LENGTH : Int))
            else ((0 : Nat), pos)).2 with
      | none => rfl
      | some d =>
        simp only [Option.map_some', Option.some_bind]
        cases fl_remove d.fl pos with
        | none => rfl
        | some fl =>
          simp only [Option.some_bind]
          cases rd fl.next pos with
          | none => rfl
          | some nx => rfl
    · simp only [if_neg hc, Option.some_bind]
      cases rd st.1.fl.next pos with
      | none => rfl
      | some nx => rfl

theorem sweep_loop_counters (P : Params) (cur : Nat) (c : List (List Nat)) :
    ∀ (fuel : Nat) (pos : Int) (st : decoder × Bool),
    sweep_loop P cur fuel pos ({ st.1 with counters := c }, st.2) =
      (sweep_loop P cur fuel pos st).map (fun r => ({ r.1 with counters := c }, r.2)) := by
  intro fuel
  induction fuel with
  | zero =>
    intro pos st
    unfold sweep_loop
    split <;> rfl
  | succ f ih =>
    intro pos st
    unfold sweep_loop
    by_cases hp : pos ≠ -1
    · rw [if_pos hp, if_pos hp, sweep_step_counters]
      cases sweep_step P cur pos st with
      | none => rfl
      | some r =>
        simp only [Option.map_some', Option.some_bind]
        exact ih r.1 r.2
    · rw [if_neg hp, if_neg hp]
      rfl

/-- The expiry sweep does not read the array `counters`: with other counters it makes
the same changes. -/
theorem expiry_sweep_counters (P : Params) (fuel : Nat) (st : decoder × Bool)
    (c : List (List Nat)) :
    expiry_sweep P fuel ({ st.1 with counters := c }, st.2) =
      (expiry_sweep P fuel st).map (fun r => ({ r.1 with counters := c }, r.2)) := by
  unfold expiry_sweep
  simp only
  by_cases hc : st.1.syndrome_weight ≠ (P.SYNDROME_STOP : Int) ∧ st.1.fl.length ≠ 0
  · rw [if_pos hc, if_pos hc]
    exact sweep_loop_counters P _ c fuel _ st
  · rw [if_neg hc, if_neg hc]
    rfl

theorem xor_cancel_common (a b c s : Nat) :
    (a ^^^ c) ^^^ (s ^^^ (a ^^^ b)) = s ^^^ (b ^^^ c) := by
  apply Nat.eq_of_testBit_eq
  intro n
  simp only [Nat.testBit_xor]
  cases a.testBit n <;> cases b.testBit n <;> cases c.testBit n <;> cases s.testBit n <;> rfl

/-- The change of the syndrome made by statements that keep `H`, `e` and the syndrome
invariant: the former syndrome XOR `H` applied to the bits that changed. -/
theorem syndrome_change (P : Params) (dec dec' : decoder)
    (hH : dec'.Hcolumns = dec.Hcolumns) (he : dec'.e = dec.e)
    (h : SyndromeInvWith P (fun i => dec.syndrome.getD i 0 ^^^
      Hmul P.BLOCK_WEIGHT dec.Hcolumns
        (fun k x => cyc P.BLOCK_LENGTH (dec.e.getD k []) x ^^^
          cyc P.BLOCK_LENGTH (dec.bits.getD k []) x) i) dec')
    (i : Nat) (hi : i < P.BLOCK_LENGTH) :
    dec'.syndrome.getD i 0 = dec.syndrome.getD i 0 ^^^
      Hmul P.BLOCK_WEIGHT dec.Hcolumns
        (fun k x => cyc P.BLOCK_LENGTH (dec.bits.getD k []) x ^^^
          cyc P.BLOCK_LENGTH (dec'.bits.getD k []) x) i := by
  rw [h i hi, hH, he]
  beta_reduce
  rw [Hmul_xor, Hmul_xor, Hmul_xor]
  exact xor_cancel_common _ _ _ _

theorem xor_self_noise (s h : Nat) : s = h ^^^ (s ^^^ h) := by
  rw [Nat.xor_comm s h, ← Nat.xor_assoc, Nat.xor_self, Nat.zero_xor]

/-- C29: the expiry sweep of an iteration, run on a well-formed decoder whose syndrome
weight is not `SYNDROME_STOP` and whose flip list is not empty (`TTL_SATURATE <= 255`,
`iter >= 0`, enough fuel); `l` is the list at the start of the sweep and
`slot = iter mod (TTL_SATURATE + 1)` the value of `current_iter`:
(1) the sweep returns and the nodes it examines (the successive values of `fl_pos`)
are exactly the nodes of `l`, each once and in order, although the successor is read
in the state that follows the removal;
(2) afterwards the list holds the nodes of `l` whose `tod` is not `slot`, in the same
order, so exactly the nodes with `tod = slot` were removed;
(3) the bits of the removed nodes are cleared (they were 1) and no other bit changes;
(4) the syndrome is XORed with the columns of the removed nodes: it becomes the former
syndrome XOR `H` applied to the indicator `expired` of these nodes; `tod` and
`counters` are not written, the syndrome invariants are kept;
(5) the array `counters` is not read: with any other counters the sweep makes the same
changes (the decision to revert a node reads `tod` only). -/
theorem expiry_sweep_correct (P : Params) (fuel : Nat) (st : decoder × Bool)
    (hs : P.TTL_SATURATE ≤ 255) (hiter : 0 ≤ st.1.iter)
    (hfuel : INDEX * P.BLOCK_LENGTH ≤ fuel) (hwf : WellFormed P st.1)
    (hS : st.1.syndrome_weight ≠ (P.SYNDROME_STOP : Int)) (hne : st.1.fl.length ≠ 0) :
    ∃ st' l, expiry_sweep P fuel st = some st' ∧
      flip_list_nodes P st.1 = some l ∧ l.Nodup ∧ l ≠ [] ∧
      (∀ p, p < INDEX * P.BLOCK_LENGTH → (p ∈ l ↔ bitAt P.BLOCK_LENGTH st.1.bits p = 1)) ∧
      ((ring_slot P st.1.iter : Nat) : Int) = st.1.iter % ((P.TTL_SATURATE : Int) + 1) ∧
      sweep_visits P (ring_slot P st.1.iter) fuel st.1.fl.first st =
        some (l.map (fun p => (p : Int)), st') ∧
      flip_list_nodes P st'.1 =
        some (l.filter (fun p => decide (st.1.fl.tod.getD p 0 ≠ ring_slot P st.1.iter))) ∧
      (∀ p, p < INDEX * P.BLOCK_LENGTH → bitAt P.BLOCK_LENGTH st'.1.bits p =
        if p ∈ l ∧ st.1.fl.tod.getD p 0 = ring_slot P st.1.iter then 0
        else bitAt P.BLOCK_LENGTH st.1.bits p) ∧
      (∀ i, i < P.BLOCK_LENGTH → st'.1.syndrome.getD i 0 =
        st.1.syndrome.getD i 0 ^^^
          Hmul P.BLOCK_WEIGHT st.1.Hcolumns
            (fun k x => expired P st.1 k (x % (P.BLOCK_LENGTH : Int)).toNat) i) ∧
      st'.1.fl.tod = st.1.fl.tod ∧ st'.1.counters = st.1.counters ∧
      frameOf st'.1 = frameOf st.1 ∧ WellFormed P st'.1 ∧
      (Strong P st.1 → Strong P st'.1) ∧
      ∀ c : List (List Nat),
        expiry_sweep P fuel ({ st.1 with counters := c }, st.2) =
          some ({ st'.1 with counters := c }, st'.2) := by
  obtain ⟨st', e, hwf', hfr, hcnt, htod, hstr, _, hrun⟩ := expiry_sweep_detail P fuel st hfuel hwf
  obtain ⟨hbits, l, hl, hl'⟩ := hrun hS
  have hlink : ∀ p, p < INDEX * P.BLOCK_LENGTH →
      (p ∈ l ↔ bitAt P.BLOCK_LENGTH st.1.bits p = 1) := by
    obtain ⟨_, l0, hl0, hlink0⟩ := hwf
    have h1 := isList_forward _ _ _ hl0
    have h2 := isList_forward _ _ _ hl
    rw [h1] at h2
    cases h2
    exact hlink0
  have hlne : l ≠ [] := by
    intro h
    rw [h] at hl
    exact hne hl.2.2.2.2.2.2.1
  have hN : 0 < P.BLOCK_LENGTH := by
    cases l with
    | nil => exact absurd rfl hlne
    | cons a t =>
      have := hl.2.2.2.2.1 a (List.mem_cons_self _ _)
      unfold INDEX at this
      omega
  have hsw : expiry_sweep P fuel st =
      sweep_loop P (ring_slot P st.1.iter) fuel st.1.fl.first st := by
    unfold expiry_sweep
    simp only
    rw [if_pos ⟨hS, hne⟩]
    rfl
  have hvis : sweep_visits P (ring_slot P st.1.iter) fuel st.1.fl.first st =
      some (l.map (fun p => (p : Int)), st') := by
    have hlen := nodup_length_le _ l hl.2.2.2.1 hl.2.2.2.2.1
    have h1 := sweep_visits_list P (ring_slot P st.1.iter) l [] fuel st (by omega) hwf.1
      (by simpa using hl) (by simpa using hlink)
    have h2 := sweep_visits_state P (ring_slot P st.1.iter) fuel st.1.fl.first st
    rw [← hsw, e] at h2
    rw [← hl.2.2.2.2.2.1] at h1
    obtain ⟨v, hv, hv1⟩ := Option.map_eq_some'.1 h1
    rw [hv] at h2
    have hv2 : v.2 = st' := by
      simpa using h2
    rw [hv, ← hv1, ← hv2]
  have hsyn0 : SyndromeInvWith P (fun i => st.1.syndrome.getD i 0 ^^^
      Hmul P.BLOCK_WEIGHT st.1.Hcolumns
        (fun k x => cyc P.BLOCK_LENGTH (st.1.e.getD k []) x ^^^
          cyc P.BLOCK_LENGTH (st.1.bits.getD k []) x) i) st.1 :=
    fun i _ => xor_self_noise _ _
  have hsyn' := expiry_sweep_keeps P _ (flipKept_syndrome P _) fuel hfuel st st' hwf hsyn0 e
  have hHc : st'.1.Hcolumns = st.1.Hcolumns := congrArg (fun x => x.1) hfr
  have hec : st'.1.e = st.1.e := congrArg (fun x => x.2.1) hfr
  have hbits' : ∀ p, p < INDEX * P.BLOCK_LENGTH → bitAt P.BLOCK_LENGTH st'.1.bits p =
      if p ∈ l ∧ st.1.fl.tod.getD p 0 = ring_slot P st.1.iter then 0
      else bitAt P.BLOCK_LENGTH st.1.bits p := by
    intro p hp
    rw [hbits p hp]
    exact if_congr (and_congr_left (fun _ => (hlink p hp).symm)) rfl rfl
  refine ⟨st', l, e, isList_forward _ _ _ hl, hl.2.2.2.1, hlne, hlink,
    (ring_slot_eq P _ hiter hs).1, hvis, isList_forward _ _ _ hl', hbits', ?_, htod, hcnt,
    hfr, hwf', hstr, ?_⟩
  · intro i hi
    rw [syndrome_change P st.1 st'.1 hHc hec hsyn' i hi]
    congr 1
    apply Hmul_congr
    intro k x hk
    have hx1 := Int.emod_nonneg x (show (P.BLOCK_LENGTH : Int) ≠ 0 by omega)
    have hx2 := Int.emod_lt_of_pos x (show (0 : Int) < P.BLOCK_LENGTH by omega)
    have hj : (x % (P.BLOCK_LENGTH : Int)).toNat < P.BLOCK_LENGTH := by omega
    have hp : k * P.BLOCK_LENGTH + (x % (P.BLOCK_LENGTH : Int)).toNat <
        INDEX * P.BLOCK_LENGTH := by
      unfold INDEX at hk ⊢
      have : k = 0 ∨ k = 1 := by omega
      rcases this with rfl | rfl <;> omega
    unfold cyc expired
    rw [← bitAt_pos P.BLOCK_LENGTH st.1.bits k _ hj, ← bitAt_pos P.BLOCK_LENGTH st'.1.bits k _ hj,
      hbits _ hp]
    by_cases hc : bitAt P.BLOCK_LENGTH st.1.bits
        (k * P.BLOCK_LENGTH + (x % (P.BLOCK_LENGTH : Int)).toNat) = 1 ∧
        st.1.fl.tod.getD (k * P.BLOCK_LENGTH + (x % (P.BLOCK_LENGTH : Int)).toNat) 0 =
          ring_slot P st.1.iter
    · rw [if_pos hc, if_pos hc, hc.1]
      rfl
    · rw [if_neg hc, if_neg hc, Nat.xor_self]
  · intro c
    rw [expiry_sweep_counters, e]
    rfl

theorem expiry_sweep_correct_witness :
    ∃ st' l, expiry_sweep witnessParams 6 (witnessFlipped, false) = some st' ∧
      flip_list_nodes witnessParams witnessFlipped = some l ∧ l.Nodup ∧ l ≠ [] ∧
      (∀ p, p < INDEX * witnessParams.BLOCK_LENGTH →
        (p ∈ l ↔ bitAt witnessParams.BLOCK_LENGTH witnessFlipped.bits p = 1)) ∧
      ((ring_slot witnessParams witnessFlipped.iter : Nat) : Int) =
        witnessFlipped.iter % ((witnessParams.TTL_SATURATE : Int) + 1) ∧
      sweep_visits witnessParams (ring_slot witnessParams witnessFlipped.iter) 6
          witnessFlipped.fl.first (witnessFlipped, false) =
        some (l.map (fun p => (p : Int)), st') ∧
      flip_list_nodes witnessParams st'.1 =
        some (l.filter (fun p => decide (witnessFlipped.fl.tod.getD p 0 ≠
          ring_slot witnessParams witnessFlipped.iter))) ∧
      (∀ p, p < INDEX * witnessParams.BLOCK_LENGTH →
        bitAt witnessParams.BLOCK_LENGTH st'.1.bits p =
          if p ∈ l ∧ witnessFlipped.fl.tod.getD p 0 =
              ring_slot witnessParams witnessFlipped.iter then 0
          else bitAt witnessParams.BLOCK_LENGTH witnessFlipped.bits p) ∧
      (∀ i, i < witnessParams.BLOCK_LENGTH → st'.1.syndrome.getD i 0 =
        witnessFlipped.syndrome.getD i 0 ^^^
          Hmul witnessParams.BLOCK_WEIGHT witnessFlipped.Hcolumns
            (fun k x => expired witnessParams witnessFlipped k
              (x % (witnessParams.BLOCK_LENGTH : Int)).toNat) i) ∧
      st'.1.fl.tod = witnessFlipped.fl.tod ∧ st'.1.counters = witnessFlipped.counters ∧
      frameOf st'.1 = frameOf witnessFlipped ∧ WellFormed witnessParams st'.1 ∧
      (Strong witnessParams witnessFlipped → Strong witnessParams st'.1) ∧
      ∀ c : List (List Nat),
        expiry_sweep witnessParams 6 ({ witnessFlipped with counters := c }, false) =
          some ({ st'.1 with counters := c }, st'.2) :=
  expiry_sweep_correct witnessParams 6 (witnessFlipped, false) (by decide) (by decide)
    (by decide) witnessFlipped_wellFormed (by decide) (by decide)

/-! ## A single error: the first iteration -/

theorem forUpTo_const {σ : Type} (body : Nat → σ → Option σ) (s : σ) :
    ∀ n, (∀ i, i < n → body i s = some s) → forUpTo n body s = some s := by
  intro n
  induction n with
  | zero => intro _; rfl
  | succ n ih =>
    intro h
    show (forUpTo n body s).bind (body n) = some s
    rw [ih (fun i hi => h i (by omega)), Option.some_bind]
    exact h n (by omega)

theorem forUpTo_first {σ : Type} (body : Nat → σ → Option σ) (s s' : σ)
    (h0 : body 0 s = some s') :
    ∀ n, 0 < n → (∀ i, 1 ≤ i → i < n → body i s' = some s') →
      forUpTo n body s = some s' := by
  intro n
  induction n with
  | zero => intro h; omega
  | succ n ih =>
    intro _ h
    show (forUpTo n body s).bind (body n) = some s'
    cases n with
    | zero => exact h0
    | succ m =>
      rw [ih (by omega) (fun i h1 hi => h i h1 (by omega)), Option.some_bind]
      exact h (m + 1) (by omega) (by omega)

theorem sumUpTo_one (n : Nat) (f : Nat → Nat) (h : ∀ l, l < n → f l = 1) :
    sumUpTo n f = n := by
  induction n with
  | zero => rfl
  | succ n ih =>
    show sumUpTo n f + f n = n + 1
    rw [ih (fun l hl => h l (by omega)), h n (by omega)]

/-- On a state that satisfies the syndrome invariants of standard mode, if the estimate
equals the error then the syndrome is zero and of weight 0. -/
theorem strong_equal_bits (P : Params) (dec : decoder) (hN : 0 < P.BLOCK_LENGTH)
    (hstr : Strong P dec) (heq : BitsEqualError P dec) :
    (∀ i, i < P.BLOCK_LENGTH → dec.syndrome.getD i 0 = 0) ∧ dec.syndrome_weight = 0 := by
  have hs : ∀ i, i < P.BLOCK_LENGTH → dec.syndrome.getD i 0 = 0 := by
    intro i hi
    rw [hstr.2.2.1 i hi]
    exact Hmul_equal_bits P hN dec heq i
  refine ⟨hs, ?_⟩
  have hw := hstr.2.2.2
  unfold WeightInv at hw
  rw [hw, popcount_zero _ _ hs]
  rfl

/-- The counters computed at the start of an iteration on a well-formed decoder whose
syndrome has 0/1 entries: `counters[k][j]` is the number of ones of the syndrome along
column `j` of block `k`. -/
theorem iteration_counters (P : Params) (dec : decoder) (hW255 : P.BLOCK_WEIGHT ≤ 255)
    (hwf : WellFormed P dec) (h01 : ∀ i, i < P.BLOCK_LENGTH → dec.syndrome.getD i 0 ≤ 1) :
    ∃ cc, compute_counters P dec.Hcolumns dec.Hrows dec.syndrome dec.counters = some cc ∧
      WellFormed P { dec with iter := dec.iter + 1, syndrome := cc.1, counters := cc.2 } ∧
      (∀ i, i < P.BLOCK_LENGTH → cc.1.getD i 0 = dec.syndrome.getD i 0) ∧
      ∀ k j, k < INDEX → j < P.BLOCK_LENGTH →
        (cc.2.getD k []).getD j 0 = sumUpTo P.BLOCK_WEIGHT
          (fun l => cyc P.BLOCK_LENGTH dec.syndrome
            ((j : Int) + (dec.Hcolumns.getD k []).getD l 0)) := by
  obtain ⟨cc, ecc, wcc, hsame⟩ := iteration_start_wf P dec hwf
  refine ⟨cc, ecc, wcc, hsame, ?_⟩
  obtain ⟨hS, _⟩ := hwf
  obtain ⟨hVH, hrows, hsl, hbl, hbb, hcl, hcc, hb01⟩ := hS
  obtain ⟨c0, c1, hH⟩ := list_eq_pair dec.Hcolumns hVH.1
  obtain ⟨k0, k1, hK⟩ := list_eq_pair dec.counters hcl
  have hv0 : ValidColumn P.BLOCK_LENGTH P.BLOCK_WEIGHT c0 := hVH.2 c0 (by rw [hH]; simp)
  have hv1 : ValidColumn P.BLOCK_LENGTH P.BLOCK_WEIGHT c1 := hVH.2 c1 (by rw [hH]; simp)
  have hrv0 := reflect_valid _ _ c0 hv0
  have hrv1 := reflect_valid _ _ c1 hv1
  obtain ⟨chk, d0, d1, ecc2, _, _, _, _, g0, g1⟩ := compute_counters_pair P
    dec.Hcolumns (reflect P.BLOCK_LENGTH c0) (reflect P.BLOCK_LENGTH c1) dec.syndrome k0 k1
    hrv0.1 hrv1.1 hrv0.2.1 hrv1.2.1 hsl (hcc k0 (by rw [hK]; simp)) (hcc k1 (by rw [hK]; simp))
  have hrows' : dec.Hrows = [reflect P.BLOCK_LENGTH c0, reflect P.BLOCK_LENGTH c1] := by
    rw [hrows, hH]; rfl
  rw [hrows', hK, ecc2] at ecc
  cases ecc
  have main : ∀ (c : List Int) (d : List Nat),
      ValidColumn P.BLOCK_LENGTH P.BLOCK_WEIGHT c →
      (∀ j, j < P.BLOCK_LENGTH → d.getD j 0 =
        sumUpTo P.BLOCK_WEIGHT (fun l => cyc P.BLOCK_LENGTH dec.syndrome
          ((j : Int) - (reflect P.BLOCK_LENGTH c).getD l 0)) % 256) →
      ∀ j, j < P.BLOCK_LENGTH →
        d.getD j 0 = sumUpTo P.BLOCK_WEIGHT
          (fun l => cyc P.BLOCK_LENGTH dec.syndrome ((j : Int) + c.getD l 0)) := by
    intro c d hv hd j hj
    have hsum := sum_reflect P.BLOCK_LENGTH dec.syndrome (j : Int) c
    rw [hv.1] at hsum
    have hle := sumUpTo_le P.BLOCK_WEIGHT
      (fun l => cyc P.BLOCK_LENGTH dec.syndrome ((j : Int) + c.getD l 0))
      (fun l => cyc_le_one _ (by omega) _ h01 _)
    rw [hd j hj, hsum, Nat.mod_eq_of_lt (by omega)]
  intro k j hk hj
  have hk2 : k = 0 ∨ k = 1 := by unfold INDEX at hk; omega
  rw [hH]
  rcases hk2 with rfl | rfl
  · exact main c0 d0 hv0 g0 j hj
  · exact main c1 d1 hv1 g1 j hj

/-- The first iteration on the state left by `init_decoder_error` for a single error at
offset 0 of block 0, when every other column overlaps the column of the error in fewer
than `tau` positions: only position (0, 0) is flipped and the syndrome weight becomes 0. -/
theorem single_error_iteration (P : Params) (dec2 : decoder) (oracle : Nat → Nat → Nat)
    (fuel tau : Nat)
    (hO : P.OUROBOROS = false) (hW : 0 < P.BLOCK_WEIGHT) (hW255 : P.BLOCK_WEIGHT ≤ 255)
    (hT : P.ERROR_WEIGHT = 1)
    (htau : oracle P.BLOCK_WEIGHT 1 = tau) (htauW : tau ≤ P.BLOCK_WEIGHT)
    (hsep : ∀ k j, k < INDEX → j < P.BLOCK_LENGTH → ¬ (k = 0 ∧ j = 0) →
      overlap P.BLOCK_LENGTH P.BLOCK_WEIGHT (dec2.Hcolumns.getD 0 []) 0
        (dec2.Hcolumns.getD k []) j < tau)
    (hfuel : INDEX * P.BLOCK_LENGTH ≤ fuel)
    (hez : ∀ k' j', k' < INDEX → j' < P.BLOCK_LENGTH →
      (dec2.e.getD k' []).getD j' 0 = if k' = 0 ∧ j' = 0 then 1 else 0)
    (hsyn : ∀ i, i < P.BLOCK_LENGTH → dec2.syndrome.getD i 0 =
      if ∃ l, l < P.BLOCK_WEIGHT ∧
          ((((0 : Nat) : Int) + (dec2.Hcolumns.getD 0 []).getD l 0) %
            (P.BLOCK_LENGTH : Int)).toNat = i
      then 1 else 0)
    (hw : dec2.syndrome_weight = (P.BLOCK_WEIGHT : Int))
    (hwf : WellFormed P dec2) (hstr : Strong P dec2)
    (hbits : ∀ p, bitAt P.BLOCK_LENGTH dec2.bits p = 0) (hlen : dec2.fl.length = 0)
    (th : Nat) :
    ∃ cc st', compute_counters P dec2.Hcolumns dec2.Hrows dec2.syndrome dec2.counters =
        some cc ∧
      (cc.2.getD 0 []).getD 0 0 = P.BLOCK_WEIGHT ∧
      (∀ k j, k < INDEX → j < P.BLOCK_LENGTH → ¬ (k = 0 ∧ j = 0) →
        (cc.2.getD k []).getD j 0 < tau) ∧
      decode_iteration P oracle fuel ({ dec2 with iter := 0 }, th, true) = some st' ∧
      st'.2.1 = tau ∧ st'.1.iter = 1 ∧ st'.1.counters = cc.2 ∧ st'.1.e = dec2.e ∧
      st'.1.Hcolumns = dec2.Hcolumns ∧ WellFormed P st'.1 ∧ Strong P st'.1 ∧
      (∀ k j, k < INDEX → j < P.BLOCK_LENGTH →
        (st'.1.bits.getD k []).getD j 0 = if k = 0 ∧ j = 0 then 1 else 0) ∧
      BitsEqualError P st'.1 ∧ st'.1.syndrome_weight = 0 ∧
      (∀ i, i < P.BLOCK_LENGTH → st'.1.syndrome.getD i 0 = 0) := by
  have hN := validH_pos P dec2.Hcolumns hwf.1.1 hW
  have hwf0 : WellFormed P { dec2 with iter := 0 } := hwf
  have h01 := hstr.2.1
  obtain ⟨cc, ecc, wcc, hsame, hval⟩ := iteration_counters P { dec2 with iter := 0 } hW255 hwf0 h01
  -- the counters are the overlaps with the column of the error
  have hov : ∀ k j, k < INDEX → j < P.BLOCK_LENGTH → (cc.2.getD k []).getD j 0 =
      overlap P.BLOCK_LENGTH P.BLOCK_WEIGHT (dec2.Hcolumns.getD 0 []) 0
        (dec2.Hcolumns.getD k []) j := by
    intro k j hk hj
    rw [hval k j hk hj]
    unfold overlap
    apply sumUpTo_congr
    intro l _
    show cyc P.BLOCK_LENGTH dec2.syndrome ((j : Int) + (dec2.Hcolumns.getD k []).getD l 0) = _
    unfold cyc
    have hx1 := Int.emod_nonneg ((j : Int) + (dec2.Hcolumns.getD k []).getD l 0)
      (show (P.BLOCK_LENGTH : Int) ≠ 0 by omega)
    have hx2 := Int.emod_lt_of_pos ((j : Int) + (dec2.Hcolumns.getD k []).getD l 0)
      (show (0 : Int) < P.BLOCK_LENGTH by omega)
    rw [hsyn _ (by omega)]
  have hc00 : (cc.2.getD 0 []).getD 0 0 = P.BLOCK_WEIGHT := by
    rw [hov 0 0 (by decide) hN]
    unfold overlap
    exact sumUpTo_one _ _ (fun l hl => if_pos ⟨l, hl, rfl⟩)
  have hcother : ∀ k j, k < INDEX → j < P.BLOCK_LENGTH → ¬ (k = 0 ∧ j = 0) →
      (cc.2.getD k []).getD j 0 < tau := by
    intro k j hk hj hne
    rw [hov k j hk hj]
    exact hsep k j hk hj hne
  -- the state at the start of the flip scan
  have hstra : Strong P
      { dec2 with iter := (0 : Int) + 1, syndrome := cc.1, counters := cc.2 } :=
    strong_congr P dec2 _ rfl rfl rfl rfl hsame hstr
  obtain ⟨stb, eb, wfb, hfrb, hcntb, hstrb, _, hhigh⟩ :=
    scan_step_detail P tau 0 0 (by decide) hN
      ({ dec2 with iter := (0 : Int) + 1, syndrome := cc.1, counters := cc.2 }, false) wcc
  obtain ⟨hflag, hbitsb, _⟩ := hhigh (by show tau ≤ (cc.2.getD 0 []).getD 0 0; omega)
  have hstrb' := hstrb hstra
  have hcb : stb.1.counters = cc.2 := hcntb
  have hother : ∀ k j, k < INDEX → j < P.BLOCK_LENGTH → ¬ (k = 0 ∧ j = 0) →
      scan_step P tau k j stb = some stb := by
    intro k j hk hj hne
    obtain ⟨s', e', _, _, _, _, hlow, _⟩ := scan_step_detail P tau k j hk hj stb wfb
    rw [e', hlow (by rw [hcb]; exact hcother k j hk hj hne)]
  have hb0 : forUpTo P.BLOCK_LENGTH (fun j st => scan_step P tau 0 j st)
      ({ dec2 with iter := (0 : Int) + 1, syndrome := cc.1, counters := cc.2 }, false) =
      some stb :=
    forUpTo_first _ _ stb eb P.BLOCK_LENGTH hN
      (fun i h1 hi => hother 0 i (by decide) hi (fun h => by omega))
  have hb1 : forUpTo P.BLOCK_LENGTH (fun j st => scan_step P tau 1 j st) stb = some stb :=
    forUpTo_const _ stb P.BLOCK_LENGTH
      (fun i hi => hother 1 i (by decide) hi (fun h => absurd h.1 (by decide)))
  have hscan : flip_scan P tau
      ({ dec2 with iter := (0 : Int) + 1, syndrome := cc.1, counters := cc.2 }, false) =
      some stb := by
    unfold flip_scan
    show ((some _ : Option (decoder × Bool)).bind
      (fun st => forUpTo P.BLOCK_LENGTH (fun j st => scan_step P tau 0 j st) st)).bind
      (fun st => forUpTo P.BLOCK_LENGTH (fun j st => scan_step P tau 1 j st) st) = _
    rw [Option.some_bind, hb0, Option.some_bind, hb1]
  -- the estimate is now the error
  have hbval : ∀ p, bitAt P.BLOCK_LENGTH stb.1.bits p = if p = 0 then 1 else 0 := by
    intro p
    rw [hbitsb p]
    show (if p = 0 * P.BLOCK_LENGTH + 0 then bitAt P.BLOCK_LENGTH dec2.bits p ^^^ 1
      else bitAt P.BLOCK_LENGTH dec2.bits p) = _
    rw [hbits p]
    simp
  have hbk : ∀ k j, k < INDEX → j < P.BLOCK_LENGTH →
      (stb.1.bits.getD k []).getD j 0 = if k = 0 ∧ j = 0 then 1 else 0 := by
    intro k j hk hj
    rw [← bitAt_pos P.BLOCK_LENGTH stb.1.bits k j hj, hbval]
    refine if_congr ?_ rfl rfl
    unfold INDEX at hk
    have hk2 : k = 0 ∨ k = 1 := by omega
    rcases hk2 with rfl | rfl
    · simp
    · constructor
      · intro h; omega
      · intro h; exact absurd h.1 (by decide)
  have heb : stb.1.e = dec2.e := congrArg (fun x => x.2.1) hfrb
  have hHb : stb.1.Hcolumns = dec2.Hcolumns := congrArg (fun x => x.1) hfrb
  have hib : stb.1.iter = 1 := by
    have : stb.1.iter = (0 : Int) + 1 := congrArg (fun x => x.2.2) hfrb
    rw [this]; rfl
  have heq : BitsEqualError P stb.1 := by
    intro k j hk hj
    rw [hbk k j hk hj, heb, hez k j hk hj]
  obtain ⟨hz, hw0⟩ := strong_equal_bits P stb.1 hN hstrb' heq
  have hstop := standard_stop P hO
  obtain ⟨stc, ec, _, _, _, _, _, hskip, _⟩ := expiry_sweep_detail P fuel stb hfuel wfb
  have hstc : stc = stb := hskip (by rw [hw0, hstop]; rfl)
  rw [hstc] at ec
  have hthr : oracle (dec2.syndrome_weight % 4294967296).toNat
      (if (P.ERROR_WEIGHT : Int) - dec2.fl.length > 0 then
        (P.ERROR_WEIGHT : Int) - dec2.fl.length else 1).toNat = tau := by
    rw [hT, hw, hlen]
    have h1 : ((P.BLOCK_WEIGHT : Int) % 4294967296).toNat = P.BLOCK_WEIGHT := by omega
    rw [h1]
    simpa using htau
  refine ⟨cc, (stb.1, tau, stb.2), ecc, hc00, hcother, ?_, rfl, hib, hcb, heb, hHb, wfb,
    hstrb', hbk, heq, hw0, hz⟩
  unfold decode_iteration
  simp only [Option.bind_eq_bind]
  have ecc' : compute_counters P dec2.Hcolumns dec2.Hrows dec2.syndrome dec2.counters =
      some cc := ecc
  rw [ecc', Option.some_bind]
  simp only [if_true, hthr]
  rw [hscan, Option.some_bind, ec, Option.some_bind]
/-- C25 (amended): in standard mode, for an allocated decoder, a valid `H`, the single
error at offset 0 of block 0, an oracle that returns `tau ≤ W` on the first call
`(W, 1)`, and `max_iter ≥ 1`, PROVIDED every other column of `H` overlaps column 0 of
block 0 in fewer than `tau` positions: `init_decoder_error` leaves a syndrome of weight
`W`; in the first iteration the counter of position (0, 0) is `W` and every other
counter is below `tau`; `qcmdpc_decode_ttl` returns 1 with `iter = 1`, the estimate is
exactly the bit (0, 0), it equals the error, and the syndrome is zero of weight 0. -/
theorem single_error_decoded (P : Params) (dec0 : decoder) (H : List (List Int))
    (e2 : Option (List Int)) (oracle : Nat → Nat → Nat) (fuel tau : Nat) (max_iter : Int)
    (hO : P.OUROBOROS = false) (hW : 0 < P.BLOCK_WEIGHT) (hW255 : P.BLOCK_WEIGHT ≤ 255)
    (hA : Allocated P dec0) (hH : ValidH P H) (hT : P.ERROR_WEIGHT = 1)
    (htau : oracle P.BLOCK_WEIGHT 1 = tau) (htauW : tau ≤ P.BLOCK_WEIGHT)
    (hsep : ∀ k j, k < INDEX → j < P.BLOCK_LENGTH → ¬ (k = 0 ∧ j = 0) →
      overlap P.BLOCK_LENGTH P.BLOCK_WEIGHT (H.getD 0 []) 0 (H.getD k []) j < tau)
    (hfuel : INDEX * P.BLOCK_LENGTH ≤ fuel) (hmax : 1 ≤ max_iter) :
    ∃ dec1 dec2 cc dec', reset_decoder P dec0 = some dec1 ∧
      init_decoder_error P dec1 H [0] e2 = some dec2 ∧
      dec2.syndrome_weight = (P.BLOCK_WEIGHT : Int) ∧
      compute_counters P dec2.Hcolumns dec2.Hrows dec2.syndrome dec2.counters = some cc ∧
      (cc.2.getD 0 []).getD 0 0 = P.BLOCK_WEIGHT ∧
      (∀ k j, k < INDEX → j < P.BLOCK_LENGTH → ¬ (k = 0 ∧ j = 0) →
        (cc.2.getD k []).getD j 0 < tau) ∧
      qcmdpc_decode_ttl P oracle fuel dec2 max_iter = some (dec', 1) ∧
      dec'.iter = 1 ∧ dec'.counters = cc.2 ∧
      (∀ k j, k < INDEX → j < P.BLOCK_LENGTH →
        (dec'.bits.getD k []).getD j 0 = if k = 0 ∧ j = 0 then 1 else 0) ∧
      BitsEqualError P dec' ∧ dec'.syndrome_weight = 0 ∧
      (∀ i, i < P.BLOCK_LENGTH → dec'.syndrome.getD i 0 = 0) := by
  have hN := validH_pos P H hH hW
  obtain ⟨dec1, dec2, e1, ei, hez, hsyn, hw, hwf, hstr, hHc, hbits⟩ :=
    single_error_init P dec0 H e2 0 0 hO hW hW255 hA hH hT (by decide) hN
  have hlit : [((0 * P.BLOCK_LENGTH + 0 : Nat) : Int)] = [0] := by simp
  rw [hlit] at ei
  have hE : ValidError P [0] := by
    refine ⟨by rw [hT]; rfl, ?_, List.pairwise_singleton _ _⟩
    intro x hx
    rw [List.mem_singleton] at hx
    subst hx
    unfold INDEX
    constructor <;> omega
  obtain ⟨d1, d2, f1, fi, _, _, _, _, hlen⟩ :=
    init_wellformed_with P dec0 H [0] e2 hW hW255 hA hH hE
      (fun h => by rw [hO] at h; cases h)
  rw [e1] at f1
  cases f1
  rw [ei] at fi
  cases fi
  have hsep' : ∀ k j, k < INDEX → j < P.BLOCK_LENGTH → ¬ (k = 0 ∧ j = 0) →
      overlap P.BLOCK_LENGTH P.BLOCK_WEIGHT (dec2.Hcolumns.getD 0 []) 0
        (dec2.Hcolumns.getD k []) j < tau := by
    rw [hHc]; exact hsep
  have hsyn' : ∀ i, i < P.BLOCK_LENGTH → dec2.syndrome.getD i 0 =
      if ∃ l, l < P.BLOCK_WEIGHT ∧
          ((((0 : Nat) : Int) + (dec2.Hcolumns.getD 0 []).getD l 0) %
            (P.BLOCK_LENGTH : Int)).toNat = i
      then 1 else 0 := by
    rw [hHc]; exact hsyn
  obtain ⟨cc, st', ecc, hc00, hcother, eit, _, hi1, hcnt, _, _, _, _, hbk, heq, hw0, hz⟩ :=
    single_error_iteration P dec2 oracle fuel tau hO hW hW255 hT htau htauW hsep' hfuel
      hez hsyn' hw hwf hstr hbits hlen 0
  have hstop := standard_stop P hO
  refine ⟨dec1, dec2, cc, st'.1, e1, ei, hw, ecc, hc00, hcother, ?_, hi1, hcnt, hbk, heq,
    hw0, hz⟩
  unfold qcmdpc_decode_ttl
  simp only [Option.bind_eq_bind]
  obtain ⟨m, hm⟩ : ∃ m, max_iter.toNat = m + 1 := ⟨max_iter.toNat - 1, by omega⟩
  have hloop : decode_loop P oracle fuel max_iter (m + 1) ({ dec2 with iter := 0 }, 0, true) =
      some st' := by
    unfold decode_loop
    have hc : ((({ dec2 with iter := 0 } : decoder), (0 : Nat), true).1.iter < max_iter ∧
        (({ dec2 with iter := 0 } : decoder), (0 : Nat), true).1.syndrome_weight ≠
          (P.SYNDROME_STOP : Int)) := by
      refine ⟨by show (0 : Int) < max_iter; omega, ?_⟩
      show dec2.syndrome_weight ≠ (P.SYNDROME_STOP : Int)
      rw [hw, hstop]
      intro h
      have : (P.BLOCK_WEIGHT : Int) = 0 := h
      omega
    rw [if_pos hc, eit, Option.some_bind]
    exact decode_loop_at_stop P oracle fuel max_iter st' (by rw [hw0, hstop]; rfl) m
  rw [hm, hloop, Option.some_bind, if_pos (by rw [hw0, hstop]; rfl)]

theorem separated_allocated : Allocated separatedParams separatedDecoder := by
  have hb : separatedParams.bufLen = 512 := by decide
  have hl : ∀ v : Nat, ∀ b ∈ [List.replicate 512 v, List.replicate 512 v],
      b.length = separatedParams.bufLen := by
    intro v b hb'
    rw [hb]
    simp only [List.mem_cons, List.mem_singleton, List.not_mem_nil, or_false] at hb'
    rcases hb' with rfl | rfl <;> exact List.length_replicate _ _
  refine ⟨rfl, hl 3, rfl, hl 9, rfl, hl 4, ?_, rfl, by decide, ?_, ?_, ?_⟩
  · rw [hb]; exact List.length_replicate _ _
  · exact List.length_replicate _ _
  · exact List.length_replicate _ _
  · exact List.length_replicate _ _

theorem separated_validH : ValidH separatedParams [[0, 1], [0, 2]] := by
  unfold ValidH ValidColumn separatedParams INDEX
  decide

theorem separated_overlap : ∀ k j, k < INDEX → j < separatedParams.BLOCK_LENGTH →
    ¬ (k = 0 ∧ j = 0) →
    overlap separatedParams.BLOCK_LENGTH separatedParams.BLOCK_WEIGHT
      (([[0, 1], [0, 2]] : List (List Int)).getD 0 []) 0
      (([[0, 1], [0, 2]] : List (List Int)).getD k []) j < 2 := by
  intro k j hk hj hne
  have hj5 : j < 5 := hj
  unfold INDEX at hk
  interval_cases k <;> interval_cases j <;> first | decide | exact absurd (And.intro rfl rfl) hne

theorem single_error_decoded_witness :
    ∃ dec1 dec2 cc dec', reset_decoder separatedParams separatedDecoder = some dec1 ∧
      init_decoder_error separatedParams dec1 [[0, 1], [0, 2]] [0] none = some dec2 ∧
      dec2.syndrome_weight = (separatedParams.BLOCK_WEIGHT : Int) ∧
      compute_counters separatedParams dec2.Hcolumns dec2.Hrows dec2.syndrome dec2.counters =
        some cc ∧
      (cc.2.getD 0 []).getD 0 0 = separatedParams.BLOCK_WEIGHT ∧
      (∀ k j, k < INDEX → j < separatedParams.BLOCK_LENGTH → ¬ (k = 0 ∧ j = 0) →
        (cc.2.getD k []).getD j 0 < 2) ∧
      qcmdpc_decode_ttl separatedParams (fun _ _ => 2) 10 dec2 1 = some (dec', 1) ∧
      dec'.iter = 1 ∧ dec'.counters = cc.2 ∧
      (∀ k j, k < INDEX → j < separatedParams.BLOCK_LENGTH →
        (dec'.bits.getD k []).getD j 0 = if k = 0 ∧ j = 0 then 1 else 0) ∧
      BitsEqualError separatedParams dec' ∧ dec'.syndrome_weight = 0 ∧
      (∀ i, i < separatedParams.BLOCK_LENGTH → dec'.syndrome.getD i 0 = 0) :=
  single_error_decoded separatedParams separatedDecoder [[0, 1], [0, 2]] none (fun _ _ => 2)
    10 2 1 rfl (by decide) (by decide) separated_allocated separated_validH rfl rfl
    (by decide) separated_overlap (by decide) (by decide)

set_option maxRecDepth 100000 in
/-- C25 (counterexample): with `N = 3`, `W = 2`, `H = [[0, 1], [1, 2]]` (valid: strictly
ascending supports in `[0, N)`), the single error at offset 0 of block 0, the threshold
`tau = 2` in `[(W + 1) / 2, W]` and `max_iter = 1`, column 2 of block 1 is `{0, 1}`, the
column of the error. In the first iteration the counters are `[2, 1, 1]` and
`[1, 1, 2]`: positions (0, 0) and (1, 2) both reach `tau`, both bits are flipped, the
syndrome weight is 2 again, and `qcmdpc_decode_ttl` returns 0 with `iter = 1`. It also
returns 0 for `max_iter = 7`. -/
theorem single_error_two_flips :
    ValidH singleErrorParams [[0, 1], [1, 2]] ∧
    (singleErrorParams.BLOCK_WEIGHT + 1) / 2 ≤ 2 ∧ 2 ≤ singleErrorParams.BLOCK_WEIGHT ∧
    overlap singleErrorParams.BLOCK_LENGTH singleErrorParams.BLOCK_WEIGHT [0, 1] 0 [1, 2] 2 =
      2 ∧
    (overlapRun 1).map (fun r => r.2) = some 0 ∧
    (overlapRun 1).map (fun r => r.1.iter) = some 1 ∧
    (overlapRun 1).map (fun r => r.1.syndrome_weight) = some 2 ∧
    (overlapRun 1).map (fun r => (r.1.counters.getD 0 []).take 3) = some [2, 1, 1] ∧
    (overlapRun 1).map (fun r => (r.1.counters.getD 1 []).take 3) = some [1, 1, 2] ∧
    (overlapRun 1).map (fun r => (r.1.e.getD 0 []).take 3) = some [1, 0, 0] ∧
    (overlapRun 1).map (fun r => (r.1.e.getD 1 []).take 3) = some [0, 0, 0] ∧
    (overlapRun 1).map (fun r => (r.1.bits.getD 0 []).take 3) = some [1, 0, 0] ∧
    (overlapRun 1).map (fun r => (r.1.bits.getD 1 []).take 3) = some [0, 0, 1] ∧
    (overlapRun 7).map (fun r => r.2) = some 0 ∧
    ¬ (∀ max_iter : Int, 1 ≤ max_iter → ∃ dec1 dec2 dec',
      reset_decoder singleErrorParams witnessDecoder = some dec1 ∧
      init_decoder_error singleErrorParams dec1 [[0, 1], [1, 2]] [0] none = some dec2 ∧
      qcmdpc_decode_ttl singleErrorParams (fun _ _ => 2) 6 dec2 max_iter = some (dec', 1)) := by
  have hr : (overlapRun 1).map (fun r => r.2) = some 0 := by decide
  refine ⟨witnessH_valid, by decide, by decide, by decide, hr, by decide, by decide,
    by decide, by decide, by decide, by decide, by decide, by decide, by decide, ?_⟩
  intro h
  obtain ⟨dec1, dec2, dec', e1, e2, e3⟩ := h 1 (by decide)
  have hrun : overlapRun 1 = some (dec', 1) := by
    unfold overlapRun
    rw [e1, Option.some_bind, e2, Option.some_bind, e3]
  rw [hrun] at hr
  have h10 : (1 : Int) = 0 := Option.some.inj hr
  exact absurd h10 (by decide)

/-! ## No stale time of death lingers -/

theorem forUpTo_fst {σ τ : Type} (body : Nat → σ → Option σ)
    (body2 : Nat → σ × τ → Option (σ × τ))
    (h : ∀ i s, (body2 i s).map Prod.fst = body i s.1) :
    ∀ n s, (forUpTo n body2 s).map Prod.fst = forUpTo n body s.1 := by
  intro n
  induction n with
  | zero => intro s; rfl
  | succ n ih =>
    intro s
    show ((forUpTo n body2 s).bind (body2 n)).map Prod.fst = (forUpTo n body s.1).bind (body n)
    rw [← ih s]
    cases forUpTo n body2 s with
    | none => rfl
    | some x => exact h n x

theorem scan_step_born_fst (P : Params) (threshold k j : Nat)
    (st : (decoder × Bool) × (Nat → Int)) :
    (scan_step_born P threshold k j st).map Prod.fst = scan_step P threshold k j st.1 := by
  unfold scan_step_born
  cases scan_step P threshold k j st.1 with
  | none => rfl
  | some r => rfl

theorem flip_scan_born_fst (P : Params) (threshold : Nat)
    (st : (decoder × Bool) × (Nat → Int)) :
    (flip_scan_born P threshold st).map Prod.fst = flip_scan P threshold st.1 := by
  unfold flip_scan_born flip_scan
  exact forUpTo_fst _ _ (fun k s => forUpTo_fst _ _
    (fun j s => scan_step_born_fst P threshold k j s) P.BLOCK_LENGTH s) INDEX st

/-- The byte that the flip scan adds to the iteration number lies in
`[0, TTL_SATURATE]`. -/
theorem ttl_byte_range (P : Params) (d : Int) :
    0 ≤ compute_ttl P d % 256 ∧ compute_ttl P d % 256 ≤ (P.TTL_SATURATE : Int) := by
  have h : 0 ≤ compute_ttl P d ∧ compute_ttl P d ≤ (P.TTL_SATURATE : Int) := by
    unfold compute_ttl
    simp only
    split_ifs <;> omega
  omega

theorem ring_slot_lt (P : Params) (d : Int) : ring_slot P d < 256 := by
  unfold ring_slot
  omega

/-- One step of the instrumented flip scan keeps the decoder well formed and keeps the
invariant on insertion times. -/
theorem scan_step_born_inv (P : Params) (threshold k j : Nat) (hk : k < INDEX)
    (hj : j < P.BLOCK_LENGTH) (st : (decoder × Bool) × (Nat → Int))
    (hwf : WellFormed P st.1.1) (hinv : BornInv P st.1.1.iter st.1.1 st.2) :
    ∃ st', scan_step_born P threshold k j st = some st' ∧ WellFormed P st'.1.1 ∧
      frameOf st'.1.1 = frameOf st.1.1 ∧ BornInv P st'.1.1.iter st'.1.1 st'.2 := by
  obtain ⟨st1, e1, wf1, hfr, _, _, hlow, hhigh⟩ :=
    scan_step_detail P threshold k j hk hj st.1 hwf
  have hiter : st1.1.iter = st.1.1.iter := congrArg (fun x => x.2.2) hfr
  have hposM : k * P.BLOCK_LENGTH + j < INDEX * P.BLOCK_LENGTH := by
    unfold INDEX at hk ⊢
    have : k = 0 ∨ k = 1 := by omega
    rcases this with rfl | rfl <;> omega
  have hbit := bitAt_pos P.BLOCK_LENGTH st.1.1.bits k j hj
  have hb01 := hwf.1.2.2.2.2.2.2.2 _ hposM
  obtain ⟨l, hl, _⟩ := hwf.2
  have htl : st.1.1.fl.tod.length = INDEX * P.BLOCK_LENGTH := hl.2.2.1
  unfold scan_step_born
  rw [e1]
  refine ⟨_, rfl, wf1, hfr, ?_⟩
  show BornInv P st1.1.iter st1.1 _
  rw [hiter]
  by_cases hc : (st.1.1.counters.getD k []).getD j 0 < threshold
  · rw [if_neg (fun h => by omega), hlow hc]
    exact hinv
  · obtain ⟨_, hbits, htod⟩ := hhigh (by omega)
    by_cases hb : bitAt P.BLOCK_LENGTH st.1.1.bits (k * P.BLOCK_LENGTH + j) = 0
    · rw [if_pos ⟨by omega, by rw [← hbit]; exact hb⟩]
      rw [if_pos hb] at htod
      show BornInv P st.1.1.iter st1.1
        (fun p => if p = k * P.BLOCK_LENGTH + j then st.1.1.iter else st.2 p)
      intro p hp hp1
      beta_reduce
      by_cases hpp : p = k * P.BLOCK_LENGTH + j
      · subst hpp
        have hr := ttl_byte_range P
          (((st.1.1.counters.getD k []).getD j 0 : Nat) - (threshold : Int))
        refine ⟨st.1.1.iter + compute_ttl P
          (((st.1.1.counters.getD k []).getD j 0 : Nat) - (threshold : Int)) % 256,
          by omega, ?_, ?_, ?_⟩
        · rw [if_pos rfl]; omega
        · rw [if_pos rfl, hiter]
        · rw [htod, List.getD_eq_getElem?_getD, List.getElem?_set_self (by omega)]
          rfl
      · rw [hbits p, if_neg hpp] at hp1
        obtain ⟨d, h1, h2, h3, h4⟩ := hinv p hp hp1
        refine ⟨d, h1, ?_, ?_, ?_⟩
        · rw [if_neg hpp]; exact h2
        · rw [if_neg hpp, hiter]; exact h3
        · rw [htod, List.getD_eq_getElem?_getD, List.getElem?_set_ne (fun h => hpp h.symm),
            ← List.getD_eq_getElem?_getD]
          exact h4
    · rw [if_neg (fun h => hb (by rw [hbit]; exact h.2))]
      rw [if_neg hb] at htod
      show BornInv P st.1.1.iter st1.1 st.2
      intro p hp hp1
      by_cases hpp : p = k * P.BLOCK_LENGTH + j
      · subst hpp
        rw [hbits, if_pos rfl] at hp1
        have h1 : bitAt P.BLOCK_LENGTH st.1.1.bits (k * P.BLOCK_LENGTH + j) = 1 := by omega
        rw [h1] at hp1
        exact absurd hp1 (by decide)
      · rw [hbits p, if_neg hpp] at hp1
        obtain ⟨d, h1, h2, h3, h4⟩ := hinv p hp hp1
        exact ⟨d, h1, h2, by rw [hiter]; exact h3, by rw [htod]; exact h4⟩

/-- The instrumented flip scan returns, its decoder part is the result of `flip_scan`,
and it keeps the decoder well formed and the invariant on insertion times. -/
theorem flip_scan_born_inv (P : Params) (threshold : Nat)
    (st : (decoder × Bool) × (Nat → Int))
    (hwf : WellFormed P st.1.1) (hinv : BornInv P st.1.1.iter st.1.1 st.2) :
    ∃ st', flip_scan_born P threshold st = some st' ∧
      flip_scan P threshold st.1 = some st'.1 ∧ WellFormed P st'.1.1 ∧
      frameOf st'.1.1 = frameOf st.1.1 ∧ BornInv P st'.1.1.iter st'.1.1 st'.2 := by
  have step : ∀ k j, k < INDEX → j < P.BLOCK_LENGTH → ∀ s : (decoder × Bool) × (Nat → Int),
      (WellFormed P s.1.1 ∧ frameOf s.1.1 = frameOf st.1.1 ∧
        BornInv P s.1.1.iter s.1.1 s.2) →
      ∃ s', scan_step_born P threshold k j s = some s' ∧
        (WellFormed P s'.1.1 ∧ frameOf s'.1.1 = frameOf st.1.1 ∧
          BornInv P s'.1.1.iter s'.1.1 s'.2) := by
    intro k j hk hj s hs
    obtain ⟨s', e, w, f, b⟩ := scan_step_born_inv P threshold k j hk hj s hs.1 hs.2.2
    exact ⟨s', e, w, f.trans hs.2.1, b⟩
  have main : ∃ st', flip_scan_born P threshold st = some st' ∧
      (WellFormed P st'.1.1 ∧ frameOf st'.1.1 = frameOf st.1.1 ∧
        BornInv P st'.1.1.iter st'.1.1 st'.2) := by
    unfold flip_scan_born
    exact forUpTo_inv
      (fun s : (decoder × Bool) × (Nat → Int) =>
        WellFormed P s.1.1 ∧ frameOf s.1.1 = frameOf st.1.1 ∧ BornInv P s.1.1.iter s.1.1 s.2)
      _ INDEX (fun k hk s hs =>
        forUpTo_inv
          (fun s : (decoder × Bool) × (Nat → Int) =>
            WellFormed P s.1.1 ∧ frameOf s.1.1 = frameOf st.1.1 ∧
              BornInv P s.1.1.iter s.1.1 s.2)
          _ P.BLOCK_LENGTH (fun j hj s hs => step k j hk hj s hs) s hs)
      st ⟨hwf, rfl, hinv⟩
  obtain ⟨st', e, w, f, b⟩ := main
  refine ⟨st', e, ?_, w, f, b⟩
  rw [← flip_scan_born_fst, e]
  rfl

/-- One instrumented iteration from a loop-head state that satisfies the invariant on
insertion times: it returns, its decoder part is the result of `decode_iteration`, the
weight it reports is the one the expiry sweep tested, and when that weight is not
`SYNDROME_STOP` the state at the end of the iteration has no stale entry and satisfies
the invariant again. -/
theorem decode_iteration_born_spec (P : Params) (oracle : Nat → Nat → Nat) (fuel : Nat)
    (hfuel : INDEX * P.BLOCK_LENGTH ≤ fuel)
    (st : (decoder × Nat × Bool) × (Nat → Int))
    (hwf : WellFormed P st.1.1) (h0 : 0 ≤ st.1.1.iter)
    (hinv : BornInv P (st.1.1.iter + 1) st.1.1 st.2) :
    ∃ x, decode_iteration_born P oracle fuel st = some x ∧
      decode_iteration P oracle fuel st.1 = some x.2.1 ∧
      WellFormed P x.2.1.1 ∧ x.2.1.1.iter = st.1.1.iter + 1 ∧
      (x.1 = (P.SYNDROME_STOP : Int) →
        x.2.1.1.syndrome_weight = (P.SYNDROME_STOP : Int)) ∧
      (x.1 ≠ (P.SYNDROME_STOP : Int) →
        BornInv P (x.2.1.1.iter + 1) x.2.1.1 x.2.2 ∧ Fresh P x.2.1.1 x.2.2) := by
  obtain ⟨cc, ecc, wcc, _⟩ := iteration_start_wf P st.1.1 hwf
  have binv : BornInv P (st.1.1.iter + 1)
      { st.1.1 with iter := st.1.1.iter + 1, syndrome := cc.1, counters := cc.2 } st.2 := by
    intro p hp hp1
    obtain ⟨d, h1, h2, h3, h4⟩ := hinv p hp hp1
    exact ⟨d, h1, h2, by show st.2 p ≤ st.1.1.iter + 1; omega, h4⟩
  have key : ∀ threshold : Nat, ∃ x : Int × ((decoder × Nat × Bool) × (Nat → Int)),
      ((flip_scan_born P threshold
          (({ st.1.1 with iter := st.1.1.iter + 1, syndrome := cc.1, counters := cc.2 },
            false), st.2)).bind fun r =>
        (expiry_sweep P fuel r.1).bind fun r2 =>
          some (r.1.1.syndrome_weight, ((r2.1, threshold, r2.2), r.2))) = some x ∧
      ((flip_scan P threshold
          ({ st.1.1 with iter := st.1.1.iter + 1, syndrome := cc.1, counters := cc.2 },
            false)).bind fun r =>
        (expiry_sweep P fuel r).bind fun r => some (r.1, threshold, r.2)) = some x.2.1 ∧
      WellFormed P x.2.1.1 ∧ x.2.1.1.iter = st.1.1.iter + 1 ∧
      (x.1 = (P.SYNDROME_STOP : Int) →
        x.2.1.1.syndrome_weight = (P.SYNDROME_STOP : Int)) ∧
      (x.1 ≠ (P.SYNDROME_STOP : Int) →
        BornInv P (x.2.1.1.iter + 1) x.2.1.1 x.2.2 ∧ Fresh P x.2.1.1 x.2.2) := by
    intro threshold
    obtain ⟨r, er, er', wr, fr, br⟩ := flip_scan_born_inv P threshold
      (({ st.1.1 with iter := st.1.1.iter + 1, syndrome := cc.1, counters := cc.2 },
        false), st.2) wcc binv
    have hri : r.1.1.iter = st.1.1.iter + 1 := congrArg (fun x => x.2.2) fr
    obtain ⟨r2, e2, w2, f2, _, ht2, _, hskip, hrun⟩ :=
      expiry_sweep_detail P fuel r.1 hfuel wr
    have h2i : r2.1.iter = r.1.1.iter := congrArg (fun x => x.2.2) f2
    refine ⟨(r.1.1.syndrome_weight, ((r2.1, threshold, r2.2), r.2)), ?_, ?_, w2,
      h2i.trans hri, ?_, ?_⟩
    · rw [er, Option.some_bind, e2, Option.some_bind]
    · rw [er', Option.some_bind, e2, Option.some_bind]
    · intro h
      rw [hskip h]
      exact h
    · intro h
      obtain ⟨hbits, _⟩ := hrun h
      have hold : ∀ p, p < INDEX * P.BLOCK_LENGTH →
          bitAt P.BLOCK_LENGTH r2.1.bits p = 1 →
          bitAt P.BLOCK_LENGTH r.1.1.bits p = 1 ∧
            r.1.1.fl.tod.getD p 0 ≠ ring_slot P r.1.1.iter := by
        intro p hp hp1
        rw [hbits p hp] at hp1
        by_cases hq : bitAt P.BLOCK_LENGTH r.1.1.bits p = 1 ∧
            r.1.1.fl.tod.getD p 0 = ring_slot P r.1.1.iter
        · rw [if_pos hq] at hp1
          exact absurd hp1 (by decide)
        · rw [if_neg hq] at hp1
          exact ⟨hp1, fun ht => hq ⟨hp1, ht⟩⟩
      have hfacts : ∀ p, p < INDEX * P.BLOCK_LENGTH →
          bitAt P.BLOCK_LENGTH r2.1.bits p = 1 →
          ∃ d : Int, r2.1.iter + 1 ≤ d ∧ d ≤ r.2 p + (P.TTL_SATURATE : Int) ∧
            r.2 p ≤ r2.1.iter ∧ r2.1.fl.tod.getD p 0 = ring_slot P d ∧
            r2.1.fl.tod.getD p 0 ≠ ring_slot P r2.1.iter := by
        intro p hp hp1
        obtain ⟨hb, hne⟩ := hold p hp hp1
        obtain ⟨d, h1, h2, h3, h4⟩ := br p hp hb
        have hd : d ≠ r.1.1.iter := fun hd => hne (by rw [h4, hd])
        refine ⟨d, by rw [h2i]; omega, h2, by rw [h2i]; exact h3, by rw [ht2]; exact h4,
          by rw [ht2, h2i]; exact hne⟩
      show BornInv P (r2.1.iter + 1) r2.1 r.2 ∧ Fresh P r2.1 r.2
      refine ⟨fun p hp hp1 => ?_, ?_⟩
      · obtain ⟨d, h1, h2, h3, h4, _⟩ := hfacts p hp hp1
        exact ⟨d, h1, h2, h3, h4⟩
      · obtain ⟨l, el, _, hmem⟩ := wellFormed_nodes P r2.1 w2
        refine ⟨l, el, fun p hp => ?_⟩
        obtain ⟨d, h1, h2, h3, h4, h5⟩ := hfacts p ((hmem p).1 hp).1 ((hmem p).1 hp).2
        refine ⟨h5, ?_, by omega, h3⟩
        intro heq
        have hlt := ring_slot_lt P d
        have hpos : 0 ≤ r2.1.iter := by rw [h2i, hri]; omega
        have hslot : ring_slot P r2.1.iter =
            ((r2.1.iter % ((P.TTL_SATURATE : Int) + 1)) % 256).toNat := by
          unfold ring_slot
          rw [Int.tmod_eq_emod hpos (by omega)]
        have hnn := Int.emod_nonneg r2.1.iter
          (show ((P.TTL_SATURATE : Int) + 1) ≠ 0 by omega)
        rw [hslot] at h5
        rw [h4] at heq h5
        omega
  unfold decode_iteration_born decode_iteration
  simp only [Option.bind_eq_bind]
  rw [ecc, Option.some_bind, Option.some_bind]
  exact key _

theorem decode_trace_at_stop (P : Params) (oracle : Nat → Nat → Nat) (fuel : Nat)
    (max_iter : Int) (st : (decoder × Nat × Bool) × (Nat → Int))
    (h : st.1.1.syndrome_weight = (P.SYNDROME_STOP : Int)) (n : Nat) :
    decode_trace P oracle fuel max_iter n st = some [] := by
  cases n with
  | zero =>
    unfold decode_trace
    rw [if_neg (fun hc => hc.2 h)]
  | succ n =>
    unfold decode_trace
    rw [if_neg (fun hc => hc.2 h)]

/-- The instrumented main loop from a loop-head state that satisfies the invariant on
insertion times: it returns a trace, the state at the end of the trace is the result of
`decode_loop`, the iterations are numbered consecutively, and after every iteration
whose post-scan syndrome weight is not `SYNDROME_STOP` there is no stale entry. -/
theorem decode_trace_spec (P : Params) (oracle : Nat → Nat → Nat) (fuel : Nat)
    (max_iter : Int) (hfuel : INDEX * P.BLOCK_LENGTH ≤ fuel) :
    ∀ (n : Nat) (st : (decoder × Nat × Bool) × (Nat → Int)),
    WellFormed P st.1.1 → 0 ≤ st.1.1.iter → BornInv P (st.1.1.iter + 1) st.1.1 st.2 →
    max_iter - st.1.1.iter ≤ (n : Int) →
    ∃ t, decode_trace P oracle fuel max_iter n st = some t ∧
      decode_loop P oracle fuel max_iter n st.1 = some (trace_last st.1 t) ∧
      t.map (fun x => x.2.1.1.iter) =
        (List.range t.length).map (fun i : Nat => st.1.1.iter + 1 + (i : Int)) ∧
      ∀ x ∈ t, x.1 ≠ (P.SYNDROME_STOP : Int) → Fresh P x.2.1.1 x.2.2 := by
  intro n
  induction n with
  | zero =>
    intro st _ _ _ hn
    refine ⟨[], ?_, ?_, rfl, fun x hx => absurd hx (List.not_mem_nil x)⟩
    · unfold decode_trace
      rw [if_neg (fun h => by omega)]
    · unfold decode_loop
      rw [if_neg (fun h => by omega)]
      rfl
  | succ n ih =>
    intro st hwf h0 hinv hn
    by_cases hc : st.1.1.iter < max_iter ∧ st.1.1.syndrome_weight ≠ (P.SYNDROME_STOP : Int)
    · obtain ⟨x, ex, ex', wx, ix, hstop, hgo⟩ :=
        decode_iteration_born_spec P oracle fuel hfuel st hwf h0 hinv
      by_cases hx : x.1 = (P.SYNDROME_STOP : Int)
      · have hw := hstop hx
        refine ⟨[x], ?_, ?_, ?_, ?_⟩
        · unfold decode_trace
          rw [if_pos hc, ex, Option.some_bind,
            decode_trace_at_stop P oracle fuel max_iter x.2 hw n]
          rfl
        · unfold decode_loop
          rw [if_pos hc, ex', Option.some_bind,
            decode_loop_at_stop P oracle fuel max_iter x.2.1 hw n]
          rfl
        · show [x.2.1.1.iter] = [st.1.1.iter + 1 + ((0 : Nat) : Int)]
          rw [ix]
          simp
        · intro y hy hne
          rw [List.mem_singleton] at hy
          subst hy
          exact absurd hx hne
      · obtain ⟨binv, hfresh⟩ := hgo hx
        obtain ⟨t, et, el, hit, hall⟩ := ih x.2 wx (by omega) binv (by omega)
        refine ⟨x :: t, ?_, ?_, ?_, ?_⟩
        · unfold decode_trace
          rw [if_pos hc, ex, Option.some_bind, et]
          rfl
        · unfold decode_loop
          rw [if_pos hc, ex', Option.some_bind, el]
          rfl
        · rw [List.map_cons, hit, List.length_cons, List.range_succ_eq_map, List.map_cons,
            List.map_map, ix]
          refine congrArg₂ List.cons (by simp) (List.map_congr_left (fun i _ => ?_))
          show st.1.1.iter + 1 + 1 + (i : Int) = st.1.1.iter + 1 + ((i + 1 : Nat) : Int)
          push_cast
          ring
        · intro y hy hne
          rw [List.mem_cons] at hy
          rcases hy with rfl | hy
          · exact hfresh
          · exact hall y hy hne
    · refine ⟨[], ?_, ?_, rfl, fun x hx => absurd hx (List.not_mem_nil x)⟩
      · unfold decode_trace
        rw [if_neg hc]
      · unfold decode_loop
        rw [if_neg hc]
        rfl

/-- C30: for a well-formed decoder with an empty flip list, the instrumented run of
`qcmdpc_decode_ttl` returns a trace of the iterations executed, numbered 1, 2, …, and
the state at the end of the trace is the decoder that `qcmdpc_decode_ttl` returns.
After every iteration `it` whose post-scan syndrome weight is not `SYNDROME_STOP`, the
flip list is traversable and none of its nodes `p` has
`tod[p] = it mod (TTL_SATURATE + 1)` (the slot compared by the expiry sweep);
every node was inserted at an iteration `born p` with
`it - TTL_SATURATE < born p ≤ it`, one of the last `TTL_SATURATE` iterations. -/
theorem no_stale_ttl (P : Params) (oracle : Nat → Nat → Nat) (fuel : Nat)
    (dec : decoder) (max_iter : Int) (born0 : Nat → Int)
    (hfuel : INDEX * P.BLOCK_LENGTH ≤ fuel) (hwf : WellFormed P dec)
    (hempty : dec.fl.length = 0) :
    ∃ t, decode_trace P oracle fuel max_iter max_iter.toNat
        (({ dec with iter := 0 }, 0, true), born0) = some t ∧
      qcmdpc_decode_ttl P oracle fuel dec max_iter =
        some ((trace_last ({ dec with iter := 0 }, 0, true) t).1,
          if (trace_last ({ dec with iter := 0 }, 0, true) t).1.syndrome_weight =
            (P.SYNDROME_STOP : Int) then 1 else 0) ∧
      t.map (fun x => x.2.1.1.iter) = (List.range t.length).map (fun i : Nat => 1 + (i : Int)) ∧
      ∀ x ∈ t, x.1 ≠ (P.SYNDROME_STOP : Int) →
        ∃ l, flip_list_nodes P x.2.1.1 = some l ∧ ∀ p ∈ l,
          x.2.1.1.fl.tod.getD p 0 ≠ ring_slot P x.2.1.1.iter ∧
          x.2.1.1.fl.tod.getD p 0 ≠
            (x.2.1.1.iter % ((P.TTL_SATURATE : Int) + 1)).toNat ∧
          x.2.1.1.iter - (P.TTL_SATURATE : Int) < x.2.2 p ∧ x.2.2 p ≤ x.2.1.1.iter := by
  have hinv : BornInv P ((0 : Int) + 1) { dec with iter := 0 } born0 := by
    intro p hp hp1
    obtain ⟨_, l, hl, hlink⟩ := hwf
    have hlen : ((l.length : Nat) : Int) = 0 := by rw [← hl.2.2.2.2.2.2.1]; exact hempty
    have hnil : l = [] := List.length_eq_zero.1 (by omega)
    have hmem : p ∈ l := (hlink p hp).2 hp1
    rw [hnil] at hmem
    exact absurd hmem (List.not_mem_nil p)
  obtain ⟨t, et, el, hit, hall⟩ := decode_trace_spec P oracle fuel max_iter hfuel
    max_iter.toNat (({ dec with iter := 0 }, 0, true), born0) hwf (le_refl _) hinv
    (by show max_iter - 0 ≤ ((max_iter.toNat : Nat) : Int); omega)
  refine ⟨t, et, ?_, ?_, fun x hx hne => hall x hx hne⟩
  · unfold qcmdpc_decode_ttl
    simp only [Option.bind_eq_bind]
    have el' : decode_loop P oracle fuel max_iter max_iter.toNat
        ({ dec with iter := 0 }, 0, true) =
        some (trace_last ({ dec with iter := 0 }, 0, true) t) := el
    rw [el', Option.some_bind]
  · rw [hit]
    refine List.map_congr_left (fun i _ => ?_)
    show (0 : Int) + 1 + (i : Int) = 1 + (i : Int)
    omega

set_option maxRecDepth 100000 in
theorem no_stale_ttl_witness :
    (INDEX * witnessParams.BLOCK_LENGTH ≤ 6 ∧ witnessReady.fl.length = 0) ∧
    (∃ t, decode_trace witnessParams (fun _ _ => 2) 6 2 (2 : Int).toNat
        (({ witnessReady with iter := 0 }, 0, true), fun _ => 0) = some t ∧
      qcmdpc_decode_ttl witnessParams (fun _ _ => 2) 6 witnessReady 2 =
        some ((trace_last ({ witnessReady with iter := 0 }, 0, true) t).1,
          if (trace_last ({ witnessReady with iter := 0 }, 0, true) t).1.syndrome_weight =
            (witnessParams.SYNDROME_STOP : Int) then 1 else 0) ∧
      t.map (fun x => x.2.1.1.iter) =
        (List.range t.length).map (fun i : Nat => 1 + (i : Int)) ∧
      ∀ x ∈ t, x.1 ≠ (witnessParams.SYNDROME_STOP : Int) →
        ∃ l, flip_list_nodes witnessParams x.2.1.1 = some l ∧ ∀ p ∈ l,
          x.2.1.1.fl.tod.getD p 0 ≠ ring_slot witnessParams x.2.1.1.iter ∧
          x.2.1.1.fl.tod.getD p 0 ≠
            (x.2.1.1.iter % ((witnessParams.TTL_SATURATE : Int) + 1)).toNat ∧
          x.2.1.1.iter - (witnessParams.TTL_SATURATE : Int) < x.2.2 p ∧
          x.2.2 p ≤ x.2.1.1.iter) ∧
    (decode_trace witnessParams (fun _ _ => 2) 6 2 (2 : Int).toNat
        (({ witnessReady with iter := 0 }, 0, true), fun _ => 0)).map
      (fun t => t.map (fun x => x.1)) = some [2, 2] ∧
    (decode_trace witnessParams (fun _ _ => 2) 6 2 (2 : Int).toNat
        (({ witnessReady with iter := 0 }, 0, true), fun _ => 0)).map
      (fun t => t.map (fun x => flip_list_nodes witnessParams x.2.1.1)) =
      some [some [3, 1], some []] ∧
    (decode_trace witnessParams (fun _ _ => 2) 6 2 (2 : Int).toNat
        (({ witnessReady with iter := 0 }, 0, true), fun _ => 0)).map
      (fun t => t.map (fun x => [x.2.1.1.fl.tod.getD 3 0, x.2.1.1.fl.tod.getD 1 0])) =
      some [[2, 2], [2, 2]] ∧
    (decode_trace witnessParams (fun _ _ => 2) 6 2 (2 : Int).toNat
        (({ witnessReady with iter := 0 }, 0, true), fun _ => 0)).map
      (fun t => t.map (fun x => [x.2.2 3, x.2.2 1])) = some [[1, 1], [1, 1]] :=
  ⟨⟨by decide, rfl⟩,
    no_stale_ttl witnessParams (fun _ _ => 2) 6 witnessReady 2 (fun _ => 0) (by decide)
      witnessReady_wellFormed rfl,
    by decide, by decide, by decide, by decide⟩

/-! ## Counters never wrap -/

/-- C31: with `W <= 255` (the bound `param.h` enforces), for every support `x` of `W`
entries in `[0, N)`, every vector `y` whose first `N` entries are 0 or 1 and every
destination `z` whose first `N` entries are 0, `multiply` returns and each `z[i]`,
`i < N`, computed with byte additions (mod 256), is the exact integer count
`sum over k < W of y[(i - x[k]) mod N]`, which is at most `W`. Likewise, for an
ascending column of `W` entries in `[0, N)`, a position `j` in `[0, N)` and a syndrome
whose first `N` entries are 0 or 1, the byte accumulator of `single_counter` returns
the exact integer sum `sum over k < W of syndrome[(j + col[k]) mod N]`, at most `W`. -/
theorem counters_never_wrap (P : Params) (x col : List Int) (y z s : List Nat) (j : Int)
    (hW : P.BLOCK_WEIGHT ≤ 255)
    (hx : x.length = P.BLOCK_WEIGHT) (hxb : ∀ c ∈ x, 0 ≤ c ∧ c < (P.BLOCK_LENGTH : Int))
    (hy : P.BLOCK_LENGTH ≤ y.length) (hy01 : ∀ i, i < P.BLOCK_LENGTH → y.getD i 0 ≤ 1)
    (hz : P.BLOCK_LENGTH ≤ z.length) (hz0 : ∀ i, i < P.BLOCK_LENGTH → z.getD i 0 = 0)
    (hlen : col.length = P.BLOCK_WEIGHT)
    (hb : ∀ c ∈ col, 0 ≤ c ∧ c < (P.BLOCK_LENGTH : Int)) (hsort : col.Pairwise (· ≤ ·))
    (hj0 : 0 ≤ j) (hj : j < P.BLOCK_LENGTH)
    (hs : P.BLOCK_LENGTH ≤ s.length) (hs01 : ∀ i, i < P.BLOCK_LENGTH → s.getD i 0 ≤ 1) :
    (∃ z', multiply (P.BLOCK_LENGTH : Int) P.BLOCK_WEIGHT x y z = some z' ∧
      z'.length = z.length ∧
      ∀ i, i < P.BLOCK_LENGTH →
        z'.getD i 0 =
          sumUpTo P.BLOCK_WEIGHT (fun k => cyc P.BLOCK_LENGTH y ((i : Int) - x.getD k 0)) ∧
        z'.getD i 0 ≤ P.BLOCK_WEIGHT) ∧
    single_counter P col j s =
      some (sumUpTo P.BLOCK_WEIGHT (fun k => cyc P.BLOCK_LENGTH s (j + col.getD k 0))) ∧
    sumUpTo P.BLOCK_WEIGHT (fun k => cyc P.BLOCK_LENGTH s (j + col.getD k 0)) ≤
      P.BLOCK_WEIGHT := by
  have hN : 0 < P.BLOCK_LENGTH := by omega
  have hsle := sumUpTo_le P.BLOCK_WEIGHT
    (fun k => cyc P.BLOCK_LENGTH s (j + col.getD k 0))
    (fun k => cyc_le_one P.BLOCK_LENGTH hN s hs01 _)
  refine ⟨?_, ?_, hsle⟩
  · obtain ⟨z', e, l, g⟩ := multiply_general P.BLOCK_LENGTH P.BLOCK_WEIGHT x y z
      (by omega) (fun c hc => hxb c (List.mem_of_mem_take hc)) hy hz
      (fun i hi => by rw [hz0 i hi]; decide)
    refine ⟨z', e, l, fun i hi => ?_⟩
    have hle := sumUpTo_le P.BLOCK_WEIGHT
      (fun k => cyc P.BLOCK_LENGTH y ((i : Int) - x.getD k 0))
      (fun k => cyc_le_one P.BLOCK_LENGTH hN y hy01 _)
    have hval : z'.getD i 0 =
        sumUpTo P.BLOCK_WEIGHT (fun k => cyc P.BLOCK_LENGTH y ((i : Int) - x.getD k 0)) := by
      rw [g i, if_pos hi, hz0 i hi, Nat.zero_add, Nat.mod_eq_of_lt (by omega)]
    exact ⟨hval, by rw [hval]; exact hle⟩
  · rw [single_counter_general P col s j hlen hb hsort hj0 hj hs,
      Nat.mod_eq_of_lt (by omega)]

theorem counters_never_wrap_witness :
    (∃ z', multiply (witnessParams.BLOCK_LENGTH : Int) witnessParams.BLOCK_WEIGHT [0, 2]
        [0, 1, 1] [0, 0, 0] = some z' ∧
      z'.length = [0, 0, 0].length ∧
      ∀ i, i < witnessParams.BLOCK_LENGTH →
        z'.getD i 0 =
          sumUpTo witnessParams.BLOCK_WEIGHT
            (fun k => cyc witnessParams.BLOCK_LENGTH [0, 1, 1]
              ((i : Int) - ([0, 2] : List Int).getD k 0)) ∧
        z'.getD i 0 ≤ witnessParams.BLOCK_WEIGHT) ∧
    single_counter witnessParams [0, 1] 1 [0, 1, 1] =
      some (sumUpTo witnessParams.BLOCK_WEIGHT
        (fun k => cyc witnessParams.BLOCK_LENGTH [0, 1, 1]
          (1 + ([0, 1] : List Int).getD k 0))) ∧
    sumUpTo witnessParams.BLOCK_WEIGHT
      (fun k => cyc witnessParams.BLOCK_LENGTH [0, 1, 1]
        (1 + ([0, 1] : List Int).getD k 0)) ≤ witnessParams.BLOCK_WEIGHT :=
  counters_never_wrap witnessParams [0, 2] [0, 1] [0, 1, 1] [0, 0, 0] [0, 1, 1] 1
    (by decide) (by decide) (by decide) (by decide) (by decide) (by decide) (by decide)
    (by decide) (by decide) (by decide) (by decide) (by decide) (by decide) (by decide)

/-! ## Soundness of success -/

/-- The matrix and the error vector are not written by the statements of an
iteration. -/
theorem flipKept_frame (P : Params) (H : List (List Int)) (E : List (List Nat)) :
    FlipKept P (fun dec => dec.Hcolumns = H ∧ dec.e = E) := by
  refine ⟨fun dec fl h => h, ?_, fun dec s c it h _ => h⟩
  intro dec dec' k j hk hj hS h e
  obtain ⟨S', _, _, _, _, efc⟩ := flip_column_eq P dec k j hk hj hS
  rw [efc] at e
  cases e
  exact h

theorem list_eq_of_getD (a b : List Nat) (hl : a.length = b.length)
    (h : ∀ i, a.getD i 0 = b.getD i 0) : a = b := by
  apply List.ext_getElem hl
  intro i h1 h2
  have := h i
  rw [List.getD_eq_getElem a 0 h1, List.getD_eq_getElem b 0 h2] at this
  exact this

/-- C34: in standard mode, for an allocated decoder, a valid `H` and a valid error
pattern, the run of `reset_decoder`, `init_decoder_error` and `qcmdpc_decode_ttl`
returns. The syndrome that `init_decoder_error` leaves is the vector `S0` that
`compute_syndrome` (the XOR-multiplication of each column block of `H` by the
corresponding block) yields on the error vector and a zero buffer. Whenever the call
returns 1, the same computation on the final `bits` and a zero buffer yields exactly
`S0`, so `H · bits = H · e`; when it returns 0 it does not. -/
theorem success_is_sound (P : Params) (dec0 : decoder) (H : List (List Int))
    (e_block : List Int) (e2 : Option (List Int)) (oracle : Nat → Nat → Nat)
    (fuel : Nat) (max_iter : Int)
    (hO : P.OUROBOROS = false) (hW : 0 < P.BLOCK_WEIGHT) (hW255 : P.BLOCK_WEIGHT ≤ 255)
    (hA : Allocated P dec0) (hH : ValidH P H) (hE : ValidError P e_block)
    (hfuel : INDEX * P.BLOCK_LENGTH ≤ fuel) :
    ∃ dec1 dec2 dec' r S0, reset_decoder P dec0 = some dec1 ∧
      init_decoder_error P dec1 H e_block e2 = some dec2 ∧
      qcmdpc_decode_ttl P oracle fuel dec2 max_iter = some (dec', r) ∧
      (r = 0 ∨ r = 1) ∧
      compute_syndrome P H dec2.e (List.replicate P.bufLen 0) = some S0 ∧
      dec2.syndrome = S0 ∧
      (r = 1 ↔ compute_syndrome P H dec'.bits (List.replicate P.bufLen 0) = some S0) ∧
      (r = 1 → ∀ i, i < P.BLOCK_LENGTH →
        Hmul P.BLOCK_WEIGHT H (fun k x => cyc P.BLOCK_LENGTH (dec'.bits.getD k []) x) i =
        Hmul P.BLOCK_WEIGHT H (fun k x => cyc P.BLOCK_LENGTH (dec2.e.getD k []) x) i) := by
  have hbuf := bufLen_ge P
  have hA1 := allocated_reset P dec0 hA
  have e1 := reset_decoder_spec P dec0 hA
  obtain ⟨E0, E1, S, ei, lE0, lE1, _, _, lS, gS⟩ :=
    init_decoder_error_spec P _ H e_block e2 hO hW hH hE hA1.2.2.2.2.2.2.2.1
      hA1.2.2.2.2.2.2.2.2.1 hA1.2.2.1 (fun b hb => by rw [hA1.2.2.2.1 b hb]; omega)
      (by rw [hA1.2.2.2.2.2.2.1]; omega)
  obtain ⟨d1, d2, f1, fi, hwf, hstr, hHc, _, _⟩ :=
    init_wellformed_with P dec0 H e_block e2 hW hW255 hA hH hE
      (fun h => by rw [hO] at h; cases h)
  rw [e1] at f1
  cases f1
  rw [ei] at fi
  cases fi
  obtain ⟨dec', r, ed, wf', ⟨hstr', hH', he'⟩, hr⟩ :=
    qcmdpc_decode_ttl_keeps P
      (fun dec => StrongWith P (side_error P e2) dec ∧ dec.Hcolumns = H ∧ dec.e = [E0, E1])
      (flipKept_and P _ _ (flipKept_strongWith P _) (flipKept_frame P H [E0, E1]))
      oracle fuel hfuel _ max_iter hwf ⟨hstr, rfl, rfl⟩
  -- the two recomputations
  obtain ⟨hHl, hHv⟩ := hH
  obtain ⟨h0, h1, rfl⟩ := list_eq_pair H hHl
  have hv0 := hHv h0 (by simp)
  have hv1 := hHv h1 (by simp)
  have hE0 : P.BLOCK_LENGTH ≤ E0.length := by
    rw [lE0, List.getD_eq_getElem _ _ (by rw [hA1.2.2.1]; decide)]
    rw [hA1.2.2.2.1 _ (List.getElem_mem _)]
    omega
  have hE1 : P.BLOCK_LENGTH ≤ E1.length := by
    rw [lE1, List.getD_eq_getElem _ _ (by rw [hA1.2.2.1]; decide)]
    rw [hA1.2.2.2.1 _ (List.getElem_mem _)]
    omega
  obtain ⟨S0, es0, ls0, gs0⟩ := compute_syndrome_pair P h0 h1 E0 E1
    (List.replicate P.bufLen 0) hv0 hv1 hE0 hE1 (by rw [List.length_replicate]; omega)
  obtain ⟨hS', _⟩ := wf'
  obtain ⟨_, _, _, hbl, hbb, _, _, _⟩ := hS'
  obtain ⟨B0, B1, hB⟩ := list_eq_pair dec'.bits hbl
  have hB0 : P.BLOCK_LENGTH ≤ B0.length := hbb B0 (by rw [hB]; simp)
  have hB1 : P.BLOCK_LENGTH ≤ B1.length := hbb B1 (by rw [hB]; simp)
  obtain ⟨S1, es1, ls1, gs1⟩ := compute_syndrome_pair P h0 h1 B0 B1
    (List.replicate P.bufLen 0) hv0 hv1 hB0 hB1 (by rw [List.length_replicate]; omega)
  have hsyn : S = S0 := by
    apply list_eq_of_getD
    · rw [lS, ls0]
    · intro i
      rw [gS i, gs0 i]
  have hstop := standard_stop P hO
  -- success means a zero syndrome
  have hzero : dec'.syndrome_weight = 0 ↔ ∀ i, i < P.BLOCK_LENGTH →
      Hmul P.BLOCK_WEIGHT [h0, h1] (fun k x => cyc P.BLOCK_LENGTH ([B0, B1].getD k []) x) i =
      Hmul P.BLOCK_WEIGHT [h0, h1] (fun k x => cyc P.BLOCK_LENGTH ([E0, E1].getD k []) x) i := by
    obtain ⟨⟨_, h01, hwi⟩, hsi⟩ := hstr'
    unfold WeightInv at hwi
    have hent : ∀ i, i < P.BLOCK_LENGTH → dec'.syndrome.getD i 0 =
        Hmul P.BLOCK_WEIGHT [h0, h1]
          (fun k x => cyc P.BLOCK_LENGTH ([E0, E1].getD k []) x) i ^^^
        Hmul P.BLOCK_WEIGHT [h0, h1]
          (fun k x => cyc P.BLOCK_LENGTH ([B0, B1].getD k []) x) i := by
      intro i hi
      rw [hsi i hi, side_error_standard P e2 hO, Nat.xor_zero, hH', he', hB, Hmul_xor]
    constructor
    · intro hw i hi
      have hp : popcount P.BLOCK_LENGTH dec'.syndrome = 0 := by
        rw [hw] at hwi
        omega
      have hne := (popcount_eq_zero_iff _ _).1 hp i hi
      have h1' := h01 i hi
      have hz : dec'.syndrome.getD i 0 = 0 := by omega
      rw [hent i hi] at hz
      exact ((nat_xor_eq_zero _ _).1 hz).symm
    · intro h
      rw [hwi, popcount_zero _ _ (fun i hi => by
        rw [hent i hi, h i hi, Nat.xor_self])]
      rfl
  have hr1 : r = 1 ↔ dec'.syndrome_weight = 0 := by
    rw [hr, hstop]
    by_cases h : dec'.syndrome_weight = ((0 : Nat) : Int)
    · rw [if_pos h]
      exact ⟨fun _ => h, fun _ => rfl⟩
    · rw [if_neg h]
      exact ⟨fun h0 => absurd h0 (by decide), fun h0 => absurd h0 h⟩
  have hS1 : S1 = S0 ↔ ∀ i, i < P.BLOCK_LENGTH →
      Hmul P.BLOCK_WEIGHT [h0, h1] (fun k x => cyc P.BLOCK_LENGTH ([B0, B1].getD k []) x) i =
      Hmul P.BLOCK_WEIGHT [h0, h1] (fun k x => cyc P.BLOCK_LENGTH ([E0, E1].getD k []) x) i := by
    constructor
    · intro h i hi
      have h1' := gs1 i
      have h2' := gs0 i
      rw [if_pos hi, getD_replicate_zero, Nat.zero_xor] at h1' h2'
      rw [← h1', ← h2', h]
    · intro h
      apply list_eq_of_getD
      · rw [ls1, ls0]
      · intro i
        rw [gs1 i, gs0 i]
        by_cases hi : i < P.BLOCK_LENGTH
        · rw [if_pos hi, if_pos hi, h i hi]
        · rw [if_neg hi, if_neg hi]
  refine ⟨_, _, dec', r, S0, e1, ei, ed, ?_, es0, hsyn, ?_, ?_⟩
  · rw [hr]
    by_cases h : dec'.syndrome_weight = (P.SYNDROME_STOP : Int)
    · right; rw [if_pos h]
    · left; rw [if_neg h]
  · rw [hr1, hzero, ← hS1, hB, es1]
    exact ⟨fun h => by rw [h], fun h => Option.some.inj h⟩
  · intro h i hi
    have := (hzero.1 (hr1.1 h)) i hi
    rw [hB]
    exact this

theorem separated_validError : ValidError separatedParams [0] := by
  unfold ValidError separatedParams INDEX
  decide

set_option maxRecDepth 100000 in
theorem success_is_sound_witness :
    (∃ dec1 dec2 dec' r S0, reset_decoder separatedParams separatedDecoder = some dec1 ∧
      init_decoder_error separatedParams dec1 [[0, 1], [0, 2]] [0] none = some dec2 ∧
      qcmdpc_decode_ttl separatedParams (fun _ _ => 2) 10 dec2 3 = some (dec', r) ∧
      (r = 0 ∨ r = 1) ∧
      compute_syndrome separatedParams [[0, 1], [0, 2]] dec2.e
        (List.replicate separatedParams.bufLen 0) = some S0 ∧
      dec2.syndrome = S0 ∧
      (r = 1 ↔ compute_syndrome separatedParams [[0, 1], [0, 2]] dec'.bits
        (List.replicate separatedParams.bufLen 0) = some S0) ∧
      (r = 1 → ∀ i, i < separatedParams.BLOCK_LENGTH →
        Hmul separatedParams.BLOCK_WEIGHT [[0, 1], [0, 2]]
          (fun k x => cyc separatedParams.BLOCK_LENGTH (dec'.bits.getD k []) x) i =
        Hmul separatedParams.BLOCK_WEIGHT [[0, 1], [0, 2]]
          (fun k x => cyc separatedParams.BLOCK_LENGTH (dec2.e.getD k []) x) i)) ∧
    (((reset_decoder separatedParams separatedDecoder).bind (fun d =>
        init_decoder_error separatedParams d [[0, 1], [0, 2]] [0] none)).bind (fun d =>
          qcmdpc_decode_ttl separatedParams (fun _ _ => 2) 10 d 3)).map (fun x => x.2) =
      some 1 :=
  ⟨success_is_sound separatedParams separatedDecoder [[0, 1], [0, 2]] [0] none
      (fun _ _ => 2) 10 3 rfl (by decide) (by decide) separated_allocated
      separated_validH separated_validError (by decide),
    by decide⟩

/-! ## Random sparse blocks: `insert_sorted` and `sparse_rand` -/

theorem rd_append_mid {α : Type} (X Y : List α) (b : α) :
    rd (X ++ b :: Y) (X.length : Int) = some b := by
  rw [rd_natCast, List.getElem?_append_right (Nat.le_refl _), Nat.sub_self]
  exact List.getElem?_cons_zero

theorem wr_append_mid {α : Type} (X Y : List α) (b v : α) :
    wr (X ++ b :: Y) (X.length : Int) v = some (X ++ v :: Y) := by
  rw [wr_natCast _ _ _ (by simp)]
  simp

theorem rank_pos_le (l : List Int) : ∀ v, rank_pos l v ≤ l.length := by
  induction l with
  | nil => intro v; exact Nat.le_refl 0
  | cons a t ih =>
    intro v
    unfold rank_pos
    by_cases h : a ≤ v
    · rw [if_pos h]
      have := ih (v + 1)
      simp only [List.length_cons]
      omega
    · rw [if_neg h]
      exact Nat.zero_le _

/-- The scan and the insertion, as a split of the list: the value inserted is
`v + rank_pos l v`, at index `rank_pos l v`. -/
theorem rank_insert_eq (l : List Int) : ∀ v, rank_insert l v =
    l.take (rank_pos l v) ++ (v + (rank_pos l v : Int)) :: l.drop (rank_pos l v) := by
  induction l with
  | nil => intro v; simp [rank_insert, rank_pos]
  | cons a t ih =>
    intro v
    unfold rank_insert rank_pos
    by_cases h : a ≤ v
    · rw [if_pos h, if_pos h, ih (v + 1)]
      simp only [List.take_succ_cons, List.drop_succ_cons, List.cons_append]
      congr 3
      push_cast
      ring
    · rw [if_neg h, if_neg h]
      simp

theorem rank_insert_length (l : List Int) (v : Int) :
    (rank_insert l v).length = l.length + 1 := by
  rw [rank_insert_eq]
  have := rank_pos_le l v
  simp only [List.length_append, List.length_take, List.length_cons, List.length_drop]
  omega

theorem rank_insert_mem (l : List Int) (v x : Int) :
    x ∈ rank_insert l v ↔ x = v + (rank_pos l v : Int) ∨ x ∈ l := by
  rw [rank_insert_eq]
  simp only [List.mem_append, List.mem_cons]
  constructor
  · rintro (h | h | h)
    · exact Or.inr (List.mem_of_mem_take h)
    · exact Or.inl h
    · exact Or.inr (List.mem_of_mem_drop h)
  · rintro (h | h)
    · exact Or.inr (Or.inl h)
    · have := List.take_append_drop (rank_pos l v) l
      rw [← this, List.mem_append] at h
      rcases h with h | h
      · exact Or.inl h
      · exact Or.inr (Or.inr h)

/-- The first loop of `insert_sorted` on the entries `array[i .. i + n)`. -/
theorem insert_sorted_loop1_spec (array : List Int) :
    ∀ (n i : Nat) (value : Int), i + n ≤ array.length →
      insert_sorted_loop1 array n (i : Int) value =
        some ((i : Int) + (rank_pos ((array.drop i).take n) value : Int),
          value + (rank_pos ((array.drop i).take n) value : Int)) := by
  intro n
  induction n with
  | zero =>
    intro i value _
    simp [insert_sorted_loop1, rank_pos]
  | succ n ih =>
    intro i value h
    have hi : i < array.length := by omega
    have hd : array.drop i = array[i] :: array.drop (i + 1) := List.drop_eq_getElem_cons hi
    unfold insert_sorted_loop1
    rw [rd_natCast, List.getElem?_eq_getElem hi]
    simp only [Option.bind_eq_bind, Option.some_bind]
    rw [hd, List.take_succ_cons]
    unfold rank_pos
    by_cases hc : array[i] ≤ value
    · rw [if_pos hc, if_pos hc]
      have := ih (i + 1) (value + 1) (by omega)
      rw [show ((i : Int) + 1) = ((i + 1 : Nat) : Int) by push_cast; rfl, this]
      congr 2
      · push_cast; ring
      · push_cast; ring
    · rw [if_neg hc, if_neg hc]
      simp

/-- The second loop of `insert_sorted`, followed by the final store: the entries `B`
move up by one slot (over `c`) and `v` is stored in front of them. -/
theorem insert_sorted_loop2_spec (A : List Int) (v : Int) :
    ∀ (B : List Int) (c : Int) (C : List Int),
      (insert_sorted_loop2 B.length ((A.length + B.length : Nat) : Int)
        (A ++ B ++ c :: C)).bind (fun a => wr a (A.length : Int) v) =
      some (A ++ v :: B ++ C) := by
  intro B
  induction B using List.reverseRecOn with
  | nil =>
    intro c C
    simp only [List.length_nil, insert_sorted_loop2, List.append_nil, Option.some_bind]
    rw [wr_append_mid A C c v]
    simp
  | append_singleton B b ih =>
    intro c C
    have hlen : (B ++ [b]).length = B.length + 1 := by simp
    rw [hlen]
    unfold insert_sorted_loop2
    have hj : (((A.length + (B.length + 1) : Nat) : Int) - 1) =
        ((A ++ B).length : Int) := by
      rw [List.length_append]; push_cast; ring
    have hj2 : ((A.length + (B.length + 1) : Nat) : Int) = ((A ++ B ++ [b]).length : Int) := by
      simp only [List.length_append, List.length_singleton]; push_cast; ring
    have e1 : A ++ (B ++ [b]) ++ c :: C = (A ++ B) ++ b :: (c :: C) := by simp
    have e2 : A ++ (B ++ [b]) ++ c :: C = (A ++ B ++ [b]) ++ c :: C := by simp
    simp only [Option.bind_eq_bind]
    rw [hj]
    conv_lhs => rw [e1, rd_append_mid, Option.some_bind, ← e1, hj2, e2, wr_append_mid,
      Option.some_bind]
    have e3 : A ++ B ++ [b] ++ b :: C = A ++ B ++ b :: (b :: C) := by simp
    have hj3 : ((A ++ B).length : Int) = ((A.length + B.length : Nat) : Int) := by
      rw [List.length_append]
    rw [e3, hj3, ih b (b :: C)]
    simp

/-- The function `insert_sorted` on a buffer with room for one more entry: the first
`max_i + 1` entries become `rank_insert` of the first `max_i`, the rest is unchanged. -/
theorem insert_sorted_spec (value : Int) (m : Nat) (array : List Int)
    (hm : m < array.length) :
    insert_sorted value (m : Int) array =
      some (rank_insert (array.take m) value ++ array.drop (m + 1)) := by
  have hp := rank_pos_le (array.take m) value
  rw [List.length_take, Nat.min_eq_left (by omega)] at hp
  have e1 := insert_sorted_loop1_spec array m 0 value (by omega)
  rw [List.drop_zero] at e1
  unfold insert_sorted
  simp only [Option.bind_eq_bind, Int.toNat_ofNat]
  rw [show ((0 : Int)) = ((0 : Nat) : Int) by rfl, e1, Option.some_bind]
  simp only [Nat.cast_zero, Int.zero_add]
  -- the three parts of the buffer
  have hsplit : array = (array.take m).take (rank_pos (array.take m) value) ++
      (array.take m).drop (rank_pos (array.take m) value) ++ array[m] :: array.drop (m + 1) := by
    rw [List.take_append_drop, ← List.drop_eq_getElem_cons hm, List.take_append_drop]
  have hA : ((array.take m).take (rank_pos (array.take m) value)).length =
      rank_pos (array.take m) value := by
    rw [List.length_take, List.length_take]
    omega
  have hB : ((array.take m).drop (rank_pos (array.take m) value)).length =
      m - rank_pos (array.take m) value := by
    rw [List.length_drop, List.length_take]
    omega
  have hn : ((m : Int) - (rank_pos (array.take m) value : Int)).toNat =
      ((array.take m).drop (rank_pos (array.take m) value)).length := by
    rw [hB]; omega
  have hmm : (m : Int) = ((((array.take m).take (rank_pos (array.take m) value)).length +
      ((array.take m).drop (rank_pos (array.take m) value)).length : Nat) : Int) := by
    rw [hA, hB]; omega
  have hpp : (rank_pos (array.take m) value : Int) =
      (((array.take m).take (rank_pos (array.take m) value)).length : Int) := by
    rw [hA]
  rw [hn]
  conv_lhs => rw [hmm, hpp]
  conv_lhs => arg 1; arg 3; rw [hsplit]
  rw [insert_sorted_loop2_spec, rank_insert_eq, hA]

theorem foldl_rank_insert_length (r : List Int) :
    ∀ acc : List Int, (r.foldl rank_insert acc).length = acc.length + r.length := by
  induction r with
  | nil => intro acc; rfl
  | cons d t ih =>
    intro acc
    rw [List.foldl_cons, ih, rank_insert_length, List.length_cons]
    omega

theorem rank_fold_length (r : List Int) : (rank_fold r).length = r.length := by
  unfold rank_fold
  rw [foldl_rank_insert_length]
  simp

theorem rank_fold_concat (r : List Int) (d : Int) :
    rank_fold (r ++ [d]) = rank_insert (rank_fold r) d := by
  unfold rank_fold
  rw [List.foldl_append]
  rfl

/-- The function `sparse_rand` on a buffer of at least `weight` entries: the first
`weight` entries become the block built from the draws, the rest is unchanged. -/
theorem sparse_rand_spec (length : Int) (random_lim : Nat → Int → Int) (h : List Int) :
    ∀ w, w ≤ h.length →
      sparse_rand length w random_lim h =
        some (rank_fold ((List.range w).map
          (fun i : Nat => random_lim i (length - 1 - (i : Int)))) ++ h.drop w) := by
  intro w
  induction w with
  | zero => intro _; rfl
  | succ w ih =>
    intro hw
    have hF := rank_fold_length ((List.range w).map
      (fun i : Nat => random_lim i (length - 1 - (i : Int))))
    rw [List.length_map, List.length_range] at hF
    have hlt : w < (rank_fold ((List.range w).map
        (fun i : Nat => random_lim i (length - 1 - (i : Int)))) ++ h.drop w).length := by
      rw [List.length_append, hF, List.length_drop]; omega
    show (sparse_rand length w random_lim h).bind _ = _
    rw [ih (by omega), Option.some_bind]
    beta_reduce
    rw [insert_sorted_spec _ w _ hlt,
      List.take_left' hF, List.range_succ, List.map_append, List.map_singleton,
      rank_fold_concat]
    congr 2
    rw [List.drop_append_eq_append_drop, hF, List.drop_of_length_le (by omega),
      List.nil_append, List.drop_drop]
    congr 1
    omega

theorem rank_insert_sorted (l : List Int) :
    ∀ v, l.Pairwise (· < ·) → (rank_insert l v).Pairwise (· < ·) := by
  induction l with
  | nil => intro v _; exact List.pairwise_singleton _ _
  | cons a t ih =>
    intro v h
    rw [List.pairwise_cons] at h
    unfold rank_insert
    by_cases hc : a ≤ v
    · rw [if_pos hc, List.pairwise_cons]
      refine ⟨fun x hx => ?_, ih (v + 1) h.2⟩
      rcases (rank_insert_mem t (v + 1) x).1 hx with rfl | hx
      · omega
      · exact h.1 x hx
    · rw [if_neg hc, List.pairwise_cons, List.pairwise_cons]
      refine ⟨fun x hx => ?_, h⟩
      rw [List.mem_cons] at hx
      rcases hx with rfl | hx
      · omega
      · have := h.1 x hx
        omega

theorem rank_insert_bounds (L : Int) (l : List Int) (v : Int)
    (hl : ∀ x ∈ l, 0 ≤ x ∧ x < L) (hv : 0 ≤ v) (hvL : v + (l.length : Int) < L) :
    ∀ x ∈ rank_insert l v, 0 ≤ x ∧ x < L := by
  intro x hx
  rcases (rank_insert_mem l v x).1 hx with rfl | hx
  · have := rank_pos_le l v
    omega
  · exact hl x hx

/-- The block built from draws `r_i` in `[0, L - 1 - i]` is strictly ascending with
entries in `[0, L)`. -/
theorem rank_fold_valid (L : Int) (r : List Int) :
    (∀ i, i < r.length → 0 ≤ r.getD i 0 ∧ r.getD i 0 ≤ L - 1 - (i : Int)) →
    (rank_fold r).Pairwise (· < ·) ∧ ∀ x ∈ rank_fold r, 0 ≤ x ∧ x < L := by
  induction r using List.reverseRecOn with
  | nil => intro _; exact ⟨List.Pairwise.nil, fun x hx => absurd hx (List.not_mem_nil x)⟩
  | append_singleton r d ih =>
    intro h
    have hr := ih (fun i hi => by
      have := h i (by rw [List.length_append]; omega)
      rw [List.getD_append _ _ _ _ hi] at this
      exact this)
    have hd := h r.length (by simp)
    rw [List.getD_append_right _ _ _ _ (Nat.le_refl _), Nat.sub_self] at hd
    have hd' : 0 ≤ d ∧ d ≤ L - 1 - (r.length : Int) := hd
    rw [rank_fold_concat]
    exact ⟨rank_insert_sorted _ d hr.1,
      rank_insert_bounds L _ d hr.2 hd'.1 (by rw [rank_fold_length]; omega)⟩

/-- C33: for every `length`, every `weight` and every sequence of draws with
`0 <= r_i <= length - 1 - i` (`r_i` is the value of the `i`-th call of
`prng->random_lim`, whose limit is the decremented `length`; such draws exist only when
`weight <= length`), `sparse_rand` on a block with room for `weight` entries returns,
and afterwards the entries `h[0 .. weight)` are strictly ascending, hence pairwise
distinct, and each lies in `[0, length)`; the entries from `weight` on are not written.
On a block of exactly `weight` entries the result is a valid sparse block. -/
theorem sparse_rand_valid (length weight : Nat) (random_lim : Nat → Int → Int)
    (h : List Int) (hh : weight ≤ h.length)
    (hdraw : ∀ i, i < weight → 0 ≤ random_lim i ((length : Int) - 1 - (i : Int)) ∧
      random_lim i ((length : Int) - 1 - (i : Int)) ≤ (length : Int) - 1 - (i : Int)) :
    ∃ h', sparse_rand (length : Int) weight random_lim h = some h' ∧
      h'.length = h.length ∧
      (h'.take weight).Pairwise (· < ·) ∧ (h'.take weight).Nodup ∧
      (∀ x ∈ h'.take weight, 0 ≤ x ∧ x < (length : Int)) ∧
      h'.drop weight = h.drop weight ∧
      (h.length = weight → ValidColumn length weight h') := by
  have hlen : ((List.range weight).map
      (fun i : Nat => random_lim i ((length : Int) - 1 - (i : Int)))).length = weight := by
    rw [List.length_map, List.length_range]
  have hF := rank_fold_length ((List.range weight).map
    (fun i : Nat => random_lim i ((length : Int) - 1 - (i : Int))))
  rw [hlen] at hF
  obtain ⟨hs, hb⟩ := rank_fold_valid (length : Int) ((List.range weight).map
    (fun i : Nat => random_lim i ((length : Int) - 1 - (i : Int)))) (by
      intro i hi
      rw [hlen] at hi
      rw [List.getD_eq_getElem _ _ (by rw [hlen]; exact hi), List.getElem_map,
        List.getElem_range]
      exact hdraw i hi)
  have htake : (rank_fold ((List.range weight).map
      (fun i : Nat => random_lim i ((length : Int) - 1 - (i : Int)))) ++
        h.drop weight).take weight =
      rank_fold ((List.range weight).map
        (fun i : Nat => random_lim i ((length : Int) - 1 - (i : Int)))) :=
    List.take_left' hF
  refine ⟨_, sparse_rand_spec (length : Int) random_lim h weight hh, ?_, ?_, ?_, ?_, ?_, ?_⟩
  · rw [List.length_append, hF, List.length_drop]
    omega
  · rw [htake]; exact hs
  · rw [htake]; exact hs.imp (fun hab => ne_of_lt hab)
  · rw [htake]; exact hb
  · rw [List.drop_append_eq_append_drop, hF, List.drop_of_length_le (by omega),
      List.nil_append, Nat.sub_self, List.drop_zero]
  · intro hw
    rw [List.drop_of_length_le (by omega), List.append_nil]
    exact ⟨hF, hb, hs⟩

theorem sparse_rand_valid_witness :
    ∃ h', sparse_rand ((5 : Nat) : Int) 3 (fun i _ => ([3, 0, 1] : List Int).getD i 0)
        [9, 9, 9] = some h' ∧
      h'.length = [9, 9, 9].length ∧
      (h'.take 3).Pairwise (· < ·) ∧ (h'.take 3).Nodup ∧
      (∀ x ∈ h'.take 3, 0 ≤ x ∧ x < ((5 : Nat) : Int)) ∧
      h'.drop 3 = ([9, 9, 9] : List Int).drop 3 ∧
      (([9, 9, 9] : List Int).length = 3 → ValidColumn 5 3 h') :=
  sparse_rand_valid 5 3 (fun i _ => ([3, 0, 1] : List Int).getD i 0) [9, 9, 9] (by decide)
    (by
      intro i hi
      have h3 : i = 0 ∨ i = 1 ∨ i = 2 := by omega
      rcases h3 with rfl | rfl | rfl <;> decide)

/-! ## `insert_sorted` converts a rank into a position -/

/-- The value `w = v + rank_pos l v` that the scan inserts into a strictly ascending
list `l` of non-negative integers is not in `l`, and exactly `v` of the integers of
`[0, w)` are not in `l`: `w` is the `v`-th smallest (0-indexed) non-negative integer
that is not in `l`. -/
theorem rank_insert_rank (l : List Int) :
    ∀ v : Int, 0 ≤ v → l.Pairwise (· < ·) → (∀ x ∈ l, 0 ≤ x) →
      v + (rank_pos l v : Int) ∉ l ∧
      ((Finset.Ico (0 : Int) (v + (rank_pos l v : Int))).filter (fun u => u ∉ l)).card =
        v.toNat := by
  induction l with
  | nil =>
    intro v hv _ _
    refine ⟨List.not_mem_nil _, ?_⟩
    simp [rank_pos]
  | cons a t ih =>
    intro v hv hs h0
    rw [List.pairwise_cons] at hs
    have ha0 : 0 ≤ a := h0 a (List.mem_cons_self _ _)
    unfold rank_pos
    by_cases hc : a ≤ v
    · rw [if_pos hc]
      obtain ⟨hn, hcard⟩ := ih (v + 1) (by omega) hs.2
        (fun x hx => h0 x (List.mem_cons_of_mem _ hx))
      have hw : v + ((rank_pos t (v + 1) + 1 : Nat) : Int) =
          v + 1 + (rank_pos t (v + 1) : Int) := by push_cast; ring
      rw [hw]
      refine ⟨?_, ?_⟩
      · intro hmem
        rw [List.mem_cons] at hmem
        rcases hmem with h | h
        · omega
        · exact hn h
      · have hat : a ∉ t := fun h => absurd (hs.1 a h) (lt_irrefl a)
        have hfil : (Finset.Ico (0 : Int) (v + 1 + (rank_pos t (v + 1) : Int))).filter
            (fun u => u ∉ a :: t) =
            ((Finset.Ico (0 : Int) (v + 1 + (rank_pos t (v + 1) : Int))).filter
              (fun u => u ∉ t)).erase a := by
          ext u
          simp only [Finset.mem_filter, Finset.mem_erase, List.mem_cons, not_or]
          tauto
        rw [hfil, Finset.card_erase_of_mem (by
          rw [Finset.mem_filter, Finset.mem_Ico]
          exact ⟨⟨ha0, by omega⟩, hat⟩), hcard]
        omega
    · rw [if_neg hc]
      have hnot : ∀ u, u < v → u ∉ a :: t := by
        intro u hu hmem
        rw [List.mem_cons] at hmem
        rcases hmem with h | h
        · omega
        · have := hs.1 u h
          omega
      refine ⟨?_, ?_⟩
      · intro hmem
        rw [List.mem_cons] at hmem
        simp only [Nat.cast_zero, add_zero] at hmem
        rcases hmem with h | h
        · omega
        · have := hs.1 v h
          omega
      · simp only [Nat.cast_zero, add_zero]
        rw [Finset.filter_true_of_mem (fun u hu => hnot u (by
          rw [Finset.mem_Ico] at hu; exact hu.2))]
        simp

theorem rank_pos_mono (l : List Int) : ∀ d d' : Int, d ≤ d' → rank_pos l d ≤ rank_pos l d' := by
  induction l with
  | nil => intro d d' _; exact Nat.le_refl 0
  | cons a t ih =>
    intro d d' h
    unfold rank_pos
    by_cases hc : a ≤ d
    · rw [if_pos hc, if_pos (by omega)]
      have := ih (d + 1) (d' + 1) (by omega)
      omega
    · rw [if_neg hc]
      exact Nat.zero_le _

theorem rank_value_not_mem (l : List Int) :
    ∀ v : Int, l.Pairwise (· < ·) → v + (rank_pos l v : Int) ∉ l := by
  induction l with
  | nil => intro v _; exact List.not_mem_nil _
  | cons a t ih =>
    intro v hs
    rw [List.pairwise_cons] at hs
    unfold rank_pos
    by_cases hc : a ≤ v
    · rw [if_pos hc]
      intro hmem
      rw [List.mem_cons] at hmem
      rcases hmem with h | h
      · push_cast at h; omega
      · apply ih (v + 1) hs.2
        have hw : v + 1 + (rank_pos t (v + 1) : Int) =
            v + ((rank_pos t (v + 1) + 1 : Nat) : Int) := by push_cast; ring
        rw [hw]
        exact h
    · rw [if_neg hc]
      intro hmem
      rw [List.mem_cons] at hmem
      simp only [Nat.cast_zero, add_zero] at hmem
      rcases hmem with h | h
      · omega
      · have := hs.1 v h
        omega

/-- Distinct ranks insert distinct values: on a strictly ascending list the result of
the insertion determines the rank. -/
theorem rank_insert_inj (l : List Int) (hs : l.Pairwise (· < ·)) (d d' : Int)
    (h : rank_insert l d = rank_insert l d') : d = d' := by
  have key : ∀ a b : Int, a < b → rank_insert l a = rank_insert l b → False := by
    intro a b hab he
    have hm := rank_pos_mono l a b (by omega)
    have hb : b + (rank_pos l b : Int) ∈ rank_insert l a := by
      rw [he, rank_insert_mem]
      exact Or.inl rfl
    rcases (rank_insert_mem l a _).1 hb with h1 | h1
    · omega
    · exact rank_value_not_mem l b hs h1
  rcases lt_trichotomy d d' with h1 | h1 | h1
  · exact absurd (key d d' h1 h) id
  · exact h1
  · exact absurd (key d' d h1 h.symm) id

theorem sorted_gap (l : List Int) :
    ∀ (a s : Int) (post : List Int), (a :: (l ++ s :: post)).Pairwise (· < ·) →
      a + (l.length : Int) + 1 ≤ s := by
  induction l with
  | nil =>
    intro a s post h
    rw [List.nil_append, List.pairwise_cons] at h
    have := h.1 s (List.mem_cons_self _ _)
    simp only [List.length_nil, Nat.cast_zero]
    omega
  | cons b t ih =>
    intro a s post h
    rw [List.pairwise_cons] at h
    have h1 := h.1 b (by simp)
    have h2 := ih b s post (by simpa using h.2)
    simp only [List.length_cons]
    push_cast
    omega

theorem sorted_head_bound (L : Int) (post : List Int) :
    ∀ s : Int, (s :: post).Pairwise (· < ·) → (∀ x ∈ s :: post, x < L) →
      s + (post.length : Int) < L := by
  induction post with
  | nil =>
    intro s _ hb
    have := hb s (List.mem_cons_self _ _)
    simp only [List.length_nil, Nat.cast_zero]
    omega
  | cons b t ih =>
    intro s h hb
    rw [List.pairwise_cons] at h
    have h1 := h.1 b (List.mem_cons_self _ _)
    have h2 := ih b h.2 (fun x hx => hb x (List.mem_cons_of_mem _ hx))
    simp only [List.length_cons]
    push_cast
    omega

/-- Inserting with the rank `s - |pre|` puts `s` back into its place. -/
theorem insert_at_gap (pre : List Int) :
    ∀ (s : Int) (post : List Int), (pre ++ s :: post).Pairwise (· < ·) →
      rank_insert (pre ++ post) (s - (pre.length : Int)) = pre ++ s :: post := by
  induction pre with
  | nil =>
    intro s post h
    simp only [List.nil_append, List.length_nil, Nat.cast_zero, sub_zero]
    cases post with
    | nil => rfl
    | cons b t =>
      rw [List.nil_append, List.pairwise_cons] at h
      have := h.1 b (List.mem_cons_self _ _)
      unfold rank_insert
      rw [if_neg (by omega)]
  | cons a pre ih =>
    intro s post h
    have hg := sorted_gap pre a s post (by simpa using h)
    rw [List.cons_append, List.pairwise_cons] at h
    rw [List.cons_append]
    unfold rank_insert
    simp only [List.length_cons]
    rw [if_pos (by push_cast; omega)]
    have hv : s - ((pre.length + 1 : Nat) : Int) + 1 = s - (pre.length : Int) := by
      push_cast; ring
    rw [hv, ih s post h.2]
    rfl

/-- Every entry `s` of a strictly ascending block `S` of `[0, L)` is put back by the
insertion of one rank `d` with `d + (|S| - 1) < L` into `S` without `s`. -/
theorem erase_rank_exists (L : Nat) (S : List Int) (s : Int)
    (hs : S.Pairwise (· < ·)) (hb : ∀ x ∈ S, 0 ≤ x ∧ x < (L : Int)) (hmem : s ∈ S) :
    ∃ d : Nat, d + (S.length - 1) < L ∧ rank_insert (S.erase s) (d : Int) = S := by
  obtain ⟨pre, post, rfl⟩ := List.append_of_mem hmem
  have hsp := List.pairwise_append.1 hs
  have hnot : s ∉ pre := fun h =>
    absurd (hsp.2.2 s h s (List.mem_cons_self _ _)) (lt_irrefl s)
  have herase : (pre ++ s :: post).erase s = pre ++ post := by
    rw [List.erase_append_right _ hnot, List.erase_cons_head]
  have hs0 := (hb s hmem).1
  have hlo : (pre.length : Int) ≤ s := by
    cases pre with
    | nil => simpa using hs0
    | cons a l =>
      have hg := sorted_gap l a s post (by simpa using hs)
      have ha := (hb a (by simp)).1
      simp only [List.length_cons]
      push_cast
      omega
  have hhi := sorted_head_bound (L : Int) post s hsp.2.1
    (fun x hx => (hb x (List.mem_append_right _ hx)).2)
  refine ⟨(s - (pre.length : Int)).toNat, ?_, ?_⟩
  · simp only [List.length_append, List.length_cons]
    omega
  · rw [herase, Int.toNat_of_nonneg (by omega)]
    exact insert_at_gap pre s post hs

/-- A block obtained by an insertion into a strictly ascending block `T` is `T` with
one more entry. -/
theorem rank_insert_erase (T S : List Int) (d : Int) (hT : T.Pairwise (· < ·))
    (h : rank_insert T d = S) :
    d + (rank_pos T d : Int) ∈ S ∧ S.erase (d + (rank_pos T d : Int)) = T := by
  have hn := rank_value_not_mem T d hT
  subst h
  refine ⟨(rank_insert_mem T d _).2 (Or.inl rfl), ?_⟩
  rw [rank_insert_eq, List.erase_append_right _ (fun h => hn (List.mem_of_mem_take h)),
    List.erase_cons_head, List.take_append_drop]

/-- The number of ranks `d < L - w` whose insertion into `T` gives `S`: one when `T` is
`S` without one of its entries, none otherwise. -/
theorem count_ranks (L w : Nat) (T S : List Int) (hT : T.Pairwise (· < ·))
    (hS : S.Pairwise (· < ·)) (hb : ∀ x ∈ S, 0 ≤ x ∧ x < (L : Int))
    (hlen : S.length = w + 1) :
    List.countP (fun d : Nat => decide (rank_insert T (d : Int) = S)) (List.range (L - w)) =
      if T ∈ S.map (fun s => S.erase s) then 1 else 0 := by
  by_cases hmem : T ∈ S.map (fun s => S.erase s)
  · rw [if_pos hmem]
    obtain ⟨s, hsS, rfl⟩ := List.mem_map.1 hmem
    obtain ⟨d0, hd0, he0⟩ := erase_rank_exists L S s hS hb hsS
    rw [hlen] at hd0
    have hcongr : List.countP (fun d : Nat => decide (rank_insert (S.erase s) (d : Int) = S))
        (List.range (L - w)) =
        List.countP (fun d : Nat => d == d0) (List.range (L - w)) := by
      apply List.countP_congr
      intro d _
      simp only [decide_eq_true_eq, beq_iff_eq]
      constructor
      · intro h
        have := rank_insert_inj (S.erase s) hT (d : Int) (d0 : Int) (by rw [h, he0])
        omega
      · intro h
        rw [h, he0]
    rw [hcongr]
    exact List.count_eq_one_of_mem (List.nodup_range _) (List.mem_range.2 (by omega))
  · rw [if_neg hmem, List.countP_eq_zero]
    intro d _ hd
    rw [decide_eq_true_eq] at hd
    obtain ⟨hv, he⟩ := rank_insert_erase T S (d : Int) hT hd
    exact hmem (List.mem_map.2 ⟨_, hv, he⟩)

/-- Double counting: the elements of `l` whose image lies in a duplicate-free list `Ts`
are counted once, by their image. -/
theorem countP_mem_eq_sum {α β : Type} (g : α → β) (Ts : List β) (hTs : Ts.Nodup)
    (l : List α) (p : α → Bool) (q : β → α → Bool)
    (hp : ∀ r, p r = true ↔ g r ∈ Ts) (hq : ∀ T r, q T r = true ↔ g r = T) :
    List.countP p l = (Ts.map (fun T => List.countP (q T) l)).sum := by
  classical
  induction l with
  | nil => simp
  | cons a l ih =>
    simp only [List.countP_cons]
    rw [List.sum_map_add, ← ih]
    congr 1
    have hcount : (Ts.map (fun T => if q T a = true then 1 else 0)).sum =
        List.count (g a) Ts := by
      clear ih hTs hp
      induction Ts with
      | nil => rfl
      | cons T Ts ih2 =>
        rw [List.map_cons, List.sum_cons, ih2, List.count_cons]
        simp only [beq_iff_eq]
        by_cases h : g a = T
        · rw [if_pos ((hq T a).2 h), if_pos h.symm]; omega
        · rw [if_neg (fun h' => h ((hq T a).1 h')), if_neg (fun h' => h h'.symm)]; omega
    rw [hcount]
    by_cases h : g a ∈ Ts
    · rw [List.count_eq_one_of_mem hTs h, if_pos ((hp a).2 h)]
    · rw [List.count_eq_zero_of_not_mem h, if_neg (fun h' => h ((hp a).1 h'))]

/-- The list `draw_sequences L w` holds exactly the sequences of `w` draws with
`0 <= r_i <= L - 1 - i`. -/
theorem mem_draw_sequences (L : Nat) :
    ∀ (w : Nat) (r : List Int), r ∈ draw_sequences L w ↔
      r.length = w ∧ ∀ i, i < w → 0 ≤ r.getD i 0 ∧ r.getD i 0 ≤ (L : Int) - 1 - (i : Int) := by
  intro w
  induction w with
  | zero =>
    intro r
    unfold draw_sequences
    rw [List.mem_singleton]
    constructor
    · rintro rfl
      exact ⟨rfl, fun i hi => absurd hi (Nat.not_lt_zero i)⟩
    · intro h
      exact List.length_eq_zero.1 h.1
  | succ w ih =>
    intro r
    unfold draw_sequences
    rw [List.mem_flatMap]
    constructor
    · rintro ⟨r', hr', hr⟩
      obtain ⟨d, hd, rfl⟩ := List.mem_map.1 hr
      rw [List.mem_range] at hd
      obtain ⟨hl, hg⟩ := (ih r').1 hr'
      refine ⟨by rw [List.length_append, hl]; rfl, fun i hi => ?_⟩
      by_cases hiw : i < w
      · rw [List.getD_append _ _ _ _ (by omega)]
        exact hg i hiw
      · have hi' : i = w := by omega
        subst hi'
        rw [List.getD_append_right _ _ _ _ (by omega), hl, Nat.sub_self]
        show 0 ≤ (d : Int) ∧ (d : Int) ≤ _
        omega
    · rintro ⟨hl, hg⟩
      rcases List.eq_nil_or_concat r with rfl | ⟨r', x, rfl⟩
      · simp at hl
      · rw [List.concat_eq_append] at hl hg ⊢
        have hl' : r'.length = w := by
          rw [List.length_append] at hl
          simpa using hl
        have hx := hg w (by omega)
        rw [List.getD_append_right _ _ _ _ (by omega), hl', Nat.sub_self] at hx
        have hx' : 0 ≤ x ∧ x ≤ (L : Int) - 1 - (w : Int) := hx
        refine ⟨r', (ih r').2 ⟨hl', fun i hi => ?_⟩, List.mem_map.2 ⟨x.toNat, ?_, ?_⟩⟩
        · have := hg i (by omega)
          rw [List.getD_append _ _ _ _ (by omega)] at this
          exact this
        · rw [List.mem_range]
          omega
        · rw [Int.toNat_of_nonneg hx'.1]

theorem draw_sequences_nodup (L : Nat) : ∀ w, (draw_sequences L w).Nodup := by
  intro w
  induction w with
  | zero => exact List.nodup_singleton _
  | succ w ih =>
    unfold draw_sequences
    rw [List.nodup_flatMap]
    refine ⟨fun r _ => ?_, ih.imp ?_⟩
    · refine List.Nodup.map ?_ (List.nodup_range _)
      intro d d' h
      have h1 : [(d : Int)] = [(d' : Int)] := List.append_cancel_left h
      have h2 : (d : Int) = (d' : Int) := by simpa using h1
      omega
    · intro a b hab x hxa hxb
      obtain ⟨d, _, rfl⟩ := List.mem_map.1 hxa
      obtain ⟨d', _, hd'⟩ := List.mem_map.1 hxb
      exact hab (List.append_inj' hd' rfl).1.symm

theorem sum_indicator {α : Type} (p : α → Bool) (l : List α) :
    (l.map (fun x => if p x = true then 1 else 0)).sum = l.countP p := by
  induction l with
  | nil => rfl
  | cons a l ih =>
    rw [List.map_cons, List.sum_cons, ih, List.countP_cons]
    omega

theorem erasures_nodup (S : List Int) (hS : S.Nodup) :
    (S.map (fun s => S.erase s)).Nodup := by
  refine List.Nodup.map_on ?_ hS
  intro x hx y hy h
  by_contra hne
  have h1 : y ∈ S.erase x := (hS.mem_erase_iff).2 ⟨fun h' => hne h'.symm, hy⟩
  rw [h] at h1
  exact ((hS.mem_erase_iff).1 h1).1 rfl

/-- Every strictly ascending block of `w` entries of `[0, L)` is built by exactly `w!`
sequences of draws. -/
theorem count_draws (L : Nat) :
    ∀ (w : Nat) (S : List Int), S.Pairwise (· < ·) → (∀ x ∈ S, 0 ≤ x ∧ x < (L : Int)) →
      S.length = w →
      List.countP (fun r => decide (rank_fold r = S)) (draw_sequences L w) =
        w.factorial := by
  intro w
  induction w with
  | zero =>
    intro S _ _ hl
    have hS : S = [] := List.length_eq_zero.1 hl
    subst hS
    rfl
  | succ w ih =>
    intro S hS hb hl
    have hE := erasures_nodup S (hS.imp (fun h => ne_of_lt h))
    unfold draw_sequences
    rw [List.countP_flatMap]
    have hstep : (draw_sequences L w).map
        (List.countP (fun r => decide (rank_fold r = S)) ∘
          fun r => (List.range (L - w)).map (fun d : Nat => r ++ [(d : Int)])) =
        (draw_sequences L w).map
          (fun r => if decide (rank_fold r ∈ S.map (fun s => S.erase s)) = true
            then 1 else 0) := by
      apply List.map_congr_left
      intro r hr
      obtain ⟨hrl, hrg⟩ := (mem_draw_sequences L w r).1 hr
      have hT := (rank_fold_valid (L : Int) r (fun i hi => hrg i (by omega))).1
      show List.countP _ ((List.range (L - w)).map _) = _
      rw [List.countP_map]
      have hc := count_ranks L w (rank_fold r) S hT hS hb hl
      have hfun : ((fun r => decide (rank_fold r = S)) ∘ fun (d : Nat) => r ++ [(d : Int)]) =
          fun d : Nat => decide (rank_insert (rank_fold r) (d : Int) = S) := by
        funext d
        show decide (rank_fold (r ++ [(d : Int)]) = S) = _
        rw [rank_fold_concat]
      rw [hfun, hc]
      by_cases hm : rank_fold r ∈ S.map (fun s => S.erase s)
      · rw [if_pos hm, if_pos (decide_eq_true hm)]
      · rw [if_neg hm, if_neg (by simpa using hm)]
    rw [hstep, sum_indicator, countP_mem_eq_sum rank_fold _ hE (draw_sequences L w) _
      (fun T r => decide (rank_fold r = T)) (fun r => by simp) (fun T r => by simp),
      List.map_map]
    have hconst : (S.map ((fun T => List.countP (fun r => decide (rank_fold r = T))
        (draw_sequences L w)) ∘ fun s => S.erase s)) = S.map (fun _ => w.factorial) := by
      apply List.map_congr_left
      intro s hs
      show List.countP _ _ = _
      apply ih (S.erase s) (hS.sublist (List.erase_sublist s S))
        (fun x hx => hb x (List.mem_of_mem_erase hx))
      rw [List.length_erase_of_mem hs, hl]
      rfl
    rw [hconst, List.map_const', List.sum_replicate, hl, Nat.factorial_succ]
    rfl

theorem range_map_getD (r : List Int) (w : Nat) (hl : r.length = w) :
    (List.range w).map (fun i : Nat => r.getD i 0) = r := by
  apply List.ext_getElem
  · rw [List.length_map, List.length_range, hl]
  · intro i h1 h2
    rw [List.getElem_map, List.getElem_range, List.getD_eq_getElem r 0 h2]

/-- The function `sparse_rand` run on a sequence of `w` draws. -/
theorem sparse_rand_draws (L w : Nat) (h r : List Int) (hh : w ≤ h.length)
    (hl : r.length = w) :
    (sparse_rand (L : Int) w (fun i _ => r.getD i 0) h).map (fun a => a.take w) =
      some (rank_fold r) := by
  rw [sparse_rand_spec (L : Int) (fun i _ => r.getD i 0) h w hh]
  show some ((rank_fold ((List.range w).map (fun i : Nat => r.getD i 0)) ++
    h.drop w).take w) = _
  rw [range_map_getD r w hl, List.take_left' (by rw [rank_fold_length, hl])]

/-- C37: (1) for a buffer with room for one more entry whose first `max_i` entries are
strictly ascending and non-negative, and a value `>= 0`, `insert_sorted` returns; the
entry `v` it inserts is not among the former entries and exactly `value` of the
integers of `[0, v)` are not among them, so `v` is the `value`-th smallest (0-indexed)
non-negative integer not already present; afterwards `array[0 .. max_i]` is strictly
ascending and holds `v` and the former entries, and the rest of the buffer is
unchanged. (2) The list `draw_sequences L w` holds, each once, the sequences of draws
with `r_i` in `[0, L - 1 - i]`; for every strictly ascending block `S` of `w` entries of
`[0, L)`, exactly `w!` of these sequences make `sparse_rand` produce `S`, and in
particular at least one does. -/
theorem insert_sorted_rank (value : Int) (m : Nat) (array : List Int) (L w : Nat)
    (h : List Int)
    (hm : m < array.length) (hs : (array.take m).Pairwise (· < ·))
    (h0 : ∀ x ∈ array.take m, 0 ≤ x) (hv : 0 ≤ value) (hh : w ≤ h.length) :
    (∃ array' v, insert_sorted value (m : Int) array = some array' ∧
      array'.length = array.length ∧ array'.drop (m + 1) = array.drop (m + 1) ∧
      (array'.take (m + 1)).Pairwise (· < ·) ∧ 0 ≤ v ∧ v ∉ array.take m ∧
      (∀ x, x ∈ array'.take (m + 1) ↔ x = v ∨ x ∈ array.take m) ∧
      ((Finset.Ico (0 : Int) v).filter (fun u => u ∉ array.take m)).card = value.toNat) ∧
    (draw_sequences L w).Nodup ∧
    (∀ r, r ∈ draw_sequences L w ↔
      r.length = w ∧
        ∀ i, i < w → 0 ≤ r.getD i 0 ∧ r.getD i 0 ≤ (L : Int) - 1 - (i : Int)) ∧
    ∀ S : List Int, S.length = w → S.Pairwise (· < ·) →
      (∀ x ∈ S, 0 ≤ x ∧ x < (L : Int)) →
      List.countP (fun r => decide
          ((sparse_rand (L : Int) w (fun i _ => r.getD i 0) h).map (fun a => a.take w) =
            some S)) (draw_sequences L w) = w.factorial ∧
      ∃ r, r ∈ draw_sequences L w ∧
        (sparse_rand (L : Int) w (fun i _ => r.getD i 0) h).map (fun a => a.take w) =
          some S := by
  refine ⟨?_, draw_sequences_nodup L w, mem_draw_sequences L w, fun S hl hS hb => ?_⟩
  · have hlen : (rank_insert (array.take m) value).length = m + 1 := by
      rw [rank_insert_length, List.length_take]
      omega
    have htake : (rank_insert (array.take m) value ++ array.drop (m + 1)).take (m + 1) =
        rank_insert (array.take m) value := List.take_left' hlen
    obtain ⟨hn, hcard⟩ := rank_insert_rank (array.take m) value hv hs h0
    refine ⟨_, value + (rank_pos (array.take m) value : Int),
      insert_sorted_spec value m array hm, ?_, ?_, ?_, by omega, hn, ?_, hcard⟩
    · rw [List.length_append, hlen, List.length_drop]
      omega
    · rw [List.drop_append_eq_append_drop, hlen, List.drop_of_length_le (by omega),
        List.nil_append, Nat.sub_self, List.drop_zero]
    · rw [htake]
      exact rank_insert_sorted _ value hs
    · intro x
      rw [htake]
      exact rank_insert_mem _ value x
  · have hcongr : List.countP (fun r => decide
          ((sparse_rand (L : Int) w (fun i _ => r.getD i 0) h).map (fun a => a.take w) =
            some S)) (draw_sequences L w) =
        List.countP (fun r => decide (rank_fold r = S)) (draw_sequences L w) := by
      apply List.countP_congr
      intro r hr
      have hrl := ((mem_draw_sequences L w r).1 hr).1
      rw [sparse_rand_draws L w h r hh hrl]
      simp
    have hcount := count_draws L w S hS hb hl
    refine ⟨hcongr.trans hcount, ?_⟩
    have hpos : 0 < List.countP (fun r => decide (rank_fold r = S)) (draw_sequences L w) := by
      rw [hcount]
      exact Nat.factorial_pos w
    obtain ⟨r, hr, hp⟩ := List.countP_pos_iff.1 hpos
    have hrl := ((mem_draw_sequences L w r).1 hr).1
    refine ⟨r, hr, ?_⟩
    rw [sparse_rand_draws L w h r hh hrl]
    simpa using hp

theorem insert_sorted_rank_witness :
    (∃ array' v, insert_sorted 1 ((2 : Nat) : Int) [0, 3, 9] = some array' ∧
      array'.length = ([0, 3, 9] : List Int).length ∧
      array'.drop (2 + 1) = ([0, 3, 9] : List Int).drop (2 + 1) ∧
      (array'.take (2 + 1)).Pairwise (· < ·) ∧ 0 ≤ v ∧ v ∉ ([0, 3, 9] : List Int).take 2 ∧
      (∀ x, x ∈ array'.take (2 + 1) ↔ x = v ∨ x ∈ ([0, 3, 9] : List Int).take 2) ∧
      ((Finset.Ico (0 : Int) v).filter
        (fun u => u ∉ ([0, 3, 9] : List Int).take 2)).card = (1 : Int).toNat) ∧
    (draw_sequences 4 2).Nodup ∧
    (∀ r, r ∈ draw_sequences 4 2 ↔
      r.length = 2 ∧
        ∀ i, i < 2 → 0 ≤ r.getD i 0 ∧ r.getD i 0 ≤ ((4 : Nat) : Int) - 1 - (i : Int)) ∧
    ∀ S : List Int, S.length = 2 → S.Pairwise (· < ·) →
      (∀ x ∈ S, 0 ≤ x ∧ x < ((4 : Nat) : Int)) →
      List.countP (fun r => decide
          ((sparse_rand ((4 : Nat) : Int) 2 (fun i _ => r.getD i 0) [9, 9]).map
            (fun a => a.take 2) = some S)) (draw_sequences 4 2) = Nat.factorial 2 ∧
      ∃ r, r ∈ draw_sequences 4 2 ∧
        (sparse_rand ((4 : Nat) : Int) 2 (fun i _ => r.getD i 0) [9, 9]).map
          (fun a => a.take 2) = some S :=
  insert_sorted_rank 1 2 [0, 3, 9] 4 2 [9, 9] (by decide) (by decide) (by decide)
    (by decide) (by decide)

/-! ## The preconditions of the flip-list calls -/

theorem linked_after_append (ops : List fl_op) :
    ∀ (l : List Nat) (op : fl_op), linked_after l (ops ++ [op]) =
      linked_after (linked_after l ops) [op] := by
  induction ops with
  | nil => intro l op; rfl
  | cons o ops ih =>
    intro l op
    cases o with
    | add pos => exact ih (pos :: l) op
    | remove pos => exact ih (l.erase pos) op

theorem validOps_append (M : Nat) (ops : List fl_op) :
    ∀ (l : List Nat) (op : fl_op), ValidOps M l (ops ++ [op]) ↔
      ValidOps M l ops ∧ ValidOps M (linked_after l ops) [op] := by
  induction ops with
  | nil =>
    intro l op
    exact ⟨fun h => ⟨trivial, h⟩, fun h => h.2⟩
  | cons o ops ih =>
    intro l op
    cases o with
    | add pos =>
      show (pos < M ∧ pos ∉ l ∧ ValidOps M (pos :: l) (ops ++ [op])) ↔
        (pos < M ∧ pos ∉ l ∧ ValidOps M (pos :: l) ops) ∧
          ValidOps M (linked_after (pos :: l) ops) [op]
      rw [ih (pos :: l) op]
      tauto
    | remove pos =>
      show (pos ∈ l ∧ ValidOps M (l.erase pos) (ops ++ [op])) ↔
        (pos ∈ l ∧ ValidOps M (l.erase pos) ops) ∧
          ValidOps M (linked_after (l.erase pos) ops) [op]
      rw [ih (l.erase pos) op]
      tauto

/-- A call of `fl_remove` on a position whose bit is set, followed by the clearing of
that bit, keeps the invariant on the log. -/
theorem logInv_remove (P : Params) (l0 : List Nat) (dec dec' : decoder) (log : List fl_op)
    (pos : Nat) (hpos : pos < INDEX * P.BLOCK_LENGTH)
    (h : LogInv P l0 dec log) (hbit : bitAt P.BLOCK_LENGTH dec.bits pos = 1)
    (hbits : ∀ p, bitAt P.BLOCK_LENGTH dec'.bits p =
      if p = pos then 0 else bitAt P.BLOCK_LENGTH dec.bits p) :
    LogInv P l0 dec' (log ++ [fl_op.remove pos]) := by
  obtain ⟨hv, hn, hm⟩ := h
  have hmem : pos ∈ linked_after l0 log := (hm pos).2 ⟨hpos, hbit⟩
  refine ⟨(validOps_append _ log l0 _).2 ⟨hv, hmem, trivial⟩, ?_, fun p => ?_⟩
  · rw [linked_after_append]
    exact hn.erase pos
  · rw [linked_after_append]
    show p ∈ (linked_after l0 log).erase pos ↔ _
    rw [hn.mem_erase_iff, hm p, hbits p]
    by_cases hp : p = pos
    · rw [if_pos hp]
      exact ⟨fun h => absurd hp h.1, fun h => absurd h.2 (by decide)⟩
    · rw [if_neg hp]
      exact ⟨fun h => h.2, fun h => ⟨hp, h⟩⟩

/-- A call of `fl_add` on a position whose bit is clear, followed by the setting of
that bit, keeps the invariant on the log. -/
theorem logInv_add (P : Params) (l0 : List Nat) (dec dec' : decoder) (log : List fl_op)
    (pos : Nat) (hpos : pos < INDEX * P.BLOCK_LENGTH)
    (h : LogInv P l0 dec log) (hbit : bitAt P.BLOCK_LENGTH dec.bits pos = 0)
    (hbits : ∀ p, bitAt P.BLOCK_LENGTH dec'.bits p =
      if p = pos then 1 else bitAt P.BLOCK_LENGTH dec.bits p) :
    LogInv P l0 dec' (log ++ [fl_op.add pos]) := by
  obtain ⟨hv, hn, hm⟩ := h
  have hnot : pos ∉ linked_after l0 log := fun hmem => by
    have := ((hm pos).1 hmem).2
    rw [hbit] at this
    exact absurd this (by decide)
  refine ⟨(validOps_append _ log l0 _).2 ⟨hv, hpos, hnot, trivial⟩, ?_, fun p => ?_⟩
  · rw [linked_after_append]
    exact List.nodup_cons.2 ⟨hnot, hn⟩
  · rw [linked_after_append]
    show p ∈ pos :: linked_after l0 log ↔ _
    rw [List.mem_cons, hm p, hbits p]
    by_cases hp : p = pos
    · rw [if_pos hp]
      exact ⟨fun _ => ⟨by rw [hp]; exact hpos, rfl⟩, fun _ => Or.inl hp⟩
    · rw [if_neg hp]
      exact ⟨fun h => h.resolve_left hp, fun h => Or.inr h⟩

theorem logInv_congr (P : Params) (l0 : List Nat) (dec dec' : decoder) (log : List fl_op)
    (h : LogInv P l0 dec log) (hb : dec'.bits = dec.bits) : LogInv P l0 dec' log := by
  obtain ⟨hv, hn, hm⟩ := h
  exact ⟨hv, hn, fun p => by rw [hb]; exact hm p⟩

theorem scan_step_ops_fst (P : Params) (threshold k j : Nat)
    (st : (decoder × Bool) × List fl_op) :
    (scan_step_ops P threshold k j st).map Prod.fst = scan_step P threshold k j st.1 := by
  unfold scan_step_ops
  cases scan_step P threshold k j st.1 with
  | none => rfl
  | some r => rfl

theorem flip_scan_ops_fst (P : Params) (threshold : Nat)
    (st : (decoder × Bool) × List fl_op) :
    (flip_scan_ops P threshold st).map Prod.fst = flip_scan P threshold st.1 := by
  unfold flip_scan_ops flip_scan
  exact forUpTo_fst _ _ (fun k s => forUpTo_fst _ _
    (fun j s => scan_step_ops_fst P threshold k j s) P.BLOCK_LENGTH s) INDEX st

/-- One step of the flip scan with its log: the call it makes meets its precondition. -/
theorem scan_step_ops_inv (P : Params) (l0 : List Nat) (threshold k j : Nat)
    (hk : k < INDEX) (hj : j < P.BLOCK_LENGTH) (st : (decoder × Bool) × List fl_op)
    (hwf : WellFormed P st.1.1) (hinv : LogInv P l0 st.1.1 st.2) :
    ∃ st', scan_step_ops P threshold k j st = some st' ∧ WellFormed P st'.1.1 ∧
      frameOf st'.1.1 = frameOf st.1.1 ∧ LogInv P l0 st'.1.1 st'.2 := by
  obtain ⟨st1, e1, wf1, hfr, _, _, hlow, hhigh⟩ :=
    scan_step_detail P threshold k j hk hj st.1 hwf
  have hposM : k * P.BLOCK_LENGTH + j < INDEX * P.BLOCK_LENGTH := by
    unfold INDEX at hk ⊢
    have : k = 0 ∨ k = 1 := by omega
    rcases this with rfl | rfl <;> omega
  have hbit := bitAt_pos P.BLOCK_LENGTH st.1.1.bits k j hj
  have hb01 := hwf.1.2.2.2.2.2.2.2 _ hposM
  unfold scan_step_ops
  rw [e1]
  refine ⟨_, rfl, wf1, hfr, ?_⟩
  by_cases hc : (st.1.1.counters.getD k []).getD j 0 < threshold
  · show LogInv P l0 st1.1 (if threshold ≤ _ then _ else st.2)
    rw [if_neg (fun h => by omega), hlow hc]
    exact hinv
  · obtain ⟨_, hbits, _⟩ := hhigh (by omega)
    show LogInv P l0 st1.1 (if threshold ≤ _ then _ else st.2)
    rw [if_pos (by omega)]
    by_cases hb : (st.1.1.bits.getD k []).getD j 0 ≠ 0
    · rw [if_pos hb]
      have hone : bitAt P.BLOCK_LENGTH st.1.1.bits (k * P.BLOCK_LENGTH + j) = 1 := by
        rw [hbit] at hb01 ⊢
        omega
      refine logInv_remove P l0 st.1.1 st1.1 st.2 _ hposM hinv hone (fun p => ?_)
      rw [hbits p]
      by_cases hp : p = k * P.BLOCK_LENGTH + j
      · rw [if_pos hp, if_pos hp, hp, hone]
        rfl
      · rw [if_neg hp, if_neg hp]
    · rw [if_neg hb]
      have hzero : bitAt P.BLOCK_LENGTH st.1.1.bits (k * P.BLOCK_LENGTH + j) = 0 := by
        rw [hbit]
        omega
      refine logInv_add P l0 st.1.1 st1.1 st.2 _ hposM hinv hzero (fun p => ?_)
      rw [hbits p]
      by_cases hp : p = k * P.BLOCK_LENGTH + j
      · rw [if_pos hp, if_pos hp, hp, hzero]
        rfl
      · rw [if_neg hp, if_neg hp]

theorem flip_scan_ops_inv (P : Params) (l0 : List Nat) (threshold : Nat)
    (st : (decoder × Bool) × List fl_op)
    (hwf : WellFormed P st.1.1) (hinv : LogInv P l0 st.1.1 st.2) :
    ∃ st', flip_scan_ops P threshold st = some st' ∧
      flip_scan P threshold st.1 = some st'.1 ∧ WellFormed P st'.1.1 ∧
      frameOf st'.1.1 = frameOf st.1.1 ∧ LogInv P l0 st'.1.1 st'.2 := by
  have step : ∀ k j, k < INDEX → j < P.BLOCK_LENGTH → ∀ s : (decoder × Bool) × List fl_op,
      (WellFormed P s.1.1 ∧ frameOf s.1.1 = frameOf st.1.1 ∧ LogInv P l0 s.1.1 s.2) →
      ∃ s', scan_step_ops P threshold k j s = some s' ∧
        (WellFormed P s'.1.1 ∧ frameOf s'.1.1 = frameOf st.1.1 ∧
          LogInv P l0 s'.1.1 s'.2) := by
    intro k j hk hj s hs
    obtain ⟨s', e, w, f, b⟩ := scan_step_ops_inv P l0 threshold k j hk hj s hs.1 hs.2.2
    exact ⟨s', e, w, f.trans hs.2.1, b⟩
  have main : ∃ st', flip_scan_ops P threshold st = some st' ∧
      (WellFormed P st'.1.1 ∧ frameOf st'.1.1 = frameOf st.1.1 ∧
        LogInv P l0 st'.1.1 st'.2) := by
    unfold flip_scan_ops
    exact forUpTo_inv
      (fun s : (decoder × Bool) × List fl_op =>
        WellFormed P s.1.1 ∧ frameOf s.1.1 = frameOf st.1.1 ∧ LogInv P l0 s.1.1 s.2)
      _ INDEX (fun k hk s hs =>
        forUpTo_inv
          (fun s : (decoder × Bool) × List fl_op =>
            WellFormed P s.1.1 ∧ frameOf s.1.1 = frameOf st.1.1 ∧ LogInv P l0 s.1.1 s.2)
          _ P.BLOCK_LENGTH (fun j hj s hs => step k j hk hj s hs) s hs)
      st ⟨hwf, rfl, hinv⟩
  obtain ⟨st', e, w, f, b⟩ := main
  refine ⟨st', e, ?_, w, f, b⟩
  rw [← flip_scan_ops_fst, e]
  rfl

/-- The loop of the expiry sweep with its log, started on the part `rest` of the list
`kept ++ rest`: every removal is on a position that is linked at that time. -/
theorem sweep_loop_ops_inv (P : Params) (l0 : List Nat) (cur : Nat) :
    ∀ (rest kept : List Nat) (fuel : Nat) (st : (decoder × Bool) × List fl_op),
    rest.length ≤ fuel → Shape P st.1.1 →
    IsList (INDEX * P.BLOCK_LENGTH) st.1.1.fl (kept ++ rest) →
    (∀ p, p < INDEX * P.BLOCK_LENGTH →
      (p ∈ kept ++ rest ↔ bitAt P.BLOCK_LENGTH st.1.1.bits p = 1)) →
    LogInv P l0 st.1.1 st.2 →
    ∃ st', sweep_loop_ops P cur fuel (hd rest) st = some st' ∧
      sweep_loop P cur fuel (hd rest) st.1 = some st'.1 ∧
      WellFormed P st'.1.1 ∧ frameOf st'.1.1 = frameOf st.1.1 ∧
      LogInv P l0 st'.1.1 st'.2 := by
  intro rest
  induction rest with
  | nil =>
    intro kept fuel st _ hS hl hlink hinv
    refine ⟨st, ?_, ?_, ⟨hS, kept, by simpa using hl, by simpa using hlink⟩, rfl, hinv⟩
    · cases fuel with
      | zero => simp [sweep_loop_ops, hd]
      | succ f => simp [sweep_loop_ops, hd]
    · cases fuel with
      | zero => simp [sweep_loop, hd]
      | succ f => simp [sweep_loop, hd]
  | cons r rest ih =>
    intro kept fuel st hfuel hS hl hlink hinv
    cases fuel with
    | zero => simp at hfuel
    | succ f =>
      have hne : (r : Int) ≠ -1 := by omega
      have hrmem : r ∈ kept ++ r :: rest := by simp
      have hrM : r < INDEX * P.BLOCK_LENGTH := hl.2.2.2.2.1 r hrmem
      have hrbit : bitAt P.BLOCK_LENGTH st.1.1.bits r = 1 := (hlink r hrM).1 hrmem
      obtain ⟨st1, e1, hS1, hl1, hlink1, hfr1, _, _, _, hsame1, hexp1⟩ :=
        sweep_step_detail P cur kept rest r st.1 hS hl hlink
      have hinv1 : LogInv P l0 st1.1
          (if st.1.1.fl.tod.getD ((r : Int)).toNat 0 = cur then
            st.2 ++ [fl_op.remove ((r : Int)).toNat] else st.2) := by
        rw [Int.toNat_ofNat]
        by_cases hc : st.1.1.fl.tod.getD r 0 = cur
        · rw [if_pos hc]
          exact logInv_remove P l0 st.1.1 st1.1 st.2 r hrM hinv hrbit (hexp1 hc).2
        · rw [if_neg hc, hsame1 hc]
          exact hinv
      obtain ⟨st', e', er', w', f', i'⟩ := ih _ f
        (st1, if st.1.1.fl.tod.getD ((r : Int)).toNat 0 = cur then
          st.2 ++ [fl_op.remove ((r : Int)).toNat] else st.2)
        (by simpa using hfuel) hS1 hl1 hlink1 hinv1
      refine ⟨st', ?_, ?_, w', f'.trans hfr1, i'⟩
      · show sweep_loop_ops P cur (f + 1) (r : Int) st = some st'
        unfold sweep_loop_ops
        rw [if_pos hne]
        unfold sweep_step_ops
        rw [e1]
        exact e'
      · show sweep_loop P cur (f + 1) (r : Int) st.1 = some st'.1
        unfold sweep_loop
        rw [if_pos hne, e1, Option.some_bind]
        exact er'

theorem expiry_sweep_ops_inv (P : Params) (l0 : List Nat) (fuel : Nat)
    (hfuel : INDEX * P.BLOCK_LENGTH ≤ fuel) (st : (decoder × Bool) × List fl_op)
    (hwf : WellFormed P st.1.1) (hinv : LogInv P l0 st.1.1 st.2) :
    ∃ st', expiry_sweep_ops P fuel st = some st' ∧
      expiry_sweep P fuel st.1 = some st'.1 ∧
      WellFormed P st'.1.1 ∧ frameOf st'.1.1 = frameOf st.1.1 ∧
      LogInv P l0 st'.1.1 st'.2 := by
  obtain ⟨hS, l, hl, hlink⟩ := hwf
  unfold expiry_sweep_ops expiry_sweep
  simp only
  by_cases hc : st.1.1.syndrome_weight ≠ (P.SYNDROME_STOP : Int) ∧ st.1.1.fl.length ≠ 0
  · rw [if_pos hc, if_pos hc]
    have hlen := nodup_length_le _ l hl.2.2.2.1 hl.2.2.2.2.1
    rw [hl.2.2.2.2.2.1]
    exact sweep_loop_ops_inv P l0 _ l [] fuel st (by omega) hS (by simpa using hl)
      (by simpa using hlink) hinv
  · rw [if_neg hc, if_neg hc]
    exact ⟨st, rfl, rfl, ⟨hS, l, hl, hlink⟩, rfl, hinv⟩

/-- One iteration of the main loop with its log. -/
theorem decode_iteration_ops_inv (P : Params) (l0 : List Nat) (oracle : Nat → Nat → Nat)
    (fuel : Nat) (hfuel : INDEX * P.BLOCK_LENGTH ≤ fuel)
    (st : (decoder × Nat × Bool) × List fl_op)
    (hwf : WellFormed P st.1.1) (hinv : LogInv P l0 st.1.1 st.2) :
    ∃ st', decode_iteration_ops P oracle fuel st = some st' ∧
      decode_iteration P oracle fuel st.1 = some st'.1 ∧
      WellFormed P st'.1.1 ∧ st'.1.1.iter = st.1.1.iter + 1 ∧
      LogInv P l0 st'.1.1 st'.2 := by
  obtain ⟨cc, ecc, wcc, _⟩ := iteration_start_wf P st.1.1 hwf
  have binv : LogInv P l0
      { st.1.1 with iter := st.1.1.iter + 1, syndrome := cc.1, counters := cc.2 } st.2 :=
    logInv_congr P l0 st.1.1 _ st.2 hinv rfl
  have key : ∀ threshold : Nat, ∃ st' : (decoder × Nat × Bool) × List fl_op,
      ((flip_scan_ops P threshold
          (({ st.1.1 with iter := st.1.1.iter + 1, syndrome := cc.1, counters := cc.2 },
            false), st.2)).bind fun r =>
        (expiry_sweep_ops P fuel r).bind fun r =>
          some ((r.1.1, threshold, r.1.2), r.2)) = some st' ∧
      ((flip_scan P threshold
          ({ st.1.1 with iter := st.1.1.iter + 1, syndrome := cc.1, counters := cc.2 },
            false)).bind fun r =>
        (expiry_sweep P fuel r).bind fun r => some (r.1, threshold, r.2)) = some st'.1 ∧
      WellFormed P st'.1.1 ∧ st'.1.1.iter = st.1.1.iter + 1 ∧
      LogInv P l0 st'.1.1 st'.2 := by
    intro threshold
    obtain ⟨r, er, er', wr, fr, br⟩ := flip_scan_ops_inv P l0 threshold
      (({ st.1.1 with iter := st.1.1.iter + 1, syndrome := cc.1, counters := cc.2 },
        false), st.2) wcc binv
    obtain ⟨r2, e2, e2', w2, f2, b2⟩ := expiry_sweep_ops_inv P l0 fuel hfuel r wr br
    have hri : r.1.1.iter = st.1.1.iter + 1 := congrArg (fun x => x.2.2) fr
    have h2i : r2.1.1.iter = r.1.1.iter := congrArg (fun x => x.2.2) f2
    refine ⟨((r2.1.1, threshold, r2.1.2), r2.2), ?_, ?_, w2, h2i.trans hri, b2⟩
    · rw [er, Option.some_bind, e2, Option.some_bind]
    · rw [er', Option.some_bind, e2', Option.some_bind]
  unfold decode_iteration_ops decode_iteration
  simp only [Option.bind_eq_bind]
  rw [ecc, Option.some_bind, Option.some_bind]
  exact key _

/-- The main loop with its log. -/
theorem decode_loop_ops_inv (P : Params) (l0 : List Nat) (oracle : Nat → Nat → Nat)
    (fuel : Nat) (max_iter : Int) (hfuel : INDEX * P.BLOCK_LENGTH ≤ fuel) :
    ∀ (n : Nat) (st : (decoder × Nat × Bool) × List fl_op),
    WellFormed P st.1.1 → LogInv P l0 st.1.1 st.2 → max_iter - st.1.1.iter ≤ (n : Int) →
    ∃ st', decode_loop_ops P oracle fuel max_iter n st = some st' ∧
      decode_loop P oracle fuel max_iter n st.1 = some st'.1 ∧
      WellFormed P st'.1.1 ∧ LogInv P l0 st'.1.1 st'.2 := by
  intro n
  induction n with
  | zero =>
    intro st hwf hinv hn
    refine ⟨st, ?_, ?_, hwf, hinv⟩
    · unfold decode_loop_ops
      rw [if_neg (fun h => by omega)]
    · unfold decode_loop
      rw [if_neg (fun h => by omega)]
  | succ n ih =>
    intro st hwf hinv hn
    by_cases hc : st.1.1.iter < max_iter ∧ st.1.1.syndrome_weight ≠ (P.SYNDROME_STOP : Int)
    · obtain ⟨st1, e1, e1', w1, i1, b1⟩ :=
        decode_iteration_ops_inv P l0 oracle fuel hfuel st hwf hinv
      obtain ⟨st2, e2, e2', w2, b2⟩ := ih st1 w1 b1 (by omega)
      refine ⟨st2, ?_, ?_, w2, b2⟩
      · unfold decode_loop_ops
        rw [if_pos hc, e1, Option.some_bind, e2]
      · unfold decode_loop
        rw [if_pos hc, e1', Option.some_bind, e2']
    · refine ⟨st, ?_, ?_, hwf, hinv⟩
      · unfold decode_loop_ops
        rw [if_neg hc]
      · unfold decode_loop
        rw [if_neg hc]

/-- On a well-formed decoder the flip list agrees with the estimate. -/
theorem wellFormed_listOk (P : Params) (dec : decoder) (hwf : WellFormed P dec) :
    ListOk P dec := by
  obtain ⟨l, el, hnd, hmem⟩ := wellFormed_nodes P dec hwf
  obtain ⟨hS, l', hl', hlink'⟩ := hwf
  have hll : l' = l := by
    have := isList_forward _ dec.fl l' hl'
    unfold flip_list_nodes at el
    rw [this] at el
    exact Option.some.inj el
  subst hll
  have hb01 := hS.2.2.2.2.2.2.2
  have hlen := nodup_length_le _ l' hnd hl'.2.2.2.2.1
  have hcard : l'.length = bits_weight P dec := by
    unfold bits_weight
    rw [sumUpTo_eq_finset, ← List.toFinset_card_of_nodup hnd]
    have hset : l'.toFinset = (Finset.range (INDEX * P.BLOCK_LENGTH)).filter
        (fun p => bitAt P.BLOCK_LENGTH dec.bits p = 1) := by
      ext p
      rw [List.mem_toFinset, Finset.mem_filter, Finset.mem_range]
      exact hmem p
    rw [hset, Finset.card_filter]
    apply Finset.sum_congr rfl
    intro p hp
    rw [Finset.mem_range] at hp
    have := hb01 p hp
    by_cases h1 : bitAt P.BLOCK_LENGTH dec.bits p = 1
    · rw [if_pos h1, h1]
    · rw [if_neg h1]
      omega
  refine ⟨l', el, hnd, hl'.2.2.2.2.1, fun k j hk hj => ?_, hl'.2.2.2.2.2.2.1, ?_, ?_, ?_⟩
  · rw [← bitAt_pos P.BLOCK_LENGTH dec.bits k j hj, hmem]
    have hposM : k * P.BLOCK_LENGTH + j < INDEX * P.BLOCK_LENGTH := by
      unfold INDEX at hk ⊢
      have : k = 0 ∨ k = 1 := by omega
      rcases this with rfl | rfl <;> omega
    exact ⟨fun h => h.2, fun h => ⟨hposM, h⟩⟩
  · rw [hl'.2.2.2.2.2.2.1, hcard]
  · rw [hl'.2.2.2.2.2.2.1]
    omega
  · rw [hl'.2.2.2.2.2.2.1]
    omega

/-- C35: in both build modes, after `reset_decoder` and `init_decoder_error` (allocated
decoder, valid `H` and error pattern) the decoder is well formed; every step of the
flip scan, every expiry sweep and every iteration of the main loop started on a
well-formed decoder returns a well-formed decoder, so every state reached by
`qcmdpc_decode_ttl` is well formed; and on every well-formed decoder the position
`k * N + j` is a node of the flip list exactly when `bits[k][j] = 1`, and `length` is
the Hamming weight of `bits`, in `[0, 2N]`. The run of `qcmdpc_decode_ttl` instrumented
with the log of its calls of `fl_add` and `fl_remove` returns the result of
`qcmdpc_decode_ttl`, and in the log every `fl_remove` is on a position that is linked at
that time and every `fl_add` on a position of `[0, 2N)` that is not; the positions the
calls leave linked are the positions whose bit is set. -/
theorem flip_list_preconditions (P : Params) (dec0 : decoder) (H : List (List Int))
    (e_block : List Int) (e2 : Option (List Int)) (oracle : Nat → Nat → Nat)
    (fuel : Nat) (max_iter : Int)
    (hW : 0 < P.BLOCK_WEIGHT) (hW255 : P.BLOCK_WEIGHT ≤ 255)
    (hA : Allocated P dec0) (hH : ValidH P H) (hE : ValidError P e_block)
    (h2 : P.OUROBOROS = true → ∀ l, e2 = some l → P.SYNDROME_STOP ≤ l.length ∧
      ∀ p ∈ l, 0 ≤ p ∧ p < (P.bufLen : Int))
    (hfuel : INDEX * P.BLOCK_LENGTH ≤ fuel) :
    (∃ dec1 dec2 dec' r log, reset_decoder P dec0 = some dec1 ∧
      init_decoder_error P dec1 H e_block e2 = some dec2 ∧ WellFormed P dec2 ∧
      qcmdpc_decode_ttl_ops P oracle fuel dec2 max_iter = some ((dec', r), log) ∧
      qcmdpc_decode_ttl P oracle fuel dec2 max_iter = some (dec', r) ∧
      WellFormed P dec' ∧ ListOk P dec' ∧
      ValidOps (INDEX * P.BLOCK_LENGTH) [] log ∧
      ∀ p, p ∈ linked_after [] log ↔
        (p < INDEX * P.BLOCK_LENGTH ∧ bitAt P.BLOCK_LENGTH dec'.bits p = 1)) ∧
    (∀ dec, WellFormed P dec → ListOk P dec) ∧
    (∀ threshold k j (st : decoder × Bool), k < INDEX → j < P.BLOCK_LENGTH →
      WellFormed P st.1 →
      ∃ st', scan_step P threshold k j st = some st' ∧ WellFormed P st'.1) ∧
    (∀ st : decoder × Bool, WellFormed P st.1 →
      ∃ st', expiry_sweep P fuel st = some st' ∧ WellFormed P st'.1) ∧
    (∀ st : decoder × Nat × Bool, WellFormed P st.1 →
      ∃ st', decode_iteration P oracle fuel st = some st' ∧ WellFormed P st'.1) := by
  refine ⟨?_, wellFormed_listOk P, ?_, ?_, ?_⟩
  · obtain ⟨dec1, dec2, e1, ei, hwf, _, _, hbits, hlen⟩ :=
      init_wellformed_with P dec0 H e_block e2 hW hW255 hA hH hE h2
    have hinv : LogInv P [] { dec2 with iter := 0 } [] := by
      refine ⟨trivial, List.nodup_nil, fun p => ?_⟩
      show p ∈ ([] : List Nat) ↔ _
      rw [hbits p]
      exact ⟨fun h => absurd h (List.not_mem_nil p), fun h => absurd h.2 (by decide)⟩
    obtain ⟨st', e, e', w', b'⟩ := decode_loop_ops_inv P [] oracle fuel max_iter hfuel
      max_iter.toNat (({ dec2 with iter := 0 }, 0, true), []) hwf hinv
      (by show max_iter - 0 ≤ ((max_iter.toNat : Nat) : Int); omega)
    refine ⟨dec1, dec2, st'.1.1,
      (if st'.1.1.syndrome_weight = (P.SYNDROME_STOP : Int) then 1 else 0), st'.2,
      e1, ei, hwf, ?_, ?_, w',
      wellFormed_listOk P _ w', b'.1, b'.2.2⟩
    · unfold qcmdpc_decode_ttl_ops
      simp only [Option.bind_eq_bind]
      rw [e, Option.some_bind]
    · unfold qcmdpc_decode_ttl
      simp only [Option.bind_eq_bind]
      have e'' : decode_loop P oracle fuel max_iter max_iter.toNat
          ({ dec2 with iter := 0 }, 0, true) = some st'.1 := e'
      rw [e'', Option.some_bind]
  · intro threshold k j st hk hj hwf
    obtain ⟨st', e, w, _⟩ := scan_step_detail P threshold k j hk hj st hwf
    exact ⟨st', e, w⟩
  · intro st hwf
    obtain ⟨st', e, w, _⟩ := expiry_sweep_detail P fuel st hfuel hwf
    exact ⟨st', e, w⟩
  · intro st hwf
    obtain ⟨st', e, w, _⟩ := decode_iteration_spec P oracle fuel False st hfuel hwf
      (fun h => absurd h id)
    exact ⟨st', e, w⟩

set_option maxRecDepth 100000 in
theorem flip_list_preconditions_witness :
    ((∃ dec1 dec2 dec' r log, reset_decoder witnessParams witnessDecoder = some dec1 ∧
      init_decoder_error witnessParams dec1 [[0, 1], [1, 2]] [1, 4] none = some dec2 ∧
      WellFormed witnessParams dec2 ∧
      qcmdpc_decode_ttl_ops witnessParams (fun _ _ => 2) 6 dec2 2 = some ((dec', r), log) ∧
      qcmdpc_decode_ttl witnessParams (fun _ _ => 2) 6 dec2 2 = some (dec', r) ∧
      WellFormed witnessParams dec' ∧ ListOk witnessParams dec' ∧
      ValidOps (INDEX * witnessParams.BLOCK_LENGTH) [] log ∧
      ∀ p, p ∈ linked_after [] log ↔
        (p < INDEX * witnessParams.BLOCK_LENGTH ∧
          bitAt witnessParams.BLOCK_LENGTH dec'.bits p = 1)) ∧
    (∀ dec, WellFormed witnessParams dec → ListOk witnessParams dec) ∧
    (∀ threshold k j (st : decoder × Bool), k < INDEX → j < witnessParams.BLOCK_LENGTH →
      WellFormed witnessParams st.1 →
      ∃ st', scan_step witnessParams threshold k j st = some st' ∧
        WellFormed witnessParams st'.1) ∧
    (∀ st : decoder × Bool, WellFormed witnessParams st.1 →
      ∃ st', expiry_sweep witnessParams 6 st = some st' ∧ WellFormed witnessParams st'.1) ∧
    (∀ st : decoder × Nat × Bool, WellFormed witnessParams st.1 →
      ∃ st', decode_iteration witnessParams (fun _ _ => 2) 6 st = some st' ∧
        WellFormed witnessParams st'.1)) ∧
    (((reset_decoder witnessParams witnessDecoder).bind (fun d =>
        init_decoder_error witnessParams d [[0, 1], [1, 2]] [1, 4] none)).bind (fun d =>
          qcmdpc_decode_ttl_ops witnessParams (fun _ _ => 2) 6 d 2)).map
      (fun x => x.2.length) = some 4 :=
  ⟨flip_list_preconditions witnessParams witnessDecoder [[0, 1], [1, 2]] [1, 4] none
      (fun _ _ => 2) 6 2 (by decide) (by decide) witnessDecoder_allocated witnessH_valid
      witnessError_valid (fun h => absurd h (by decide)) (by decide),
    by decide⟩

/-! ## The stuck state of the main loop -/

theorem getElem?_eq_of_getD (a b : List Nat) (hl : a.length = b.length) (j : Nat)
    (h : a.getD j 0 = b.getD j 0) : a[j]? = b[j]? := by
  by_cases hj : j < a.length
  · have hj' : j < b.length := by omega
    rw [List.getD_eq_getElem a 0 hj, List.getD_eq_getElem b 0 hj'] at h
    rw [List.getElem?_eq_getElem hj, List.getElem?_eq_getElem hj', h]
  · rw [List.getElem?_eq_none (by omega), List.getElem?_eq_none (by omega)]

/-- The copy `memcpy(a + n, a, n)` done twice is the copy done once. -/
theorem memcpy_upper_idem (a a' : List Nat) (n : Nat) (h : memcpy_upper a n = some a') :
    memcpy_upper a' n = some a' := by
  unfold memcpy_upper at h
  split at h
  · rename_i hle
    have hT : (a.take n).length = n := by rw [List.length_take]; omega
    have e := Option.some.inj h
    have h1 : a'.take n = a.take n := by
      rw [← e, List.append_assoc]
      exact List.take_left' hT
    have h2 : a'.drop (2 * n) = a.drop (2 * n) := by
      rw [← e]
      exact List.drop_left' (by rw [List.length_append, hT]; omega)
    have hl : 2 * n ≤ a'.length := by
      rw [← e]
      simp only [List.length_append, List.length_take, List.length_drop]
      omega
    unfold memcpy_upper
    rw [if_pos hl, h1, h2, e]
  · exact absurd h (by simp)

/-- Clearing the first `n` bytes of a buffer that differs from `m` only there gives
`m` again. -/
theorem memset_again (k m c : List Nat) (n : Nat) (hm : memset k 0 n = some m)
    (hl : c.length = m.length) (hc : ∀ j, n ≤ j → c.getD j 0 = m.getD j 0) :
    memset c 0 n = some m := by
  unfold memset at hm
  split at hm
  · rename_i hle
    have e := Option.some.inj hm
    have hml : m.length = k.length := by
      rw [← e]
      simp only [List.length_append, List.length_replicate, List.length_drop]
      omega
    have hd : c.drop n = k.drop n := by
      have hmd : m.drop n = k.drop n := by
        rw [← e]
        exact List.drop_left' (List.length_replicate n 0)
      rw [← hmd]
      apply List.ext_getElem?
      intro i
      rw [List.getElem?_drop, List.getElem?_drop]
      exact getElem?_eq_of_getD c m hl _ (hc _ (by omega))
    unfold memset
    rw [if_pos (by omega), hd, e]
  · exact absurd hm (by simp)

/-- One block of `compute_counters`, and the same block run again on its own result. -/
theorem counters_block_again (P : Params) (r : List Int) (checks c : List Nat)
    (hr : r.length = P.BLOCK_WEIGHT) (hrb : ∀ v ∈ r, 0 ≤ v ∧ v < (P.BLOCK_LENGTH : Int))
    (hy : P.BLOCK_LENGTH ≤ checks.length) (hc : P.BLOCK_LENGTH ≤ c.length) :
    ∃ m c', memset c 0 P.BLOCK_LENGTH = some m ∧
      multiply (P.BLOCK_LENGTH : Int) P.BLOCK_WEIGHT r checks m = some c' ∧
      memset c' 0 P.BLOCK_LENGTH = some m := by
  obtain ⟨c0, e0, l0, g0⟩ := memset_zero_spec c P.BLOCK_LENGTH hc
  obtain ⟨c', e1, l1, g1⟩ := multiply_general P.BLOCK_LENGTH P.BLOCK_WEIGHT r checks c0
    (by omega) (fun v hv => hrb v (List.mem_of_mem_take hv)) hy (by omega)
    (fun j hj => by rw [g0 j hj]; decide)
  refine ⟨c0, c', e0, e1, memset_again c c0 c' _ e0 l1 (fun j hj => ?_)⟩
  rw [g1 j, if_neg (by omega)]

/-- Running `compute_counters` on its own result returns that result: the copy and the
counters are recomputed from the same lower half of the syndrome buffer. -/
theorem compute_counters_idem (P : Params) (columns : List (List Int)) (r0 r1 : List Int)
    (checks k0 k1 : List Nat)
    (hr0 : r0.length = P.BLOCK_WEIGHT) (hr1 : r1.length = P.BLOCK_WEIGHT)
    (hrb0 : ∀ v ∈ r0, 0 ≤ v ∧ v < (P.BLOCK_LENGTH : Int))
    (hrb1 : ∀ v ∈ r1, 0 ≤ v ∧ v < (P.BLOCK_LENGTH : Int))
    (hy : 2 * P.BLOCK_LENGTH ≤ checks.length)
    (hk0 : P.BLOCK_LENGTH ≤ k0.length) (hk1 : P.BLOCK_LENGTH ≤ k1.length)
    (cc : List Nat × List (List Nat))
    (h : compute_counters P columns [r0, r1] checks [k0, k1] = some cc) :
    compute_counters P columns [r0, r1] cc.1 cc.2 = some cc := by
  obtain ⟨checks', ec, lc, _⟩ := memcpy_upper_spec checks P.BLOCK_LENGTH hy
  obtain ⟨m0, c0, em0, e0, a0⟩ :=
    counters_block_again P r0 checks' k0 hr0 hrb0 (by omega) hk0
  obtain ⟨m1, c1, em1, e1, a1⟩ :=
    counters_block_again P r1 checks' k1 hr1 hrb1 (by omega) hk1
  have h1 : compute_counters P columns [r0, r1] checks [k0, k1] =
      some (checks', [c0, c1]) := by
    simp only [compute_counters, ec, INDEX, forUpTo, Option.bind_eq_bind, Option.some_bind,
      List.getElem?_cons_zero, List.getElem?_cons_succ, List.set_cons_zero,
      List.set_cons_succ, em0, e0, em1, e1]
  rw [h1] at h
  rw [← Option.some.inj h]
  simp only [compute_counters, memcpy_upper_idem checks checks' _ ec, INDEX, forUpTo,
    Option.bind_eq_bind, Option.some_bind,
    List.getElem?_cons_zero, List.getElem?_cons_succ, List.set_cons_zero,
    List.set_cons_succ, a0, e0, a1, e1]

/-- For a well-formed decoder, the counters computed at the start of an iteration are
reproduced when `compute_counters` runs again on the state it left. -/
theorem compute_counters_stuck (P : Params) (dec : decoder) (hwf : WellFormed P dec)
    (cc : List Nat × List (List Nat))
    (h : compute_counters P dec.Hcolumns dec.Hrows dec.syndrome dec.counters = some cc) :
    compute_counters P dec.Hcolumns dec.Hrows cc.1 cc.2 = some cc := by
  obtain ⟨hS, _⟩ := hwf
  obtain ⟨hVH, hrows, hsl, hbl, hbb, hcl, hcc, hb01⟩ := hS
  obtain ⟨c0, c1, hH⟩ := list_eq_pair dec.Hcolumns hVH.1
  obtain ⟨k0, k1, hK⟩ := list_eq_pair dec.counters hcl
  have hv0 : ValidColumn P.BLOCK_LENGTH P.BLOCK_WEIGHT c0 := hVH.2 c0 (by rw [hH]; simp)
  have hv1 : ValidColumn P.BLOCK_LENGTH P.BLOCK_WEIGHT c1 := hVH.2 c1 (by rw [hH]; simp)
  have hrv0 := reflect_valid _ _ c0 hv0
  have hrv1 := reflect_valid _ _ c1 hv1
  have hrows' : dec.Hrows = [reflect P.BLOCK_LENGTH c0, reflect P.BLOCK_LENGTH c1] := by
    rw [hrows, hH]; rfl
  rw [hrows', hK] at h
  rw [hrows']
  exact compute_counters_idem P dec.Hcolumns _ _ dec.syndrome k0 k1 hrv0.1 hrv1.1
    hrv0.2.1 hrv1.2.1 hsl (hcc k0 (by rw [hK]; simp)) (hcc k1 (by rw [hK]; simp)) cc h

/-- A scan step at a position whose counter is below the threshold changes neither
the decoder nor the ghost map. -/
theorem scan_step_born_low (P : Params) (threshold k j : Nat) (hk : k < INDEX)
    (hj : j < P.BLOCK_LENGTH) (st : (decoder × Bool) × (Nat → Int))
    (hwf : WellFormed P st.1.1)
    (hlow : (st.1.1.counters.getD k []).getD j 0 < threshold) :
    scan_step_born P threshold k j st = some st := by
  obtain ⟨st', e, _, _, _, _, h1, _⟩ := scan_step_detail P threshold k j hk hj st.1 hwf
  unfold scan_step_born
  rw [e, h1 hlow, Option.map_some', if_neg (fun h => by omega)]

/-- When every counter is below the threshold, the flip scan changes nothing. -/
theorem flip_scan_born_none (P : Params) (threshold : Nat)
    (st : (decoder × Bool) × (Nat → Int)) (hwf : WellFormed P st.1.1)
    (hlow : ∀ k j, k < INDEX → j < P.BLOCK_LENGTH →
      (st.1.1.counters.getD k []).getD j 0 < threshold) :
    flip_scan_born P threshold st = some st := by
  unfold flip_scan_born
  exact forUpTo_const _ st INDEX (fun k hk =>
    forUpTo_const _ st P.BLOCK_LENGTH (fun j hj =>
      scan_step_born_low P threshold k j hk hj st hwf (hlow k j hk hj)))

/-- The decoder part of the instrumented iteration is `decode_iteration`. -/
theorem decode_iteration_born_fst (P : Params) (oracle : Nat → Nat → Nat) (fuel : Nat)
    (st : (decoder × Nat × Bool) × (Nat → Int)) :
    (decode_iteration_born P oracle fuel st).map (fun x => x.2.1) =
      decode_iteration P oracle fuel st.1 := by
  unfold decode_iteration_born decode_iteration
  simp only [Option.bind_eq_bind]
  cases compute_counters P st.1.1.Hcolumns st.1.1.Hrows st.1.1.syndrome st.1.1.counters with
  | none => rfl
  | some cc =>
    simp only [Option.some_bind]
    generalize (if st.1.2.2 = true then
        oracle (st.1.1.syndrome_weight % 4294967296).toNat
          (if (P.ERROR_WEIGHT : Int) - st.1.1.fl.length > 0 then
            (P.ERROR_WEIGHT : Int) - st.1.1.fl.length else 1).toNat
      else st.1.2.1) = th
    have hf := flip_scan_born_fst P th
      (({ st.1.1 with iter := st.1.1.iter + 1, syndrome := cc.1, counters := cc.2 }, false),
        st.2)
    dsimp only at hf
    rw [← hf]
    cases flip_scan_born P th
      (({ st.1.1 with iter := st.1.1.iter + 1, syndrome := cc.1, counters := cc.2 }, false),
        st.2) with
    | none => rfl
    | some r =>
      simp only [Option.some_bind, Option.map_some']
      cases expiry_sweep P fuel r.1 with
      | none => rfl
      | some r2 => rfl

/-- The flip scan does not write the counters. -/
theorem flip_scan_counters (P : Params) (threshold : Nat) (st st' : decoder × Bool)
    (hwf : WellFormed P st.1) (h : flip_scan P threshold st = some st') :
    WellFormed P st'.1 ∧ st'.1.counters = st.1.counters := by
  obtain ⟨s', es', ws', _, hc'⟩ := flip_scan_inv P threshold
    (fun d => d.counters = st.1.counters)
    (fun k j s s' hk hj hw hJ e => by
      obtain ⟨s'', e', _, _, hc, _⟩ := scan_step_detail P threshold k j hk hj s hw
      rw [e'] at e
      rw [← Option.some.inj e, hc]
      exact hJ) st hwf rfl
  rw [es'] at h
  rw [← Option.some.inj h]
  exact ⟨ws', hc'⟩

/-- An iteration that starts with an empty flip list and in which no counter reaches
the threshold: its result is the state left by `compute_counters`, with the flag
`recompute_threshold` clear and the ghost map unchanged. -/
theorem stuck_iteration (P : Params) (oracle : Nat → Nat → Nat) (fuel : Nat)
    (hfuel : INDEX * P.BLOCK_LENGTH ≤ fuel)
    (st : (decoder × Nat × Bool) × (Nat → Int))
    (x : Int × ((decoder × Nat × Bool) × (Nat → Int)))
    (hwf : WellFormed P st.1.1)
    (hit : decode_iteration_born P oracle fuel st = some x)
    (hlist : st.1.1.fl.length = 0)
    (hscan : ∀ k j, k < INDEX → j < P.BLOCK_LENGTH →
      (x.2.1.1.counters.getD k []).getD j 0 < x.2.1.2.1) :
    ∃ cc, compute_counters P st.1.1.Hcolumns st.1.1.Hrows st.1.1.syndrome
        st.1.1.counters = some cc ∧
      WellFormed P
        { st.1.1 with iter := st.1.1.iter + 1, syndrome := cc.1, counters := cc.2 } ∧
      (∀ i, i < P.BLOCK_LENGTH → cc.1.getD i 0 = st.1.1.syndrome.getD i 0) ∧
      x = (st.1.1.syndrome_weight,
        (({ st.1.1 with iter := st.1.1.iter + 1, syndrome := cc.1, counters := cc.2 },
          x.2.1.2.1, false), st.2)) := by
  obtain ⟨cc, ecc, wcc, hsyn⟩ := iteration_start_wf P st.1.1 hwf
  refine ⟨cc, ecc, wcc, hsyn, ?_⟩
  unfold decode_iteration_born at hit
  simp only [Option.bind_eq_bind, ecc, Option.some_bind] at hit
  generalize (if st.1.2.2 = true then
      oracle (st.1.1.syndrome_weight % 4294967296).toNat
        (if (P.ERROR_WEIGHT : Int) - st.1.1.fl.length > 0 then
          (P.ERROR_WEIGHT : Int) - st.1.1.fl.length else 1).toNat
    else st.1.2.1) = th at hit
  obtain ⟨r, er, hr⟩ := Option.bind_eq_some.1 hit
  obtain ⟨r2, er2, hx⟩ := Option.bind_eq_some.1 hr
  have hx := Option.some.inj hx
  have hfs := flip_scan_born_fst P th
    (({ st.1.1 with iter := st.1.1.iter + 1, syndrome := cc.1, counters := cc.2 }, false),
      st.2)
  dsimp only at hfs
  rw [er, Option.map_some'] at hfs
  obtain ⟨wr, hcr⟩ := flip_scan_counters P th _ r.1 wcc hfs.symm
  obtain ⟨r2', e2', _, _, hc2, _⟩ := expiry_sweep_detail P fuel r.1 hfuel wr
  rw [er2] at e2'
  have hr2 : r2' = r2 := (Option.some.inj e2').symm
  rw [hr2] at hc2
  have hlow : ∀ k j, k < INDEX → j < P.BLOCK_LENGTH →
      (cc.2.getD k []).getD j 0 < th := by
    intro k j hk hj
    have h := hscan k j hk hj
    rw [← hx] at h
    have h' : ((r2.1.counters).getD k []).getD j 0 < th := h
    rw [hc2, hcr] at h'
    exact h'
  have enone := flip_scan_born_none P th
    (({ st.1.1 with iter := st.1.1.iter + 1, syndrome := cc.1, counters := cc.2 }, false),
      st.2) wcc hlow
  rw [enone] at er
  have hr := Option.some.inj er
  rw [← hr] at er2 hx
  unfold expiry_sweep at er2
  simp only at er2
  rw [if_neg (fun h => h.2 hlist)] at er2
  rw [← Option.some.inj er2] at hx
  rw [← hx]

/-- The stuck state is a fixed point of the loop body: with an empty flip list, the
flag `recompute_threshold` clear, counters that `compute_counters` reproduces and that
are all below the threshold, an iteration only increments `iter`. -/
theorem stuck_next (P : Params) (oracle : Nat → Nat → Nat) (fuel : Nat)
    (d : decoder) (th : Nat) (born : Nat → Int) (it : Int)
    (hwf : WellFormed P d) (hlist : d.fl.length = 0)
    (hcc : compute_counters P d.Hcolumns d.Hrows d.syndrome d.counters =
      some (d.syndrome, d.counters))
    (hlow : ∀ k j, k < INDEX → j < P.BLOCK_LENGTH →
      (d.counters.getD k []).getD j 0 < th) :
    decode_iteration_born P oracle fuel (({ d with iter := it }, th, false), born) =
      some (d.syndrome_weight, (({ d with iter := it + 1 }, th, false), born)) := by
  have hw : WellFormed P { d with iter := it + 1 } := hwf
  have enone := flip_scan_born_none P th (({ d with iter := it + 1 }, false), born) hw hlow
  unfold decode_iteration_born
  simp only [Option.bind_eq_bind, hcc, Option.some_bind]
  simp only [Bool.false_eq_true, if_false, enone, Option.some_bind]
  unfold expiry_sweep
  simp only
  rw [if_neg (fun h => h.2 hlist)]
  rfl

/-- From the stuck state the loop only counts: every remaining iteration returns the
same decoder with `iter` incremented, the same threshold and a clear flag, and the
loop ends with `iter = max_iter`. -/
theorem stuck_trace (P : Params) (oracle : Nat → Nat → Nat) (fuel : Nat) (max_iter : Int)
    (d : decoder) (th : Nat) (born : Nat → Int)
    (hwf : WellFormed P d) (hlist : d.fl.length = 0)
    (hstop : d.syndrome_weight ≠ (P.SYNDROME_STOP : Int))
    (hcc : compute_counters P d.Hcolumns d.Hrows d.syndrome d.counters =
      some (d.syndrome, d.counters))
    (hlow : ∀ k j, k < INDEX → j < P.BLOCK_LENGTH →
      (d.counters.getD k []).getD j 0 < th) :
    ∀ (n : Nat) (it : Int), it ≤ max_iter → max_iter - it ≤ (n : Int) →
    ∃ t, decode_trace P oracle fuel max_iter n (({ d with iter := it }, th, false), born) =
        some t ∧
      (∀ y ∈ t, y = (d.syndrome_weight,
        (({ d with iter := y.2.1.1.iter }, th, false), born))) ∧
      trace_last ({ d with iter := it }, th, false) t =
        ({ d with iter := max_iter }, th, false) := by
  intro n
  induction n with
  | zero =>
    intro it h1 h2
    have hit : it = max_iter := by omega
    refine ⟨[], ?_, fun y hy => absurd hy (List.not_mem_nil y), ?_⟩
    · unfold decode_trace
      rw [if_neg (fun h => absurd h.1 (by show ¬ it < max_iter; omega))]
    · rw [hit]
      rfl
  | succ n ih =>
    intro it h1 h2
    by_cases hc : it < max_iter
    · obtain ⟨t, et, hall, hlast⟩ := ih (it + 1) (by omega) (by omega)
      refine ⟨(d.syndrome_weight, (({ d with iter := it + 1 }, th, false), born)) :: t,
        ?_, ?_, hlast⟩
      · unfold decode_trace
        rw [if_pos ⟨hc, hstop⟩, stuck_next P oracle fuel d th born it hwf hlist hcc hlow,
          Option.some_bind, et]
        rfl
      · intro y hy
        rcases List.mem_cons.1 hy with h | h
        · rw [h]
        · exact hall y h
    · have hit : it = max_iter := by omega
      refine ⟨[], ?_, fun y hy => absurd hy (List.not_mem_nil y), ?_⟩
      · unfold decode_trace
        rw [if_neg (fun h => hc h.1)]
      · rw [hit]
        rfl

/-- The run of the main loop as a trace, with the stuck state as a fixed point: when
an iteration of the trace starts with an empty flip list and none of its counters
reaches its threshold while the syndrome weight is not `SYNDROME_STOP`, that iteration
and all later ones leave the decoder unchanged up to `iter`, and the loop ends with
`iter = max_iter`. -/
theorem stuck_run (P : Params) (oracle : Nat → Nat → Nat) (fuel : Nat) (max_iter : Int)
    (hfuel : INDEX * P.BLOCK_LENGTH ≤ fuel) :
    ∀ (n : Nat) (st : (decoder × Nat × Bool) × (Nat → Int)),
    WellFormed P st.1.1 → max_iter - st.1.1.iter ≤ (n : Int) →
    ∃ t, decode_trace P oracle fuel max_iter n st = some t ∧
      decode_loop P oracle fuel max_iter n st.1 = some (trace_last st.1 t) ∧
      ∀ t1 x t2, t = t1 ++ x :: t2 →
        (trace_last st.1 t1).1.fl.length = 0 →
        (∀ k j, k < INDEX → j < P.BLOCK_LENGTH →
          (x.2.1.1.counters.getD k []).getD j 0 < x.2.1.2.1) →
        x.1 ≠ (P.SYNDROME_STOP : Int) →
        (x.2.1.1.bits = (trace_last st.1 t1).1.bits ∧
          x.2.1.1.fl = (trace_last st.1 t1).1.fl ∧
          x.2.1.1.syndrome_weight = (trace_last st.1 t1).1.syndrome_weight ∧
          (∀ i, i < P.BLOCK_LENGTH →
            x.2.1.1.syndrome.getD i 0 = (trace_last st.1 t1).1.syndrome.getD i 0) ∧
          x.2.1.2.2 = false ∧ x.1 = x.2.1.1.syndrome_weight) ∧
        (∀ y ∈ t2, y.2.1.1 = { x.2.1.1 with iter := y.2.1.1.iter } ∧
          y.2.1.2.1 = x.2.1.2.1 ∧ y.2.1.2.2 = false ∧ y.1 = x.1) ∧
        trace_last st.1 t = ({ x.2.1.1 with iter := max_iter }, x.2.1.2.1, false) := by
  intro n
  induction n with
  | zero =>
    intro st _ hn
    refine ⟨[], ?_, ?_, fun t1 x t2 h => absurd h (by simp)⟩
    · unfold decode_trace
      rw [if_neg (fun h => by omega)]
    · unfold decode_loop
      rw [if_neg (fun h => by omega)]
      rfl
  | succ n ih =>
    intro st hwf hn
    by_cases hc : st.1.1.iter < max_iter ∧ st.1.1.syndrome_weight ≠ (P.SYNDROME_STOP : Int)
    · obtain ⟨st1, e1, w1, f1, _⟩ :=
        decode_iteration_spec P oracle fuel False st.1 hfuel hwf (fun h => h.elim)
      have hb := decode_iteration_born_fst P oracle fuel st
      rw [e1] at hb
      obtain ⟨x0, ex0, hx0⟩ := Option.map_eq_some'.1 hb
      have hiter : x0.2.1.1.iter = st.1.1.iter + 1 := by
        have h := congrArg (fun f => f.2.2) f1
        rw [← hx0] at h
        exact h
      obtain ⟨t', et', el', hsp⟩ := ih x0.2 (by rw [hx0]; exact w1) (by omega)
      refine ⟨x0 :: t', ?_, ?_, ?_⟩
      · unfold decode_trace
        rw [if_pos hc, ex0, Option.some_bind, et']
        rfl
      · unfold decode_loop
        rw [if_pos hc, e1, Option.some_bind, ← hx0]
        exact el'
      · intro t1 x t2 hsplit hlist hscan hstop
        cases t1 with
        | nil =>
          have hinj := List.cons.inj hsplit
          have hxx : x0 = x := hinj.1
          have htt : t' = t2 := hinj.2
          subst hxx
          subst htt
          obtain ⟨cc, ecc, wcc, hsyn, hx⟩ :=
            stuck_iteration P oracle fuel hfuel st x0 hwf ex0 hlist hscan
          have hidem := compute_counters_stuck P st.1.1 hwf cc ecc
          obtain ⟨w0, ⟨⟨d0, th0, f0⟩, b0⟩⟩ := x0
          simp only [Prod.mk.injEq] at hx
          obtain ⟨hw0, ⟨hd0, -, hf0⟩, hb0⟩ := hx
          subst hw0
          subst hd0
          subst hf0
          subst hb0
          obtain ⟨t2, et2, hall, hlast⟩ := stuck_trace P oracle fuel max_iter
            { st.1.1 with iter := st.1.1.iter + 1, syndrome := cc.1, counters := cc.2 }
            th0 st.2 wcc hlist hstop hidem hscan n (st.1.1.iter + 1) (by omega) (by omega)
          have et2' : decode_trace P oracle fuel max_iter n
              (({ st.1.1 with iter := st.1.1.iter + 1, syndrome := cc.1, counters := cc.2 },
                th0, false), st.2) = some t2 := et2
          rw [et'] at et2'
          have ht := Option.some.inj et2'
          rw [ht]
          refine ⟨⟨rfl, rfl, rfl, hsyn, rfl, rfl⟩, fun y hy => ?_, hlast⟩
          have hy' := hall y hy
          exact ⟨congrArg (fun z => z.2.1.1) hy', congrArg (fun z => z.2.1.2.1) hy',
            congrArg (fun z => z.2.1.2.2) hy', congrArg (fun z => z.1) hy'⟩
        | cons y t1 =>
          have hinj := List.cons.inj hsplit
          have hxx : x0 = y := hinj.1
          subst hxx
          exact hsp t1 x t2 hinj.2 hlist hscan hstop
    · refine ⟨[], ?_, ?_, fun t1 x t2 h => absurd h (by simp)⟩
      · unfold decode_trace
        rw [if_neg hc]
      · unfold decode_loop
        rw [if_neg hc]
        rfl

/-- C36: the stuck state is a fixed point. For a well-formed decoder the run of
`qcmdpc_decode_ttl` is a trace of iterations. If some iteration `x` of the trace
starts with an empty flip list (so the list is empty when the expiry sweep tests it),
none of its counters reaches its threshold (the flip scan flips no bit) and the
syndrome weight after its scan is not `SYNDROME_STOP`, then that iteration leaves the
bits, the flip list, the syndrome weight and the syndrome unchanged and ends with
`recompute_threshold` clear; every later iteration `y` ends in the decoder of `x` with
only `iter` changed, with the threshold of `x`, a clear flag and the same syndrome
weight; and the call returns 0 with the decoder of `x` at `iter = max_iter`. -/
theorem stuck_fixed_point (P : Params) (oracle : Nat → Nat → Nat) (fuel : Nat)
    (dec : decoder) (max_iter : Int) (born0 : Nat → Int)
    (hfuel : INDEX * P.BLOCK_LENGTH ≤ fuel) (hwf : WellFormed P dec) :
    ∃ t, decode_trace P oracle fuel max_iter max_iter.toNat
        (({ dec with iter := 0 }, 0, true), born0) = some t ∧
      ∀ t1 x t2, t = t1 ++ x :: t2 →
        (trace_last ({ dec with iter := 0 }, 0, true) t1).1.fl.length = 0 →
        (∀ k j, k < INDEX → j < P.BLOCK_LENGTH →
          (x.2.1.1.counters.getD k []).getD j 0 < x.2.1.2.1) →
        x.1 ≠ (P.SYNDROME_STOP : Int) →
        (x.2.1.1.bits = (trace_last ({ dec with iter := 0 }, 0, true) t1).1.bits ∧
          x.2.1.1.fl = (trace_last ({ dec with iter := 0 }, 0, true) t1).1.fl ∧
          x.2.1.1.syndrome_weight =
            (trace_last ({ dec with iter := 0 }, 0, true) t1).1.syndrome_weight ∧
          (∀ i, i < P.BLOCK_LENGTH → x.2.1.1.syndrome.getD i 0 =
            (trace_last ({ dec with iter := 0 }, 0, true) t1).1.syndrome.getD i 0) ∧
          x.2.1.2.2 = false ∧ x.1 = x.2.1.1.syndrome_weight) ∧
        (∀ y ∈ t2, y.2.1.1 = { x.2.1.1 with iter := y.2.1.1.iter } ∧
          y.2.1.2.1 = x.2.1.2.1 ∧ y.2.1.2.2 = false ∧ y.1 = x.1) ∧
        qcmdpc_decode_ttl P oracle fuel dec max_iter =
          some ({ x.2.1.1 with iter := max_iter }, 0) := by
  obtain ⟨t, et, el, hsp⟩ := stuck_run P oracle fuel max_iter hfuel max_iter.toNat
    (({ dec with iter := 0 }, 0, true), born0) hwf
    (by show max_iter - 0 ≤ ((max_iter.toNat : Nat) : Int); omega)
  refine ⟨t, et, fun t1 x t2 hsplit hlist hscan hstop => ?_⟩
  obtain ⟨h1, h2, h3⟩ := hsp t1 x t2 hsplit hlist hscan hstop
  refine ⟨h1, h2, ?_⟩
  have el' : decode_loop P oracle fuel max_iter max_iter.toNat
      ({ dec with iter := 0 }, 0, true) =
      some ({ x.2.1.1 with iter := max_iter }, x.2.1.2.1, false) := by
    rw [← h3]
    exact el
  have hne : x.2.1.1.syndrome_weight ≠ (P.SYNDROME_STOP : Int) := by
    rw [← h1.2.2.2.2.2]
    exact hstop
  unfold qcmdpc_decode_ttl
  simp only [Option.bind_eq_bind]
  rw [el', Option.some_bind]
  simp only [if_neg hne]

set_option maxRecDepth 100000 in
theorem stuck_fixed_point_witness :
    (INDEX * witnessParams.BLOCK_LENGTH ≤ 6) ∧
    (∃ t, decode_trace witnessParams (fun _ _ => 3) 6 3 (3 : Int).toNat
        (({ witnessReady with iter := 0 }, 0, true), fun _ => 0) = some t ∧
      ∀ t1 x t2, t = t1 ++ x :: t2 →
        (trace_last ({ witnessReady with iter := 0 }, 0, true) t1).1.fl.length = 0 →
        (∀ k j, k < INDEX → j < witnessParams.BLOCK_LENGTH →
          (x.2.1.1.counters.getD k []).getD j 0 < x.2.1.2.1) →
        x.1 ≠ (witnessParams.SYNDROME_STOP : Int) →
        (x.2.1.1.bits = (trace_last ({ witnessReady with iter := 0 }, 0, true) t1).1.bits ∧
          x.2.1.1.fl = (trace_last ({ witnessReady with iter := 0 }, 0, true) t1).1.fl ∧
          x.2.1.1.syndrome_weight =
            (trace_last ({ witnessReady with iter := 0 }, 0, true) t1).1.syndrome_weight ∧
          (∀ i, i < witnessParams.BLOCK_LENGTH → x.2.1.1.syndrome.getD i 0 =
            (trace_last ({ witnessReady with iter := 0 }, 0, true) t1).1.syndrome.getD i 0) ∧
          x.2.1.2.2 = false ∧ x.1 = x.2.1.1.syndrome_weight) ∧
        (∀ y ∈ t2, y.2.1.1 = { x.2.1.1 with iter := y.2.1.1.iter } ∧
          y.2.1.2.1 = x.2.1.2.1 ∧ y.2.1.2.2 = false ∧ y.1 = x.1) ∧
        qcmdpc_decode_ttl witnessParams (fun _ _ => 3) 6 witnessReady 3 =
          some ({ x.2.1.1 with iter := 3 }, 0)) ∧
    (decode_trace witnessParams (fun _ _ => 3) 6 3 (3 : Int).toNat
        (({ witnessReady with iter := 0 }, 0, true), fun _ => 0)).map
      (fun t => t.map (fun x =>
        [x.1, x.2.1.1.iter, (x.2.1.2.1 : Int), x.2.1.1.fl.length])) =
      some [[2, 1, 3, 0], [2, 2, 3, 0], [2, 3, 3, 0]] ∧
    (decode_trace witnessParams (fun _ _ => 3) 6 3 (3 : Int).toNat
        (({ witnessReady with iter := 0 }, 0, true), fun _ => 0)).map
      (fun t => t.map (fun x => x.2.1.2.2)) = some [false, false, false] ∧
    (decode_trace witnessParams (fun _ _ => 3) 6 3 (3 : Int).toNat
        (({ witnessReady with iter := 0 }, 0, true), fun _ => 0)).map
      (fun t => t.map (fun x => x.2.1.1.counters.map (fun c => c.take 3))) =
      some [[[1, 2, 1], [2, 1, 1]], [[1, 2, 1], [2, 1, 1]], [[1, 2, 1], [2, 1, 1]]] ∧
    (qcmdpc_decode_ttl witnessParams (fun _ _ => 3) 6 witnessReady 3).map
      (fun r => [r.1.iter, r.2, r.1.syndrome_weight]) = some [3, 0, 2] :=
  ⟨by decide,
    stuck_fixed_point witnessParams (fun _ _ => 3) 6 witnessReady 3 (fun _ => 0) (by decide)
      witnessReady_wellFormed,
    by decide, by decide, by decide, by decide⟩

/-! ## The padded single-pass form and `multiply_avx2` -/

theorem load256_spec (a : List Nat) (off : Nat) (h : off + 32 ≤ a.length) :
    ∃ v, load256 a (off : Int) = some v ∧ v.length = 32 ∧
      ∀ b, b < 32 → v.getD b 0 = a.getD (off + b) 0 := by
  refine ⟨(a.drop off).take 32, ?_, ?_, ?_⟩
  · unfold load256
    rw [if_pos ⟨by omega, by simpa using h⟩]
    simp
  · rw [List.length_take, List.length_drop]
    omega
  · intro b hb
    simp only [List.getD_eq_getElem?_getD]
    rw [List.getElem?_take, if_pos hb, List.getElem?_drop]

theorem vpaddb_spec (a v : List Nat) (ha : a.length = 32) (hv : v.length = 32) :
    (vpaddb a v).length = 32 ∧
      ∀ b, b < 32 → (vpaddb a v).getD b 0 = (a.getD b 0 + v.getD b 0) % 256 := by
  have hl : (vpaddb a v).length = 32 := by
    unfold vpaddb
    rw [List.length_zipWith, ha, hv]
    rfl
  refine ⟨hl, fun b hb => ?_⟩
  rw [List.getD_eq_getElem _ 0 (by omega : b < (vpaddb a v).length),
    List.getD_eq_getElem a 0 (by omega : b < a.length),
    List.getD_eq_getElem v 0 (by omega : b < v.length)]
  unfold vpaddb
  rw [List.getElem_zipWith]

/-- One support entry of `multiply_avx2`: every byte of every register is increased,
modulo 256, by the byte of `y` at the same place of the 512 bytes from `off`. -/
theorem avx2_accumulate_spec (y : List Nat) (off : Nat) (regs : List (List Nat))
    (hr : regs.length = 16) (hrl : ∀ r, r < 16 → (regs.getD r []).length = 32)
    (hy : off + 512 ≤ y.length) :
    ∃ regs', avx2_accumulate y (off : Int) regs = some regs' ∧ regs'.length = 16 ∧
      ∀ r, r < 16 → (regs'.getD r []).length = 32 ∧
        ∀ b, b < 32 → (regs'.getD r []).getD b 0 =
          ((regs.getD r []).getD b 0 + y.getD (off + r * 32 + b) 0) % 256 := by
  have key : ∀ m, m ≤ 16 → ∃ regs', forUpTo m (fun r regs => do
        let v ← load256 y ((off : Int) + (r : Int) * 32)
        let a ← regs[r]?
        some (regs.set r (vpaddb a v))) regs = some regs' ∧ regs'.length = 16 ∧
      ∀ r, r < 16 → (regs'.getD r []).length = 32 ∧
        ∀ b, b < 32 → (regs'.getD r []).getD b 0 =
          if r < m then ((regs.getD r []).getD b 0 + y.getD (off + r * 32 + b) 0) % 256
          else (regs.getD r []).getD b 0 := by
    intro m
    induction m with
    | zero =>
      intro _
      exact ⟨regs, rfl, hr, fun r hr16 => ⟨hrl r hr16, fun b _ => by rw [if_neg (by omega)]⟩⟩
    | succ m ih =>
      intro hm
      obtain ⟨r1, e1, l1, g1⟩ := ih (by omega)
      obtain ⟨v, ev, lv, gv⟩ := load256_spec y (off + m * 32) (by omega)
      have hcast : (off : Int) + (m : Int) * 32 = ((off + m * 32 : Nat) : Int) := by
        push_cast
        rfl
      have hm1 : m < r1.length := by omega
      have ea : r1[m]? = some (r1.getD m []) := getD_eq_of_lt r1 [] m hm1
      obtain ⟨la, ga⟩ := vpaddb_spec (r1.getD m []) v (g1 m (by omega)).1 lv
      refine ⟨r1.set m (vpaddb (r1.getD m []) v), ?_, by rw [List.length_set]; exact l1,
        fun r hr16 => ?_⟩
      · show (forUpTo m _ regs).bind _ = _
        rw [e1, Option.some_bind]
        simp only [Option.bind_eq_bind, hcast, ev, ea, Option.some_bind]
      · rw [getD_set_list r1 m r _ hm1]
        by_cases hmr : m = r
        · rw [if_pos hmr]
          subst hmr
          refine ⟨la, fun b hb => ?_⟩
          rw [ga b hb, (g1 m hr16).2 b hb, if_neg (by omega), if_pos (by omega), gv b hb]
        · rw [if_neg hmr]
          refine ⟨(g1 r hr16).1, fun b hb => ?_⟩
          rw [(g1 r hr16).2 b hb]
          by_cases h1 : r < m
          · rw [if_pos h1, if_pos (by omega)]
          · rw [if_neg h1, if_neg (by omega)]
  obtain ⟨regs', e, l, g⟩ := key 16 (le_refl _)
  refine ⟨regs', e, l, fun r hr16 => ⟨(g r hr16).1, fun b hb => ?_⟩⟩
  rw [(g r hr16).2 b hb, if_pos hr16]

theorem sumUpTo_mod_succ (W : Nat) (f : Nat → Nat) :
    (sumUpTo W f % 256 + f W) % 256 = sumUpTo (W + 1) f % 256 := by
  show _ = (sumUpTo W f + f W) % 256
  omega

/-- The accumulation loop of one chunk of `multiply_avx2`: byte `b` of register `r`
ends as the sum, modulo 256, of the bytes `y[x[j] + i * 32 + r * 32 + b]`. -/
theorem avx2_sum_spec (x : List Int) (y : List Nat) (i : Nat) :
    ∀ W, W ≤ x.length →
    (∀ j, j < W → 0 ≤ x.getD j 0 ∧ (x.getD j 0).toNat + i * 32 + 512 ≤ y.length) →
    ∃ regs, forUpTo W (fun j regs => do
        let xj ← x[j]?
        avx2_accumulate y (xj + (i : Int) * 32) regs)
        (List.replicate 16 (List.replicate 32 0)) = some regs ∧ regs.length = 16 ∧
      ∀ r, r < 16 → (regs.getD r []).length = 32 ∧
        ∀ b, b < 32 → (regs.getD r []).getD b 0 =
          sumUpTo W (fun j => y.getD ((x.getD j 0).toNat + i * 32 + r * 32 + b) 0) % 256 := by
  intro W
  induction W with
  | zero =>
    intro _ _
    refine ⟨_, rfl, List.length_replicate _ _, fun r hr => ?_⟩
    have h : (List.replicate 16 (List.replicate 32 0)).getD r [] = List.replicate 32 0 := by
      rw [List.getD_eq_getElem _ _ (by rw [List.length_replicate]; exact hr)]
      exact List.getElem_replicate _ _
    rw [h]
    exact ⟨List.length_replicate _ _, fun b _ => getD_replicate_zero 32 b⟩
  | succ W ih =>
    intro hW hx
    obtain ⟨r1, e1, l1, g1⟩ := ih (by omega) (fun j hj => hx j (by omega))
    have hxW := hx W (by omega)
    have ex : x[W]? = some (x.getD W 0) := getD_eq_of_lt x 0 W (by omega)
    have hcast : x.getD W 0 + (i : Int) * 32 = (((x.getD W 0).toNat + i * 32 : Nat) : Int) := by
      push_cast
      omega
    obtain ⟨r2, e2, l2, g2⟩ := avx2_accumulate_spec y ((x.getD W 0).toNat + i * 32) r1 l1
      (fun r hr => (g1 r hr).1) (by omega)
    refine ⟨r2, ?_, l2, fun r hr => ⟨(g2 r hr).1, fun b hb => ?_⟩⟩
    · show (forUpTo W _ _).bind _ = _
      rw [e1, Option.some_bind]
      simp only [Option.bind_eq_bind, ex, Option.some_bind, hcast, e2]
    · rw [(g2 r hr).2 b hb, (g1 r hr).2 b hb]
      exact sumUpTo_mod_succ W _

theorem store256_spec (z : List Nat) (k : Nat) (v : List Nat) (hv : v.length = 32)
    (hz : k * 32 + 32 ≤ z.length) :
    ∃ z', store256 z (k : Int) v = some z' ∧ z'.length = z.length ∧
      ∀ p, z'.getD p 0 =
        if k * 32 ≤ p ∧ p < k * 32 + 32 then v.getD (p - k * 32) 0 else z.getD p 0 := by
  refine ⟨z.take (k * 32) ++ v ++ z.drop (k * 32 + 32), ?_, ?_, fun p => ?_⟩
  · unfold store256
    rw [if_pos ⟨by omega, by simpa using hz, hv⟩]
    simp
  · simp only [List.length_append, List.length_take, List.length_drop]
    omega
  · have hlt : (z.take (k * 32)).length = k * 32 := by
      rw [List.length_take]
      omega
    simp only [List.getD_eq_getElem?_getD]
    by_cases h1 : p < k * 32
    · rw [if_neg (by omega), List.append_assoc,
        List.getElem?_append_left (by omega), List.getElem?_take, if_pos h1]
    · by_cases h2 : p < k * 32 + 32
      · rw [if_pos ⟨by omega, h2⟩, List.getElem?_append_left (by
            rw [List.length_append]; omega),
          List.getElem?_append_right (by omega), hlt]
      · rw [if_neg (by omega), List.getElem?_append_right (by
            rw [List.length_append]; omega), List.length_append, hlt, hv,
          List.getElem?_drop]
        congr 2
        omega

/-- The 16 stores of one chunk of `multiply_avx2`. -/
theorem avx2_store_spec (regs : List (List Nat)) (i : Nat) (z : List Nat)
    (hr : regs.length = 16) (hrl : ∀ r, r < 16 → (regs.getD r []).length = 32)
    (hz : i * 32 + 512 ≤ z.length) :
    ∃ z', forUpTo 16 (fun r z => do
        let v ← regs[r]?
        store256 z ((i : Int) + (r : Int)) v) z = some z' ∧ z'.length = z.length ∧
      ∀ p, z'.getD p 0 =
        if i * 32 ≤ p ∧ p < i * 32 + 512 then
          (regs.getD ((p - i * 32) / 32) []).getD ((p - i * 32) % 32) 0
        else z.getD p 0 := by
  have key : ∀ m, m ≤ 16 → ∃ z', forUpTo m (fun r z => do
        let v ← regs[r]?
        store256 z ((i : Int) + (r : Int)) v) z = some z' ∧ z'.length = z.length ∧
      ∀ p, z'.getD p 0 =
        if i * 32 ≤ p ∧ p < i * 32 + m * 32 then
          (regs.getD ((p - i * 32) / 32) []).getD ((p - i * 32) % 32) 0
        else z.getD p 0 := by
    intro m
    induction m with
    | zero =>
      intro _
      exact ⟨z, rfl, rfl, fun p => by rw [if_neg (by omega)]⟩
    | succ m ih =>
      intro hm
      obtain ⟨z1, e1, l1, g1⟩ := ih (by omega)
      have ea : regs[m]? = some (regs.getD m []) := getD_eq_of_lt regs [] m (by omega)
      have hcast : (i : Int) + (m : Int) = ((i + m : Nat) : Int) := by push_cast; rfl
      obtain ⟨z2, e2, l2, g2⟩ := store256_spec z1 (i + m) (regs.getD m [])
        (hrl m (by omega)) (by omega)
      refine ⟨z2, ?_, by omega, fun p => ?_⟩
      · show (forUpTo m _ z).bind _ = _
        rw [e1, Option.some_bind]
        simp only [Option.bind_eq_bind, ea, Option.some_bind, hcast, e2]
      · rw [g2 p]
        by_cases h1 : (i + m) * 32 ≤ p ∧ p < (i + m) * 32 + 32
        · rw [if_pos h1, if_pos (by omega)]
          have hq : (p - i * 32) / 32 = m := by omega
          have hb : (p - i * 32) % 32 = p - (i + m) * 32 := by omega
          rw [hq, hb]
        · rw [if_neg h1, g1 p]
          by_cases h2 : i * 32 ≤ p ∧ p < i * 32 + m * 32
          · rw [if_pos h2, if_pos (by omega)]
          · rw [if_neg h2, if_neg (by omega)]
  obtain ⟨z', e, l, g⟩ := key 16 (le_refl _)
  exact ⟨z', e, l, g⟩

/-- One chunk of `multiply_avx2`: the 512 bytes of `z` from `i * 32` receive the sums,
modulo 256, of the bytes `y[x[j] + p]`. -/
theorem avx2_chunk_spec (W : Nat) (x : List Int) (y : List Nat) (i : Nat) (z : List Nat)
    (hW : W ≤ x.length)
    (hx : ∀ j, j < W → 0 ≤ x.getD j 0 ∧ (x.getD j 0).toNat + i * 32 + 512 ≤ y.length)
    (hz : i * 32 + 512 ≤ z.length) :
    ∃ z', avx2_chunk W x y (i : Int) z = some z' ∧ z'.length = z.length ∧
      ∀ p, z'.getD p 0 =
        if i * 32 ≤ p ∧ p < i * 32 + 512 then
          sumUpTo W (fun j => y.getD ((x.getD j 0).toNat + p) 0) % 256
        else z.getD p 0 := by
  obtain ⟨regs, e1, l1, g1⟩ := avx2_sum_spec x y i W hW hx
  obtain ⟨z', e2, l2, g2⟩ := avx2_store_spec regs i z l1 (fun r hr => (g1 r hr).1) hz
  refine ⟨z', ?_, l2, fun p => ?_⟩
  · unfold avx2_chunk
    show (forUpTo W _ _).bind _ = _
    rw [e1, Option.some_bind]
    exact e2
  · rw [g2 p]
    by_cases h : i * 32 ≤ p ∧ p < i * 32 + 512
    · rw [if_pos h, if_pos h, (g1 ((p - i * 32) / 32) (by omega)).2 ((p - i * 32) % 32)
        (Nat.mod_lt _ (by decide))]
      congr 1
      refine sumUpTo_congr W _ _ (fun j _ => ?_)
      congr 1
      omega
    · rw [if_neg h, if_neg h]

/-- The loop of `multiply_avx2` over `m` chunks. -/
theorem avx2_chunks_spec (W : Nat) (x : List Int) (y : List Nat) (hW : W ≤ x.length) :
    ∀ (m : Nat) (z : List Nat),
    (∀ j, j < W → 0 ≤ x.getD j 0 ∧ (x.getD j 0).toNat + m * 512 ≤ y.length) →
    m * 512 ≤ z.length →
    ∃ z', forUpTo m (fun c z => avx2_chunk W x y (16 * (c : Int)) z) z = some z' ∧
      z'.length = z.length ∧
      ∀ p, z'.getD p 0 =
        if p < m * 512 then sumUpTo W (fun j => y.getD ((x.getD j 0).toNat + p) 0) % 256
        else z.getD p 0 := by
  intro m
  induction m with
  | zero =>
    intro z _ _
    exact ⟨z, rfl, rfl, fun p => by rw [if_neg (by omega)]⟩
  | succ m ih =>
    intro z hx hz
    obtain ⟨z1, e1, l1, g1⟩ := ih z (fun j hj => ⟨(hx j hj).1, by have := (hx j hj).2; omega⟩)
      (by omega)
    have hcast : (16 : Int) * (m : Int) = ((16 * m : Nat) : Int) := by push_cast; rfl
    obtain ⟨z2, e2, l2, g2⟩ := avx2_chunk_spec W x y (16 * m) z1 hW
      (fun j hj => ⟨(hx j hj).1, by have := (hx j hj).2; omega⟩) (by omega)
    refine ⟨z2, ?_, by omega, fun p => ?_⟩
    · show (forUpTo m _ z).bind _ = _
      rw [e1, Option.some_bind]
      show avx2_chunk W x y (16 * (m : Int)) z1 = _
      rw [hcast]
      exact e2
    · rw [g2 p]
      by_cases h1 : 16 * m * 32 ≤ p ∧ p < 16 * m * 32 + 512
      · rw [if_pos h1, if_pos (by omega)]
      · rw [if_neg h1, g1 p]
        by_cases h2 : p < m * 512
        · rw [if_pos h2, if_pos (by omega)]
        · rw [if_neg h2, if_neg (by omega)]

/-- The function `multiply_avx2` for a non-negative `block_length`: the loop runs
`m = ceil((block_length / 32) / 16)` times and fills `z[0 .. 512 m)` with the sums,
modulo 256, of the bytes `y[x[j] + p]`; the rest of `z` is left as it was. -/
theorem multiply_avx2_spec (L W : Nat) (x : List Int) (y z : List Nat) (hW : W ≤ x.length)
    (hx : ∀ j, j < W → 0 ≤ x.getD j 0 ∧
      (x.getD j 0).toNat + (L / 32 + 15) / 16 * 512 ≤ y.length)
    (hz : (L / 32 + 15) / 16 * 512 ≤ z.length) :
    ∃ z', multiply_avx2 (L : Int) W x y z = some z' ∧ z'.length = z.length ∧
      ∀ p, z'.getD p 0 =
        if p < (L / 32 + 15) / 16 * 512 then
          sumUpTo W (fun j => y.getD ((x.getD j 0).toNat + p) 0) % 256
        else z.getD p 0 := by
  have hm : (((L : Int).tdiv 32 + 15).tdiv 16).toNat = (L / 32 + 15) / 16 := by
    have h1 : (L : Int).tdiv 32 = ((L / 32 : Nat) : Int) := by
      rw [Int.tdiv_eq_ediv (by omega) (by omega)]
      rfl
    have h2 : (((L / 32 : Nat) : Int) + 15).tdiv 16 = (((L / 32 + 15) / 16 : Nat) : Int) := by
      rw [Int.tdiv_eq_ediv (by omega) (by omega)]
      push_cast
      rfl
    rw [h1, h2, Int.toNat_ofNat]
  unfold multiply_avx2
  rw [hm]
  exact avx2_chunks_spec W x y hW _ z hx hz

theorem avx_padding_bytes (N : Nat) :
    (AVX_PADDING (N * 8 * 1) / 8 / 32 + 15) / 16 * 512 = AVX_PADDING (N * 8 * 1) / 8 ∧
      N ≤ AVX_PADDING (N * 8 * 1) / 8 := by
  unfold AVX_PADDING
  omega

theorem foldl_range_mod (f : Nat → Nat) :
    ∀ W, (List.range W).foldl (fun acc j => (acc + f j) % 256) 0 = sumUpTo W f % 256 := by
  intro W
  induction W with
  | zero => rfl
  | succ W ih =>
    rw [List.range_succ, List.foldl_append, ih]
    exact sumUpTo_mod_succ W f

/-- Entry `i` of the padded single-pass form is the sum of the bytes `y2[x[j] + i]`
modulo 256. -/
theorem single_pass_getD (N W : Nat) (x : List Int) (y2 : List Nat) (i : Nat) (hi : i < N) :
    (single_pass N W x y2).getD i 0 =
      sumUpTo W (fun j => y2.getD (x.getD j 0 + (i : Int)).toNat 0) % 256 := by
  unfold single_pass
  rw [List.getD_eq_getElem?_getD, List.getElem?_map, List.getElem?_range hi]
  exact foldl_range_mod (fun j => y2.getD (x.getD j 0 + (i : Int)).toNat 0) W

theorem single_pass_length (N W : Nat) (x : List Int) (y2 : List Nat) :
    (single_pass N W x y2).length = N := by
  unfold single_pass
  rw [List.length_map, List.length_range]

/-- The cyclic read `y[(i + c) mod N]` is the plain read `y2[c + i]` of the duplicated
operand. -/
theorem cyc_duplicate (N : Nat) (y y2 : List Nat)
    (hdup : ∀ i, i < N → y2.getD i 0 = y.getD i 0 ∧ y2.getD (N + i) 0 = y.getD i 0)
    (i : Nat) (hi : i < N) (c : Int) (h0 : 0 ≤ c) (h1 : c < (N : Int)) :
    cyc N y ((i : Int) + c) = y2.getD (c + (i : Int)).toNat 0 := by
  unfold cyc
  by_cases h : (i : Int) + c < (N : Int)
  · rw [Int.emod_eq_of_lt (by omega) h, ← (hdup ((i : Int) + c).toNat (by omega)).1]
    congr 2
    omega
  · have e : ((i : Int) + c) % (N : Int) = (i : Int) + c - N := by
      rw [Int.emod_eq_sub_self_emod, Int.emod_eq_of_lt (by omega) (by omega)]
    rw [e, ← (hdup ((i : Int) + c - N).toNat (by omega)).2]
    congr 1
    omega

/-- The two-range `multiply` on the row support of `c` and a cleared `z` computes the
padded single-pass form on the column support `c`. -/
theorem multiply_rows_single_pass (N W : Nat) (c : List Int) (y y2 z0 : List Nat)
    (hv : ValidColumn N W c) (hy : N ≤ y.length) (hz : N ≤ z0.length)
    (hz0 : ∀ i, i < N → z0.getD i 0 = 0)
    (hdup : ∀ i, i < N → y2.getD i 0 = y.getD i 0 ∧ y2.getD (N + i) 0 = y.getD i 0) :
    ∃ z, multiply (N : Int) W (reflect N c) y z0 = some z ∧ z.length = z0.length ∧
      ∀ i, i < N → z.getD i 0 = (single_pass N W c y2).getD i 0 := by
  have hrv := reflect_valid N W c hv
  obtain ⟨z, e, l, g⟩ := multiply_general N W (reflect N c) y z0 (by rw [hrv.1])
    (fun v hv' => hrv.2.1 v (List.mem_of_mem_take hv')) hy hz
    (fun j hj => by rw [hz0 j hj]; decide)
  refine ⟨z, e, l, fun i hi => ?_⟩
  rw [g i, if_pos hi, hz0 i hi, Nat.zero_add, single_pass_getD N W c y2 i hi]
  congr 1
  have hs := sum_reflect N y (i : Int) c
  rw [hv.1] at hs
  rw [hs]
  refine sumUpTo_congr W _ _ (fun l hl => ?_)
  have hb := getD_bounds N c hv.2.1 l (by rw [hv.1]; exact hl)
  exact cyc_duplicate N y y2 hdup i hi _ hb.1 hb.2

theorem memcpy_upper_high (a : List Nat) (n : Nat) (h : 2 * n ≤ a.length) :
    ∃ a', memcpy_upper a n = some a' ∧ a'.length = a.length ∧
      ∀ i, i < n → a'.getD i 0 = a.getD i 0 ∧ a'.getD (n + i) 0 = a.getD i 0 := by
  obtain ⟨a', e, l, g⟩ := memcpy_upper_spec a n h
  refine ⟨a', e, l, fun i hi => ⟨g i hi, ?_⟩⟩
  unfold memcpy_upper at e
  rw [if_pos h] at e
  rw [← Option.some.inj e]
  have hT : (a.take n).length = n := by rw [List.length_take]; omega
  simp only [List.getD_eq_getElem?_getD]
  rw [List.getElem?_append_left (by rw [List.length_append, hT]; omega),
    List.getElem?_append_right (by omega), hT, Nat.add_sub_cancel_left, List.getElem?_take,
    if_pos hi]

/-- One block of the AVX build of `compute_counters` against the block of the plain
build: on `[0, N)` the counters written by `multiply_avx2` from the column support are
those written by `memset` and `multiply` from the row support. -/
theorem counters_block_avx (P : Params) (c : List Int) (checks chk k : List Nat)
    (hv : ValidColumn P.BLOCK_LENGTH P.BLOCK_WEIGHT c)
    (hy : P.BLOCK_LENGTH ≤ chk.length)
    (hdup : ∀ i, i < P.BLOCK_LENGTH →
      chk.getD i 0 = checks.getD i 0 ∧ chk.getD (P.BLOCK_LENGTH + i) 0 = checks.getD i 0)
    (hyl : ∀ v ∈ c, v.toNat + AVX_PADDING (P.BLOCK_LENGTH * 8 * 1) / 8 ≤ chk.length)
    (hk : AVX_PADDING (P.BLOCK_LENGTH * 8 * 1) / 8 ≤ k.length) :
    ∃ m d a, memset k 0 P.BLOCK_LENGTH = some m ∧
      multiply (P.BLOCK_LENGTH : Int) P.BLOCK_WEIGHT (reflect P.BLOCK_LENGTH c) chk m =
        some d ∧
      multiply_avx2 ((AVX_PADDING (P.BLOCK_LENGTH * 8 * 1) / 8 : Nat) : Int)
        P.BLOCK_WEIGHT c chk k = some a ∧
      ∀ j, j < P.BLOCK_LENGTH → a.getD j 0 = d.getD j 0 := by
  obtain ⟨hm, hN⟩ := avx_padding_bytes P.BLOCK_LENGTH
  have hrv := reflect_valid _ _ c hv
  obtain ⟨m, d, em, ed, _, gd⟩ := counters_block_spec P (reflect P.BLOCK_LENGTH c) chk k
    hrv.1 hrv.2.1 hy (by omega)
  have hx : ∀ j, j < P.BLOCK_WEIGHT → 0 ≤ c.getD j 0 ∧
      (c.getD j 0).toNat +
        (AVX_PADDING (P.BLOCK_LENGTH * 8 * 1) / 8 / 32 + 15) / 16 * 512 ≤ chk.length := by
    intro j hj
    have hjl : j < c.length := by rw [hv.1]; exact hj
    have hb := getD_bounds P.BLOCK_LENGTH c hv.2.1 j hjl
    refine ⟨hb.1, ?_⟩
    rw [hm]
    apply hyl
    rw [List.getD_eq_getElem c 0 hjl]
    exact List.getElem_mem _
  obtain ⟨a, ea, _, ga⟩ := multiply_avx2_spec (AVX_PADDING (P.BLOCK_LENGTH * 8 * 1) / 8)
    P.BLOCK_WEIGHT c chk k (by rw [hv.1]) hx (by rw [hm]; exact hk)
  refine ⟨m, d, a, em, ed, ea, fun j hj => ?_⟩
  rw [ga j, if_pos (by rw [hm]; omega), gd j hj]
  congr 1
  have hs := sum_reflect P.BLOCK_LENGTH chk (j : Int) c
  rw [hv.1] at hs
  rw [hs]
  refine sumUpTo_congr P.BLOCK_WEIGHT _ _ (fun l hl => ?_)
  have hb := getD_bounds P.BLOCK_LENGTH c hv.2.1 l (by rw [hv.1]; exact hl)
  have hcd := cyc_duplicate P.BLOCK_LENGTH chk chk
    (fun i hi => ⟨rfl, by rw [(hdup i hi).2, (hdup i hi).1]⟩) j hj _ hb.1 hb.2
  rw [hcd]
  congr 1
  omega

/-- The two builds of `compute_counters` agree: with the row supports derived from the
column supports, and buffers that hold the padded loads and stores, the AVX build
returns the same syndrome buffer as the plain build and the same counters on
`[0, N)` of each block. -/
theorem compute_counters_avx_eq (P : Params) (c0 c1 : List Int) (checks k0 k1 : List Nat)
    (hv0 : ValidColumn P.BLOCK_LENGTH P.BLOCK_WEIGHT c0)
    (hv1 : ValidColumn P.BLOCK_LENGTH P.BLOCK_WEIGHT c1)
    (hy : 2 * P.BLOCK_LENGTH ≤ checks.length)
    (hy0 : ∀ v ∈ c0, v.toNat + AVX_PADDING (P.BLOCK_LENGTH * 8 * 1) / 8 ≤ checks.length)
    (hy1 : ∀ v ∈ c1, v.toNat + AVX_PADDING (P.BLOCK_LENGTH * 8 * 1) / 8 ≤ checks.length)
    (hk0 : AVX_PADDING (P.BLOCK_LENGTH * 8 * 1) / 8 ≤ k0.length)
    (hk1 : AVX_PADDING (P.BLOCK_LENGTH * 8 * 1) / 8 ≤ k1.length) :
    ∃ chk d0 d1 a0 a1,
      compute_counters P [c0, c1] [reflect P.BLOCK_LENGTH c0, reflect P.BLOCK_LENGTH c1]
        checks [k0, k1] = some (chk, [d0, d1]) ∧
      compute_counters_avx P [c0, c1]
        [reflect P.BLOCK_LENGTH c0, reflect P.BLOCK_LENGTH c1] checks [k0, k1] =
        some (chk, [a0, a1]) ∧
      ∀ j, j < P.BLOCK_LENGTH → a0.getD j 0 = d0.getD j 0 ∧ a1.getD j 0 = d1.getD j 0 := by
  obtain ⟨chk, ec, lc, gc⟩ := memcpy_upper_high checks P.BLOCK_LENGTH hy
  obtain ⟨m0, d0, a0, em0, ed0, ea0, g0⟩ := counters_block_avx P c0 checks chk k0 hv0
    (by omega) gc (by rw [lc]; exact hy0) hk0
  obtain ⟨m1, d1, a1, em1, ed1, ea1, g1⟩ := counters_block_avx P c1 checks chk k1 hv1
    (by omega) gc (by rw [lc]; exact hy1) hk1
  refine ⟨chk, d0, d1, a0, a1, ?_, ?_, fun j hj => ⟨g0 j hj, g1 j hj⟩⟩
  · simp only [compute_counters, ec, INDEX, forUpTo, Option.bind_eq_bind, Option.some_bind,
      List.getElem?_cons_zero, List.getElem?_cons_succ, List.set_cons_zero,
      List.set_cons_succ, em0, ed0, em1, ed1]
  · simp only [compute_counters_avx, ec, INDEX, forUpTo, Option.bind_eq_bind,
      Option.some_bind, List.getElem?_cons_zero, List.getElem?_cons_succ, List.set_cons_zero,
      List.set_cons_succ, ea0, ea1]

theorem columns_to_rows_block_nil (P : Params) (row : List Int) :
    columns_to_rows_block P [] row = none := by
  unfold columns_to_rows_block
  rfl

/-- C32: the padded form equals the two-range form. Let `c` be a strictly ascending
column support in `[0, N)`, `r` the row support that `columns_to_rows` derives from it,
`y` a dense vector of length `N`, and `y2` its extension with
`y2[N + i] = y2[i] = y[i]` for `i < N`. Then `multiply(N, W, r, y, z0)` on a `z0` that is zero on
`[0, N)` returns, and for every `i` in `[0, N)` its entry `i` is entry `i` of the
single-pass result, the byte sum over `j < W` of `y2[c[j] + i]`; on a `z0` of length
`N` the two results are the same list. The function `multiply_avx2`, called as
`compute_counters` calls it (padded length, column support, a buffer that starts with
`y2` and holds the 32-byte loads), returns a `z` with the same entries on `[0, N)`. -/
theorem padded_equals_two_range (P : Params) (c row r : List Int) (y y2 z0 : List Nat)
    (hv : ValidColumn P.BLOCK_LENGTH P.BLOCK_WEIGHT c)
    (hrow : row.length = P.BLOCK_WEIGHT)
    (hr : columns_to_rows_block P c row = some r)
    (hy : y.length = P.BLOCK_LENGTH)
    (hdup : ∀ i, i < P.BLOCK_LENGTH →
      y2.getD i 0 = y.getD i 0 ∧ y2.getD (P.BLOCK_LENGTH + i) 0 = y.getD i 0)
    (hz : P.BLOCK_LENGTH ≤ z0.length) (hz0 : ∀ i, i < P.BLOCK_LENGTH → z0.getD i 0 = 0) :
    ∃ z, multiply (P.BLOCK_LENGTH : Int) P.BLOCK_WEIGHT r y z0 = some z ∧
      z.length = z0.length ∧
      (∀ i, i < P.BLOCK_LENGTH →
        z.getD i 0 = (single_pass P.BLOCK_LENGTH P.BLOCK_WEIGHT c y2).getD i 0) ∧
      (z0.length = P.BLOCK_LENGTH →
        z = single_pass P.BLOCK_LENGTH P.BLOCK_WEIGHT c y2) ∧
      (∀ i, i < P.BLOCK_LENGTH →
        (single_pass P.BLOCK_LENGTH P.BLOCK_WEIGHT c y2).getD i 0 =
          sumUpTo P.BLOCK_WEIGHT (fun j => y2.getD (c.getD j 0 + (i : Int)).toNat 0) % 256) ∧
      ∀ ybuf zbuf : List Nat,
        (∀ p, p < 2 * P.BLOCK_LENGTH → ybuf.getD p 0 = y2.getD p 0) →
        (∀ v ∈ c, v.toNat + AVX_PADDING (P.BLOCK_LENGTH * 8 * 1) / 8 ≤ ybuf.length) →
        AVX_PADDING (P.BLOCK_LENGTH * 8 * 1) / 8 ≤ zbuf.length →
        ∃ z', multiply_avx2 ((AVX_PADDING (P.BLOCK_LENGTH * 8 * 1) / 8 : Nat) : Int)
            P.BLOCK_WEIGHT c ybuf zbuf = some z' ∧ z'.length = zbuf.length ∧
          ∀ i, i < P.BLOCK_LENGTH → z'.getD i 0 = z.getD i 0 := by
  have hW : 0 < P.BLOCK_WEIGHT := by
    rcases Nat.eq_zero_or_pos P.BLOCK_WEIGHT with h | h
    · have hc : c = [] := List.length_eq_zero.1 (by rw [hv.1, h])
      rw [hc, columns_to_rows_block_nil] at hr
      exact absurd hr (by simp)
    · exact h
  rw [columns_to_rows_block_eq P c row hW hv.1 hrow] at hr
  rw [← Option.some.inj hr]
  obtain ⟨z, e, l, g⟩ := multiply_rows_single_pass P.BLOCK_LENGTH P.BLOCK_WEIGHT c y y2 z0
    hv (by omega) hz hz0 hdup
  refine ⟨z, e, l, g, fun hl => ?_,
    fun i hi => single_pass_getD P.BLOCK_LENGTH P.BLOCK_WEIGHT c y2 i hi,
    fun ybuf zbuf hyb hyl hzl => ?_⟩
  · apply List.ext_getElem (by rw [l, hl, single_pass_length])
    intro i h1 h2
    have hi : i < P.BLOCK_LENGTH := by omega
    have := g i hi
    rw [List.getD_eq_getElem z 0 h1, List.getD_eq_getElem _ 0 h2] at this
    exact this
  · obtain ⟨hm, hN⟩ := avx_padding_bytes P.BLOCK_LENGTH
    have hx : ∀ j, j < P.BLOCK_WEIGHT → 0 ≤ c.getD j 0 ∧
        (c.getD j 0).toNat +
          (AVX_PADDING (P.BLOCK_LENGTH * 8 * 1) / 8 / 32 + 15) / 16 * 512 ≤ ybuf.length := by
      intro j hj
      have hjl : j < c.length := by rw [hv.1]; exact hj
      have hb := getD_bounds P.BLOCK_LENGTH c hv.2.1 j hjl
      refine ⟨hb.1, ?_⟩
      rw [hm]
      apply hyl
      rw [List.getD_eq_getElem c 0 hjl]
      exact List.getElem_mem _
    obtain ⟨z', e', l', g'⟩ := multiply_avx2_spec (AVX_PADDING (P.BLOCK_LENGTH * 8 * 1) / 8)
      P.BLOCK_WEIGHT c ybuf zbuf (by rw [hv.1]) hx (by rw [hm]; exact hzl)
    refine ⟨z', e', l', fun i hi => ?_⟩
    rw [g' i, if_pos (by rw [hm]; omega), g i hi,
      single_pass_getD P.BLOCK_LENGTH P.BLOCK_WEIGHT c y2 i hi]
    congr 1
    refine sumUpTo_congr P.BLOCK_WEIGHT _ _ (fun j hj => ?_)
    have hb := getD_bounds P.BLOCK_LENGTH c hv.2.1 j (by rw [hv.1]; exact hj)
    have hp : (c.getD j 0).toNat + i < 2 * P.BLOCK_LENGTH := by omega
    rw [hyb _ hp]
    congr 1
    omega

set_option maxRecDepth 100000 in
theorem padded_equals_two_range_witness :
    (ValidColumn witnessParams.BLOCK_LENGTH witnessParams.BLOCK_WEIGHT [0, 2] ∧
      columns_to_rows_block witnessParams [0, 2] [9, 9] = some [0, 1] ∧
      (∀ i, i < witnessParams.BLOCK_LENGTH →
        [1, 0, 1, 1, 0, 1].getD i 0 = [1, 0, 1].getD i 0 ∧
          [1, 0, 1, 1, 0, 1].getD (witnessParams.BLOCK_LENGTH + i) 0 = [1, 0, 1].getD i 0)) ∧
    (∃ z, multiply (witnessParams.BLOCK_LENGTH : Int) witnessParams.BLOCK_WEIGHT [0, 1]
        [1, 0, 1] [0, 0, 0] = some z ∧
      z.length = [0, 0, 0].length ∧
      (∀ i, i < witnessParams.BLOCK_LENGTH →
        z.getD i 0 = (single_pass witnessParams.BLOCK_LENGTH witnessParams.BLOCK_WEIGHT
          [0, 2] [1, 0, 1, 1, 0, 1]).getD i 0) ∧
      ([0, 0, 0].length = witnessParams.BLOCK_LENGTH →
        z = single_pass witnessParams.BLOCK_LENGTH witnessParams.BLOCK_WEIGHT [0, 2]
          [1, 0, 1, 1, 0, 1]) ∧
      (∀ i, i < witnessParams.BLOCK_LENGTH →
        (single_pass witnessParams.BLOCK_LENGTH witnessParams.BLOCK_WEIGHT [0, 2]
            [1, 0, 1, 1, 0, 1]).getD i 0 =
          sumUpTo witnessParams.BLOCK_WEIGHT (fun j =>
            [1, 0, 1, 1, 0, 1].getD (([0, 2] : List Int).getD j 0 + (i : Int)).toNat 0) %
              256) ∧
      ∀ ybuf zbuf : List Nat,
        (∀ p, p < 2 * witnessParams.BLOCK_LENGTH →
          ybuf.getD p 0 = [1, 0, 1, 1, 0, 1].getD p 0) →
        (∀ v ∈ ([0, 2] : List Int),
          v.toNat + AVX_PADDING (witnessParams.BLOCK_LENGTH * 8 * 1) / 8 ≤ ybuf.length) →
        AVX_PADDING (witnessParams.BLOCK_LENGTH * 8 * 1) / 8 ≤ zbuf.length →
        ∃ z', multiply_avx2
            ((AVX_PADDING (witnessParams.BLOCK_LENGTH * 8 * 1) / 8 : Nat) : Int)
            witnessParams.BLOCK_WEIGHT [0, 2] ybuf zbuf = some z' ∧
          z'.length = zbuf.length ∧
          ∀ i, i < witnessParams.BLOCK_LENGTH → z'.getD i 0 = z.getD i 0) ∧
    multiply (witnessParams.BLOCK_LENGTH : Int) witnessParams.BLOCK_WEIGHT [0, 1]
      [1, 0, 1] [0, 0, 0] = some [2, 1, 1] ∧
    single_pass witnessParams.BLOCK_LENGTH witnessParams.BLOCK_WEIGHT [0, 2]
      [1, 0, 1, 1, 0, 1] = [2, 1, 1] ∧
    (multiply_avx2 ((AVX_PADDING (witnessParams.BLOCK_LENGTH * 8 * 1) / 8 : Nat) : Int)
      witnessParams.BLOCK_WEIGHT [0, 2] ([1, 0, 1, 1, 0, 1] ++ List.replicate 508 0)
      (List.replicate 512 7)).map (fun z => z.take 3) = some [2, 1, 1] :=
  ⟨⟨⟨by decide, by decide, by decide⟩, by decide, by decide⟩,
    padded_equals_two_range witnessParams [0, 2] [9, 9] [0, 1] [1, 0, 1]
      [1, 0, 1, 1, 0, 1] [0, 0, 0] ⟨by decide, by decide, by decide⟩ (by decide)
      (by decide) (by decide) (by decide) (by decide) (by decide),
    by decide, by decide, by decide⟩

end Backflip
